import Mathlib

/-!
Sorted set (`utils/go-zset`).

A shallow embedding of `utils/go-zset/zset.go`: the facade `ZSet` that keeps a score
index (a skip list implemented in C and reached through cgo) next to a member table
(a Go map from member to score).

Conventions of the embedding.

* A Go method with receiver `z *ZSet` becomes a function taking the state `z`; a method
  that mutates returns the state after the call (paired with the Go result when the
  method has one).
* The reader-writer mutex `mu` guards whole method bodies; in this sequential embedding
  every method runs to completion on its own, so the mutex carries no state.
* Go `int` is 64 bit: an integer operation that can leave the range is wrapped with
  `wrapInt`.
* Go `float64` scores are only ever compared (`==`, `<`, `>`); they are embedded as
  rationals, which contain every finite `float64` with the same order. NaN is outside
  the embedding.
* The C skip list (`skiplist.h`, `skiplist.c`) is not among the sources, only its calls
  in `zset.go` are; it is modelled from the specification of the score index.

The sections after the sorted set embed `utils/slice.go`, `utils/bitmap`, `utils/dag`,
`utils/weight` and `utils/lock`, each in a namespace of its own; all definitions come
first, the theorems follow in the same order.
-/

namespace zset

/-- Go `float64`, used for scores: only equality and order of scores are ever used. -/
abbrev float64 := ℚ

/-- Two's complement wrap-around of a Go `int` (64 bit) result. -/
def wrapInt (x : Int) : Int :=
  (x + 9223372036854775808) % 18446744073709551616 - 9223372036854775808

/-! ## Score index -/

/-- Modelled from the spec: the payload of a skip-list node, `(score, member)`; the C struct
`skiplistNode` is not among the sources, `zset.go` reads its fields `score` and `obj`. -/
structure skiplistNode where
  score : float64
  obj : String
deriving DecidableEq

/-- Modelled from the spec: the order of the score index, "nodes are totally ordered by
`(score, member)` with score primary and member used as tie-break under lexicographic
order for members of equal score". The C comparison routine is not among the sources. -/
def nodeLt (a b : skiplistNode) : Prop :=
  a.score < b.score ∨ (a.score = b.score ∧ a.obj.toList < b.obj.toList)

instance nodeLt.decidable (a b : skiplistNode) : Decidable (nodeLt a b) := by
  unfold nodeLt
  exact inferInstance

/-- Modelled from the spec: the C struct `skiplist` is not among the sources. The skip list is
represented by its level-0 chain, the sequence of live nodes from the head sentinel to the
tail, and by its length counter (`sl.length` in `ZSet.Count`). The upper levels and the span
counts are an acceleration structure over this chain: every operation of the index is
specified by the position of keys in the chain. -/
structure skiplist where
  nodes : List skiplistNode
  length : Nat
deriving DecidableEq

/-- Modelled from the spec: a non-NULL `skiplistNode*` as `zset.go` uses it, the node together
with what its level-0 backward and forward pointers lead to (nearest node first on both
sides). -/
structure nodePtr where
  backward : List skiplistNode
  node : skiplistNode
  forward : List skiplistNode
deriving DecidableEq

/-- Modelled from the spec: `slCreate`, the empty skip list with length counter 0. -/
def slCreate : skiplist :=
  { nodes := [], length := 0 }

/-- Modelled from the spec: the level-0 splice of Insert, "advancing forward while the next
node's key is strictly less than `(score, member)`", the new node being linked in front of
the first node that is not. -/
def insertNode (x : skiplistNode) : List skiplistNode → List skiplistNode
  | [] => [x]
  | y :: ys => if nodeLt y x then y :: insertNode x ys else x :: y :: ys

/-- Modelled from the spec: `slInsert` (Insert(score, member)): splice the new node into the
chain and increment the length. -/
def slInsert (sl : skiplist) (score : float64) (obj : String) : skiplist :=
  { nodes := insertNode ⟨score, obj⟩ sl.nodes, length := sl.length + 1 }

/-- Modelled from the spec: the level-0 unlink of Delete, "same downward traversal to locate
the exact node": advance while the next key is strictly less, then unlink the next node when
it is the key; `none` when the key is not there. -/
def deleteNode (x : skiplistNode) : List skiplistNode → Option (List skiplistNode)
  | [] => none
  | y :: ys =>
    if nodeLt y x then (deleteNode x ys).map (fun r => y :: r)
    else if y = x then some ys
    else none

/-- Modelled from the spec: `slDelete` (Delete(score, member)): unlink the node and decrement
the length; "deleting a non-existent key is a no-op and signals not found to the caller".
The result is the found flag and the skip list after the call. -/
def slDelete (sl : skiplist) (score : float64) (obj : String) : Bool × skiplist :=
  match deleteNode ⟨score, obj⟩ sl.nodes with
  | some r => (true, { nodes := r, length := sl.length - 1 })
  | none => (false, sl)

/-- Modelled from the spec: the traversal of Rank, started with `traversed` nodes behind:
"return the 1-based position, or 0/not-found if absent". -/
def rankFrom (x : skiplistNode) : Nat → List skiplistNode → Nat
  | _, [] => 0
  | traversed, y :: ys =>
    if nodeLt y x then rankFrom x (traversed + 1) ys
    else if y = x then traversed + 1
    else 0

/-- Modelled from the spec: `slGetRank` (Rank(score, member)). -/
def slGetRank (sl : skiplist) (score : float64) (obj : String) : Nat :=
  rankFrom ⟨score, obj⟩ 0 sl.nodes

/-- Modelled from the spec: the traversal of "Node at rank(r)": walk the chain until the
running count equals `r`; NULL (`none`) when the chain ends first and for rank 0. -/
def nodeAtRank : List skiplistNode → List skiplistNode → Nat → Option nodePtr
  | _, _, 0 => none
  | _, [], _ + 1 => none
  | behind, y :: ys, r + 1 =>
    if r = 0 then some ⟨behind, y, ys⟩ else nodeAtRank (y :: behind) ys r

/-- Modelled from the spec: `slGetNodeByRank` (Node at rank(r)). -/
def slGetNodeByRank (sl : skiplist) (rank : Nat) : Option nodePtr :=
  nodeAtRank [] sl.nodes rank

/-- Modelled from the spec: `getNextNode(node, reverse)`, "each node's level-0 forward and
backward pointers support sequential traversal in either direction": the backward pointer
when `reverse` is non-zero, the level-0 forward pointer otherwise; NULL at either end. -/
def getNextNode (node : nodePtr) (reverse : Int) : Option nodePtr :=
  if reverse ≠ 0 then
    match node.backward with
    | [] => none
    | p :: ps => some ⟨ps, p, node.node :: node.forward⟩
  else
    match node.forward with
    | [] => none
    | n :: ns => some ⟨node.node :: node.backward, n, ns⟩

/-- Modelled from the spec: the traversal of "First node in score range [lo, hi]", one
"that skips nodes whose score is strictly less than `lo`": it lands on the first node that
is not, which is the answer when its score is at most `hi`; NULL otherwise and when the
chain ends first. -/
def firstInRange (lo hi : float64) : List skiplistNode → List skiplistNode → Option nodePtr
  | _, [] => none
  | behind, y :: ys =>
    if y.score < lo then firstInRange lo hi (y :: behind) ys
    else if y.score ≤ hi then some ⟨behind, y, ys⟩
    else none

/-- Modelled from the spec: `slFirstInRange` (first node in score range `[lo, hi]`). -/
def slFirstInRange (sl : skiplist) (lo hi : float64) : Option nodePtr :=
  firstInRange lo hi [] sl.nodes

/-- Modelled from the spec: the traversal of "last node in score range [lo, hi]", with the
"analogous bound": advance while the next node's score is at most `hi`; `cur` is the node
reached so far (NULL at the head sentinel). -/
def lastInRange (hi : float64) :
    Option nodePtr → List skiplistNode → List skiplistNode → Option nodePtr
  | cur, _, [] => cur
  | cur, behind, y :: ys =>
    if y.score ≤ hi then lastInRange hi (some ⟨behind, y, ys⟩) (y :: behind) ys
    else cur

/-- Modelled from the spec: `slLastInRange` (last node in score range `[lo, hi]`): the node
the traversal lands on when its score is at least `lo`, NULL otherwise. -/
def slLastInRange (sl : skiplist) (lo hi : float64) : Option nodePtr :=
  match lastInRange hi none [] sl.nodes with
  | some node => if lo ≤ node.node.score then some node else none
  | none => none

/-! ## Facade -/

/-- The struct `ZSet`: the score index `sl` and the member table `tbl` (a Go map, here a
finite map). -/
structure ZSet where
  sl : skiplist
  tbl : Finmap (fun _ : String => float64)
deriving DecidableEq

/-- The constructor `New`. -/
def New : ZSet :=
  { sl := slCreate, tbl := ∅ }

namespace ZSet

/-- The method `Add`. -/
def Add (z : ZSet) (score : float64) (member : String) : ZSet :=
  match z.tbl.lookup member with
  | some old =>
    if old = score then z
    else
      { sl := slInsert (slDelete z.sl old member).2 score member,
        tbl := z.tbl.insert member score }
  | none =>
    { sl := slInsert z.sl score member, tbl := z.tbl.insert member score }

/-- The method `Rem`: it has no result. -/
def Rem (z : ZSet) (member : String) : ZSet :=
  match z.tbl.lookup member with
  | some score => { sl := (slDelete z.sl score member).2, tbl := z.tbl.erase member }
  | none => z

/-- What a call of `Rem` returns to its caller: the Go signature
`func (z *ZSet) Rem(member string)` has no result, so a call yields the empty tuple, whatever
the state and the member. -/
def RemResult (_z : ZSet) (_member : String) : Unit :=
  ()

/-- The method `Count`. -/
def Count (z : ZSet) : Int :=
  (z.sl.length : Int)

/-- The method `Score`: a missing key reads as the zero value and `false`. -/
def Score (z : ZSet) (member : String) : float64 × Bool :=
  match z.tbl.lookup member with
  | some score => (score, true)
  | none => (0, false)

/-- The loop of `Range`: `remaining` is `rangelen - n`; the members met are appended in
the order of the walk. -/
def rangeLoop (rr : Int) : Nat → Option nodePtr → List String
  | 0, _ => []
  | _ + 1, none => []
  | remaining + 1, some node => node.node.obj :: rangeLoop rr remaining (getNextNode node rr)

/-- The method `Range` once its result is allocated: the check of the arguments and the
walk over the index. For `r1, r2 ≥ 1` within the range of `int` the window length cannot
overflow. The allocation `make([]string, 0, rangelen)` that precedes the walk, and that can
panic, is in `RangeAlloc`. -/
def Range (z : ZSet) (r1 r2 : Int) : List String :=
  if r1 < 1 ∨ r2 < 1 then []
  else
    let reverse : Int := if r1 ≤ r2 then 0 else 1
    let rangelen : Int := if r1 ≤ r2 then r2 - r1 + 1 else r1 - r2 + 1
    rangeLoop reverse rangelen.toNat (slGetNodeByRank z.sl r1.toNat)

/-- The method `reverseRank`. -/
def reverseRank (z : ZSet) (r : Int) : Int :=
  wrapInt (wrapInt (z.Count - r) + 1)

/-- The method `RevRange`, once the result of its `Range` is allocated (`RevRangeAlloc` has
the allocation). -/
def RevRange (z : ZSet) (r1 r2 : Int) : List String :=
  let r2 := if r2 > z.Count then z.Count else r2
  z.Range (z.reverseRank r1) (z.reverseRank r2)

/-- The loop of `RangeByScore`. The Go loop has no counter: it ends at a node beyond `cs2`
or at the end of the chain. Each iteration moves one node along the chain, so `fuel`, which
`RangeByScore` sets to the number of nodes of the chain, bounds the iterations. -/
def scoreLoop (reverse : Int) (cs2 : float64) : Nat → Option nodePtr → List String
  | 0, _ => []
  | _ + 1, none => []
  | fuel + 1, some node =>
    if reverse = 1 then
      if node.node.score < cs2 then []
      else node.node.obj :: scoreLoop reverse cs2 fuel (getNextNode node reverse)
    else
      if node.node.score > cs2 then []
      else node.node.obj :: scoreLoop reverse cs2 fuel (getNextNode node reverse)

/-- The method `RangeByScore`. -/
def RangeByScore (z : ZSet) (s1 s2 : float64) : List String :=
  let reverse : Int := if s1 ≤ s2 then 0 else 1
  let node := if s1 ≤ s2 then slFirstInRange z.sl s1 s2 else slLastInRange z.sl s2 s1
  scoreLoop reverse s2 z.sl.nodes.length node

/-- The method `Rank`. -/
def Rank (z : ZSet) (member : String) : Int :=
  match z.tbl.lookup member with
  | none => 0
  | some score => (slGetRank z.sl score member : Int)

/-- The method `RevRank`. -/
def RevRank (z : ZSet) (member : String) : Int :=
  let rank := z.Rank member
  if rank ≠ 0 then z.reverseRank rank else rank

/-- The method `deleteByRank`, once the result of its `Range` is allocated
(`deleteByRankAlloc` has the allocation): the number of members listed and the state after
removing each of them. -/
def deleteByRank (z : ZSet) (from' to' : Int) : Int × ZSet :=
  let lo := if from' > to' then to' else from'
  let hi := if from' > to' then from' else to'
  let members := z.Range lo hi
  ((members.length : Int), members.foldl Rem z)

/-- The method `Limit`, once the result of its `Range` is allocated (`LimitAlloc` has the
allocation). `count + 1` cannot overflow, `count` being below `total`. -/
def Limit (z : ZSet) (count : Int) : Int × ZSet :=
  let total := z.Count
  if total ≤ count then (0, z)
  else z.deleteByRank (count + 1) total

/-- The method `RevLimit`, once the result of its `Range` is allocated (`RevLimitAlloc` has
the allocation). -/
def RevLimit (z : ZSet) (count : Int) : Int × ZSet :=
  let total := z.Count
  if total ≤ count then (0, z)
  else
    let from' := z.reverseRank (count + 1)
    let to' := z.reverseRank total
    z.deleteByRank from' to'

end ZSet

/-- The states a caller can produce: `New()` followed by any sequence of the mutating
methods `Add`, `Rem`, `Limit` and `RevLimit`. -/
inductive Reachable : ZSet → Prop
  | new : Reachable New
  | add (z : ZSet) (score : float64) (member : String) :
      Reachable z → Reachable (z.Add score member)
  | rem (z : ZSet) (member : String) : Reachable z → Reachable (z.Rem member)
  | limit (z : ZSet) (count : Int) : Reachable z → Reachable (z.Limit count).2
  | revLimit (z : ZSet) (count : Int) : Reachable z → Reachable (z.RevLimit count).2

/-! ## Consistency and test states -/

/-- The consistency of a state: the length counter counts the chain, the chain is strictly
ascending in the order of the index, and the chain holds `(score, member)` exactly when the
table maps `member` to `score`. -/
structure Inv (z : ZSet) : Prop where
  len : z.sl.length = z.sl.nodes.length
  sorted : z.sl.nodes.Pairwise nodeLt
  agree : ∀ (m : String) (s : float64),
    z.tbl.lookup m = some s ↔ (⟨s, m⟩ : skiplistNode) ∈ z.sl.nodes

/-- The state of the test `TestBase` after `Add(1, "12")` and `Add(1, "32")`. -/
def scenarioA : ZSet :=
  (New.Add 1 "12").Add 1 "32"

/-- The pointer to the nearest of the nodes `behind`, with `ahead` in front of it: NULL when
no node is behind (the head sentinel). -/
def ptrAt (behind ahead : List skiplistNode) : Option nodePtr :=
  match behind with
  | [] => none
  | y :: bw => some ⟨bw, y, ahead⟩

/-- The state of the test `TestRange`: `Add(100.1, "1")`, `Add(100.9, "9")`,
`Add(100.5, "5")`. -/
def scenarioC : ZSet :=
  ((New.Add (mkRat 1001 10) "1").Add (mkRat 1009 10) "9").Add (mkRat 1005 10) "5"

/-- The specification of `RevRange`, in its words: "`Range` applied to ranks mirrored through
`reverseRank(x) = Count() - x + 1`, with `r2` clamped to `Count()` before mirroring", the
arithmetic being that of the integers. -/
def RevRange_mirrored (z : ZSet) (r1 r2 : Int) : List String :=
  z.Range (z.Count - r1 + 1) (z.Count - min r2 z.Count + 1)

/-- The state of scenario D of the specification: members with scores 1 to 5 added. -/
def scenarioD : ZSet :=
  ((((New.Add 1 "1").Add 2 "2").Add 3 "3").Add 4 "4").Add 5 "5"

/-- The state of the test `TestRangeByScore`: `Add(2, "22")`, `Add(1, "11")`, `Add(3, "33")`. -/
def scenarioB : ZSet :=
  ((New.Add 2 "22").Add 1 "11").Add 3 "33"

/-! ## Allocation of a rank window -/

/-- The size in bytes of a Go `string` value on a 64-bit platform (a pointer and a length):
the element size of the slice that `Range` returns. -/
def stringSize : Int :=
  16

/-- The check of the Go runtime when it runs `make([]string, 0, cap)`: it panics
(`makeslice: cap out of range`) when `cap` is negative or `cap` elements need more than
`maxAlloc` bytes. The allocation limit `maxAlloc` is a constant of the runtime and the
platform, not of the repository, and is taken as a parameter; it is below `2^64` on every
platform. An allocation within the limit is taken to succeed: the amount of free memory is
not modelled. -/
def makeslicePanics (maxAlloc cap : Int) : Bool :=
  decide (cap < 0 ∨ maxAlloc < cap * stringSize)

namespace ZSet

/-- The method `Range` together with the allocation of its result,
`make([]string, 0, rangelen)`: `none` when the allocation panics, the result of `Range`
otherwise. -/
def RangeAlloc (maxAlloc : Int) (z : ZSet) (r1 r2 : Int) : Option (List String) :=
  if r1 < 1 ∨ r2 < 1 then some []
  else
    let rangelen : Int := if r1 ≤ r2 then r2 - r1 + 1 else r1 - r2 + 1
    if makeslicePanics maxAlloc rangelen then none else some (z.Range r1 r2)

/-- The method `RevRange` together with the allocation made by the `Range` it calls: `none`
when that allocation panics. -/
def RevRangeAlloc (maxAlloc : Int) (z : ZSet) (r1 r2 : Int) : Option (List String) :=
  let r2 := if r2 > z.Count then z.Count else r2
  z.RangeAlloc maxAlloc (z.reverseRank r1) (z.reverseRank r2)

/-- The method `deleteByRank` together with the allocation made by the `Range` it calls:
`none` when that allocation panics, before any member is removed. -/
def deleteByRankAlloc (maxAlloc : Int) (z : ZSet) (from' to' : Int) : Option (Int × ZSet) :=
  let lo := if from' > to' then to' else from'
  let hi := if from' > to' then from' else to'
  match z.RangeAlloc maxAlloc lo hi with
  | none => none
  | some members => some ((members.length : Int), members.foldl Rem z)

/-- The method `Limit` together with the allocation made by the `Range` it reaches. -/
def LimitAlloc (maxAlloc : Int) (z : ZSet) (count : Int) : Option (Int × ZSet) :=
  let total := z.Count
  if total ≤ count then some (0, z)
  else z.deleteByRankAlloc maxAlloc (count + 1) total

/-- The method `RevLimit` together with the allocation made by the `Range` it reaches. -/
def RevLimitAlloc (maxAlloc : Int) (z : ZSet) (count : Int) : Option (Int × ZSet) :=
  let total := z.Count
  if total ≤ count then some (0, z)
  else
    let from' := z.reverseRank (count + 1)
    let to' := z.reverseRank total
    z.deleteByRankAlloc maxAlloc from' to'

end ZSet

/-! ## Guard events -/

/-- What a method does with the guard `mu` and with the guarded data, in program order:
the four calls on the `sync.RWMutex`, and a read or a write of the index `sl` or of the
table `tbl`. -/
inductive GuardEvent where
  | lock
  | unlock
  | rlock
  | runlock
  | read
  | write
deriving DecidableEq

/-- The guard discipline on a sequence of events, scanned with the mode in which the guard
is held (0 not held, 1 shared, 2 exclusive): a read needs the guard held, a write needs it
held exclusively. -/
def guardedFrom : Nat → List GuardEvent → Bool
  | _, [] => true
  | _, GuardEvent.lock :: es => guardedFrom 2 es
  | _, GuardEvent.unlock :: es => guardedFrom 0 es
  | _, GuardEvent.rlock :: es => guardedFrom 1 es
  | _, GuardEvent.runlock :: es => guardedFrom 0 es
  | mode, GuardEvent.read :: es => decide (mode ≠ 0) && guardedFrom mode es
  | mode, GuardEvent.write :: es => decide (mode = 2) && guardedFrom mode es

/-- A sequence of events that is one exclusive section: `Lock`, then only reads and writes,
then `Unlock`. -/
def oneExclusiveSection : List GuardEvent → Bool
  | GuardEvent.lock :: es =>
    decide (es.getLast? = some GuardEvent.unlock) &&
      es.dropLast.all (fun e => decide (e = GuardEvent.read ∨ e = GuardEvent.write))
  | _ => false

namespace ZSet

/-- The events of `Add`: `Lock` (with the deferred `Unlock`), the read of `tbl[member]`, and
on the paths that do not return early the writes of `slDelete`, `slInsert` and
`tbl[member] = score`. -/
def AddEvents (z : ZSet) (score : float64) (member : String) : List GuardEvent :=
  [GuardEvent.lock, GuardEvent.read] ++
    (match z.tbl.lookup member with
      | some old =>
        if old = score then []
        else [GuardEvent.write, GuardEvent.write, GuardEvent.write]
      | none => [GuardEvent.write, GuardEvent.write]) ++
    [GuardEvent.unlock]

/-- The events of `Rem`: `Lock` (with the deferred `Unlock`), the read of `tbl[member]`, and
for a present member the writes of `slDelete` and `delete(tbl, member)`. -/
def RemEvents (z : ZSet) (member : String) : List GuardEvent :=
  [GuardEvent.lock, GuardEvent.read] ++
    (match z.tbl.lookup member with
      | some _ => [GuardEvent.write, GuardEvent.write]
      | none => []) ++
    [GuardEvent.unlock]

/-- The events of `Count`: the read of `z.sl.length`; the method does not touch `mu`. -/
def CountEvents (_z : ZSet) : List GuardEvent :=
  [GuardEvent.read]

/-- The events of `Score`: `RLock` (with the deferred `RUnlock`) and the read of
`tbl[member]`. -/
def ScoreEvents (_z : ZSet) (_member : String) : List GuardEvent :=
  [GuardEvent.rlock, GuardEvent.read, GuardEvent.runlock]

/-- The events of `Range`: `RLock` (with the deferred `RUnlock`) and, past the check of the
arguments, the walk over the index. -/
def RangeEvents (_z : ZSet) (r1 r2 : Int) : List GuardEvent :=
  [GuardEvent.rlock] ++ (if r1 < 1 ∨ r2 < 1 then [] else [GuardEvent.read]) ++
    [GuardEvent.runlock]

/-- The events of `reverseRank`: those of its call of `Count`. -/
def reverseRankEvents (z : ZSet) (_r : Int) : List GuardEvent :=
  z.CountEvents

/-- The events of `RevRange`: `Count` for the comparison, `Count` again when `r2` is
clamped, the two calls of `reverseRank`, then `Range`. -/
def RevRangeEvents (z : ZSet) (r1 r2 : Int) : List GuardEvent :=
  z.CountEvents ++ (if r2 > z.Count then z.CountEvents else []) ++
    z.reverseRankEvents r1 ++
    z.reverseRankEvents (if r2 > z.Count then z.Count else r2) ++
    z.RangeEvents (z.reverseRank r1) (z.reverseRank (if r2 > z.Count then z.Count else r2))

/-- The events of `RangeByScore`: `RLock` (with the deferred `RUnlock`) and the walk over the
index. -/
def RangeByScoreEvents (_z : ZSet) (_s1 _s2 : float64) : List GuardEvent :=
  [GuardEvent.rlock, GuardEvent.read, GuardEvent.runlock]

/-- The events of `Rank`: `RLock` (with the deferred `RUnlock`), the read of `tbl[member]`
and, for a present member, the read of the index by `slGetRank`. -/
def RankEvents (z : ZSet) (member : String) : List GuardEvent :=
  [GuardEvent.rlock, GuardEvent.read] ++
    (match z.tbl.lookup member with
      | some _ => [GuardEvent.read]
      | none => []) ++
    [GuardEvent.runlock]

/-- The events of `RevRank`: those of `Rank`, then those of `reverseRank` when the rank is
not 0. -/
def RevRankEvents (z : ZSet) (member : String) : List GuardEvent :=
  z.RankEvents member ++
    (if z.Rank member ≠ 0 then z.reverseRankEvents (z.Rank member) else [])

/-- The events of the loop of `deleteByRank`: those of `Rem` for each member in turn, each
in the state the former calls left. -/
def remLoopEvents : ZSet → List String → List GuardEvent
  | _, [] => []
  | z, member :: members => z.RemEvents member ++ remLoopEvents (z.Rem member) members

/-- The events of `deleteByRank`: those of `Range`, then those of the loop of `Rem`. -/
def deleteByRankEvents (z : ZSet) (from' to' : Int) : List GuardEvent :=
  let lo := if from' > to' then to' else from'
  let hi := if from' > to' then from' else to'
  z.RangeEvents lo hi ++ remLoopEvents z (z.Range lo hi)

/-- The events of `Limit`: `Count`, then `deleteByRank` when there is something to trim. -/
def LimitEvents (z : ZSet) (count : Int) : List GuardEvent :=
  z.CountEvents ++
    (if z.Count ≤ count then [] else z.deleteByRankEvents (count + 1) z.Count)

/-- The events of `RevLimit`: `Count`, then the two calls of `reverseRank` and
`deleteByRank` when there is something to trim. -/
def RevLimitEvents (z : ZSet) (count : Int) : List GuardEvent :=
  z.CountEvents ++
    (if z.Count ≤ count then []
    else
      z.reverseRankEvents (count + 1) ++ z.reverseRankEvents z.Count ++
        z.deleteByRankEvents (z.reverseRank (count + 1)) (z.reverseRank z.Count))

end ZSet

/-- A state reached by interleaved inserts and deletes: `Add(3, "c")`, `Add(1, "a")`,
`Add(2, "b")`, `Rem("a")`, `Add(4, "d")`, then `Add(1, "c")`, which moves `"c"` to the
front. -/
def scenarioE : ZSet :=
  (((((New.Add 3 "c").Add 1 "a").Add 2 "b").Rem "a").Add 4 "d").Add 1 "c"

end zset

/-! ## Slices (`utils/slice.go`) -/

namespace utils

/-- The first loop of `DeduplicateAddInt32`, over `arr`: `result` and the map `exists` (the
set of its keys, every key being mapped to `true`). -/
def dedupLoop {T : Type} [DecidableEq T] :
    List T → List T × Finset T → List T × Finset T
  | [], acc => acc
  | num :: rest, (result, seen) =>
    if num ∉ seen then dedupLoop rest (result ++ [num], insert num seen)
    else dedupLoop rest (result, seen)

/-- The second loop of `DeduplicateAddInt32`, over `elements`: an element that is not a key
of `exists` is appended; `exists` is not written. -/
def addLoop {T : Type} [DecidableEq T] (seen : Finset T) : List T → List T → List T
  | [], result => result
  | element :: rest, result =>
    if element ∉ seen then addLoop seen rest (result ++ [element])
    else addLoop seen rest result

/-- The function `DeduplicateAddInt32`. -/
def DeduplicateAddInt32 {T : Type} [DecidableEq T] (arr elements : List T) : List T :=
  let acc := dedupLoop arr ([], ∅)
  addLoop acc.2 elements acc.1

end utils

/-! ## Bitmap (`utils/bitmap/bitmap.go`)

A `byte` is a natural number below 256, a `uint32` a natural number below `2^32`; `count` is
an `int32`, incremented and decremented with wrap-around. A method that can index the byte
slice returns `none` for the run-time panic of an index out of range. The struct `BitMap`
holds the bytes of its slice; `Bits` and `SetBits`, which hand the slice itself to and from
the caller, are methods of a bitmap in a `Heap`, where slices share their bytes. -/

namespace bitmap

/-- Two's complement wrap-around of an `int32` result. -/
def wrapInt32 (x : Int) : Int :=
  (x + 2147483648) % 4294967296 - 2147483648

/-- The struct `BitMap`. -/
structure BitMap where
  bits : List Nat
  maxVal : Nat
  count : Int
deriving DecidableEq

/-- The constructor `NewBitMap`: `(max >> 3) + 1` zero bytes. -/
def NewBitMap (max : Nat) : BitMap :=
  { bits := List.replicate ((max >>> 3) + 1) 0, maxVal := max, count := 0 }

namespace BitMap

/-- The method `Add`: the flag tells whether an error is returned. -/
def Add (bm : BitMap) (num : Nat) : Option (Bool × BitMap) :=
  if num > bm.maxVal then some (true, bm)
  else
    let byteIndex := num >>> 3
    let bitPosition := num &&& 7
    match bm.bits[byteIndex]? with
    | none => none
    | some b =>
      if b &&& (1 <<< bitPosition) % 256 = 0 then
        some (false,
          { bm with
            bits := bm.bits.set byteIndex ((b ||| (1 <<< bitPosition) % 256) % 256)
            count := wrapInt32 (bm.count + 1) })
      else some (false, bm)

/-- The method `IsExist`. -/
def IsExist (bm : BitMap) (num : Nat) : Option Bool :=
  if num > bm.maxVal then some false
  else
    let byteIndex := num >>> 3
    let bitPosition := num &&& 7
    match bm.bits[byteIndex]? with
    | none => none
    | some b => some (decide (b &&& (1 <<< bitPosition) % 256 ≠ 0))

/-- The method `Remove`: the flag tells whether an error is returned; `^x` on a byte is
`255 ^^^ x`. -/
def Remove (bm : BitMap) (num : Nat) : Option (Bool × BitMap) :=
  if num > bm.maxVal then some (true, bm)
  else
    let byteIndex := num >>> 3
    let bitPosition := num &&& 7
    match bm.bits[byteIndex]? with
    | none => none
    | some b =>
      if b &&& (1 <<< bitPosition) % 256 ≠ 0 then
        some (false,
          { bm with
            bits := bm.bits.set byteIndex (b &&& (255 ^^^ (1 <<< bitPosition) % 256))
            count := wrapInt32 (bm.count - 1) })
      else some (false, bm)

/-- The method `Max`. -/
def Max (bm : BitMap) : Nat :=
  bm.maxVal

/-- The inner loop of `recount`, `for b > 0 { b &= b - 1; count++ }`. Each iteration makes
`b` smaller, so `fuel`, which `recount` sets to the byte itself, bounds the iterations. -/
def clearLoop : Nat → Nat → Int → Int
  | 0, _, count => count
  | fuel + 1, b, count =>
    if b > 0 then clearLoop fuel (b &&& (b - 1)) (wrapInt32 (count + 1)) else count

/-- The method `recount`. -/
def recount (bm : BitMap) : BitMap :=
  { bm with count := bm.bits.foldl (fun count b => clearLoop b b count) 0 }

/-- The method `Count`. -/
def Count (bm : BitMap) : Int :=
  bm.count

/-- The number of values `n` with `0 ≤ n ≤ Max()` for which `IsExist(n)` is true. -/
def elements (bm : BitMap) : Nat :=
  (List.range (bm.maxVal + 1)).countP (fun n => decide (bm.IsExist n = some true))

end BitMap

/-- The bit of the byte slice that stands for the number `n`: false past the end of the
slice. -/
def bitAt (bits : List Nat) (n : Nat) : Bool :=
  match bits[n >>> 3]? with
  | some b => b.testBit (n &&& 7)
  | none => false

/-- The bitmaps made by `NewBitMap(max)` and changed only by `Add` and `Remove`. -/
inductive ReachableAddRemove : BitMap → Prop
  | new (max : Nat) : ReachableAddRemove (NewBitMap max)
  | add (bm : BitMap) (num : Nat) (err : Bool) (bm' : BitMap) :
      ReachableAddRemove bm → bm.Add num = some (err, bm') → ReachableAddRemove bm'
  | remove (bm : BitMap) (num : Nat) (err : Bool) (bm' : BitMap) :
      ReachableAddRemove bm → bm.Remove num = some (err, bm') → ReachableAddRemove bm'

/-- The number of bits set in a byte. -/
def ones (b : Nat) : Nat :=
  (List.range 8).countP (fun i => b.testBit i)

/-- The number of iterations of the inner loop of `recount` on the byte `b`, with the same
bound `fuel` as `clearLoop`. -/
def clearIters : Nat → Nat → Nat
  | 0, _ => 0
  | fuel + 1, b => if b > 0 then clearIters fuel (b &&& (b - 1)) + 1 else 0

/-- The consistency of a bitmap: every element of the slice is a byte, no bit is set for a
number above `Max()`, and `count` is the number of elements, as an `int32`. -/
structure Clean (bm : BitMap) : Prop where
  bytes : ∀ x ∈ bm.bits, x < 256
  above : ∀ n, bm.maxVal < n → bitAt bm.bits n = false
  count_eq : bm.count = wrapInt32 (bm.elements : Int)

/-- A bitmap for the numbers 0 to 20 that holds the number 9. -/
def sample : BitMap :=
  { bits := [0, 2, 0], maxVal := 20, count := 1 }

/-! ### Slices that share their bytes

A Go slice is a reference to an array of bytes: `Bits()` returns the slice of the bitmap
itself and `SetBits(b)` stores the slice `b` itself, so the bitmap, the caller and every other
bitmap given the same slice read and write the same bytes. The arrays are kept in a heap by
address; a slice is the address of its array and spans the whole array, so that two slices
share bytes exactly when they are the same slice. A method of a bitmap that the program
does not have, or a slice that it has not made, gives `none`, as the run-time panic of an
index outside a slice does. -/

/-- The struct `BitMap` as the program holds it: the field `bits` is a slice, given by the
address `addr` of its array in the heap. -/
structure BitMapRef where
  addr : Nat
  maxVal : Nat
  count : Int
deriving DecidableEq

/-- The memory of a program that uses bitmaps: the byte arrays behind its slices, by address,
and its bitmaps; a `*BitMap` is an index of `maps`. -/
structure Heap where
  arrays : List (List Nat)
  maps : List BitMapRef
deriving DecidableEq

namespace Heap

/-- The memory of a program that has made no slice and no bitmap. -/
def empty : Heap :=
  { arrays := [], maps := [] }

/-- The bytes of the slice at the address `a`. -/
def bytes (m : Heap) (a : Nat) : List Nat :=
  m.arrays.getD a []

/-- The struct of the bitmap `r` with the bytes that its slice holds now. -/
def load (m : Heap) (r : BitMapRef) : BitMap :=
  { bits := m.bytes r.addr, maxVal := r.maxVal, count := r.count }

/-- The bitmap `i`, with the bytes that its slice holds now. -/
def bitmap (m : Heap) (i : Nat) : Option BitMap :=
  match m.maps[i]? with
  | none => none
  | some r => some (m.load r)

/-- The end of a method of the bitmap `i` that has left the struct `bm`: the bytes are those
of the array of its slice and the count is that of the struct. -/
def save (m : Heap) (i : Nat) (r : BitMapRef) (bm : BitMap) : Heap :=
  { arrays := m.arrays.set r.addr bm.bits, maps := m.maps.set i { r with count := bm.count } }

/-- The constructor `NewBitMap`: it makes a new array and a new bitmap, whose index is
returned. -/
def NewBitMap (m : Heap) (max : Nat) : Nat × Heap :=
  (m.maps.length,
    { arrays := m.arrays ++ [(bitmap.NewBitMap max).bits]
      maps := m.maps ++
        [{ addr := m.arrays.length, maxVal := (bitmap.NewBitMap max).maxVal,
           count := (bitmap.NewBitMap max).count }] })

/-- The method `Add` of the bitmap `i`, on the bytes of its slice. -/
def Add (m : Heap) (i num : Nat) : Option (Bool × Heap) :=
  match m.maps[i]? with
  | none => none
  | some r =>
    match (m.load r).Add num with
    | none => none
    | some (err, bm) => some (err, m.save i r bm)

/-- The method `Remove` of the bitmap `i`, on the bytes of its slice. -/
def Remove (m : Heap) (i num : Nat) : Option (Bool × Heap) :=
  match m.maps[i]? with
  | none => none
  | some r =>
    match (m.load r).Remove num with
    | none => none
    | some (err, bm) => some (err, m.save i r bm)

/-- The method `Bits` of the bitmap `i`: the slice of the bitmap itself, not a copy. -/
def Bits (m : Heap) (i : Nat) : Option Nat :=
  match m.maps[i]? with
  | none => none
  | some r => some r.addr

/-- The method `SetBits` of the bitmap `i` with the slice at the address `a`: the bitmap holds
that slice from now on, and `recount` counts its bits. -/
def SetBits (m : Heap) (i a : Nat) : Option Heap :=
  match m.maps[i]? with
  | none => none
  | some r =>
    if a < m.arrays.length then
      some { m with
        maps := m.maps.set i
          { addr := a, maxVal := r.maxVal
            count := (BitMap.recount (m.load { r with addr := a })).count } }
    else none

/-- The caller makes a slice with the bytes `b` (by `make`, a literal, or reading a file);
its address is returned. -/
def alloc (m : Heap) (b : List Nat) : Nat × Heap :=
  (m.arrays.length, { m with arrays := m.arrays ++ [b.map (fun x => x % 256)] })

/-- The caller stores a byte through a slice, `b[k] = v`; `none` is the run-time panic of an
index out of range. -/
def store (m : Heap) (a k v : Nat) : Option Heap :=
  if k < (m.bytes a).length then
    some { m with arrays := m.arrays.set a ((m.bytes a).set k (v % 256)) }
  else none

/-- No other bitmap holds the slice of the bitmap `i`. -/
def Sole (m : Heap) (i : Nat) : Prop :=
  ∀ j, j < m.maps.length → j ≠ i →
    (m.maps[j]?).map BitMapRef.addr ≠ (m.maps[i]?).map BitMapRef.addr

/-- No bitmap holds the slice at the address `a`. -/
def Free (m : Heap) (a : Nat) : Prop :=
  ∀ r ∈ m.maps, r.addr ≠ a

/-- The slice at the address `a` has a byte for every number up to `max` and no bit set for
a number above `max`. -/
def Fits (m : Heap) (a max : Nat) : Prop :=
  (max >>> 3) + 1 ≤ (m.bytes a).length ∧
    ∀ n, n < 8 * (m.bytes a).length → max < n → bitAt (m.bytes a) n = false

end Heap

/-- The memories that a program reaches by `NewBitMap`, `Add`, `Remove` and `SetBits` on its
bitmaps and by making slices and storing bytes through them, when every slice handed to
`SetBits` has a byte for every number up to `Max()` and no bit set for a number above it,
`Add` and `Remove` are called on a bitmap that shares its slice with no other bitmap, and
the caller stores bytes only through slices that no bitmap holds. -/
inductive ReachableOwned : Heap → Prop
  | empty : ReachableOwned Heap.empty
  | newBitMap (m : Heap) (max : Nat) : ReachableOwned m → ReachableOwned (m.NewBitMap max).2
  | alloc (m : Heap) (b : List Nat) : ReachableOwned m → ReachableOwned (m.alloc b).2
  | store (m : Heap) (a k v : Nat) (m' : Heap) :
      ReachableOwned m → m.Free a → m.store a k v = some m' → ReachableOwned m'
  | add (m : Heap) (i num : Nat) (err : Bool) (m' : Heap) :
      ReachableOwned m → m.Sole i → m.Add i num = some (err, m') → ReachableOwned m'
  | remove (m : Heap) (i num : Nat) (err : Bool) (m' : Heap) :
      ReachableOwned m → m.Sole i → m.Remove i num = some (err, m') → ReachableOwned m'
  | setBits (m : Heap) (i a : Nat) (r : BitMapRef) (m' : Heap) :
      ReachableOwned m → m.maps[i]? = some r → m.Fits a r.maxVal →
      m.SetBits i a = some m' → ReachableOwned m'

/-- The run `bm := NewBitMap(3); bm.SetBits([]byte{0x1f})`. -/
def restoredAboveMax : Option Heap :=
  ((Heap.empty.NewBitMap 3).2.alloc [31]).2.SetBits 0 ((Heap.empty.NewBitMap 3).2.alloc [31]).1

/-- The run `a := NewBitMap(20); a.Add(9); b := NewBitMap(20); b.SetBits(a.Bits());
a.Add(3)`: the bitmaps `a` (index 0) and `b` (index 1) share one slice. -/
def restoredShared : Option Heap :=
  match (Heap.empty.NewBitMap 20).2.Add 0 9 with
  | none => none
  | some (_, m1) =>
    match (m1.NewBitMap 20).2.Bits 0 with
    | none => none
    | some s =>
      match (m1.NewBitMap 20).2.SetBits 1 s with
      | none => none
      | some m2 =>
        match m2.Add 0 3 with
        | none => none
        | some (_, m3) => some m3

/-- The run `bm := NewBitMap(20); bm.SetBits([]byte{1})`: a slice of one byte. -/
def restoredShort : Option Heap :=
  ((Heap.empty.NewBitMap 20).2.alloc [1]).2.SetBits 0 ((Heap.empty.NewBitMap 20).2.alloc [1]).1

/-- The run `a := NewBitMap(20); a.Add(9); b := NewBitMap(20); b.SetBits(a.Bits());
a.SetBits(make([]byte, 3))`: `b` is restored from the bytes of `a`, and `a` goes on with a
slice of its own. -/
def restoredOwned : Option Heap :=
  match (Heap.empty.NewBitMap 20).2.Add 0 9 with
  | none => none
  | some (_, m1) =>
    match (m1.NewBitMap 20).2.Bits 0 with
    | none => none
    | some s =>
      match (m1.NewBitMap 20).2.SetBits 1 s with
      | none => none
      | some m2 => (m2.alloc [0, 0, 0]).2.SetBits 0 (m2.alloc [0, 0, 0]).1

/-- The memory at the end of the run `restoredOwned`: the bitmap `a` (index 0) holds the new
slice at the address 2, the bitmap `b` (index 1) the slice at the address 0 with the number
9. -/
def ownedHeap : Heap :=
  { arrays := [[0, 2, 0], [0, 0, 0], [0, 0, 0]]
    maps := [{ addr := 2, maxVal := 20, count := 0 }, { addr := 0, maxVal := 20, count := 1 }] }

/-- The consistency of a memory: every element of an array is a byte, and every bitmap holds
a slice of the memory that has a byte for every number up to `Max()`, no bit set for a
number above it, and as many elements as `count` says. -/
structure HeapInv (m : Heap) : Prop where
  bytes : ∀ arr ∈ m.arrays, ∀ x ∈ arr, x < 256
  addr : ∀ (i : Nat) (r : BitMapRef), m.maps[i]? = some r → r.addr < m.arrays.length
  clean : ∀ (i : Nat) (r : BitMapRef), m.maps[i]? = some r → Clean (m.load r)
  sized : ∀ (i : Nat) (r : BitMapRef), m.maps[i]? = some r →
    (r.maxVal >>> 3) + 1 ≤ (m.bytes r.addr).length

end bitmap

/-! ## DAG (`utils/dag/dag.go`)

A Go map is a finite map; the map `Children` of a node, whose values are the nodes of the
same ids in `Nodes`, is the list of its keys. Go iterates over a map in an unspecified
order: the list fixes one, and the results proved do not depend on it. -/

namespace dag

/-- How a call ends: with a result, with a run-time panic (a nil `*Node` is dereferenced),
or, in this embedding only, out of fuel. -/
inductive Outcome (α : Type) where
  | done (a : α)
  | panic
  | outOfFuel
deriving DecidableEq

/-- The struct `Node`. -/
structure Node where
  ID : String
  Children : List String
deriving DecidableEq

/-- The struct `DAG`. -/
structure DAG where
  Nodes : Finmap (fun _ : String => Node)
  Edges : Finmap (fun _ : String => List String)

instance DAG.decidableEq : DecidableEq DAG := fun a b =>
  decidable_of_iff (a.Nodes = b.Nodes ∧ a.Edges = b.Edges) (by
    cases a
    cases b
    simp)

/-- The constructor `NewDAG`. -/
def NewDAG : DAG :=
  { Nodes := ∅, Edges := ∅ }

namespace DAG

/-- The method `AddNode`. -/
def AddNode (dag : DAG) (id : String) : DAG :=
  if id ∈ dag.Nodes then dag
  else { dag with Nodes := dag.Nodes.insert id { ID := id, Children := [] } }

/-- The loop of `dfs` over the children of the current node, `search` being the recursive
call: it stops at the first child from which the target is found. -/
def dfsLoop (search : String → Finset String → Outcome (Bool × Finset String)) :
    List String → Finset String → Outcome (Bool × Finset String)
  | [], visited => Outcome.done (false, visited)
  | childID :: rest, visited =>
    match search childID visited with
    | Outcome.done (true, visited') => Outcome.done (true, visited')
    | Outcome.done (false, visited') => dfsLoop search rest visited'
    | Outcome.panic => Outcome.panic
    | Outcome.outOfFuel => Outcome.outOfFuel

/-- The method `dfs`: the result and the map `visited` (the set of its keys) after the call.
`fuel` bounds the depth of the recursion; `createsCycle` sets it above the number of
nodes. -/
def dfs (dag : DAG) (target : String) :
    Nat → String → Finset String → Outcome (Bool × Finset String)
  | 0, _, _ => Outcome.outOfFuel
  | fuel + 1, current, visited =>
    if current = target then Outcome.done (true, visited)
    else if current ∈ visited then Outcome.done (false, visited)
    else
      match dag.Nodes.lookup current with
      | none => Outcome.panic
      | some node => dfsLoop (dfs dag target fuel) node.Children (insert current visited)

/-- The method `createsCycle`. -/
def createsCycle (dag : DAG) (from' to' : String) : Outcome Bool :=
  match dfs dag from' (dag.Nodes.keys.card + 1) to' ∅ with
  | Outcome.done (found, _) => Outcome.done found
  | Outcome.panic => Outcome.panic
  | Outcome.outOfFuel => Outcome.outOfFuel

/-- The assignment `dag.Nodes[from].Children[to] = dag.Nodes[to]`. -/
def addChild (dag : DAG) (from' to' : String) : Outcome DAG :=
  match dag.Nodes.lookup from' with
  | none => Outcome.panic
  | some node =>
    Outcome.done
      { dag with
        Nodes := dag.Nodes.insert from'
          { node with
            Children := if to' ∈ node.Children then node.Children
              else node.Children ++ [to'] } }

/-- The method `AddConditionalEdge`: the flag tells whether an error is returned. -/
def AddConditionalEdge (dag : DAG) (from' to' : String) (conditions : List String) :
    Outcome (Bool × DAG) :=
  if from' ∉ dag.Nodes then Outcome.done (true, dag)
  else if to' ∉ dag.Nodes then Outcome.done (true, dag)
  else
    match dag.createsCycle from' to' with
    | Outcome.panic => Outcome.panic
    | Outcome.outOfFuel => Outcome.outOfFuel
    | Outcome.done true => Outcome.done (true, dag)
    | Outcome.done false =>
      let dag1 : DAG := { dag with Edges := dag.Edges.insert (from' ++ "->" ++ to') conditions }
      if conditions.all (fun condition => decide (condition ∈ dag1.Nodes)) then
        match dag1.addChild from' to' with
        | Outcome.done dag2 => Outcome.done (false, dag2)
        | Outcome.panic => Outcome.panic
        | Outcome.outOfFuel => Outcome.outOfFuel
      else Outcome.done (false, dag1)

end DAG

/-- The `Children` relation: `b` is a key of the `Children` of the node `a`. -/
def childRel (dag : DAG) (a b : String) : Prop :=
  ∃ node, dag.Nodes.lookup a = some node ∧ b ∈ node.Children

/-- The DAGs reachable from `NewDAG()` by `AddNode` and `AddConditionalEdge` calls. -/
inductive ReachableDAG : DAG → Prop
  | new : ReachableDAG NewDAG
  | addNode (dag : DAG) (id : String) : ReachableDAG dag → ReachableDAG (dag.AddNode id)
  | addEdge (dag : DAG) (from' to' : String) (conditions : List String) (err : Bool)
      (dag' : DAG) :
      ReachableDAG dag → dag.AddConditionalEdge from' to' conditions = Outcome.done (err, dag') →
      ReachableDAG dag'

/-- The consistency of a DAG: the children of a node are nodes, and no node reaches itself
through the `Children` relation. -/
structure WellFormed (dag : DAG) : Prop where
  closed : ∀ a b, childRel dag a b → b ∈ dag.Nodes
  acyclic : ∀ a, ¬ Relation.TransGen (childRel dag) a a

/-- The DAG after `AddConditionalEdge`, as a caller that only prints the error goes on
with it (the test `TestDAG`). -/
def DAG.afterEdge (dag : DAG) (from' to' : String) (conditions : List String) : DAG :=
  match dag.AddConditionalEdge from' to' conditions with
  | Outcome.done (_, dag') => dag'
  | _ => dag

/-- The graph of the test `TestDAG` before the edge from `D` to `A` is tried. -/
def testDAG : DAG :=
  ((((((((((NewDAG.AddNode "A").AddNode "B").AddNode "C").AddNode "D").AddNode "E").afterEdge
    "A" "B" []).afterEdge "A" "C" ["B"]).afterEdge "B" "C" ["A"]).afterEdge "C" "D" []).afterEdge
    "D" "E" [])

/-- The function `contains`. -/
def contains : List String → String → Bool
  | [], _ => false
  | s :: slice, item => if s = item then true else contains slice item

/-- The function `allConditionsMet`. -/
def allConditionsMet (startNodes : List String) : List String → Bool
  | [] => true
  | condition :: conditions =>
    if !contains startNodes condition then false else allConditionsMet startNodes conditions

/-- The order in which a `range` loop visits the keys of a Go map. Go leaves it unspecified;
the embedding visits the keys in ascending order. -/
def mapKeys (keys : Finset String) : List String :=
  keys.sort (fun a b => a ≤ b)

/-- The statement `inDegree[childID]++` on a `map[string]int`: a missing key reads as 0. The
value counts nodes, which a Go `int` holds. -/
def increment (inDegree : Finmap (fun _ : String => Nat)) (childID : String) :
    Finmap (fun _ : String => Nat) :=
  inDegree.insert childID ((inDegree.lookup childID).getD 0 + 1)

namespace DAG

/-- The inner loop of `GetDirectlyReachableNodes` over the children of the start node `id`;
the map `reachable`, whose values are all `true`, is the set of its keys. -/
def childrenLoop (dag : DAG) (startNodes : List String) (id : String) :
    List String → Finset String → Finset String
  | [], reachable => reachable
  | childID :: children, reachable =>
    if !contains startNodes childID then
      match dag.Edges.lookup (id ++ "->" ++ childID) with
      | some conditions =>
        if allConditionsMet startNodes conditions then
          childrenLoop dag startNodes id children (insert childID reachable)
        else childrenLoop dag startNodes id children reachable
      | none => childrenLoop dag startNodes id children (insert childID reachable)
    else childrenLoop dag startNodes id children reachable

/-- The outer loop of `GetDirectlyReachableNodes` over the start nodes: `none` when it
returns the error for an id that is not a node. -/
def startLoop (dag : DAG) (startNodes : List String) :
    List String → Finset String → Option (Finset String)
  | [], reachable => some reachable
  | id :: ids, reachable =>
    match dag.Nodes.lookup id with
    | none => none
    | some node =>
      startLoop dag startNodes ids (childrenLoop dag startNodes id node.Children reachable)

/-- The method `getNodesWithoutPredecessors`. -/
def getNodesWithoutPredecessors (dag : DAG) : List String :=
  let inDegree0 : Finmap (fun _ : String => Nat) :=
    (mapKeys dag.Nodes.keys).foldl (fun inDegree id => inDegree.insert id 0) ∅
  let inDegree : Finmap (fun _ : String => Nat) :=
    (mapKeys dag.Nodes.keys).foldl
      (fun inDegree id =>
        match dag.Nodes.lookup id with
        | some node => node.Children.foldl increment inDegree
        | none => inDegree)
      inDegree0
  (mapKeys inDegree.keys).filter (fun id => decide (inDegree.lookup id = some 0))

/-- The method `GetDirectlyReachableNodes`: `none` when it returns an error. -/
def GetDirectlyReachableNodes (dag : DAG) (startNodes : List String) : Option (List String) :=
  if startNodes.length = 0 then some dag.getNodesWithoutPredecessors
  else
    match startLoop dag startNodes startNodes ∅ with
    | none => none
    | some reachable => some (mapKeys reachable)

end DAG

/-- A graph whose node ids contain the separator of the edge keys: the nodes `A`, `B->C`,
`A->B`, `C` and `X`, and the edge from `A` to `B->C` under the condition `X`. -/
def sharedKeyBefore : DAG :=
  (((((NewDAG.AddNode "A").AddNode "B->C").AddNode "A->B").AddNode "C").AddNode
    "X").afterEdge "A" "B->C" ["X"]

/-- The graph `sharedKeyBefore` after the edge from `A->B` to `C` without condition is
added: the key `A->B->C` of `Edges` stands for both edges. -/
def sharedKeyDAG : DAG :=
  sharedKeyBefore.afterEdge "A->B" "C" []

end dag

/-! ## Weighted pools (`utils/weight/weight.go`, `utils/weight/guaranteed.go`)

The generator `*rand.Rand` and `sort.Search` belong to libraries outside the repository.
The generator is a stream of raw values, one consumed by each call of `Intn`; a method of a
pool returns the pool after the call, with the generator advanced. -/

namespace weight

/-- Two's complement wrap-around of a Go `int` (64 bit) result. -/
def wrapGoInt (x : Int) : Int :=
  (x + 9223372036854775808) % 18446744073709551616 - 9223372036854775808

/-- The state of a generator `*rand.Rand`: the raw values it will produce. -/
abbrev Rand := Nat → Nat

/-- The method `Intn` of the generator, by its contract: it panics (`none`) for `n ≤ 0` and
otherwise returns a value in `[0, n)`, here the next raw value reduced modulo `n`, with the
generator after the call. Every value of `[0, n)` is the result for some stream. -/
def Intn (rand : Rand) (n : Int) : Option (Int × Rand) :=
  if n ≤ 0 then none
  else some (((rand 0 % n.toNat : Nat) : Int), fun i => rand (i + 1))

/-- How a call on a state `σ` ends: it returns a result and the state, or it panics and leaves
the state. -/
inductive PickOutcome (σ α : Type) where
  | ret (a : α) (s : σ)
  | panic (s : σ)

/-- The state after the call. -/
def PickOutcome.state {σ α : Type} : PickOutcome σ α → σ
  | PickOutcome.ret _ s => s
  | PickOutcome.panic s => s

/-- The result of a call that returned. -/
def PickOutcome.result {σ α : Type} : PickOutcome σ α → Option α
  | PickOutcome.ret a _ => some a
  | PickOutcome.panic _ => none

/-- The function `sort.Search` of the Go standard library, loop of the binary search over
`[i, j)`; `fuel` bounds the iterations, each of which shrinks `j - i`. -/
def searchLoop (f : Int → Bool) : Nat → Int → Int → Int
  | 0, i, _ => i
  | fuel + 1, i, j =>
    if i < j then
      let h := (i + j) / 2
      if !f h then searchLoop f fuel (h + 1) j else searchLoop f fuel i h
    else i

/-- The function `sort.Search` of the Go standard library. -/
def Search (n : Int) (f : Int → Bool) : Int :=
  searchLoop f n.toNat 0 n

/-- An implementation of the interface `Item`: the struct `testWeightItem` of the tests, a
value with the weight that `Weight()` returns. -/
structure Item where
  value : Int
  weightVal : Int
deriving DecidableEq

/-- The method `Weight` of an item. -/
def Item.Weight (t : Item) : Int :=
  t.weightVal

/-- The struct `Pool`. -/
structure Pool where
  randSeed : Int
  rand : Rand
  Items : List Item
  totalWeight : Int

/-- The loop that builds the cumulative weights: the slice `cum` and the final `sum`, from
the running `sum`. -/
def cumLoop : List Item → Int → List Int × Int
  | [], sum => ([], sum)
  | it :: items, sum =>
    let sum' := wrapGoInt (sum + it.Weight)
    (sum' :: (cumLoop items sum').1, (cumLoop items sum').2)

/-- The size in bytes of a value of the interface type `Item` on a 64-bit platform (a
type word and a data word): the element size of the slice that `PickRandomManyAndPutBack`
returns. -/
def itemSize : Int :=
  16

/-- The check of the Go runtime when it runs `make([]Item, 0, cap)`: it panics
(`makeslice: cap out of range`) when `cap` is negative or `cap` elements need more than
`maxAlloc` bytes. The allocation limit `maxAlloc` is a constant of the runtime and the
platform and is taken as a parameter; an allocation within the limit is taken to succeed,
the amount of free memory not being modelled. The slices `cum` of the pick methods have one
`int` for each item of the pool, which holds its items already. -/
def makeItemsPanics (maxAlloc cap : Int) : Bool :=
  decide (cap < 0 ∨ maxAlloc < cap * itemSize)

/-- The predicate handed to `sort.Search`: `cum[i] >= r`. -/
def slot (cum : List Int) (r : Int) (i : Int) : Bool :=
  decide ((cum.getD i.toNat 0) ≥ r)

namespace Pool

/-- The method `Length`. -/
def Length (p : Pool) : Int :=
  (p.Items.length : Int)

/-- The method `Add`. -/
def Add (p : Pool) (item : Item) : Pool :=
  { p with Items := p.Items ++ [item], totalWeight := wrapGoInt (p.totalWeight + item.Weight) }

/-- The method `SetTotalWeight`. -/
def SetTotalWeight (p : Pool) (totalWeight : Int) : Pool :=
  { p with totalWeight := totalWeight }

/-- The method `PickRandom`. -/
def PickRandom (p : Pool) : PickOutcome Pool (Option Item × Bool) :=
  let n : Int := p.Items.length
  match p.Items with
  | [] => PickOutcome.ret (none, false) p
  | item0 :: rest =>
    if n = 1 ∧ item0.Weight ≥ p.totalWeight then
      PickOutcome.ret (some item0, true) { p with Items := [], totalWeight := 0 }
    else
      let cum := (cumLoop (item0 :: rest) 0).1
      let sum := (cumLoop (item0 :: rest) 0).2
      match Intn p.rand p.totalWeight with
      | none => PickOutcome.panic p
      | some (d, rand) =>
        let r := d + 1
        let p1 : Pool := { p with rand := rand }
        if r > sum then PickOutcome.ret (none, false) p1
        else
          let idx := Search n (slot cum r)
          if idx < 0 ∨ idx ≥ n then PickOutcome.ret (none, false) p1
          else
            match p.Items[idx.toNat]? with
            | none => PickOutcome.panic p1
            | some item =>
              PickOutcome.ret (some item, true)
                { p1 with
                  Items := p.Items.take idx.toNat ++ p.Items.drop (idx.toNat + 1)
                  totalWeight := wrapGoInt (p.totalWeight - item.Weight) }

/-- The method `PickRandomAndPutBack`. -/
def PickRandomAndPutBack (p : Pool) : PickOutcome Pool (Option Item × Bool) :=
  let n : Int := p.Items.length
  if n = 0 then PickOutcome.ret (none, false) p
  else
    let cum := (cumLoop p.Items 0).1
    let sum := (cumLoop p.Items 0).2
    match Intn p.rand p.totalWeight with
    | none => PickOutcome.panic p
    | some (d, rand) =>
      let r := d + 1
      let p1 : Pool := { p with rand := rand }
      if r > sum then PickOutcome.ret (none, false) p1
      else
        let idx := Search n (slot cum r)
        if idx < n then
          match p.Items[idx.toNat]? with
          | none => PickOutcome.panic p1
          | some item => PickOutcome.ret (some item, true) p1
        else PickOutcome.ret (none, false) p1

/-- The loop of `PickRandomManyAndPutBack`: `remaining` is `pickCount - i`, `res` the items
drawn so far. -/
def manyLoop (p : Pool) (cum : List Int) (sum n : Int) :
    Nat → Rand → List Item → PickOutcome Pool (List Item)
  | 0, rand, res => PickOutcome.ret res { p with rand := rand }
  | remaining + 1, rand, res =>
    match Intn rand p.totalWeight with
    | none => PickOutcome.panic { p with rand := rand }
    | some (d, rand') =>
      let r := d + 1
      if r > sum then manyLoop p cum sum n remaining rand' res
      else
        let idx := Search n (slot cum r)
        if idx < n then
          match p.Items[idx.toNat]? with
          | none => PickOutcome.panic { p with rand := rand' }
          | some item => manyLoop p cum sum n remaining rand' (res ++ [item])
        else manyLoop p cum sum n remaining rand' res

/-- The method `PickRandomManyAndPutBack`: past the early return, the result is allocated
by `make([]Item, 0, pickCount)`, which panics when `pickCount` items exceed the allocation
limit `maxAlloc` of the runtime; then the loop draws `pickCount` times. -/
def PickRandomManyAndPutBack (maxAlloc : Int) (p : Pool) (pickCount : Int) :
    PickOutcome Pool (List Item) :=
  let n : Int := p.Items.length
  if n = 0 ∨ pickCount ≤ 0 then PickOutcome.ret [] p
  else if makeItemsPanics maxAlloc pickCount then PickOutcome.panic p
  else
    manyLoop p (cumLoop p.Items 0).1 (cumLoop p.Items 0).2 n pickCount.toNat p.rand []

end Pool

/-- An implementation of the interface `GuaranteedItem`: a value with what `Weight()`,
`GuaranteedTimes()` and `MissTimes()` return. -/
structure GuaranteedItem where
  value : Int
  weightVal : Int
  guaranteedTimes : Int
  missTimesVal : Int
deriving DecidableEq

/-- The method `Weight` of a guaranteed item. -/
def GuaranteedItem.Weight (t : GuaranteedItem) : Int :=
  t.weightVal

/-- The method `GuaranteedTimes` of a guaranteed item. -/
def GuaranteedItem.GuaranteedTimes (t : GuaranteedItem) : Int :=
  t.guaranteedTimes

/-- The method `MissTimes` of a guaranteed item. -/
def GuaranteedItem.MissTimes (t : GuaranteedItem) : Int :=
  t.missTimesVal

/-- The struct `guaranteedItemState`. -/
structure guaranteedItemState where
  item : GuaranteedItem
  missTimes : Int
deriving DecidableEq

/-- The struct `GuaranteedPool`; the slice of pointers `items` is the list of the states. -/
structure GuaranteedPool where
  rand : Rand
  randSeed : Int
  items : List guaranteedItemState
  totalWeight : Int

/-- The statement `state.missTimes++`. -/
def guaranteedItemState.miss (state : guaranteedItemState) : guaranteedItemState :=
  { state with missTimes := wrapGoInt (state.missTimes + 1) }

/-- The condition of the first loop of `GuaranteedPool.PickRandom`: the guarantee threshold
is positive and the miss count has reached it. -/
def guaranteedItemState.guaranteed (state : guaranteedItemState) : Bool :=
  decide (state.item.GuaranteedTimes > 0 ∧ state.missTimes ≥ state.item.GuaranteedTimes)

/-- The first loop of `GuaranteedPool.PickRandom`: the indices, from `i` on, of the states
that are guaranteed. -/
def guaranteedIndicesFrom : Nat → List guaranteedItemState → List Nat
  | _, [] => []
  | i, state :: states =>
    if state.guaranteed then i :: guaranteedIndicesFrom (i + 1) states
    else guaranteedIndicesFrom (i + 1) states

/-- The loop that builds the cumulative weights of a guaranteed pool. -/
def cumLoopG : List guaranteedItemState → Int → List Int × Int
  | [], sum => ([], sum)
  | s :: states, sum =>
    let sum' := wrapGoInt (sum + s.item.Weight)
    (sum' :: (cumLoopG states sum').1, (cumLoopG states sum').2)

/-- The loop `for i, state := range p.items { if i != pickedIndex { state.missTimes++ } }`,
from the index `i` on. -/
def missOthersFrom (pickedIndex : Int) : Nat → List guaranteedItemState →
    List guaranteedItemState
  | _, [] => []
  | i, state :: states =>
    (if (i : Int) ≠ pickedIndex then state.miss else state) ::
      missOthersFrom pickedIndex (i + 1) states

namespace GuaranteedPool

/-- The method `Add`. -/
def Add (p : GuaranteedPool) (item : GuaranteedItem) : GuaranteedPool :=
  { p with
    items := p.items ++ [{ item := item, missTimes := item.MissTimes }]
    totalWeight := wrapGoInt (p.totalWeight + item.Weight) }

/-- The method `Length`. -/
def Length (p : GuaranteedPool) : Int :=
  (p.items.length : Int)

/-- The last part of `PickRandom`, from `if pickedIndex == -1` on. -/
def finish (p : GuaranteedPool) (pickedIndex : Int) :
    PickOutcome GuaranteedPool (Option GuaranteedItem × Bool) :=
  if pickedIndex = -1 then PickOutcome.ret (none, false) p
  else
    match (if pickedIndex < 0 then none else p.items[pickedIndex.toNat]?) with
    | none => PickOutcome.panic p
    | some picked =>
      let items := missOthersFrom pickedIndex 0 p.items
      PickOutcome.ret (some picked.item, true)
        { p with
          totalWeight := wrapGoInt (p.totalWeight - picked.item.Weight)
          items := items.take pickedIndex.toNat ++ items.drop (pickedIndex.toNat + 1) }

/-- The method `PickRandom`. -/
def PickRandom (p : GuaranteedPool) : PickOutcome GuaranteedPool (Option GuaranteedItem × Bool) :=
  if p.items.length = 0 then PickOutcome.ret (none, false) p
  else
    let guaranteedIndices := guaranteedIndicesFrom 0 p.items
    if guaranteedIndices.length > 0 then
      match Intn p.rand guaranteedIndices.length with
      | none => PickOutcome.panic p
      | some (randGuaranteedIndex, rand) =>
        match guaranteedIndices[randGuaranteedIndex.toNat]? with
        | none => PickOutcome.panic { p with rand := rand }
        | some pickedIndex => finish { p with rand := rand } pickedIndex
    else
      let cum := (cumLoopG p.items 0).1
      let sum := (cumLoopG p.items 0).2
      let effectiveTotalWeight := if p.totalWeight < sum then sum else p.totalWeight
      match Intn p.rand effectiveTotalWeight with
      | none => PickOutcome.panic p
      | some (d, rand) =>
        let r := d + 1
        if r > sum then
          PickOutcome.ret (none, false)
            { p with rand := rand, items := p.items.map guaranteedItemState.miss }
        else
          let idx := Search cum.length (slot cum r)
          finish { p with rand := rand } (if idx < p.items.length then idx else -1)

end GuaranteedPool

/-- The pool of the test `TestPool_PickManyAndPutBack_Distribution`: weights 10, 20 and 70,
with a generator whose raw values are `raw`. -/
def distributionPool (raw : Rand) : Pool :=
  (((Pool.mk 123 raw [] 0).Add ⟨1, 10⟩).Add ⟨2, 20⟩).Add ⟨3, 70⟩

/-- A pool with a negative weight: weights 5, -3 and 4, so cumulative weights 5, 2 and 6. -/
def negativePool (raw : Rand) : Pool :=
  (((Pool.mk 0 raw [] 0).Add ⟨1, 5⟩).Add ⟨2, -3⟩).Add ⟨3, 4⟩

/-- A guaranteed pool of two items: the first without guarantee, the second guaranteed
after 3 misses and added with 3 misses. -/
def guaranteedSample (raw : Rand) : GuaranteedPool :=
  ((GuaranteedPool.mk raw 0 [] 0).Add ⟨1, 10, 0, 0⟩).Add ⟨2, 5, 3, 3⟩

/-- The cumulative weights in the integers, from the running sum `sum`. -/
def cumulative : Int → List Item → List Int
  | _, [] => []
  | sum, it :: items => (sum + it.Weight) :: cumulative (sum + it.Weight) items

/-- The least index `i` with `cum[i] ≥ r`, if there is one. -/
def leastIndex (r : Int) : List Int → Option Nat
  | [] => none
  | c :: cum => if c ≥ r then some 0 else (leastIndex r cum).map (fun i => i + 1)

/-- The selection rule in the words of the specification of the draw: for the draw `r`, the
least index `i` with `cum[i] ≥ r` when `r` is at most the sum of the weights, and a miss
(`none`) when `r` exceeds the sum. -/
def selectRule (items : List Item) (r : Int) : Option Nat :=
  if r ≤ (items.map Item.Weight).sum then leastIndex r (cumulative 0 items) else none

/-- What a pick returns under the selection rule: the item at the selected index and `true`,
or no item and `false` on a miss. -/
def ruleResult (items : List Item) (r : Int) : Option Item × Bool :=
  match selectRule items r with
  | some i => (items[i]?, true)
  | none => (none, false)

/-- The draw `r := p.rand.Intn(p.totalWeight) + 1` made from the raw value number `k` of the
generator of the pool. -/
def drawAt (p : Pool) (k : Nat) : Int :=
  ((p.rand k % p.totalWeight.toNat : Nat) : Int) + 1

end weight

/-! ## Token locks (`utils/lock/rw_lock.go`)

Time is an explicit input: an instant is an integer number of ticks, and every call of
`time.Now()` is an argument of the method that makes it. The mutex `l.mutex` makes each
method body one step; a method returns its result and the locker after the call. -/

namespace lock

/-- The type `Token`. -/
abbrev Token := Int

/-- Two's complement wrap-around of a Go `int` (64 bit) result. -/
def wrapToken (x : Int) : Int :=
  (x + 9223372036854775808) % 18446744073709551616 - 9223372036854775808

/-- The struct `rwLocker`. The map `readTokens` is the list of its entries, one for each
key; `expireAt` and the values of `readTokens` are instants; the counter `token` is a
`Token`, an `int`. -/
structure rwLocker where
  write : Int
  writeIntention : Int
  token : Int
  expireAt : Int
  readTokens : List (Token × Int)
deriving DecidableEq

/-- The constructor `NewRWLocker`; the zero `time.Time` is the instant 0. -/
def NewRWLocker : rwLocker :=
  { write := 0, writeIntention := 0, token := 0, expireAt := 0, readTokens := [] }

/-- The read `m[tk]` of the map `readTokens` with its presence flag. -/
def mapLookup (m : List (Token × Int)) (tk : Token) : Option Int :=
  (m.find? (fun e => decide (e.1 = tk))).map (fun e => e.2)

/-- The statement `delete(m, tk)`. -/
def mapDelete (m : List (Token × Int)) (tk : Token) : List (Token × Int) :=
  m.filter (fun e => decide (e.1 ≠ tk))

/-- The statement `m[tk] = expire`. -/
def mapInsert (m : List (Token × Int)) (tk : Token) (expire : Int) : List (Token × Int) :=
  mapDelete m tk ++ [(tk, expire)]

namespace rwLocker

/-- The method `refresh`, at the instant `now`: an expired write lock is dropped together
with all read tokens; otherwise the loop deletes the read tokens that have expired. -/
def refresh (l : rwLocker) (now : Int) : rwLocker :=
  if l.write = 1 ∧ now > l.expireAt then { l with write := 0, readTokens := [] }
  else { l with readTokens := l.readTokens.filter (fun e => decide (¬ now > e.2)) }

/-- The method `lock`, one attempt to take the write lock: `now` is the instant read by
`refresh`, `now'` the one read for `expireAt`. The result 0 is a refusal. -/
def lock (l : rwLocker) (now now' hold : Int) : Token × rwLocker :=
  let l1 := l.refresh now
  if l1.write = 1 ∨ l1.readTokens.length > 0 then (0, l1)
  else
    let token := wrapToken (l1.token + 1)
    (token, { l1 with write := 1, token := token, expireAt := now' + hold })

/-- The method `Unlock`. -/
def Unlock (l : rwLocker) (token : Token) : Bool × rwLocker :=
  if l.token ≠ token ∨ l.write = 0 then (false, l)
  else (true, { l with write := 0 })

/-- The method `rLock`, one attempt to take a read lock: `now` is the instant read by
`refresh`, `now'` the one read for the expiry of the token. The result 0 is a refusal. -/
def rLock (l : rwLocker) (now now' hold : Int) : Token × rwLocker :=
  let l1 := l.refresh now
  if l1.write = 1 ∨ l1.writeIntention > 0 then (0, l1)
  else
    let token := wrapToken (l1.token + 1)
    (token, { l1 with token := token, readTokens := mapInsert l1.readTokens token (now' + hold) })

/-- The method `RUnlock`, at the instant `now`. -/
def RUnlock (l : rwLocker) (token : Token) (now : Int) : Bool × rwLocker :=
  let success :=
    match mapLookup l.readTokens token with
    | some expireAt => decide (now < expireAt)
    | none => false
  (success, { l with readTokens := mapDelete l.readTokens token })

/-- The method `Acquired`, at the instant `now`; a token that is not in `readTokens` reads as
the zero `time.Time`, which is after no instant. -/
def Acquired (l : rwLocker) (tk : Token) (now : Int) : Bool :=
  (decide (l.write = 1) && decide (l.token = tk) && decide (l.expireAt > now)) ||
    (match mapLookup l.readTokens tk with
      | some expireAt => decide (expireAt > now)
      | none => false)

end rwLocker

/-- The steps that change an `rwLocker`: an attempt of `lock` or of `rLock` (the methods
`Lock` and `RLock` repeat the attempt until a token is issued or the acquire timeout has
passed), the first statement `atomic.AddInt32(&l.writeIntention, 1)` of `Lock` and its
deferred counterpart, `Unlock` and `RUnlock`. -/
inductive Call where
  | lock (now now' hold : Int)
  | rLock (now now' hold : Int)
  | intend
  | unintend
  | unlock (token : Token)
  | rUnlock (token : Token) (now : Int)
deriving DecidableEq

/-- One step: the token issued by a successful attempt, if the step is one, and the locker
after the step. -/
def step (l : rwLocker) : Call → Option Token × rwLocker
  | Call.lock now now' hold =>
    let r := l.lock now now' hold
    (if r.1 = 0 then none else some r.1, r.2)
  | Call.rLock now now' hold =>
    let r := l.rLock now now' hold
    (if r.1 = 0 then none else some r.1, r.2)
  | Call.intend => (none, { l with writeIntention := l.writeIntention + 1 })
  | Call.unintend => (none, { l with writeIntention := l.writeIntention - 1 })
  | Call.unlock token => (none, (l.Unlock token).2)
  | Call.rUnlock token now => (none, (l.RUnlock token now).2)

/-- A sequence of steps from a locker: the tokens issued, in order, and the locker at the
end. -/
def run : rwLocker → List Call → List Token × rwLocker
  | l, [] => ([], l)
  | l, c :: calls =>
    let r := step l c
    let rest := run r.2 calls
    ((match r.1 with
      | some token => token :: rest.1
      | none => rest.1), rest.2)

/-- An unexpired write token at the instant `now`: the first disjunct of `Acquired`. -/
def writeHeld (l : rwLocker) (tk : Token) (now : Int) : Prop :=
  l.write = 1 ∧ l.token = tk ∧ l.expireAt > now

/-- An unexpired read token at the instant `now`: the second disjunct of `Acquired`. -/
def readHeld (l : rwLocker) (tk : Token) (now : Int) : Prop :=
  ∃ expireAt, mapLookup l.readTokens tk = some expireAt ∧ expireAt > now

/-- The steps of the subtest of `TestRWLocker` that reads first and writes second: `RLock`
at 0, a `Lock` that is refused at 1 and at 2, `RUnlock` at 3, `Lock` at 4 and `Unlock`. -/
def readThenWrite : List Call :=
  [Call.rLock 0 0 10, Call.intend, Call.lock 1 1 10, Call.lock 2 2 10, Call.unintend,
    Call.rUnlock 1 3, Call.intend, Call.lock 4 4 10, Call.unintend, Call.unlock 2]

/-- The consistency of a locker: while the write flag is set there is no read token. -/
def Exclusive (l : rwLocker) : Prop :=
  l.write = 1 → l.readTokens = []

end lock

namespace zset

/-! ## The order of the index -/

theorem nodeLt_irrefl (a : skiplistNode) : ¬ nodeLt a a := by
  intro h
  rcases h with h | ⟨_, h⟩
  · exact lt_irrefl _ h
  · exact lt_irrefl _ h

theorem nodeLt_trans {a b c : skiplistNode} (hab : nodeLt a b) (hbc : nodeLt b c) :
    nodeLt a c := by
  rcases hab with h1 | ⟨e1, h1⟩
  · rcases hbc with h2 | ⟨e2, _⟩
    · exact Or.inl (lt_trans h1 h2)
    · exact Or.inl (e2 ▸ h1)
  · rcases hbc with h2 | ⟨e2, h2⟩
    · exact Or.inl (e1 ▸ h2)
    · exact Or.inr ⟨e1.trans e2, lt_trans h1 h2⟩

theorem nodeLt_asymm {a b : skiplistNode} (hab : nodeLt a b) : ¬ nodeLt b a :=
  fun hba => nodeLt_irrefl a (nodeLt_trans hab hba)

theorem nodeLt_ne {a b : skiplistNode} (hab : nodeLt a b) : a ≠ b := by
  intro h
  subst h
  exact nodeLt_irrefl a hab

theorem nodeLt_total {a b : skiplistNode} (h1 : ¬ nodeLt a b) (h2 : a ≠ b) : nodeLt b a := by
  rcases lt_trichotomy a.score b.score with h | h | h
  · exact absurd (Or.inl h) h1
  · rcases lt_trichotomy a.obj.toList b.obj.toList with g | g | g
    · exact absurd (Or.inr ⟨h, g⟩) h1
    · exfalso
      apply h2
      cases a with
      | mk sa oa =>
        cases b with
        | mk sb ob =>
          simp only at h g
          have : oa = ob := String.ext g
          rw [h, this]
    · exact Or.inr ⟨h.symm, g⟩
  · exact Or.inl h

/-! ## The level-0 chain under insertion and deletion -/

theorem mem_insertNode (x a : skiplistNode) (l : List skiplistNode) :
    a ∈ insertNode x l ↔ a = x ∨ a ∈ l := by
  induction l with
  | nil => simp [insertNode]
  | cons y ys ih =>
    unfold insertNode
    split
    · simp only [List.mem_cons, ih]
      tauto
    · simp only [List.mem_cons]

theorem length_insertNode (x : skiplistNode) (l : List skiplistNode) :
    (insertNode x l).length = l.length + 1 := by
  induction l with
  | nil => simp [insertNode]
  | cons y ys ih =>
    unfold insertNode
    split
    · simp [ih]
    · simp

theorem pairwise_insertNode (x : skiplistNode) (l : List skiplistNode)
    (hs : l.Pairwise nodeLt) (hx : x ∉ l) : (insertNode x l).Pairwise nodeLt := by
  induction l with
  | nil => simp [insertNode]
  | cons y ys ih =>
    have hy := List.pairwise_cons.mp hs
    have hxy : y ≠ x := fun e => hx (e ▸ List.mem_cons_self _ _)
    have hxys : x ∉ ys := fun e => hx (List.mem_cons_of_mem _ e)
    unfold insertNode
    split
    · rename_i hlt
      refine List.pairwise_cons.mpr ⟨?_, ih hy.2 hxys⟩
      intro a ha
      rcases (mem_insertNode x a ys).mp ha with e | e
      · exact e ▸ hlt
      · exact hy.1 a e
    · rename_i hlt
      have hxy' : nodeLt x y := nodeLt_total hlt hxy
      refine List.pairwise_cons.mpr ⟨?_, hs⟩
      intro a ha
      rcases List.mem_cons.mp ha with e | e
      · exact e ▸ hxy'
      · exact nodeLt_trans hxy' (hy.1 a e)

theorem nodup_of_pairwise {l : List skiplistNode} (hs : l.Pairwise nodeLt) : l.Nodup :=
  hs.imp (fun h => nodeLt_ne h)

theorem deleteNode_of_not_mem (x : skiplistNode) (l : List skiplistNode) (hx : x ∉ l) :
    deleteNode x l = none := by
  induction l with
  | nil => rfl
  | cons y ys ih =>
    have hxy : y ≠ x := fun e => hx (e ▸ List.mem_cons_self _ _)
    have hxys : x ∉ ys := fun e => hx (List.mem_cons_of_mem _ e)
    unfold deleteNode
    rw [ih hxys, if_neg hxy]
    simp

theorem deleteNode_of_mem (x : skiplistNode) (l : List skiplistNode)
    (hs : l.Pairwise nodeLt) (hx : x ∈ l) : deleteNode x l = some (l.erase x) := by
  induction l with
  | nil => cases hx
  | cons y ys ih =>
    have hy := List.pairwise_cons.mp hs
    unfold deleteNode
    by_cases hyx : y = x
    · subst hyx
      rw [if_neg (nodeLt_irrefl y), if_pos rfl, List.erase_cons_head]
    · have hxys : x ∈ ys := by
        rcases List.mem_cons.mp hx with e | e
        · exact absurd e.symm hyx
        · exact e
      rw [if_pos (hy.1 x hxys), ih hy.2 hxys, List.erase_cons_tail (by simpa using hyx)]
      rfl

/-! ## The invariant of reachable states -/

theorem insert_erase_tbl (t : Finmap (fun _ : String => float64)) (m : String) (s : float64) :
    (t.erase m).insert m s = t.insert m s := by
  apply Finmap.ext_lookup
  intro x
  by_cases hx : x = m
  · subst hx
    rw [Finmap.lookup_insert, Finmap.lookup_insert]
  · rw [Finmap.lookup_insert_of_ne _ hx, Finmap.lookup_insert_of_ne _ hx,
      Finmap.lookup_erase_ne hx]

theorem slDelete_of_mem (sl : skiplist) (s : float64) (m : String)
    (hs : sl.nodes.Pairwise nodeLt) (hx : (⟨s, m⟩ : skiplistNode) ∈ sl.nodes) :
    slDelete sl s m = (true, { nodes := sl.nodes.erase ⟨s, m⟩, length := sl.length - 1 }) := by
  unfold slDelete
  rw [deleteNode_of_mem _ _ hs hx]

theorem slDelete_of_not_mem (sl : skiplist) (s : float64) (m : String)
    (hx : (⟨s, m⟩ : skiplistNode) ∉ sl.nodes) : slDelete sl s m = (false, sl) := by
  unfold slDelete
  rw [deleteNode_of_not_mem _ _ hx]

theorem Inv_New : Inv New :=
  { len := rfl
    sorted := List.Pairwise.nil
    agree := by
      intro m s
      simp [New, slCreate, Finmap.lookup_empty] }

theorem Rem_of_lookup_none (z : ZSet) (m : String) (h : z.tbl.lookup m = none) :
    z.Rem m = z := by
  unfold ZSet.Rem
  rw [h]

theorem Rem_of_lookup_some (z : ZSet) (m : String) (s : float64) (hz : Inv z)
    (h : z.tbl.lookup m = some s) :
    z.Rem m = { sl := { nodes := z.sl.nodes.erase ⟨s, m⟩, length := z.sl.length - 1 },
                tbl := z.tbl.erase m } := by
  unfold ZSet.Rem
  rw [h]
  simp only
  rw [slDelete_of_mem _ _ _ hz.sorted ((hz.agree m s).mp h)]

theorem Inv_Rem (z : ZSet) (m : String) (hz : Inv z) : Inv (z.Rem m) := by
  cases h : z.tbl.lookup m with
  | none => rw [Rem_of_lookup_none z m h]; exact hz
  | some s =>
    rw [Rem_of_lookup_some z m s hz h]
    have hx : (⟨s, m⟩ : skiplistNode) ∈ z.sl.nodes := (hz.agree m s).mp h
    have hnd := nodup_of_pairwise hz.sorted
    refine ⟨?_, ?_, ?_⟩
    · simp only
      rw [List.length_erase_of_mem hx, hz.len]
    · exact hz.sorted.sublist (List.erase_sublist _ _)
    · intro m' s'
      simp only
      rw [hnd.mem_erase_iff]
      by_cases hm : m' = m
      · subst hm
        rw [Finmap.lookup_erase]
        constructor
        · intro h'; cases h'
        · rintro ⟨hne, hmem⟩
          have := (hz.agree m' s').mpr hmem
          rw [h] at this
          cases this
          exact absurd rfl hne
      · rw [Finmap.lookup_erase_ne hm, hz.agree m' s']
        constructor
        · intro h'
          refine ⟨?_, h'⟩
          intro e
          injection e with _ e2
          exact hm e2
        · exact fun h' => h'.2

theorem Add_of_lookup_none (z : ZSet) (score : float64) (m : String)
    (h : z.tbl.lookup m = none) :
    z.Add score m = { sl := slInsert z.sl score m, tbl := z.tbl.insert m score } := by
  unfold ZSet.Add
  rw [h]

theorem Add_of_lookup_same (z : ZSet) (score : float64) (m : String)
    (h : z.tbl.lookup m = some score) : z.Add score m = z := by
  unfold ZSet.Add
  rw [h]
  simp

theorem Add_of_lookup_other (z : ZSet) (score old : float64) (m : String)
    (h : z.tbl.lookup m = some old) (hne : old ≠ score) :
    z.Add score m = { sl := slInsert (slDelete z.sl old m).2 score m,
                      tbl := z.tbl.insert m score } := by
  unfold ZSet.Add
  rw [h]
  simp [hne]

theorem Add_eq_Add_Rem (z : ZSet) (score old : float64) (m : String)
    (h : z.tbl.lookup m = some old) (hne : old ≠ score) :
    z.Add score m = (z.Rem m).Add score m := by
  have hr : z.Rem m = { sl := (slDelete z.sl old m).2, tbl := z.tbl.erase m } := by
    unfold ZSet.Rem
    rw [h]
  rw [Add_of_lookup_other z score old m h hne, hr, Add_of_lookup_none]
  · simp only
    rw [insert_erase_tbl]
  · exact Finmap.lookup_erase m z.tbl

theorem Inv_Add_absent (z : ZSet) (score : float64) (m : String) (hz : Inv z)
    (h : z.tbl.lookup m = none) : Inv (z.Add score m) := by
  rw [Add_of_lookup_none z score m h]
  have hx : (⟨score, m⟩ : skiplistNode) ∉ z.sl.nodes := by
    intro hmem
    have := (hz.agree m score).mpr hmem
    rw [h] at this
    cases this
  refine ⟨?_, ?_, ?_⟩
  · simp only [slInsert]
    rw [length_insertNode, hz.len]
  · exact pairwise_insertNode _ _ hz.sorted hx
  · intro m' s'
    simp only [slInsert]
    rw [mem_insertNode]
    by_cases hm : m' = m
    · subst hm
      rw [Finmap.lookup_insert]
      constructor
      · intro e
        cases e
        exact Or.inl rfl
      · rintro (e | e)
        · injection e with e1 _
          rw [e1]
        · have := (hz.agree m' s').mpr e
          rw [h] at this
          cases this
    · rw [Finmap.lookup_insert_of_ne _ hm, hz.agree m' s']
      constructor
      · exact fun h' => Or.inr h'
      · rintro (e | e)
        · injection e with _ e2
          exact absurd e2 hm
        · exact e

theorem Inv_Add (z : ZSet) (score : float64) (m : String) (hz : Inv z) :
    Inv (z.Add score m) := by
  cases h : z.tbl.lookup m with
  | none => exact Inv_Add_absent z score m hz h
  | some old =>
    by_cases hne : old = score
    · subst hne
      rw [Add_of_lookup_same z old m h]
      exact hz
    · rw [Add_eq_Add_Rem z score old m h hne]
      apply Inv_Add_absent _ _ _ (Inv_Rem z m hz)
      have hr : z.Rem m = { sl := (slDelete z.sl old m).2, tbl := z.tbl.erase m } := by
        unfold ZSet.Rem
        rw [h]
      rw [hr]
      exact Finmap.lookup_erase m z.tbl

theorem Inv_foldl_Rem (members : List String) (z : ZSet) (hz : Inv z) :
    Inv (members.foldl ZSet.Rem z) := by
  induction members generalizing z with
  | nil => exact hz
  | cons m ms ih => exact ih (z.Rem m) (Inv_Rem z m hz)

theorem Inv_deleteByRank (z : ZSet) (a b : Int) (hz : Inv z) : Inv (z.deleteByRank a b).2 := by
  unfold ZSet.deleteByRank
  exact Inv_foldl_Rem _ z hz

theorem Inv_Limit (z : ZSet) (count : Int) (hz : Inv z) : Inv (z.Limit count).2 := by
  unfold ZSet.Limit
  simp only
  split
  · exact hz
  · exact Inv_deleteByRank z _ _ hz

theorem Inv_RevLimit (z : ZSet) (count : Int) (hz : Inv z) : Inv (z.RevLimit count).2 := by
  unfold ZSet.RevLimit
  simp only
  split
  · exact hz
  · exact Inv_deleteByRank z _ _ hz

theorem Inv_of_Reachable {z : ZSet} (h : Reachable z) : Inv z := by
  induction h with
  | new => exact Inv_New
  | add z score member _ ih => exact Inv_Add z score member ih
  | rem z member _ ih => exact Inv_Rem z member ih
  | limit z count _ ih => exact Inv_Limit z count ih
  | revLimit z count _ ih => exact Inv_RevLimit z count ih

/-! ## The chain and the table of a consistent state -/

theorem lookup_obj_of_mem {z : ZSet} (hz : Inv z) {n : skiplistNode} (hn : n ∈ z.sl.nodes) :
    z.tbl.lookup n.obj = some n.score :=
  (hz.agree n.obj n.score).mpr hn

theorem obj_injOn {z : ZSet} (hz : Inv z) {a b : skiplistNode} (ha : a ∈ z.sl.nodes)
    (hb : b ∈ z.sl.nodes) (hab : a.obj = b.obj) : a = b := by
  have h1 := lookup_obj_of_mem hz ha
  have h2 := lookup_obj_of_mem hz hb
  rw [hab, h2] at h1
  cases a with
  | mk sa oa =>
    cases b with
    | mk sb ob =>
      simp only at hab h1
      cases h1
      rw [hab]

theorem members_nodup {z : ZSet} (hz : Inv z) : (z.sl.nodes.map skiplistNode.obj).Nodup :=
  List.Nodup.map_on (fun _ ha _ hb hab => obj_injOn hz ha hb hab) (nodup_of_pairwise hz.sorted)

theorem mem_members_iff {z : ZSet} (hz : Inv z) (m : String) :
    m ∈ z.sl.nodes.map skiplistNode.obj ↔ m ∈ z.tbl := by
  rw [Finmap.mem_iff, List.mem_map]
  constructor
  · rintro ⟨n, hn, rfl⟩
    exact ⟨n.score, lookup_obj_of_mem hz hn⟩
  · rintro ⟨s, hs⟩
    exact ⟨⟨s, m⟩, (hz.agree m s).mp hs, rfl⟩

theorem card_keys_eq_length {z : ZSet} (hz : Inv z) : z.tbl.keys.card = z.sl.nodes.length := by
  have h : z.tbl.keys = (z.sl.nodes.map skiplistNode.obj).toFinset := by
    ext m
    rw [Finmap.mem_keys, List.mem_toFinset, mem_members_iff hz]
  rw [h, List.toFinset_card_of_nodup (members_nodup hz), List.length_map]

theorem filter_eq_singleton (p : skiplistNode → Bool) (x : skiplistNode)
    (l : List skiplistNode) (hnd : l.Nodup) (hx : x ∈ l) (hp : p x = true)
    (huniq : ∀ a ∈ l, p a = true → a = x) : l.filter p = [x] := by
  induction l with
  | nil => cases hx
  | cons y ys ih =>
    have hy := List.nodup_cons.mp hnd
    by_cases hyx : y = x
    · subst hyx
      have hnone : ys.filter p = [] := by
        rw [List.filter_eq_nil_iff]
        intro a ha hpa
        have := huniq a (List.mem_cons_of_mem _ ha) hpa
        exact hy.1 (this ▸ ha)
      rw [List.filter_cons_of_pos hp, hnone]
    · have hpy : ¬ p y = true := fun h => hyx (huniq y (List.mem_cons_self _ _) h)
      have hxys : x ∈ ys := by
        rcases List.mem_cons.mp hx with e | e
        · exact absurd e.symm hyx
        · exact e
      rw [List.filter_cons_of_neg hpy]
      exact ih hy.2 hxys (fun a ha => huniq a (List.mem_cons_of_mem _ ha))

theorem filter_obj_eq {z : ZSet} (hz : Inv z) (m : String) (s : float64)
    (h : z.tbl.lookup m = some s) :
    z.sl.nodes.filter (fun n => decide (n.obj = m)) = [⟨s, m⟩] := by
  have hx : (⟨s, m⟩ : skiplistNode) ∈ z.sl.nodes := (hz.agree m s).mp h
  apply filter_eq_singleton _ _ _ (nodup_of_pairwise hz.sorted) hx
  · simp
  · intro a ha hpa
    exact obj_injOn hz ha hx (by simpa using hpa)

/-! ## The window of all ranks -/

theorem rangeLoop_forward (k : Nat) (behind : List skiplistNode) (y : skiplistNode)
    (ys : List skiplistNode) :
    ZSet.rangeLoop 0 k (some ⟨behind, y, ys⟩) = ((y :: ys).take k).map skiplistNode.obj := by
  induction k generalizing behind y ys with
  | zero => rfl
  | succ k ih =>
    cases ys with
    | nil =>
      cases k with
      | zero => simp [ZSet.rangeLoop, getNextNode]
      | succ k => simp [ZSet.rangeLoop, getNextNode]
    | cons y' ys' =>
      have hn : getNextNode ⟨behind, y, y' :: ys'⟩ 0 = some ⟨y :: behind, y', ys'⟩ := by
        simp [getNextNode]
      rw [ZSet.rangeLoop, hn, ih]
      simp

theorem Range_all {z : ZSet} (hz : Inv z) :
    z.Range 1 z.Count = z.sl.nodes.map skiplistNode.obj := by
  unfold ZSet.Range ZSet.Count
  rw [hz.len]
  cases hn : z.sl.nodes with
  | nil => simp
  | cons y ys =>
    have h1 : ¬ ((1 : Int) < 1 ∨ (((y :: ys).length : Nat) : Int) < 1) := by
      simp only [List.length_cons]
      omega
    have h2 : (1 : Int) ≤ (((y :: ys).length : Nat) : Int) := by
      simp only [List.length_cons]
      omega
    rw [if_neg h1]
    simp only [if_pos h2]
    have h3 : ((((y :: ys).length : Nat) : Int) - 1 + 1).toNat = (y :: ys).length := by
      omega
    rw [h3]
    have h4 : slGetNodeByRank z.sl (1 : Int).toNat = some ⟨[], y, ys⟩ := by
      simp [slGetNodeByRank, hn, nodeAtRank]
    rw [h4, rangeLoop_forward, List.take_length]

theorem Score_of_mem {z : ZSet} (hz : Inv z) {n : skiplistNode} (hn : n ∈ z.sl.nodes) :
    z.Score n.obj = (n.score, true) := by
  unfold ZSet.Score
  rw [lookup_obj_of_mem hz hn]

theorem reachable_scenarioA : Reachable scenarioA :=
  Reachable.add _ _ _ (Reachable.add _ _ _ Reachable.new)

theorem reachable_scenarioB : Reachable scenarioB :=
  Reachable.add _ _ _ (Reachable.add _ _ _ (Reachable.add _ _ _ Reachable.new))

/-- C1: in every state reachable from `New()` by `Add`, `Rem`, `Limit` and `RevLimit`,
`Count()` equals the number of entries of the member table and the length of the score
index (the number of nodes of its chain); `New()` itself has count 0. -/
theorem C1_count_eq_table_eq_index (z : ZSet) (h : Reachable z) :
    z.Count = (z.tbl.keys.card : Int) ∧ z.Count = (z.sl.nodes.length : Int) ∧
      New.Count = 0 := by
  have hz := Inv_of_Reachable h
  refine ⟨?_, ?_, rfl⟩
  · unfold ZSet.Count
    rw [hz.len, card_keys_eq_length hz]
  · unfold ZSet.Count
    rw [hz.len]

theorem C1_count_eq_table_eq_index_witness :
    Reachable scenarioA ∧
      (scenarioA.Count = (scenarioA.tbl.keys.card : Int) ∧
        scenarioA.Count = (scenarioA.sl.nodes.length : Int) ∧ New.Count = 0) :=
  ⟨reachable_scenarioA, C1_count_eq_table_eq_index scenarioA reachable_scenarioA⟩

/-- C2: in every reachable state the index and the table agree: a member of the table is
held by exactly one index node, whose score is the table's score for the member, and every
index node holds a member of the table (with the node's score). -/
theorem C2_index_table_agree (z : ZSet) (h : Reachable z) :
    (∀ m, m ∈ z.tbl → ∃ s, z.tbl.lookup m = some s ∧
        z.sl.nodes.filter (fun n => decide (n.obj = m)) = [⟨s, m⟩]) ∧
      (∀ n, n ∈ z.sl.nodes → n.obj ∈ z.tbl ∧ z.tbl.lookup n.obj = some n.score) := by
  have hz := Inv_of_Reachable h
  constructor
  · intro m hm
    obtain ⟨s, hs⟩ := Finmap.mem_iff.mp hm
    exact ⟨s, hs, filter_obj_eq hz m s hs⟩
  · intro n hn
    have := lookup_obj_of_mem hz hn
    exact ⟨Finmap.mem_iff.mpr ⟨_, this⟩, this⟩

theorem C2_index_table_agree_witness :
    Reachable scenarioA ∧
      ((∀ m, m ∈ scenarioA.tbl → ∃ s, scenarioA.tbl.lookup m = some s ∧
          scenarioA.sl.nodes.filter (fun n => decide (n.obj = m)) = [⟨s, m⟩]) ∧
        (∀ n, n ∈ scenarioA.sl.nodes →
          n.obj ∈ scenarioA.tbl ∧ scenarioA.tbl.lookup n.obj = some n.score)) :=
  ⟨reachable_scenarioA, C2_index_table_agree scenarioA reachable_scenarioA⟩

/-- C3: in every reachable state with `n = Count()`, `Range(1, n)` has `n` entries, lists
every member of the table and no member twice, and the members at two consecutive ranks
have ascending scores, with ascending (lexicographic) members when the scores are equal. -/
theorem C3_range_all_ascending (z : ZSet) (h : Reachable z) :
    ((z.Range 1 z.Count).length : Int) = z.Count ∧
      (z.Range 1 z.Count).Nodup ∧
      (∀ m, m ∈ z.Range 1 z.Count ↔ m ∈ z.tbl) ∧
      ∀ (i : Nat) (a b : String), (z.Range 1 z.Count)[i]? = some a →
        (z.Range 1 z.Count)[i + 1]? = some b →
        (z.Score a).2 = true ∧ (z.Score b).2 = true ∧ (z.Score a).1 ≤ (z.Score b).1 ∧
          ((z.Score a).1 = (z.Score b).1 → a < b) := by
  have hz := Inv_of_Reachable h
  rw [Range_all hz]
  refine ⟨?_, members_nodup hz, mem_members_iff hz, ?_⟩
  · unfold ZSet.Count
    rw [List.length_map, hz.len]
  · intro i a b ha hb
    rw [List.getElem?_map, Option.map_eq_some'] at ha hb
    obtain ⟨na, hna, rfl⟩ := ha
    obtain ⟨nb, hnb, rfl⟩ := hb
    obtain ⟨hi, hia⟩ := List.getElem?_eq_some.mp hna
    obtain ⟨hj, hjb⟩ := List.getElem?_eq_some.mp hnb
    have hlt : nodeLt na nb := by
      have := (List.pairwise_iff_getElem.mp hz.sorted) i (i + 1) hi hj (Nat.lt_succ_self i)
      rw [hia, hjb] at this
      exact this
    rw [Score_of_mem hz (hia ▸ List.getElem_mem _), Score_of_mem hz (hjb ▸ List.getElem_mem _)]
    refine ⟨rfl, rfl, ?_, ?_⟩
    · rcases hlt with h1 | ⟨h1, _⟩
      · exact le_of_lt h1
      · exact le_of_eq h1
    · intro he
      rcases hlt with h1 | ⟨_, h1⟩
      · exact absurd he (ne_of_lt h1)
      · exact String.lt_iff_toList_lt.mpr h1

theorem C3_range_all_ascending_witness :
    Reachable scenarioA ∧
      (((scenarioA.Range 1 scenarioA.Count).length : Int) = scenarioA.Count ∧
        (scenarioA.Range 1 scenarioA.Count).Nodup ∧
        (∀ m, m ∈ scenarioA.Range 1 scenarioA.Count ↔ m ∈ scenarioA.tbl) ∧
        ∀ (i : Nat) (a b : String), (scenarioA.Range 1 scenarioA.Count)[i]? = some a →
          (scenarioA.Range 1 scenarioA.Count)[i + 1]? = some b →
          (scenarioA.Score a).2 = true ∧ (scenarioA.Score b).2 = true ∧
            (scenarioA.Score a).1 ≤ (scenarioA.Score b).1 ∧
            ((scenarioA.Score a).1 = (scenarioA.Score b).1 → a < b)) :=
  ⟨reachable_scenarioA, C3_range_all_ascending scenarioA reachable_scenarioA⟩

/-! ## `Add` and the table -/

theorem lookup_Add_self (z : ZSet) (s : float64) (m : String) :
    (z.Add s m).tbl.lookup m = some s := by
  cases h : z.tbl.lookup m with
  | none =>
    rw [Add_of_lookup_none z s m h]
    exact Finmap.lookup_insert _
  | some old =>
    by_cases hne : old = s
    · subst hne
      rw [Add_of_lookup_same z old m h]
      exact h
    · rw [Add_of_lookup_other z s old m h hne]
      exact Finmap.lookup_insert _

theorem lookup_Add_other (z : ZSet) (s : float64) (m m' : String) (hm : m' ≠ m) :
    (z.Add s m).tbl.lookup m' = z.tbl.lookup m' := by
  cases h : z.tbl.lookup m with
  | none =>
    rw [Add_of_lookup_none z s m h]
    exact Finmap.lookup_insert_of_ne _ hm
  | some old =>
    by_cases hne : old = s
    · subst hne
      rw [Add_of_lookup_same z old m h]
    · rw [Add_of_lookup_other z s old m h hne]
      exact Finmap.lookup_insert_of_ne _ hm

theorem Score_eq_iff (z : ZSet) (m : String) (s : float64) :
    z.Score m = (s, true) ↔ z.tbl.lookup m = some s := by
  unfold ZSet.Score
  cases z.tbl.lookup m with
  | none => simp
  | some s' => simp

/-- C4: round trip: in every state, for every score `s` and member `m` (absent or present
with any score), after `Add(s, m)` the call `Score(m)` returns `(s, true)`. -/
theorem C4_add_then_score (z : ZSet) (s : float64) (m : String) :
    (z.Add s m).Score m = (s, true) :=
  (Score_eq_iff _ m s).mpr (lookup_Add_self z s m)

/-- C5: update: when `m` is present with score `s1` in a reachable state and `s2 ≠ s1`,
`Add(s2, m)` leaves `Count()` unchanged, makes `Score(m)` return `(s2, true)` and leaves
exactly one index node for `m`, with score `s2`; the old node `(s1, m)` is found and
unlinked by the delete, and the new index is the insert of `(s2, m)` into what is left. -/
theorem C5_add_changes_score (z : ZSet) (h : Reachable z) (m : String) (s1 s2 : float64)
    (hm : z.Score m = (s1, true)) (hne : s2 ≠ s1) :
    (z.Add s2 m).Count = z.Count ∧
      (z.Add s2 m).Score m = (s2, true) ∧
      (z.Add s2 m).sl.nodes.filter (fun n => decide (n.obj = m)) = [⟨s2, m⟩] ∧
      (slDelete z.sl s1 m).1 = true ∧
      (∀ n, n ∈ (slDelete z.sl s1 m).2.nodes → n.obj ≠ m) ∧
      (z.Add s2 m).sl = slInsert (slDelete z.sl s1 m).2 s2 m := by
  have hz := Inv_of_Reachable h
  have hl : z.tbl.lookup m = some s1 := (Score_eq_iff z m s1).mp hm
  have hx : (⟨s1, m⟩ : skiplistNode) ∈ z.sl.nodes := (hz.agree m s1).mp hl
  have hz' : Inv (z.Add s2 m) := Inv_Add z s2 m hz
  have hd := slDelete_of_mem z.sl s1 m hz.sorted hx
  have hadd := Add_of_lookup_other z s2 s1 m hl (Ne.symm hne)
  refine ⟨?_, (Score_eq_iff _ m s2).mpr (lookup_Add_self z s2 m), filter_obj_eq hz' m s2 (lookup_Add_self z s2 m),
    ?_, ?_, ?_⟩
  · rw [hadd, hd]
    have hpos : 0 < z.sl.nodes.length := List.length_pos_of_mem hx
    unfold ZSet.Count
    simp only [slInsert]
    rw [hz.len]
    omega
  · rw [hd]
  · intro n hn hobj
    rw [hd] at hn
    simp only at hn
    have hnd := nodup_of_pairwise hz.sorted
    rw [hnd.mem_erase_iff] at hn
    exact hn.1 (obj_injOn hz hn.2 hx hobj)
  · rw [hadd]

theorem C5_add_changes_score_witness :
    Reachable scenarioA ∧ scenarioA.Score "12" = (1, true) ∧ (2 : float64) ≠ 1 ∧
      ((scenarioA.Add 2 "12").Count = scenarioA.Count ∧
        (scenarioA.Add 2 "12").Score "12" = (2, true) ∧
        (scenarioA.Add 2 "12").sl.nodes.filter (fun n => decide (n.obj = "12")) =
          [⟨2, "12"⟩] ∧
        (slDelete scenarioA.sl 1 "12").1 = true ∧
        (∀ n, n ∈ (slDelete scenarioA.sl 1 "12").2.nodes → n.obj ≠ "12") ∧
        (scenarioA.Add 2 "12").sl = slInsert (slDelete scenarioA.sl 1 "12").2 2 "12") :=
  ⟨reachable_scenarioA, by decide, by decide,
    C5_add_changes_score scenarioA reachable_scenarioA "12" 1 2 (by decide) (by decide)⟩

/-- C6: idempotence: in every state, performing `Add(s, m)` a second time with the same `s`
changes nothing: the state (index and table) is the one after the first `Add(s, m)`, and so
are `Count()` and `Rank(m)`. -/
theorem C6_add_twice (z : ZSet) (s : float64) (m : String) :
    (z.Add s m).Add s m = z.Add s m ∧
      ((z.Add s m).Add s m).sl = (z.Add s m).sl ∧
      ((z.Add s m).Add s m).tbl = (z.Add s m).tbl ∧
      ((z.Add s m).Add s m).Count = (z.Add s m).Count ∧
      ((z.Add s m).Add s m).Rank m = (z.Add s m).Rank m := by
  have h : (z.Add s m).Add s m = z.Add s m :=
    Add_of_lookup_same (z.Add s m) s m (lookup_Add_self z s m)
  refine ⟨h, ?_, ?_, ?_, ?_⟩ <;> rw [h]

/-- C7: fresh insert and frame: in every state, `Add(s, m)` for a member `m` that is not
present increases `Count()` by exactly 1, and, whether `m` was present or not, `Score(m')`
returns the same pair as before for every other member `m'`. -/
theorem C7_add_fresh_and_frame (z : ZSet) (s : float64) (m : String) :
    (m ∉ z.tbl → (z.Add s m).Count = z.Count + 1) ∧
      (∀ m', m' ≠ m → (z.Add s m).Score m' = z.Score m') := by
  constructor
  · intro hm
    rw [Add_of_lookup_none z s m (Finmap.lookup_eq_none.mpr hm)]
    unfold ZSet.Count
    simp [slInsert]
  · intro m' hm'
    unfold ZSet.Score
    rw [lookup_Add_other z s m m' hm']

theorem C7_add_fresh_and_frame_witness :
    "99" ∉ scenarioA.tbl ∧ (scenarioA.Add 5 "99").Count = scenarioA.Count + 1 ∧
      (scenarioA.Add 5 "99").Score "12" = scenarioA.Score "12" ∧
      (scenarioA.Add 5 "12").Score "32" = scenarioA.Score "32" :=
  ⟨by decide, (C7_add_fresh_and_frame scenarioA 5 "99").1 (by decide),
    (C7_add_fresh_and_frame scenarioA 5 "99").2 "12" (by decide),
    (C7_add_fresh_and_frame scenarioA 5 "12").2 "32" (by decide)⟩

/-! ## Ranks in the chain -/

theorem rankFrom_of_not_mem (x : skiplistNode) (r : Nat) (l : List skiplistNode)
    (hx : x ∉ l) : rankFrom x r l = 0 := by
  induction l generalizing r with
  | nil => rfl
  | cons y ys ih =>
    have hxy : y ≠ x := fun e => hx (e ▸ List.mem_cons_self _ _)
    have hxys : x ∉ ys := fun e => hx (List.mem_cons_of_mem _ e)
    unfold rankFrom
    rw [ih _ hxys, if_neg hxy]
    simp

theorem rankFrom_bounds (x : skiplistNode) (r : Nat) (l : List skiplistNode)
    (hs : l.Pairwise nodeLt) (hx : x ∈ l) :
    r + 1 ≤ rankFrom x r l ∧ rankFrom x r l ≤ r + l.length := by
  induction l generalizing r with
  | nil => cases hx
  | cons y ys ih =>
    have hy := List.pairwise_cons.mp hs
    unfold rankFrom
    by_cases hyx : y = x
    · subst hyx
      rw [if_neg (nodeLt_irrefl y), if_pos rfl]
      simp only [List.length_cons]
      omega
    · have hxys : x ∈ ys := by
        rcases List.mem_cons.mp hx with e | e
        · exact absurd e.symm hyx
        · exact e
      rw [if_pos (hy.1 x hxys)]
      have := ih (r + 1) hy.2 hxys
      simp only [List.length_cons]
      omega

theorem rankFrom_lt_iff (x1 x2 : skiplistNode) (r : Nat) (l : List skiplistNode)
    (hs : l.Pairwise nodeLt) (h1 : x1 ∈ l) (h2 : x2 ∈ l) :
    rankFrom x1 r l < rankFrom x2 r l ↔ nodeLt x1 x2 := by
  induction l generalizing r with
  | nil => cases h1
  | cons y ys ih =>
    have hy := List.pairwise_cons.mp hs
    by_cases e1 : y = x1
    · by_cases e2 : y = x2
      · subst e1
        subst e2
        constructor
        · intro h; exact absurd h (lt_irrefl _)
        · intro h; exact absurd h (nodeLt_irrefl y)
      · subst e1
        have h2' : x2 ∈ ys := by
          rcases List.mem_cons.mp h2 with e | e
          · exact absurd e.symm e2
          · exact e
        have hlt := hy.1 x2 h2'
        have hb := rankFrom_bounds x2 (r + 1) ys hy.2 h2'
        have hr1 : rankFrom y r (y :: ys) = r + 1 := by
          unfold rankFrom
          rw [if_neg (nodeLt_irrefl y), if_pos rfl]
        have hr2 : rankFrom x2 r (y :: ys) = rankFrom x2 (r + 1) ys := by
          conv_lhs => unfold rankFrom
          rw [if_pos hlt]
        rw [hr1, hr2]
        constructor
        · intro _; exact hlt
        · intro _; omega
    · have h1' : x1 ∈ ys := by
        rcases List.mem_cons.mp h1 with e | e
        · exact absurd e.symm e1
        · exact e
      have hlt1 := hy.1 x1 h1'
      have hr1 : rankFrom x1 r (y :: ys) = rankFrom x1 (r + 1) ys := by
        conv_lhs => unfold rankFrom
        rw [if_pos hlt1]
      by_cases e2 : y = x2
      · subst e2
        have hb := rankFrom_bounds x1 (r + 1) ys hy.2 h1'
        have hr2 : rankFrom y r (y :: ys) = r + 1 := by
          unfold rankFrom
          rw [if_neg (nodeLt_irrefl y), if_pos rfl]
        rw [hr1, hr2]
        constructor
        · intro h; omega
        · intro h; exact absurd hlt1 (nodeLt_asymm h)
      · have h2' : x2 ∈ ys := by
          rcases List.mem_cons.mp h2 with e | e
          · exact absurd e.symm e2
          · exact e
        have hlt2 := hy.1 x2 h2'
        have hr2 : rankFrom x2 r (y :: ys) = rankFrom x2 (r + 1) ys := by
          conv_lhs => unfold rankFrom
          rw [if_pos hlt2]
        rw [hr1, hr2]
        exact ih (r + 1) hy.2 h1' h2'

theorem Rank_of_lookup_some (z : ZSet) (m : String) (s : float64)
    (h : z.tbl.lookup m = some s) : z.Rank m = (rankFrom ⟨s, m⟩ 0 z.sl.nodes : Int) := by
  unfold ZSet.Rank
  rw [h]
  rfl

theorem Rank_of_lookup_none (z : ZSet) (m : String) (h : z.tbl.lookup m = none) :
    z.Rank m = 0 := by
  unfold ZSet.Rank
  rw [h]

theorem Rank_bounds {z : ZSet} (hz : Inv z) (m : String) (hm : m ∈ z.tbl) :
    1 ≤ z.Rank m ∧ z.Rank m ≤ z.Count := by
  obtain ⟨s, hs⟩ := Finmap.mem_iff.mp hm
  have hb := rankFrom_bounds ⟨s, m⟩ 0 z.sl.nodes hz.sorted ((hz.agree m s).mp hs)
  rw [Rank_of_lookup_some z m s hs]
  unfold ZSet.Count
  rw [hz.len]
  omega

theorem Rank_lt_iff {z : ZSet} (hz : Inv z) (m1 m2 : String) (s1 s2 : float64)
    (h1 : z.tbl.lookup m1 = some s1) (h2 : z.tbl.lookup m2 = some s2) :
    z.Rank m1 < z.Rank m2 ↔ nodeLt ⟨s1, m1⟩ ⟨s2, m2⟩ := by
  rw [Rank_of_lookup_some z m1 s1 h1, Rank_of_lookup_some z m2 s2 h2, Nat.cast_lt]
  exact rankFrom_lt_iff _ _ 0 _ hz.sorted ((hz.agree m1 s1).mp h1) ((hz.agree m2 s2).mp h2)

theorem map_obj_erase (m : String) (x : skiplistNode) (l : List skiplistNode)
    (hxm : x.obj = m) (hnd : l.Nodup) (huniq : ∀ a ∈ l, a.obj = m → a = x) :
    (l.erase x).map skiplistNode.obj =
      (l.map skiplistNode.obj).filter (fun m' => decide (m' ≠ m)) := by
  induction l with
  | nil => rfl
  | cons y ys ih =>
    have hy := List.nodup_cons.mp hnd
    have hu : ∀ a ∈ ys, a.obj = m → a = x := fun a ha => huniq a (List.mem_cons_of_mem _ ha)
    by_cases hyx : y = x
    · subst hyx
      rw [List.erase_cons_head, List.map_cons, List.filter_cons_of_neg (by simp [hxm])]
      symm
      rw [List.filter_eq_self]
      intro a ha
      obtain ⟨n, hn, rfl⟩ := List.mem_map.mp ha
      have : n.obj ≠ m := fun e => hy.1 (hu n hn e ▸ hn)
      simpa using this
    · have hym : y.obj ≠ m := fun e => hyx (huniq y (List.mem_cons_self _ _) e)
      rw [List.erase_cons_tail (by simpa using hyx), List.map_cons, List.map_cons,
        List.filter_cons_of_pos (by simpa using hym), ih hy.2 hu]

/-! ## `Rem` and the queries for a missing member -/

theorem wrapInt_of_range (x : Int) (h1 : -9223372036854775808 ≤ x)
    (h2 : x < 9223372036854775808) : wrapInt x = x := by
  unfold wrapInt
  omega

/-- C8: remove of a present member: when `m` is present in a reachable state, after `Rem(m)`
`Count()` is smaller by exactly 1, `Score(m)` reports not found, `Rank(m)` is 0, every other
member keeps its score, and the other members keep their relative order: their ranks compare
as before, and the ascending listing of all members is the former one without `m`. -/
theorem C8_rem_present (z : ZSet) (h : Reachable z) (m : String) (hm : m ∈ z.tbl) :
    (z.Rem m).Count = z.Count - 1 ∧
      (z.Rem m).Score m = (0, false) ∧
      (z.Rem m).Rank m = 0 ∧
      (∀ m', m' ≠ m → (z.Rem m).Score m' = z.Score m') ∧
      (∀ m1 m2, m1 ≠ m → m2 ≠ m → m1 ∈ z.tbl → m2 ∈ z.tbl →
        ((z.Rem m).Rank m1 < (z.Rem m).Rank m2 ↔ z.Rank m1 < z.Rank m2)) ∧
      (z.Rem m).Range 1 (z.Rem m).Count =
        (z.Range 1 z.Count).filter (fun m' => decide (m' ≠ m)) := by
  have hz := Inv_of_Reachable h
  have hz' : Inv (z.Rem m) := Inv_Rem z m hz
  obtain ⟨s, hs⟩ := Finmap.mem_iff.mp hm
  have hx : (⟨s, m⟩ : skiplistNode) ∈ z.sl.nodes := (hz.agree m s).mp hs
  have hr := Rem_of_lookup_some z m s hz hs
  have htbl : (z.Rem m).tbl = z.tbl.erase m := by rw [hr]
  have hnodes : (z.Rem m).sl.nodes = z.sl.nodes.erase ⟨s, m⟩ := by rw [hr]
  have hself : (z.Rem m).tbl.lookup m = none := by
    rw [htbl]
    exact Finmap.lookup_erase m z.tbl
  have hother : ∀ m', m' ≠ m → (z.Rem m).tbl.lookup m' = z.tbl.lookup m' := by
    intro m' hm'
    rw [htbl]
    exact Finmap.lookup_erase_ne hm'
  refine ⟨?_, ?_, Rank_of_lookup_none _ m hself, ?_, ?_, ?_⟩
  · have hpos : 0 < z.sl.nodes.length := List.length_pos_of_mem hx
    have hlen : (z.Rem m).sl.length = z.sl.length - 1 := by rw [hr]
    unfold ZSet.Count
    rw [hlen, hz.len]
    omega
  · unfold ZSet.Score
    rw [hself]
  · intro m' hm'
    unfold ZSet.Score
    rw [hother m' hm']
  · intro m1 m2 hm1 hm2 hp1 hp2
    obtain ⟨s1, hs1⟩ := Finmap.mem_iff.mp hp1
    obtain ⟨s2, hs2⟩ := Finmap.mem_iff.mp hp2
    rw [Rank_lt_iff hz m1 m2 s1 s2 hs1 hs2,
      Rank_lt_iff hz' m1 m2 s1 s2 ((hother m1 hm1).trans hs1) ((hother m2 hm2).trans hs2)]
  · rw [Range_all hz, Range_all hz', hnodes]
    exact map_obj_erase m ⟨s, m⟩ z.sl.nodes rfl (nodup_of_pairwise hz.sorted)
      (fun a ha hobj => obj_injOn hz ha hx hobj)

theorem C8_rem_present_witness :
    Reachable scenarioB ∧ "22" ∈ scenarioB.tbl ∧
      ((scenarioB.Rem "22").Count = scenarioB.Count - 1 ∧
        (scenarioB.Rem "22").Score "22" = (0, false) ∧
        (scenarioB.Rem "22").Rank "22" = 0 ∧
        (∀ m', m' ≠ "22" → (scenarioB.Rem "22").Score m' = scenarioB.Score m') ∧
        (∀ m1 m2, m1 ≠ "22" → m2 ≠ "22" → m1 ∈ scenarioB.tbl → m2 ∈ scenarioB.tbl →
          ((scenarioB.Rem "22").Rank m1 < (scenarioB.Rem "22").Rank m2 ↔
            scenarioB.Rank m1 < scenarioB.Rank m2)) ∧
        (scenarioB.Rem "22").Range 1 (scenarioB.Rem "22").Count =
          (scenarioB.Range 1 scenarioB.Count).filter (fun m' => decide (m' ≠ "22"))) :=
  ⟨reachable_scenarioB, by decide,
    C8_rem_present scenarioB reachable_scenarioB "22" (by decide)⟩

/-- C9, as the claim states it, fails: `Rem` has no result, so no boolean read from what a
call returns tells the removal of an absent member (`"12"` in the new set) from the removal
of a present one (`"12"` in the state of `TestBase`). -/
theorem C9_rem_reports_nothing :
    ¬ ∃ found : Unit → Bool,
        found (New.RemResult "12") = false ∧ found (scenarioA.RemResult "12") = true := by
  rintro ⟨found, h1, h2⟩
  have : New.RemResult "12" = scenarioA.RemResult "12" := rfl
  rw [this, h2] at h1
  cases h1

/-- C9, amended: remove of an absent member: in every state, for a member `m` that is not
present, `Rem(m)` is a no-op: the state (index and table) is unchanged, and so are `Count()`,
every `Score` and every `Rank`; the call returns nothing to the caller. -/
theorem C9_rem_absent_noop (z : ZSet) (m : String) (hm : m ∉ z.tbl) :
    z.Rem m = z ∧ (z.Rem m).sl = z.sl ∧ (z.Rem m).tbl = z.tbl ∧
      (z.Rem m).Count = z.Count ∧
      (∀ m', (z.Rem m).Score m' = z.Score m') ∧
      (∀ m', (z.Rem m).Rank m' = z.Rank m') ∧
      z.RemResult m = () := by
  have h : z.Rem m = z := Rem_of_lookup_none z m (Finmap.lookup_eq_none.mpr hm)
  refine ⟨h, ?_, ?_, ?_, ?_, ?_, rfl⟩
  · rw [h]
  · rw [h]
  · rw [h]
  · intro m'; rw [h]
  · intro m'; rw [h]

theorem C9_rem_absent_noop_witness :
    "99" ∉ scenarioA.tbl ∧
      (scenarioA.Rem "99" = scenarioA ∧ (scenarioA.Rem "99").sl = scenarioA.sl ∧
        (scenarioA.Rem "99").tbl = scenarioA.tbl ∧
        (scenarioA.Rem "99").Count = scenarioA.Count ∧
        (∀ m', (scenarioA.Rem "99").Score m' = scenarioA.Score m') ∧
        (∀ m', (scenarioA.Rem "99").Rank m' = scenarioA.Rank m') ∧
        scenarioA.RemResult "99" = ()) :=
  ⟨by decide, C9_rem_absent_noop scenarioA "99" (by decide)⟩

/-- C10: not-found results: in every state (the empty one included), for a member `m` that is
not present `Score(m)` returns found `false`, `Rank(m)` returns 0 and `RevRank(m)` returns 0;
for a member present in a reachable state (whose count fits a Go `int`), `Score(m)` returns
found `true` and `Rank(m)` and `RevRank(m)` are both at least 1. -/
theorem C10_not_found_results (z : ZSet) (m : String) :
    (m ∉ z.tbl → (z.Score m).2 = false ∧ z.Rank m = 0 ∧ z.RevRank m = 0) ∧
      (Reachable z → z.Count < 9223372036854775808 → m ∈ z.tbl →
        (z.Score m).2 = true ∧ 1 ≤ z.Rank m ∧ 1 ≤ z.RevRank m) := by
  constructor
  · intro hm
    have hl : z.tbl.lookup m = none := Finmap.lookup_eq_none.mpr hm
    have hr : z.Rank m = 0 := Rank_of_lookup_none z m hl
    refine ⟨?_, hr, ?_⟩
    · unfold ZSet.Score
      rw [hl]
    · unfold ZSet.RevRank
      simp [hr]
  · intro h hc hm
    have hz := Inv_of_Reachable h
    obtain ⟨s, hs⟩ := Finmap.mem_iff.mp hm
    have hb := Rank_bounds hz m hm
    refine ⟨?_, hb.1, ?_⟩
    · unfold ZSet.Score
      rw [hs]
    · have hne : z.Rank m ≠ 0 := by omega
      unfold ZSet.RevRank
      simp only [if_pos hne]
      unfold ZSet.reverseRank
      rw [wrapInt_of_range (z.Count - z.Rank m) (by omega) (by omega),
        wrapInt_of_range (z.Count - z.Rank m + 1) (by omega) (by omega)]
      omega

theorem C10_not_found_results_witness :
    ("99" ∉ scenarioA.tbl ∧
        ((scenarioA.Score "99").2 = false ∧ scenarioA.Rank "99" = 0 ∧
          scenarioA.RevRank "99" = 0)) ∧
      (Reachable scenarioA ∧ scenarioA.Count < 9223372036854775808 ∧ "12" ∈ scenarioA.tbl ∧
        ((scenarioA.Score "12").2 = true ∧ 1 ≤ scenarioA.Rank "12" ∧
          1 ≤ scenarioA.RevRank "12")) :=
  ⟨⟨by decide, (C10_not_found_results scenarioA "99").1 (by decide)⟩,
    ⟨reachable_scenarioA, by decide, by decide,
      (C10_not_found_results scenarioA "12").2 reachable_scenarioA (by decide) (by decide)⟩⟩

theorem reachable_scenarioC : Reachable scenarioC :=
  Reachable.add _ _ _ (Reachable.add _ _ _ (Reachable.add _ _ _ Reachable.new))

/-! ## Rank windows in the chain -/

theorem nodeAtRank_succ (behind l : List skiplistNode) (r : Nat) :
    nodeAtRank behind l (r + 1) =
      match l.drop r with
      | [] => none
      | y :: ys => some ⟨(l.take r).reverse ++ behind, y, ys⟩ := by
  induction r generalizing behind l with
  | zero =>
    cases l with
    | nil => rfl
    | cons y ys => simp [nodeAtRank]
  | succ r ih =>
    cases l with
    | nil => rfl
    | cons y ys =>
      rw [nodeAtRank, if_neg (Nat.succ_ne_zero r), ih]
      simp only [List.drop_succ_cons, List.take_succ_cons, List.reverse_cons,
        List.append_assoc, List.singleton_append]

theorem rangeLoop_none (rr : Int) (k : Nat) : ZSet.rangeLoop rr k none = [] := by
  cases k with
  | zero => rfl
  | succ k => rfl

theorem rangeLoop_backward (k : Nat) (behind : List skiplistNode) (y : skiplistNode)
    (ys : List skiplistNode) :
    ZSet.rangeLoop 1 k (some ⟨behind, y, ys⟩) = ((y :: behind).take k).map skiplistNode.obj := by
  induction k generalizing behind y ys with
  | zero => rfl
  | succ k ih =>
    cases behind with
    | nil =>
      cases k with
      | zero => simp [ZSet.rangeLoop, getNextNode]
      | succ k => simp [ZSet.rangeLoop, getNextNode]
    | cons p ps =>
      have hn : getNextNode ⟨p :: ps, y, ys⟩ 1 = some ⟨ps, p, y :: ys⟩ := by
        simp [getNextNode]
      rw [ZSet.rangeLoop, hn, ih]
      simp

theorem Range_ascending_eq (z : ZSet) (r1 r2 : Int) (h1 : 1 ≤ r1) (h12 : r1 ≤ r2) :
    z.Range r1 r2 =
      ((z.sl.nodes.drop (r1 - 1).toNat).take (r2 - r1 + 1).toNat).map skiplistNode.obj := by
  unfold ZSet.Range
  have hg : ¬ (r1 < 1 ∨ r2 < 1) := by omega
  rw [if_neg hg]
  simp only [if_pos h12]
  have hr : r1.toNat = (r1 - 1).toNat + 1 := by omega
  unfold slGetNodeByRank
  rw [hr, nodeAtRank_succ]
  cases hd : z.sl.nodes.drop (r1 - 1).toNat with
  | nil => simp [rangeLoop_none]
  | cons y ys => simp only [rangeLoop_forward]

theorem Range_descending_eq (z : ZSet) (r1 r2 : Int) (h2 : 1 ≤ r2) (h21 : r2 < r1) :
    z.Range r1 r2 =
      if r1 ≤ (z.sl.nodes.length : Int) then
        (((z.sl.nodes.take r1.toNat).reverse).take (r1 - r2 + 1).toNat).map skiplistNode.obj
      else [] := by
  unfold ZSet.Range
  have hg : ¬ (r1 < 1 ∨ r2 < 1) := by omega
  rw [if_neg hg]
  have h12 : ¬ r1 ≤ r2 := by omega
  simp only [if_neg h12]
  have hr : r1.toNat = (r1 - 1).toNat + 1 := by omega
  unfold slGetNodeByRank
  rw [hr, nodeAtRank_succ]
  cases hd : z.sl.nodes.drop (r1 - 1).toNat with
  | nil =>
    have hlen : z.sl.nodes.length ≤ (r1 - 1).toNat := List.drop_eq_nil_iff.mp hd
    have : ¬ r1 ≤ (z.sl.nodes.length : Int) := by omega
    simp [rangeLoop_none, this]
  | cons y ys =>
    have hlen : (r1 - 1).toNat < z.sl.nodes.length := by
      by_contra hc
      have := List.drop_eq_nil_iff.mpr (Nat.le_of_not_lt hc)
      rw [this] at hd
      cases hd
    have hle : r1 ≤ (z.sl.nodes.length : Int) := by omega
    have hy : z.sl.nodes[(r1 - 1).toNat]? = some y := by
      have := List.getElem?_drop z.sl.nodes (r1 - 1).toNat 0
      rw [hd] at this
      simpa using this.symm
    have ht : z.sl.nodes.take ((r1 - 1).toNat + 1) = z.sl.nodes.take (r1 - 1).toNat ++ [y] := by
      rw [List.take_succ, hy]
      rfl
    simp only [rangeLoop_backward, List.append_nil]
    rw [if_pos hle, ht, List.reverse_append]
    rfl

/-! ## Ranks and positions -/

theorem rankFrom_getElem? (x : skiplistNode) (r i : Nat) (l : List skiplistNode)
    (hs : l.Pairwise nodeLt) (hi : l[i]? = some x) : rankFrom x r l = r + i + 1 := by
  induction l generalizing r i with
  | nil => simp at hi
  | cons y ys ih =>
    have hy := List.pairwise_cons.mp hs
    cases i with
    | zero =>
      simp only [List.getElem?_cons_zero, Option.some.injEq] at hi
      subst hi
      unfold rankFrom
      rw [if_neg (nodeLt_irrefl y), if_pos rfl]
    | succ i =>
      simp only [List.getElem?_cons_succ] at hi
      have hmem : x ∈ ys := List.getElem?_mem hi
      unfold rankFrom
      rw [if_pos (hy.1 x hmem), ih (r + 1) i hy.2 hi]
      omega

theorem rankFrom_eq_count (x : skiplistNode) (r : Nat) (l : List skiplistNode)
    (hs : l.Pairwise nodeLt) (hx : x ∈ l) :
    rankFrom x r l = r + (l.filter (fun y => decide (nodeLt y x))).length + 1 := by
  induction l generalizing r with
  | nil => cases hx
  | cons y ys ih =>
    have hy := List.pairwise_cons.mp hs
    unfold rankFrom
    by_cases hyx : y = x
    · subst hyx
      have hnone : ys.filter (fun a => decide (nodeLt a y)) = [] := by
        rw [List.filter_eq_nil_iff]
        intro a ha hlt
        exact nodeLt_asymm (hy.1 a ha) (by simpa using hlt)
      rw [if_neg (nodeLt_irrefl y), if_pos rfl,
        List.filter_cons_of_neg (by simpa using nodeLt_irrefl y), hnone]
      rfl
    · have hxys : x ∈ ys := by
        rcases List.mem_cons.mp hx with e | e
        · exact absurd e.symm hyx
        · exact e
      have hlt := hy.1 x hxys
      rw [if_pos hlt, ih (r + 1) hy.2 hxys, List.filter_cons_of_pos (by simpa using hlt)]
      simp only [List.length_cons]
      omega

theorem Rank_of_getElem? {z : ZSet} (hz : Inv z) (i : Nat) (n : skiplistNode)
    (hi : z.sl.nodes[i]? = some n) : z.Rank n.obj = (i : Int) + 1 := by
  have hmem : n ∈ z.sl.nodes := List.getElem?_mem hi
  rw [Rank_of_lookup_some z n.obj n.score (lookup_obj_of_mem hz hmem),
    rankFrom_getElem? _ 0 i _ hz.sorted hi]
  omega

theorem Rank_eq_zero_iff {z : ZSet} (hz : Inv z) (m : String) : z.Rank m = 0 ↔ m ∉ z.tbl := by
  constructor
  · intro h hm
    have := (Rank_bounds hz m hm).1
    omega
  · intro h
    exact Rank_of_lookup_none z m (Finmap.lookup_eq_none.mpr h)

theorem getElem?_of_Rank {z : ZSet} (hz : Inv z) (m : String) (k : Nat)
    (hk : z.Rank m = (k : Int) + 1) :
    ∃ n, z.sl.nodes[k]? = some n ∧ n.obj = m := by
  have hm : m ∈ z.tbl := by
    by_contra hc
    have := (Rank_eq_zero_iff hz m).mpr hc
    omega
  obtain ⟨s, hs⟩ := Finmap.mem_iff.mp hm
  have hx : (⟨s, m⟩ : skiplistNode) ∈ z.sl.nodes := (hz.agree m s).mp hs
  obtain ⟨i, hi⟩ := List.mem_iff_getElem?.mp hx
  have := Rank_of_getElem? hz i _ hi
  simp only at this
  have hik : i = k := by omega
  subst hik
  exact ⟨_, hi, rfl⟩

theorem Rank_ne_of_ne {z : ZSet} (hz : Inv z) (m m' : String) (hm : m ∈ z.tbl)
    (hm' : m' ∈ z.tbl) (hne : m' ≠ m) : z.Rank m' ≠ z.Rank m := by
  obtain ⟨s, hs⟩ := Finmap.mem_iff.mp hm
  obtain ⟨s', hs'⟩ := Finmap.mem_iff.mp hm'
  have hxne : (⟨s', m'⟩ : skiplistNode) ≠ ⟨s, m⟩ := by
    intro e
    injection e with _ e2
    exact hne e2
  by_cases hlt : nodeLt ⟨s', m'⟩ ⟨s, m⟩
  · exact ne_of_lt ((Rank_lt_iff hz m' m s' s hs' hs).mpr hlt)
  · exact ne_of_gt ((Rank_lt_iff hz m m' s s' hs hs').mpr (nodeLt_total hlt hxne))

theorem keys_eq_toFinset {z : ZSet} (hz : Inv z) :
    z.tbl.keys = (z.sl.nodes.map skiplistNode.obj).toFinset := by
  ext m
  rw [Finmap.mem_keys, List.mem_toFinset, mem_members_iff hz]

theorem card_filter_keys {z : ZSet} (hz : Inv z) (p : String → Bool) :
    (z.tbl.keys.filter (fun m => p m = true)).card =
      (z.sl.nodes.filter (p ∘ skiplistNode.obj)).length := by
  rw [keys_eq_toFinset hz, ← List.toFinset_filter,
    List.toFinset_card_of_nodup ((members_nodup hz).filter _), List.filter_map,
    List.length_map]

/-- C11: `Rank` is the 1-based ascending position: for a member `m` present in a reachable
state, `Rank(m)` is 1 plus the number of members whose score is less than that of `m`, or
equal to it with a lexicographically smaller member; so `1 ≤ Rank(m) ≤ Count()`, and two
distinct members have distinct ranks. -/
theorem C11_rank_is_position (z : ZSet) (h : Reachable z) (m : String) (hm : m ∈ z.tbl) :
    z.Rank m = 1 + ((z.tbl.keys.filter (fun m' =>
        (z.Score m').1 < (z.Score m).1 ∨
          ((z.Score m').1 = (z.Score m).1 ∧ m' < m))).card : Int) ∧
      1 ≤ z.Rank m ∧ z.Rank m ≤ z.Count ∧
      ∀ m', m' ∈ z.tbl → m' ≠ m → z.Rank m' ≠ z.Rank m := by
  have hz := Inv_of_Reachable h
  obtain ⟨s, hs⟩ := Finmap.mem_iff.mp hm
  have hx : (⟨s, m⟩ : skiplistNode) ∈ z.sl.nodes := (hz.agree m s).mp hs
  have hb := Rank_bounds hz m hm
  refine ⟨?_, hb.1, hb.2, fun m' hm' hne => Rank_ne_of_ne hz m m' hm hm' hne⟩
  have hsc : z.Score m = (s, true) := (Score_eq_iff z m s).mpr hs
  rw [Rank_of_lookup_some z m s hs, rankFrom_eq_count _ 0 _ hz.sorted hx, hsc]
  have hcard := card_filter_keys hz
    (fun m' => decide ((z.Score m').1 < s ∨ ((z.Score m').1 = s ∧ m' < m)))
  simp only [decide_eq_true_eq] at hcard
  rw [hcard]
  have hfilter : z.sl.nodes.filter
      ((fun m' => decide ((z.Score m').1 < s ∨ ((z.Score m').1 = s ∧ m' < m))) ∘
        skiplistNode.obj) =
      z.sl.nodes.filter (fun y => decide (nodeLt y ⟨s, m⟩)) := by
    apply List.filter_congr
    intro n hn
    simp only [Function.comp, Score_of_mem hz hn, nodeLt, String.lt_iff_toList_lt]
  rw [hfilter]
  omega

theorem C11_rank_is_position_witness :
    Reachable scenarioB ∧ "22" ∈ scenarioB.tbl ∧
      (scenarioB.Rank "22" = 1 + ((scenarioB.tbl.keys.filter (fun m' =>
          (scenarioB.Score m').1 < (scenarioB.Score "22").1 ∨
            ((scenarioB.Score m').1 = (scenarioB.Score "22").1 ∧ m' < "22"))).card : Int) ∧
        1 ≤ scenarioB.Rank "22" ∧ scenarioB.Rank "22" ≤ scenarioB.Count ∧
        ∀ m', m' ∈ scenarioB.tbl → m' ≠ "22" → scenarioB.Rank m' ≠ scenarioB.Rank "22") :=
  ⟨reachable_scenarioB, by decide,
    C11_rank_is_position scenarioB reachable_scenarioB "22" (by decide)⟩

/-! ## The members of a rank window -/

theorem Count_eq_length {z : ZSet} (hz : Inv z) : z.Count = (z.sl.nodes.length : Int) := by
  unfold ZSet.Count
  rw [hz.len]

theorem Range_below_one (z : ZSet) (r1 r2 : Int) (h : r1 < 1 ∨ r2 < 1) :
    z.Range r1 r2 = [] := by
  unfold ZSet.Range
  rw [if_pos h]

theorem Range_ascending_getElem? (z : ZSet) (r1 r2 : Int) (h1 : 1 ≤ r1) (h12 : r1 ≤ r2)
    (i : Nat) :
    (z.Range r1 r2)[i]? =
      if (i : Int) < r2 - r1 + 1 then
        (z.sl.nodes[(r1 - 1).toNat + i]?).map skiplistNode.obj
      else none := by
  rw [Range_ascending_eq z r1 r2 h1 h12, List.getElem?_map, List.getElem?_take]
  by_cases hi : (i : Int) < r2 - r1 + 1
  · have hi' : i < (r2 - r1 + 1).toNat := by omega
    rw [if_pos hi, if_pos hi', List.getElem?_drop]
  · have hi' : ¬ i < (r2 - r1 + 1).toNat := by omega
    rw [if_neg hi, if_neg hi']
    rfl

theorem Range_ascending_rank {z : ZSet} (hz : Inv z) (r1 r2 : Int) (h1 : 1 ≤ r1)
    (h12 : r1 ≤ r2) (i : Nat) (m : String) (hi : (z.Range r1 r2)[i]? = some m) :
    z.Rank m = r1 + i ∧ (i : Int) < r2 - r1 + 1 := by
  rw [Range_ascending_getElem? z r1 r2 h1 h12] at hi
  by_cases hlt : (i : Int) < r2 - r1 + 1
  · rw [if_pos hlt, Option.map_eq_some'] at hi
    obtain ⟨n, hn, rfl⟩ := hi
    rw [Rank_of_getElem? hz _ n hn]
    constructor
    · push_cast
      omega
    · exact hlt
  · rw [if_neg hlt] at hi
    cases hi

theorem mem_Range_ascending {z : ZSet} (hz : Inv z) (r1 r2 : Int) (h1 : 1 ≤ r1)
    (h12 : r1 ≤ r2) (m : String) :
    m ∈ z.Range r1 r2 ↔ r1 ≤ z.Rank m ∧ z.Rank m ≤ r2 := by
  constructor
  · intro hm
    obtain ⟨i, hi⟩ := List.mem_iff_getElem?.mp hm
    have := Range_ascending_rank hz r1 r2 h1 h12 i m hi
    omega
  · rintro ⟨hlo, hhi⟩
    have hk : z.Rank m = (((z.Rank m - 1).toNat : Nat) : Int) + 1 := by omega
    obtain ⟨n, hn, hobj⟩ := getElem?_of_Rank hz m _ hk
    apply List.mem_iff_getElem?.mpr
    refine ⟨(z.Rank m - r1).toNat, ?_⟩
    rw [Range_ascending_getElem? z r1 r2 h1 h12, if_pos (by omega)]
    have hidx : (r1 - 1).toNat + (z.Rank m - r1).toNat = (z.Rank m - 1).toNat := by omega
    rw [hidx, hn, Option.map_some', hobj]

theorem Range_ascending_length (z : ZSet) (r1 r2 : Int) (h1 : 1 ≤ r1) (h12 : r1 ≤ r2)
    (hc : r1 ≤ (z.sl.nodes.length : Int)) :
    ((z.Range r1 r2).length : Int) = min r2 (z.sl.nodes.length : Int) - r1 + 1 := by
  rw [Range_ascending_eq z r1 r2 h1 h12, List.length_map, List.length_take, List.length_drop]
  omega

theorem Range_start_past_end (z : ZSet) (r1 r2 : Int) (h2 : 1 ≤ r2)
    (hc : (z.sl.nodes.length : Int) < r1) : z.Range r1 r2 = [] := by
  by_cases h12 : r1 ≤ r2
  · rw [Range_ascending_eq z r1 r2 (by omega) h12]
    have : z.sl.nodes.drop (r1 - 1).toNat = [] := List.drop_eq_nil_iff.mpr (by omega)
    rw [this, List.take_nil, List.map_nil]
  · rw [Range_descending_eq z r1 r2 h2 (by omega), if_neg (by omega)]

theorem Range_descending_reverse (z : ZSet) (r1 r2 : Int) (h2 : 1 ≤ r2) (h21 : r2 < r1)
    (hc : r1 ≤ (z.sl.nodes.length : Int)) : z.Range r1 r2 = (z.Range r2 r1).reverse := by
  rw [Range_descending_eq z r1 r2 h2 h21, if_pos hc,
    Range_ascending_eq z r2 r1 h2 (le_of_lt h21), ← List.map_reverse]
  congr 1
  have hk : (r1 - r2 + 1).toNat = r1.toNat - (r2 - 1).toNat := by omega
  have hb : (r2 - 1).toNat + (r1.toNat - (r2 - 1).toNat) = r1.toNat := by omega
  have hlen : (z.sl.nodes.take r1.toNat).length = r1.toNat := by
    rw [List.length_take]
    omega
  rw [hk, List.take_drop, hb, List.reverse_drop, hlen]

theorem Range_descending_rank {z : ZSet} (hz : Inv z) (r1 r2 : Int) (h2 : 1 ≤ r2)
    (h21 : r2 < r1) (hc : r1 ≤ (z.sl.nodes.length : Int)) (i : Nat) (m : String)
    (hi : (z.Range r1 r2)[i]? = some m) : z.Rank m = r1 - i ∧ (i : Int) < r1 - r2 + 1 := by
  have hlen := Range_ascending_length z r2 r1 h2 (le_of_lt h21) (by omega)
  rw [Range_descending_reverse z r1 r2 h2 h21 hc] at hi
  have hil : i < (z.Range r2 r1).reverse.length := by
    by_contra hge
    rw [List.getElem?_eq_none (Nat.le_of_not_lt hge)] at hi
    cases hi
  rw [List.length_reverse] at hil
  rw [List.getElem?_reverse hil] at hi
  have := Range_ascending_rank hz r2 r1 h2 (le_of_lt h21) _ m hi
  have hmin : min r1 (z.sl.nodes.length : Int) = r1 := min_eq_left hc
  rw [hmin] at hlen
  omega

theorem mem_Range_descending {z : ZSet} (hz : Inv z) (r1 r2 : Int) (h2 : 1 ≤ r2)
    (h21 : r2 < r1) (hc : r1 ≤ (z.sl.nodes.length : Int)) (m : String) :
    m ∈ z.Range r1 r2 ↔ r2 ≤ z.Rank m ∧ z.Rank m ≤ r1 := by
  rw [Range_descending_reverse z r1 r2 h2 h21 hc, List.mem_reverse,
    mem_Range_ascending hz r2 r1 h2 (le_of_lt h21)]

/-! ## Mirrored ranks -/

theorem reverseRank_of_range (z : ZSet) (r : Int)
    (h1 : -9223372036854775808 ≤ z.Count - r) (h2 : z.Count - r + 1 < 9223372036854775808) :
    z.reverseRank r = z.Count - r + 1 := by
  unfold ZSet.reverseRank
  rw [wrapInt_of_range (z.Count - r) h1 (by omega),
    wrapInt_of_range (z.Count - r + 1) (by omega) h2]

theorem RevRank_of_mem {z : ZSet} (hz : Inv z) (hc : z.Count < 9223372036854775808)
    (m : String) (hm : m ∈ z.tbl) : z.RevRank m = z.Count - z.Rank m + 1 := by
  have hb := Rank_bounds hz m hm
  have hne : z.Rank m ≠ 0 := by omega
  unfold ZSet.RevRank
  simp only [if_pos hne]
  exact reverseRank_of_range z _ (by omega) (by omega)

theorem Rank_eq_Count_of_top {z : ZSet} (hz : Inv z) (m : String) (hm : m ∈ z.tbl)
    (htop : ∀ m', m' ∈ z.tbl → m' ≠ m → z.Rank m' < z.Rank m) : z.Rank m = z.Count := by
  have hb := Rank_bounds hz m hm
  have hlen := Count_eq_length hz
  have hpos : z.sl.nodes.length - 1 < z.sl.nodes.length := by omega
  have hn : z.sl.nodes[z.sl.nodes.length - 1]? = some (z.sl.nodes[z.sl.nodes.length - 1]) :=
    List.getElem?_eq_getElem hpos
  have hr := Rank_of_getElem? hz _ _ hn
  by_cases hobj : (z.sl.nodes[z.sl.nodes.length - 1]).obj = m
  · rw [hobj] at hr
    omega
  · have hmem : (z.sl.nodes[z.sl.nodes.length - 1]).obj ∈ z.tbl :=
      (mem_members_iff hz _).mp (List.mem_map_of_mem _ (List.getElem?_mem hn))
    have := htop _ hmem hobj
    omega

/-- C12: for a member `m` present in a reachable state (whose count fits a Go `int`),
`RevRank(m) = Count() - Rank(m) + 1`, so `Rank(m) + RevRank(m) = Count() + 1`, and a member
whose score is above every other score has `RevRank` 1; for an absent member `RevRank(m)`
is 0. -/
theorem C12_revrank_mirrors_rank (z : ZSet) (m : String) :
    (Reachable z → z.Count < 9223372036854775808 → m ∈ z.tbl →
        z.RevRank m = z.Count - z.Rank m + 1 ∧
        z.Rank m + z.RevRank m = z.Count + 1 ∧
        ((∀ m' ∈ z.tbl.keys, m' ≠ m → (z.Score m').1 < (z.Score m).1) →
          z.RevRank m = 1)) ∧
      (m ∉ z.tbl → z.RevRank m = 0) := by
  constructor
  · intro h hc hm
    have hz := Inv_of_Reachable h
    have hrev := RevRank_of_mem hz hc m hm
    refine ⟨hrev, by omega, ?_⟩
    intro htop
    have hrank : z.Rank m = z.Count := by
      apply Rank_eq_Count_of_top hz m hm
      intro m' hm' hne
      obtain ⟨s, hs⟩ := Finmap.mem_iff.mp hm
      obtain ⟨s', hs'⟩ := Finmap.mem_iff.mp hm'
      have hlt := htop m' (Finmap.mem_keys.mpr hm') hne
      rw [(Score_eq_iff z m s).mpr hs, (Score_eq_iff z m' s').mpr hs'] at hlt
      exact (Rank_lt_iff hz m' m s' s hs' hs).mpr (Or.inl hlt)
    omega
  · intro hm
    have hr : z.Rank m = 0 := Rank_of_lookup_none z m (Finmap.lookup_eq_none.mpr hm)
    unfold ZSet.RevRank
    simp [hr]

theorem C12_revrank_mirrors_rank_witness :
    (Reachable scenarioB ∧ scenarioB.Count < 9223372036854775808 ∧ "33" ∈ scenarioB.tbl ∧
        (∀ m' ∈ scenarioB.tbl.keys, m' ≠ "33" →
          (scenarioB.Score m').1 < (scenarioB.Score "33").1) ∧
        scenarioB.RevRank "33" = scenarioB.Count - scenarioB.Rank "33" + 1 ∧
        scenarioB.Rank "33" + scenarioB.RevRank "33" = scenarioB.Count + 1 ∧
        scenarioB.RevRank "33" = 1) ∧
      ("99" ∉ scenarioB.tbl ∧ scenarioB.RevRank "99" = 0) :=
  ⟨⟨reachable_scenarioB, by decide, by decide, by decide,
      ((C12_revrank_mirrors_rank scenarioB "33").1 reachable_scenarioB (by decide)
        (by decide)).1,
      ((C12_revrank_mirrors_rank scenarioB "33").1 reachable_scenarioB (by decide)
        (by decide)).2.1,
      ((C12_revrank_mirrors_rank scenarioB "33").1 reachable_scenarioB (by decide)
        (by decide)).2.2 (by decide)⟩,
    ⟨by decide, (C12_revrank_mirrors_rank scenarioB "99").2 (by decide)⟩⟩

/-- C14: descending rank window: in a reachable state, for `Count() ≥ r1 > r2 ≥ 1`,
`Range(r1, r2)` is the reverse of `Range(r2, r1)`: it has `r1 - r2 + 1` entries, the entry at
position `i` (from 0) being the member of rank `r1 - i`. -/
theorem C14_range_descending (z : ZSet) (h : Reachable z) (r1 r2 : Int) (hc : r1 ≤ z.Count)
    (h21 : r2 < r1) (h2 : 1 ≤ r2) :
    z.Range r1 r2 = (z.Range r2 r1).reverse ∧
      ((z.Range r1 r2).length : Int) = r1 - r2 + 1 ∧
      (∀ (i : Nat) (m : String), (z.Range r1 r2)[i]? = some m → z.Rank m = r1 - i) ∧
      (∀ m, m ∈ z.Range r1 r2 ↔ r2 ≤ z.Rank m ∧ z.Rank m ≤ r1) := by
  have hz := Inv_of_Reachable h
  have hlen := Count_eq_length hz
  rw [hlen] at hc
  have hrev := Range_descending_reverse z r1 r2 h2 h21 hc
  refine ⟨hrev, ?_, ?_, mem_Range_descending hz r1 r2 h2 h21 hc⟩
  · rw [hrev, List.length_reverse,
      Range_ascending_length z r2 r1 h2 (le_of_lt h21) (by omega), min_eq_left hc]
  · intro i m hi
    exact (Range_descending_rank hz r1 r2 h2 h21 hc i m hi).1

theorem C14_range_descending_witness :
    Reachable scenarioC ∧ (3 : Int) ≤ scenarioC.Count ∧ (1 : Int) < 3 ∧ (1 : Int) ≤ 1 ∧
      (scenarioC.Range 3 1 = (scenarioC.Range 1 3).reverse ∧
        ((scenarioC.Range 3 1).length : Int) = 3 - 1 + 1 ∧
        (∀ (i : Nat) (m : String), (scenarioC.Range 3 1)[i]? = some m →
          scenarioC.Rank m = 3 - i) ∧
        (∀ m, m ∈ scenarioC.Range 3 1 ↔ 1 ≤ scenarioC.Rank m ∧ scenarioC.Rank m ≤ 3)) :=
  ⟨reachable_scenarioC, by decide, by decide, by decide,
    C14_range_descending scenarioC reachable_scenarioC 3 1 (by decide) (by decide)
      (by decide)⟩

/-- C15: in every state, `Range(r1, r2)` with `r1 < 1` or `r2 < 1` is empty. -/
theorem C15_range_below_one (z : ZSet) (r1 r2 : Int) (h : r1 < 1 ∨ r2 < 1) :
    z.Range r1 r2 = [] := by
  unfold ZSet.Range
  rw [if_pos h]

theorem C15_range_below_one_witness :
    ((0 : Int) < 1 ∨ (2 : Int) < 1) ∧ scenarioC.Range 0 2 = [] :=
  ⟨by decide, C15_range_below_one scenarioC 0 2 (by decide)⟩

/-! ## `RevRange` -/

theorem RevRange_eq (z : ZSet) (r1 r2 : Int) :
    z.RevRange r1 r2 = z.Range (z.reverseRank r1) (z.reverseRank (min r2 z.Count)) := by
  unfold ZSet.RevRange
  by_cases h : r2 > z.Count
  · simp only [if_pos h]
    rw [min_eq_right (le_of_lt h)]
  · simp only [if_neg h]
    rw [min_eq_left (not_lt.mp h)]

theorem Range_mirrored_rank {z : ZSet} (hz : Inv z) (a b : Int) (hb : 1 ≤ b) (hba : b ≤ a)
    (ha : a ≤ z.Count) :
    ((z.Range a b).length : Int) = a - b + 1 ∧
      ∀ (i : Nat) (m : String), (z.Range a b)[i]? = some m → z.Rank m = a - i := by
  have hlen := Count_eq_length hz
  rw [hlen] at ha
  by_cases hab : b = a
  · subst hab
    constructor
    · rw [Range_ascending_length z b b hb (le_refl b) ha, min_eq_left ha]
    · intro i m hi
      have := Range_ascending_rank hz b b hb (le_refl b) i m hi
      omega
  · have hlt : b < a := by omega
    constructor
    · rw [Range_descending_reverse z a b hb hlt ha, List.length_reverse,
        Range_ascending_length z b a hb (le_of_lt hlt) (by omega), min_eq_left ha]
    · intro i m hi
      exact (Range_descending_rank hz a b hb hlt ha i m hi).1

/-- C18: `RevRange` is `Range` on mirrored ranks: in a reachable state, for all `r1, r2`,
`RevRange(r1, r2)` is `Range(reverseRank(r1), reverseRank(min(r2, Count())))`; when the
mirrored ranks `Count() - r + 1` do not leave the range of a Go `int`, this is the mirrored
window of the specification, computed in the integers. Consequently, for `1 ≤ r1 ≤ r2`, the
entry at position `i` (from 0) is the member of descending position (`RevRank`) `r1 + i`,
highest first, there are `min(r2, Count()) - r1 + 1` entries when `r1 ≤ Count()`, and the
list is empty when `r1 > Count()`. -/
theorem C18_revrange_mirrors_range (z : ZSet) (h : Reachable z) (r1 r2 : Int) :
    z.RevRange r1 r2 = z.Range (z.reverseRank r1) (z.reverseRank (min r2 z.Count)) ∧
      (r1 < 9223372036854775808 → z.Count - r1 + 1 < 9223372036854775808 →
        z.Count - r2 + 1 < 9223372036854775808 →
        z.RevRange r1 r2 = RevRange_mirrored z r1 r2) ∧
      (z.Count < 9223372036854775808 → r2 < 9223372036854775808 → 1 ≤ r1 → r1 ≤ r2 →
        (∀ (i : Nat) (m : String), (z.RevRange r1 r2)[i]? = some m →
          z.RevRank m = r1 + i) ∧
        (r1 ≤ z.Count → ((z.RevRange r1 r2).length : Int) = min r2 z.Count - r1 + 1) ∧
        (z.Count < r1 → z.RevRange r1 r2 = [])) := by
  have hz := Inv_of_Reachable h
  have hlen := Count_eq_length hz
  have hc0 : 0 ≤ z.Count := by rw [hlen]; omega
  refine ⟨RevRange_eq z r1 r2, ?_, ?_⟩
  · intro hr1 ho1 ho2
    rw [RevRange_eq]
    unfold RevRange_mirrored
    have hmin : min r2 z.Count ≤ z.Count := min_le_right _ _
    have hmin2 : r2 ≤ z.Count → min r2 z.Count = r2 := min_eq_left
    have hmin3 : z.Count ≤ r2 → min r2 z.Count = z.Count := min_eq_right
    rw [reverseRank_of_range z r1 (by omega) ho1,
      reverseRank_of_range z (min r2 z.Count) (by omega) (by omega)]
  · intro hc hr2 h1 h12
    have hmin : min r2 z.Count ≤ z.Count := min_le_right _ _
    have hmin2 : r2 ≤ z.Count → min r2 z.Count = r2 := min_eq_left
    have hmin3 : z.Count ≤ r2 → min r2 z.Count = z.Count := min_eq_right
    have heq : z.RevRange r1 r2 = z.Range (z.Count - r1 + 1) (z.Count - min r2 z.Count + 1) := by
      rw [RevRange_eq, reverseRank_of_range z r1 (by omega) (by omega),
        reverseRank_of_range z (min r2 z.Count) (by omega) (by omega)]
    rw [heq]
    refine ⟨?_, ?_, ?_⟩
    · intro i m hi
      by_cases hr1c : r1 ≤ z.Count
      · have hrk := (Range_mirrored_rank hz (z.Count - r1 + 1) (z.Count - min r2 z.Count + 1)
          (by omega) (by omega) (by omega)).2 i m hi
        have hm : m ∈ z.tbl := by
          by_contra hc'
          have := (Rank_eq_zero_iff hz m).mpr hc'
          have hil : i < (z.Range (z.Count - r1 + 1) (z.Count - min r2 z.Count + 1)).length := by
            by_contra hge
            rw [List.getElem?_eq_none (Nat.le_of_not_lt hge)] at hi
            cases hi
          have hl := (Range_mirrored_rank hz (z.Count - r1 + 1)
            (z.Count - min r2 z.Count + 1) (by omega) (by omega) (by omega)).1
          omega
        rw [RevRank_of_mem hz hc m hm, hrk]
        omega
      · rw [Range_below_one z _ _ (Or.inl (by omega))] at hi
        simp at hi
    · intro hr1c
      rw [(Range_mirrored_rank hz (z.Count - r1 + 1) (z.Count - min r2 z.Count + 1)
        (by omega) (by omega) (by omega)).1]
      omega
    · intro hr1c
      exact Range_below_one z _ _ (Or.inl (by omega))

theorem C18_revrange_mirrors_range_witness :
    Reachable scenarioC ∧
      scenarioC.RevRange 2 6 =
        scenarioC.Range (scenarioC.reverseRank 2)
          (scenarioC.reverseRank (min 6 scenarioC.Count)) ∧
      scenarioC.RevRange 2 6 = RevRange_mirrored scenarioC 2 6 ∧
      ((∀ (i : Nat) (m : String), (scenarioC.RevRange 2 6)[i]? = some m →
          scenarioC.RevRank m = 2 + i) ∧
        ((scenarioC.RevRange 2 6).length : Int) = min 6 scenarioC.Count - 2 + 1) ∧
      scenarioC.RevRange 5 6 = [] :=
  ⟨reachable_scenarioC,
    (C18_revrange_mirrors_range scenarioC reachable_scenarioC 2 6).1,
    (C18_revrange_mirrors_range scenarioC reachable_scenarioC 2 6).2.1 (by decide)
      (by decide) (by decide),
    ⟨((C18_revrange_mirrors_range scenarioC reachable_scenarioC 2 6).2.2 (by decide)
        (by decide) (by decide) (by decide)).1,
      ((C18_revrange_mirrors_range scenarioC reachable_scenarioC 2 6).2.2 (by decide)
        (by decide) (by decide) (by decide)).2.1 (by decide)⟩,
    ((C18_revrange_mirrors_range scenarioC reachable_scenarioC 5 6).2.2 (by decide)
      (by decide) (by decide) (by decide)).2.2 (by decide)⟩

/-! ## Score windows in the chain -/

theorem takeWhile_eq_filter (p : skiplistNode → Bool) (l : List skiplistNode)
    (hp : l.Pairwise (fun a b => p b = true → p a = true)) : l.takeWhile p = l.filter p := by
  induction l with
  | nil => rfl
  | cons y ys ih =>
    have hy := List.pairwise_cons.mp hp
    by_cases hpy : p y = true
    · rw [List.takeWhile_cons_of_pos hpy, List.filter_cons_of_pos hpy, ih hy.2]
    · rw [List.takeWhile_cons_of_neg hpy, List.filter_cons_of_neg hpy]
      symm
      rw [List.filter_eq_nil_iff]
      intro b hb hpb
      exact hpy (hy.1 b hb hpb)

theorem dropWhile_eq_filter (p : skiplistNode → Bool) (l : List skiplistNode)
    (hp : l.Pairwise (fun a b => p b = true → p a = true)) :
    l.dropWhile p = l.filter (fun a => !p a) := by
  induction l with
  | nil => rfl
  | cons y ys ih =>
    have hy := List.pairwise_cons.mp hp
    by_cases hpy : p y = true
    · rw [List.dropWhile_cons_of_pos hpy, List.filter_cons_of_neg (by simp [hpy]), ih hy.2]
    · rw [List.dropWhile_cons_of_neg hpy, List.filter_cons_of_pos (by simpa using hpy)]
      congr 1
      symm
      rw [List.filter_eq_self]
      intro b hb
      have : ¬ p b = true := fun hpb => hpy (hy.1 b hb hpb)
      simpa using this

theorem scoreLoop_none (reverse : Int) (cs2 : float64) (fuel : Nat) :
    ZSet.scoreLoop reverse cs2 fuel none = [] := by
  cases fuel <;> rfl

theorem scoreLoop_forward (cs2 : float64) (fuel : Nat) (behind : List skiplistNode)
    (y : skiplistNode) (ys : List skiplistNode) (hf : (y :: ys).length ≤ fuel) :
    ZSet.scoreLoop 0 cs2 fuel (some ⟨behind, y, ys⟩) =
      ((y :: ys).takeWhile (fun n => decide (n.score ≤ cs2))).map skiplistNode.obj := by
  induction fuel generalizing behind y ys with
  | zero => simp at hf
  | succ fuel ih =>
    rw [ZSet.scoreLoop, if_neg (by decide)]
    by_cases hgt : y.score > cs2
    · rw [if_pos hgt, List.takeWhile_cons_of_neg (by simpa using hgt)]
      rfl
    · rw [if_neg hgt, List.takeWhile_cons_of_pos (by simpa using hgt), List.map_cons]
      congr 1
      cases ys with
      | nil => simp [getNextNode, scoreLoop_none]
      | cons y' ys' =>
        have hn : getNextNode ⟨behind, y, y' :: ys'⟩ 0 = some ⟨y :: behind, y', ys'⟩ := by
          simp [getNextNode]
        rw [hn]
        exact ih _ _ _ (by simpa using hf)

theorem scoreLoop_backward (cs2 : float64) (fuel : Nat) (behind : List skiplistNode)
    (y : skiplistNode) (ys : List skiplistNode) (hf : (y :: behind).length ≤ fuel) :
    ZSet.scoreLoop 1 cs2 fuel (some ⟨behind, y, ys⟩) =
      ((y :: behind).takeWhile (fun n => decide (cs2 ≤ n.score))).map skiplistNode.obj := by
  induction fuel generalizing behind y ys with
  | zero => simp at hf
  | succ fuel ih =>
    rw [ZSet.scoreLoop, if_pos rfl]
    by_cases hlt : y.score < cs2
    · rw [if_pos hlt, List.takeWhile_cons_of_neg (by simpa using hlt)]
      rfl
    · rw [if_neg hlt, List.takeWhile_cons_of_pos (by simpa using hlt), List.map_cons]
      congr 1
      cases behind with
      | nil => simp [getNextNode, scoreLoop_none]
      | cons p ps =>
        have hn : getNextNode ⟨p :: ps, y, ys⟩ 1 = some ⟨ps, p, y :: ys⟩ := by
          simp [getNextNode]
        rw [hn]
        exact ih _ _ _ (by simpa using hf)

theorem scoreLoop_firstInRange (lo hi : float64) (fuel : Nat) (behind l : List skiplistNode)
    (hf : l.length ≤ fuel) :
    ZSet.scoreLoop 0 hi fuel (firstInRange lo hi behind l) =
      ((l.dropWhile (fun n => decide (n.score < lo))).takeWhile
        (fun n => decide (n.score ≤ hi))).map skiplistNode.obj := by
  induction l generalizing behind with
  | nil => simp [firstInRange, scoreLoop_none]
  | cons y ys ih =>
    unfold firstInRange
    by_cases hlo : y.score < lo
    · rw [if_pos hlo, List.dropWhile_cons_of_pos (by simpa using hlo)]
      exact ih _ (Nat.le_of_succ_le (by simpa using hf))
    · rw [if_neg hlo, List.dropWhile_cons_of_neg (by simpa using hlo)]
      by_cases hhi : y.score ≤ hi
      · rw [if_pos hhi]
        exact scoreLoop_forward hi fuel behind y ys hf
      · rw [if_neg hhi, scoreLoop_none, List.takeWhile_cons_of_neg (by simpa using hhi)]
        rfl

theorem lastInRange_eq (hi : float64) (behind l : List skiplistNode) :
    lastInRange hi (ptrAt behind l) behind l =
      ptrAt ((l.takeWhile (fun n => decide (n.score ≤ hi))).reverse ++ behind)
        (l.dropWhile (fun n => decide (n.score ≤ hi))) := by
  induction l generalizing behind with
  | nil => simp [lastInRange]
  | cons y ys ih =>
    unfold lastInRange
    by_cases hhi : y.score ≤ hi
    · have := ih (y :: behind)
      simp only [ptrAt] at this
      rw [if_pos hhi, this, List.takeWhile_cons_of_pos (by simpa using hhi),
        List.dropWhile_cons_of_pos (by simpa using hhi), List.reverse_cons, List.append_assoc]
      rfl
    · rw [if_neg hhi, List.takeWhile_cons_of_neg (by simpa using hhi),
        List.dropWhile_cons_of_neg (by simpa using hhi)]
      rfl

theorem scoreLoop_slLastInRange (sl : skiplist) (lo hi : float64) :
    ZSet.scoreLoop 1 lo sl.nodes.length (slLastInRange sl lo hi) =
      (((sl.nodes.takeWhile (fun n => decide (n.score ≤ hi))).reverse).takeWhile
        (fun n => decide (lo ≤ n.score))).map skiplistNode.obj := by
  unfold slLastInRange
  have h := lastInRange_eq hi [] sl.nodes
  simp only [ptrAt, List.append_nil] at h
  rw [h]
  have hlen : (sl.nodes.takeWhile (fun n => decide (n.score ≤ hi))).reverse.length ≤
      sl.nodes.length := by
    rw [List.length_reverse]
    exact (List.takeWhile_sublist _).length_le
  cases hr : (sl.nodes.takeWhile (fun n => decide (n.score ≤ hi))).reverse with
  | nil => simp [ptrAt, scoreLoop_none]
  | cons y bw =>
    rw [hr] at hlen
    simp only [ptrAt]
    by_cases hlo : lo ≤ y.score
    · rw [if_pos hlo]
      exact scoreLoop_backward lo _ bw y _ hlen
    · rw [if_neg hlo, scoreLoop_none, List.takeWhile_cons_of_neg (by simpa using hlo)]
      rfl

/-! ## `RangeByScore` -/

theorem pairwise_score_le {l : List skiplistNode} (hs : l.Pairwise nodeLt) :
    l.Pairwise (fun a b => a.score ≤ b.score) := by
  apply hs.imp
  intro a b hab
  rcases hab with h | ⟨h, _⟩
  · exact le_of_lt h
  · exact le_of_eq h

theorem RangeByScore_ascending_eq (z : ZSet) (s1 s2 : float64) (h12 : s1 ≤ s2) :
    z.RangeByScore s1 s2 =
      ((z.sl.nodes.dropWhile (fun n => decide (n.score < s1))).takeWhile
        (fun n => decide (n.score ≤ s2))).map skiplistNode.obj := by
  unfold ZSet.RangeByScore slFirstInRange
  simp only [if_pos h12]
  exact scoreLoop_firstInRange s1 s2 _ [] z.sl.nodes (le_refl _)

theorem RangeByScore_descending_eq (z : ZSet) (s1 s2 : float64) (h21 : s2 < s1) :
    z.RangeByScore s1 s2 =
      (((z.sl.nodes.takeWhile (fun n => decide (n.score ≤ s1))).reverse).takeWhile
        (fun n => decide (s2 ≤ n.score))).map skiplistNode.obj := by
  unfold ZSet.RangeByScore
  simp only [if_neg (not_le.mpr h21)]
  exact scoreLoop_slLastInRange z.sl s2 s1

theorem window_ascending_eq_filter (l : List skiplistNode) (hs : l.Pairwise nodeLt)
    (lo hi : float64) :
    (l.dropWhile (fun n => decide (n.score < lo))).takeWhile (fun n => decide (n.score ≤ hi)) =
      l.filter (fun n => decide (lo ≤ n.score ∧ n.score ≤ hi)) := by
  have hle := pairwise_score_le hs
  have h1 : l.Pairwise (fun a b => decide (b.score < lo) = true → decide (a.score < lo) = true) := by
    apply hle.imp
    intro a b hab hb
    simp only [decide_eq_true_eq] at hb ⊢
    exact lt_of_le_of_lt hab hb
  rw [dropWhile_eq_filter _ l h1]
  have h2 : (l.filter (fun a => !decide (a.score < lo))).Pairwise
      (fun a b => decide (b.score ≤ hi) = true → decide (a.score ≤ hi) = true) := by
    apply (hle.sublist (List.filter_sublist _)).imp
    intro a b hab hb
    simp only [decide_eq_true_eq] at hb ⊢
    exact le_trans hab hb
  rw [takeWhile_eq_filter _ _ h2, List.filter_filter]
  apply List.filter_congr
  intro n _
  rw [Bool.eq_iff_iff]
  simp only [Bool.and_eq_true, decide_eq_true_eq, Bool.not_eq_true', decide_eq_false_iff_not,
    not_lt]
  exact and_comm

theorem window_descending_eq_filter (l : List skiplistNode) (hs : l.Pairwise nodeLt)
    (lo hi : float64) :
    ((l.takeWhile (fun n => decide (n.score ≤ hi))).reverse).takeWhile
        (fun n => decide (lo ≤ n.score)) =
      (l.filter (fun n => decide (lo ≤ n.score ∧ n.score ≤ hi))).reverse := by
  have hle := pairwise_score_le hs
  have h1 : l.Pairwise (fun a b => decide (b.score ≤ hi) = true → decide (a.score ≤ hi) = true) := by
    apply hle.imp
    intro a b hab hb
    simp only [decide_eq_true_eq] at hb ⊢
    exact le_trans hab hb
  rw [takeWhile_eq_filter _ l h1]
  have h2 : (l.filter (fun a => decide (a.score ≤ hi))).reverse.Pairwise
      (fun a b => decide (lo ≤ b.score) = true → decide (lo ≤ a.score) = true) := by
    rw [List.pairwise_reverse]
    apply (hle.sublist (List.filter_sublist _)).imp
    intro a b hab ha
    simp only [decide_eq_true_eq] at ha ⊢
    exact le_trans ha hab
  rw [takeWhile_eq_filter _ _ h2, List.filter_reverse, List.filter_filter]
  congr 1
  apply List.filter_congr
  intro n _
  simp only [Bool.decide_and]

theorem filter_window_members {z : ZSet} (hz : Inv z) (lo hi : float64) :
    (z.sl.nodes.filter (fun n => decide (lo ≤ n.score ∧ n.score ≤ hi))).map skiplistNode.obj =
      (z.Range 1 z.Count).filter
        (fun m => decide (lo ≤ (z.Score m).1 ∧ (z.Score m).1 ≤ hi)) := by
  rw [Range_all hz, List.filter_map]
  congr 1
  apply List.filter_congr
  intro n hn
  simp only [Function.comp, Score_of_mem hz hn]

theorem RangeByScore_ascending_filter {z : ZSet} (hz : Inv z) (s1 s2 : float64)
    (h12 : s1 ≤ s2) :
    z.RangeByScore s1 s2 =
      (z.Range 1 z.Count).filter
        (fun m => decide (s1 ≤ (z.Score m).1 ∧ (z.Score m).1 ≤ s2)) := by
  rw [RangeByScore_ascending_eq z s1 s2 h12, window_ascending_eq_filter _ hz.sorted,
    filter_window_members hz]

theorem RangeByScore_descending_filter {z : ZSet} (hz : Inv z) (s1 s2 : float64)
    (h21 : s2 < s1) :
    z.RangeByScore s1 s2 =
      ((z.Range 1 z.Count).filter
        (fun m => decide (s2 ≤ (z.Score m).1 ∧ (z.Score m).1 ≤ s1))).reverse := by
  rw [RangeByScore_descending_eq z s1 s2 h21, window_descending_eq_filter _ hz.sorted,
    List.map_reverse, filter_window_members hz]

theorem members_pairwise {z : ZSet} (hz : Inv z) :
    (z.Range 1 z.Count).Pairwise (fun a b =>
      (z.Score a).1 < (z.Score b).1 ∨ ((z.Score a).1 = (z.Score b).1 ∧ a < b)) := by
  rw [Range_all hz, List.pairwise_map]
  apply List.Pairwise.imp_of_mem _ hz.sorted
  intro a b ha hb hab
  rw [Score_of_mem hz ha, Score_of_mem hz hb]
  simpa only [nodeLt, String.lt_iff_toList_lt] using hab

theorem mem_window_iff {z : ZSet} (hz : Inv z) (lo hi : float64) (m : String) :
    m ∈ (z.Range 1 z.Count).filter
        (fun m => decide (lo ≤ (z.Score m).1 ∧ (z.Score m).1 ≤ hi)) ↔
      ∃ s, z.Score m = (s, true) ∧ lo ≤ s ∧ s ≤ hi := by
  rw [List.mem_filter, Range_all hz, mem_members_iff hz, decide_eq_true_eq]
  constructor
  · rintro ⟨hm, hw⟩
    obtain ⟨s, hs⟩ := Finmap.mem_iff.mp hm
    have hsc := (Score_eq_iff z m s).mpr hs
    rw [hsc] at hw
    exact ⟨s, hsc, hw⟩
  · rintro ⟨s, hsc, hw⟩
    refine ⟨Finmap.mem_iff.mpr ⟨s, (Score_eq_iff z m s).mp hsc⟩, ?_⟩
    rw [hsc]
    exact hw

/-- C19: ascending score window: in a reachable state, for `s1 ≤ s2`, `RangeByScore(s1, s2)`
is the full ascending listing `Range(1, Count())` restricted to the members whose score `s`
satisfies `s1 ≤ s ≤ s2`: it lists exactly those members, each once, in ascending order of
score with equal scores in lexicographic member order, and it is empty when no score lies
in the window. -/
theorem C19_rangebyscore_ascending (z : ZSet) (h : Reachable z) (s1 s2 : float64)
    (h12 : s1 ≤ s2) :
    z.RangeByScore s1 s2 =
        (z.Range 1 z.Count).filter
          (fun m => decide (s1 ≤ (z.Score m).1 ∧ (z.Score m).1 ≤ s2)) ∧
      (∀ m, m ∈ z.RangeByScore s1 s2 ↔ ∃ s, z.Score m = (s, true) ∧ s1 ≤ s ∧ s ≤ s2) ∧
      (z.RangeByScore s1 s2).Nodup ∧
      (z.RangeByScore s1 s2).Pairwise (fun a b =>
        (z.Score a).1 < (z.Score b).1 ∨ ((z.Score a).1 = (z.Score b).1 ∧ a < b)) ∧
      ((∀ m ∈ z.tbl.keys, ¬ (s1 ≤ (z.Score m).1 ∧ (z.Score m).1 ≤ s2)) →
        z.RangeByScore s1 s2 = []) := by
  have hz := Inv_of_Reachable h
  have heq := RangeByScore_ascending_filter hz s1 s2 h12
  have hnd : (z.Range 1 z.Count).Nodup := by
    rw [Range_all hz]
    exact members_nodup hz
  refine ⟨heq, ?_, ?_, ?_, ?_⟩
  · intro m
    rw [heq]
    exact mem_window_iff hz s1 s2 m
  · rw [heq]
    exact hnd.filter _
  · rw [heq]
    exact (members_pairwise hz).sublist (List.filter_sublist _)
  · intro hnone
    rw [heq, List.filter_eq_nil_iff]
    intro m hm
    rw [Range_all hz, mem_members_iff hz] at hm
    simpa using hnone m (Finmap.mem_keys.mpr hm)

theorem C19_rangebyscore_ascending_witness :
    Reachable scenarioB ∧ (2 : float64) ≤ 3 ∧ (5 : float64) ≤ 10 ∧
      (scenarioB.RangeByScore 2 3 =
          (scenarioB.Range 1 scenarioB.Count).filter
            (fun m => decide (2 ≤ (scenarioB.Score m).1 ∧ (scenarioB.Score m).1 ≤ 3)) ∧
        (∀ m, m ∈ scenarioB.RangeByScore 2 3 ↔
          ∃ s, scenarioB.Score m = (s, true) ∧ 2 ≤ s ∧ s ≤ 3) ∧
        (scenarioB.RangeByScore 2 3).Nodup ∧
        (scenarioB.RangeByScore 2 3).Pairwise (fun a b =>
          (scenarioB.Score a).1 < (scenarioB.Score b).1 ∨
            ((scenarioB.Score a).1 = (scenarioB.Score b).1 ∧ a < b))) ∧
      scenarioB.RangeByScore 5 10 = [] :=
  ⟨reachable_scenarioB, by decide, by decide,
    ⟨(C19_rangebyscore_ascending scenarioB reachable_scenarioB 2 3 (by decide)).1,
      (C19_rangebyscore_ascending scenarioB reachable_scenarioB 2 3 (by decide)).2.1,
      (C19_rangebyscore_ascending scenarioB reachable_scenarioB 2 3 (by decide)).2.2.1,
      (C19_rangebyscore_ascending scenarioB reachable_scenarioB 2 3 (by decide)).2.2.2.1⟩,
    (C19_rangebyscore_ascending scenarioB reachable_scenarioB 5 10 (by decide)).2.2.2.2
      (by decide)⟩

/-- C20: descending score window: in a reachable state, for `s1 > s2`, `RangeByScore(s1, s2)`
is the reverse of `RangeByScore(s2, s1)`: it lists exactly the members whose score lies in
`[s2, s1]`, in descending order, and it is empty when no score lies in `[s2, s1]`. -/
theorem C20_rangebyscore_descending (z : ZSet) (h : Reachable z) (s1 s2 : float64)
    (h21 : s2 < s1) :
    z.RangeByScore s1 s2 = (z.RangeByScore s2 s1).reverse ∧
      (∀ m, m ∈ z.RangeByScore s1 s2 ↔ ∃ s, z.Score m = (s, true) ∧ s2 ≤ s ∧ s ≤ s1) ∧
      (z.RangeByScore s1 s2).Nodup ∧
      (z.RangeByScore s1 s2).Pairwise (fun a b =>
        (z.Score b).1 < (z.Score a).1 ∨ ((z.Score b).1 = (z.Score a).1 ∧ b < a)) ∧
      ((∀ m ∈ z.tbl.keys, ¬ (s2 ≤ (z.Score m).1 ∧ (z.Score m).1 ≤ s1)) →
        z.RangeByScore s1 s2 = []) := by
  have hz := Inv_of_Reachable h
  have hasc := RangeByScore_ascending_filter hz s2 s1 (le_of_lt h21)
  have heq := RangeByScore_descending_filter hz s1 s2 h21
  have hnd : (z.Range 1 z.Count).Nodup := by
    rw [Range_all hz]
    exact members_nodup hz
  refine ⟨?_, ?_, ?_, ?_, ?_⟩
  · rw [heq, hasc]
  · intro m
    rw [heq, List.mem_reverse]
    exact mem_window_iff hz s2 s1 m
  · rw [heq, List.nodup_reverse]
    exact hnd.filter _
  · rw [heq, List.pairwise_reverse]
    exact (members_pairwise hz).sublist (List.filter_sublist _)
  · intro hnone
    rw [heq, List.reverse_eq_nil_iff, List.filter_eq_nil_iff]
    intro m hm
    rw [Range_all hz, mem_members_iff hz] at hm
    simpa using hnone m (Finmap.mem_keys.mpr hm)

theorem C20_rangebyscore_descending_witness :
    Reachable scenarioB ∧ (0 : float64) < 10 ∧ (5 : float64) < 10 ∧
      (scenarioB.RangeByScore 10 0 = (scenarioB.RangeByScore 0 10).reverse ∧
        (∀ m, m ∈ scenarioB.RangeByScore 10 0 ↔
          ∃ s, scenarioB.Score m = (s, true) ∧ 0 ≤ s ∧ s ≤ 10) ∧
        (scenarioB.RangeByScore 10 0).Nodup ∧
        (scenarioB.RangeByScore 10 0).Pairwise (fun a b =>
          (scenarioB.Score b).1 < (scenarioB.Score a).1 ∨
            ((scenarioB.Score b).1 = (scenarioB.Score a).1 ∧ b < a))) ∧
      scenarioB.RangeByScore 10 5 = [] :=
  ⟨reachable_scenarioB, by decide, by decide,
    ⟨(C20_rangebyscore_descending scenarioB reachable_scenarioB 10 0 (by decide)).1,
      (C20_rangebyscore_descending scenarioB reachable_scenarioB 10 0 (by decide)).2.1,
      (C20_rangebyscore_descending scenarioB reachable_scenarioB 10 0 (by decide)).2.2.1,
      (C20_rangebyscore_descending scenarioB reachable_scenarioB 10 0 (by decide)).2.2.2.1⟩,
    (C20_rangebyscore_descending scenarioB reachable_scenarioB 10 5 (by decide)).2.2.2.2
      (by decide)⟩

/-! ## Trimming by rank -/

theorem reachable_scenarioD : Reachable scenarioD :=
  Reachable.add _ _ _ (Reachable.add _ _ _ (Reachable.add _ _ _
    (Reachable.add _ _ _ (Reachable.add _ _ _ Reachable.new))))

/-! ## Trims -/

theorem Rem_lookup (z : ZSet) (m m' : String) :
    (z.Rem m).tbl.lookup m' = if m' = m then none else z.tbl.lookup m' := by
  unfold ZSet.Rem
  cases h : z.tbl.lookup m with
  | none =>
    by_cases hm : m' = m
    · subst hm
      simp [h]
    · simp [hm]
  | some s =>
    by_cases hm : m' = m
    · subst hm
      simp [Finmap.lookup_erase]
    · simp [hm, Finmap.lookup_erase_ne hm]

theorem Rem_nodes {z : ZSet} (hz : Inv z) (m : String) :
    (z.Rem m).sl.nodes = z.sl.nodes.filter (fun n => decide (n.obj ≠ m)) := by
  cases h : z.tbl.lookup m with
  | none =>
    rw [Rem_of_lookup_none z m h]
    symm
    rw [List.filter_eq_self]
    intro n hn
    have := lookup_obj_of_mem hz hn
    simp only [ne_eq, decide_eq_true_eq]
    intro e
    rw [e, h] at this
    cases this
  | some s =>
    rw [Rem_of_lookup_some z m s hz h]
    have hx : (⟨s, m⟩ : skiplistNode) ∈ z.sl.nodes := (hz.agree m s).mp h
    simp only
    rw [(nodup_of_pairwise hz.sorted).erase_eq_filter]
    apply List.filter_congr
    intro n hn
    by_cases e : n.obj = m
    · have : n = ⟨s, m⟩ := obj_injOn hz hn hx e
      simp [this]
    · have : n ≠ ⟨s, m⟩ := fun hc => e (by rw [hc])
      simp [e, this]

theorem foldl_Rem_spec (members : List String) {z : ZSet} (hz : Inv z) :
    Inv (members.foldl ZSet.Rem z) ∧
      (members.foldl ZSet.Rem z).sl.nodes =
        z.sl.nodes.filter (fun n => decide (n.obj ∉ members)) ∧
      ∀ m, (members.foldl ZSet.Rem z).tbl.lookup m =
        if m ∈ members then none else z.tbl.lookup m := by
  induction members generalizing z with
  | nil => exact ⟨hz, by simp, by simp⟩
  | cons a as ih =>
    obtain ⟨h1, h2, h3⟩ := ih (Inv_Rem z a hz)
    refine ⟨h1, ?_, ?_⟩
    · rw [List.foldl_cons, h2, Rem_nodes hz, List.filter_filter]
      apply List.filter_congr
      intro n _
      by_cases e : n.obj = a
      · simp [e]
      · simp [e]
    · intro m
      rw [List.foldl_cons, h3, Rem_lookup]
      by_cases e : m = a
      · simp [e]
      · by_cases e2 : m ∈ as
        · simp [e2]
        · simp [e, e2]

theorem filter_append_not_mem_right (a b : List skiplistNode)
    (hdis : (a.map skiplistNode.obj).Disjoint (b.map skiplistNode.obj)) :
    (a ++ b).filter (fun n => decide (n.obj ∉ b.map skiplistNode.obj)) = a := by
  rw [List.filter_append]
  have h1 : a.filter (fun n => decide (n.obj ∉ b.map skiplistNode.obj)) = a := by
    rw [List.filter_eq_self]
    intro n hn
    simp only [decide_eq_true_eq]
    intro hmem
    exact hdis (List.mem_map_of_mem _ hn) hmem
  have h2 : b.filter (fun n => decide (n.obj ∉ b.map skiplistNode.obj)) = [] := by
    rw [List.filter_eq_nil_iff]
    intro n hn
    simp only [decide_eq_true_eq, not_not]
    exact List.mem_map_of_mem _ hn
  rw [h1, h2, List.append_nil]

theorem filter_append_not_mem_left (a b : List skiplistNode)
    (hdis : (a.map skiplistNode.obj).Disjoint (b.map skiplistNode.obj)) :
    (a ++ b).filter (fun n => decide (n.obj ∉ a.map skiplistNode.obj)) = b := by
  rw [List.filter_append]
  have h1 : a.filter (fun n => decide (n.obj ∉ a.map skiplistNode.obj)) = [] := by
    rw [List.filter_eq_nil_iff]
    intro n hn
    simp only [decide_eq_true_eq, not_not]
    exact List.mem_map_of_mem _ hn
  have h2 : b.filter (fun n => decide (n.obj ∉ a.map skiplistNode.obj)) = b := by
    rw [List.filter_eq_self]
    intro n hn
    simp only [decide_eq_true_eq]
    intro hmem
    exact hdis hmem (List.mem_map_of_mem _ hn)
  rw [h1, h2, List.nil_append]

theorem take_drop_disjoint {z : ZSet} (hz : Inv z) (k : Nat) :
    ((z.sl.nodes.take k).map skiplistNode.obj).Disjoint
      ((z.sl.nodes.drop k).map skiplistNode.obj) := by
  have hnd := members_nodup hz
  rw [← List.take_append_drop k z.sl.nodes, List.map_append] at hnd
  exact (List.nodup_append.mp hnd).2.2

theorem filter_not_mem_drop {z : ZSet} (hz : Inv z) (k : Nat) :
    z.sl.nodes.filter (fun n => decide (n.obj ∉ (z.sl.nodes.drop k).map skiplistNode.obj)) =
      z.sl.nodes.take k := by
  have := filter_append_not_mem_right _ _ (take_drop_disjoint hz k)
  rwa [List.take_append_drop] at this

theorem filter_not_mem_take {z : ZSet} (hz : Inv z) (k : Nat) :
    z.sl.nodes.filter (fun n => decide (n.obj ∉ (z.sl.nodes.take k).map skiplistNode.obj)) =
      z.sl.nodes.drop k := by
  have := filter_append_not_mem_left _ _ (take_drop_disjoint hz k)
  rwa [List.take_append_drop] at this

theorem Limit_no_op (z : ZSet) (count : Int) (h : z.Count ≤ count) : z.Limit count = (0, z) := by
  unfold ZSet.Limit
  simp only [if_pos h]

theorem RevLimit_no_op (z : ZSet) (count : Int) (h : z.Count ≤ count) :
    z.RevLimit count = (0, z) := by
  unfold ZSet.RevLimit
  simp only [if_pos h]

theorem Limit_negative (z : ZSet) (count : Int) (h : count < 0) : z.Limit count = (0, z) := by
  have hc : 0 ≤ z.Count := by
    unfold ZSet.Count
    omega
  unfold ZSet.Limit
  simp only [if_neg (show ¬ z.Count ≤ count by omega)]
  unfold ZSet.deleteByRank
  simp only [if_neg (show ¬ count + 1 > z.Count by omega)]
  rw [Range_below_one z _ _ (Or.inl (by omega))]
  rfl

theorem Limit_eq {z : ZSet} (hz : Inv z) (count : Int) (h0 : 0 ≤ count)
    (hc : count < z.Count) :
    z.Limit count =
      (z.Count - count,
        ((z.sl.nodes.drop count.toNat).map skiplistNode.obj).foldl ZSet.Rem z) := by
  have hlen := Count_eq_length hz
  unfold ZSet.Limit
  simp only [if_neg (show ¬ z.Count ≤ count by omega)]
  unfold ZSet.deleteByRank
  simp only [if_neg (show ¬ count + 1 > z.Count by omega)]
  have hr : z.Range (count + 1) z.Count =
      (z.sl.nodes.drop count.toNat).map skiplistNode.obj := by
    rw [Range_ascending_eq z (count + 1) z.Count (by omega) (by omega)]
    have h1 : (count + 1 - 1).toNat = count.toNat := by omega
    rw [h1, List.take_of_length_le]
    rw [List.length_drop]
    omega
  rw [hr, List.length_map, List.length_drop]
  congr 1
  omega

theorem RevLimit_eq {z : ZSet} (hz : Inv z) (hb : z.Count < 9223372036854775808)
    (count : Int) (h0 : 0 ≤ count) (hc : count < z.Count) :
    z.RevLimit count =
      (z.Count - count,
        ((z.sl.nodes.take (z.Count - count).toNat).map skiplistNode.obj).foldl ZSet.Rem z) := by
  have hlen := Count_eq_length hz
  unfold ZSet.RevLimit
  simp only [if_neg (show ¬ z.Count ≤ count by omega)]
  rw [reverseRank_of_range z (count + 1) (by omega) (by omega),
    reverseRank_of_range z z.Count (by omega) (by omega)]
  have hr : z.Range 1 (z.Count - count) =
      (z.sl.nodes.take (z.Count - count).toNat).map skiplistNode.obj := by
    rw [Range_ascending_eq z 1 (z.Count - count) (by omega) (by omega)]
    have h1 : ((1 : Int) - 1).toNat = 0 := by omega
    have h2 : (z.Count - count - 1 + 1).toNat = (z.Count - count).toNat := by omega
    rw [h1, h2, List.drop_zero]
  unfold ZSet.deleteByRank
  by_cases h1 : z.Count - (count + 1) + 1 > z.Count - z.Count + 1
  · simp only [if_pos h1]
    have e1 : z.Count - z.Count + 1 = 1 := by omega
    have e2 : z.Count - (count + 1) + 1 = z.Count - count := by omega
    rw [e1, e2, hr, List.length_map, List.length_take]
    congr 1
    omega
  · simp only [if_neg h1]
    have e1 : z.Count - z.Count + 1 = 1 := by omega
    have e2 : z.Count - (count + 1) + 1 = 1 := by omega
    have e3 : z.Count - count = 1 := by omega
    rw [e1, e2]
    rw [e3] at hr
    rw [e3, hr, List.length_map, List.length_take]
    congr 1
    omega

theorem Score_of_getElem? {z : ZSet} (hz : Inv z) (i : Nat) (n : skiplistNode)
    (hi : z.sl.nodes[i]? = some n) : z.Score n.obj = (n.score, true) :=
  Score_of_mem hz (List.getElem?_mem hi)

theorem Score_of_lookup_none (z : ZSet) (m : String) (h : z.tbl.lookup m = none) :
    z.Score m = (0, false) := by
  unfold ZSet.Score
  rw [h]

theorem Rank_pos_index {z : ZSet} (hz : Inv z) (m : String) (h1 : 1 ≤ z.Rank m) :
    ∃ n, z.sl.nodes[(z.Rank m - 1).toNat]? = some n ∧ n.obj = m :=
  getElem?_of_Rank hz m _ (by omega)

/-- C21: `Limit` keeps the lowest ranks: in a reachable state with `n = Count()`, for
`0 ≤ count < n`, `Limit(count)` returns `n - count` and leaves `Count() = count`; the members
formerly at ranks `1..count` are exactly the members left, with their scores and ranks
unchanged, and a member formerly at a rank above `count` is absent afterwards (`Score` not
found, `Rank` 0). -/
theorem C21_limit_keeps_lowest (z : ZSet) (h : Reachable z) (count : Int) (h0 : 0 ≤ count)
    (hc : count < z.Count) :
    (z.Limit count).1 = z.Count - count ∧
      (z.Limit count).2.Count = count ∧
      (∀ m, 1 ≤ z.Rank m → z.Rank m ≤ count →
        (z.Limit count).2.Score m = z.Score m ∧ ((z.Limit count).2.Score m).2 = true ∧
          (z.Limit count).2.Rank m = z.Rank m) ∧
      (∀ m, count < z.Rank m →
        (z.Limit count).2.Score m = (0, false) ∧ (z.Limit count).2.Rank m = 0) ∧
      (∀ m, m ∈ (z.Limit count).2.tbl ↔ 1 ≤ z.Rank m ∧ z.Rank m ≤ count) := by
  have hz := Inv_of_Reachable h
  have hlen := Count_eq_length hz
  rw [Limit_eq hz count h0 hc]
  obtain ⟨hz', hnodes, hlook⟩ :=
    foldl_Rem_spec ((z.sl.nodes.drop count.toNat).map skiplistNode.obj) hz
  rw [filter_not_mem_drop hz] at hnodes
  generalize ((z.sl.nodes.drop count.toNat).map skiplistNode.obj).foldl ZSet.Rem z = z' at *
  have hkept : ∀ m, 1 ≤ z.Rank m → z.Rank m ≤ count →
      z'.Score m = z.Score m ∧ (z'.Score m).2 = true ∧ z'.Rank m = z.Rank m := by
    intro m h1 h2
    obtain ⟨n, hn, rfl⟩ := Rank_pos_index hz m h1
    have hn' : z'.sl.nodes[(z.Rank n.obj - 1).toNat]? = some n := by
      rw [hnodes, List.getElem?_take, if_pos (by omega)]
      exact hn
    rw [Score_of_getElem? hz' _ n hn', Score_of_getElem? hz _ n hn,
      Rank_of_getElem? hz' _ n hn']
    refine ⟨rfl, rfl, ?_⟩
    omega
  have hgone : ∀ m, count < z.Rank m → z'.tbl.lookup m = none := by
    intro m h1
    obtain ⟨n, hn, rfl⟩ := Rank_pos_index hz m (by omega)
    rw [hlook, if_pos]
    apply List.mem_map_of_mem
    apply List.getElem?_mem (n := (z.Rank n.obj - 1).toNat - count.toNat)
    rw [List.getElem?_drop]
    have : count.toNat + ((z.Rank n.obj - 1).toNat - count.toNat) =
        (z.Rank n.obj - 1).toNat := by omega
    rw [this]
    exact hn
  refine ⟨rfl, ?_, hkept, ?_, ?_⟩
  · rw [Count_eq_length hz', hnodes, List.length_take]
    omega
  · intro m h1
    exact ⟨Score_of_lookup_none z' m (hgone m h1), Rank_of_lookup_none z' m (hgone m h1)⟩
  · intro m
    constructor
    · intro hm
      have hin : m ∈ z.tbl := by
        obtain ⟨s, hs⟩ := Finmap.mem_iff.mp hm
        rw [hlook] at hs
        by_cases e : m ∈ (z.sl.nodes.drop count.toNat).map skiplistNode.obj
        · rw [if_pos e] at hs
          cases hs
        · rw [if_neg e] at hs
          exact Finmap.mem_iff.mpr ⟨s, hs⟩
      have hb := Rank_bounds hz m hin
      refine ⟨hb.1, ?_⟩
      by_contra hgt
      have := hgone m (by omega)
      exact (Finmap.lookup_eq_none.mp this) hm
    · rintro ⟨h1, h2⟩
      have := (hkept m h1 h2).2.2
      by_contra hm
      have := (Rank_eq_zero_iff hz' m).mpr hm
      omega

theorem C21_limit_keeps_lowest_witness :
    Reachable scenarioD ∧ (0 : Int) ≤ 1 ∧ 1 < scenarioD.Count ∧
      ((scenarioD.Limit 1).1 = scenarioD.Count - 1 ∧
        (scenarioD.Limit 1).2.Count = 1 ∧
        (∀ m, 1 ≤ scenarioD.Rank m → scenarioD.Rank m ≤ 1 →
          (scenarioD.Limit 1).2.Score m = scenarioD.Score m ∧
            ((scenarioD.Limit 1).2.Score m).2 = true ∧
            (scenarioD.Limit 1).2.Rank m = scenarioD.Rank m) ∧
        (∀ m, 1 < scenarioD.Rank m →
          (scenarioD.Limit 1).2.Score m = (0, false) ∧ (scenarioD.Limit 1).2.Rank m = 0) ∧
        (∀ m, m ∈ (scenarioD.Limit 1).2.tbl ↔ 1 ≤ scenarioD.Rank m ∧ scenarioD.Rank m ≤ 1)) :=
  ⟨reachable_scenarioD, by decide, by decide,
    C21_limit_keeps_lowest scenarioD reachable_scenarioD 1 (by decide) (by decide)⟩

/-- C22: `RevLimit` keeps the highest ranks: in a reachable state with `n = Count()` (which
fits a Go `int`), for `0 ≤ count < n`, `RevLimit(count)` returns `n - count` and leaves
`Count() = count`; the members formerly at ranks `n-count+1..n` are exactly the members
left, with their scores (their ranks lowered by `n - count`), and the `n - count` members of
lowest rank are absent afterwards. -/
theorem C22_revlimit_keeps_highest (z : ZSet) (h : Reachable z)
    (hb : z.Count < 9223372036854775808) (count : Int) (h0 : 0 ≤ count)
    (hc : count < z.Count) :
    (z.RevLimit count).1 = z.Count - count ∧
      (z.RevLimit count).2.Count = count ∧
      (∀ m, z.Count - count < z.Rank m →
        (z.RevLimit count).2.Score m = z.Score m ∧ ((z.RevLimit count).2.Score m).2 = true ∧
          (z.RevLimit count).2.Rank m = z.Rank m - (z.Count - count)) ∧
      (∀ m, 1 ≤ z.Rank m → z.Rank m ≤ z.Count - count →
        (z.RevLimit count).2.Score m = (0, false) ∧ (z.RevLimit count).2.Rank m = 0) ∧
      (∀ m, m ∈ (z.RevLimit count).2.tbl ↔ z.Count - count < z.Rank m) := by
  have hz := Inv_of_Reachable h
  have hlen := Count_eq_length hz
  rw [RevLimit_eq hz hb count h0 hc]
  obtain ⟨hz', hnodes, hlook⟩ :=
    foldl_Rem_spec ((z.sl.nodes.take (z.Count - count).toNat).map skiplistNode.obj) hz
  rw [filter_not_mem_take hz] at hnodes
  generalize ((z.sl.nodes.take (z.Count - count).toNat).map skiplistNode.obj).foldl
    ZSet.Rem z = z' at *
  have hkept : ∀ m, z.Count - count < z.Rank m →
      z'.Score m = z.Score m ∧ (z'.Score m).2 = true ∧
        z'.Rank m = z.Rank m - (z.Count - count) := by
    intro m h1
    obtain ⟨n, hn, rfl⟩ := Rank_pos_index hz m (by omega)
    have hn' : z'.sl.nodes[(z.Rank n.obj - 1).toNat - (z.Count - count).toNat]? = some n := by
      rw [hnodes, List.getElem?_drop]
      have : (z.Count - count).toNat + ((z.Rank n.obj - 1).toNat - (z.Count - count).toNat) =
          (z.Rank n.obj - 1).toNat := by omega
      rw [this]
      exact hn
    rw [Score_of_getElem? hz' _ n hn', Score_of_getElem? hz _ n hn,
      Rank_of_getElem? hz' _ n hn']
    refine ⟨rfl, rfl, ?_⟩
    omega
  have hgone : ∀ m, 1 ≤ z.Rank m → z.Rank m ≤ z.Count - count → z'.tbl.lookup m = none := by
    intro m h1 h2
    obtain ⟨n, hn, rfl⟩ := Rank_pos_index hz m h1
    rw [hlook, if_pos]
    apply List.mem_map_of_mem
    apply List.getElem?_mem (n := (z.Rank n.obj - 1).toNat)
    rw [List.getElem?_take, if_pos (by omega)]
    exact hn
  refine ⟨rfl, ?_, hkept, ?_, ?_⟩
  · rw [Count_eq_length hz', hnodes, List.length_drop]
    omega
  · intro m h1 h2
    exact ⟨Score_of_lookup_none z' m (hgone m h1 h2),
      Rank_of_lookup_none z' m (hgone m h1 h2)⟩
  · intro m
    constructor
    · intro hm
      have hin : m ∈ z.tbl := by
        obtain ⟨s, hs⟩ := Finmap.mem_iff.mp hm
        rw [hlook] at hs
        by_cases e : m ∈ (z.sl.nodes.take (z.Count - count).toNat).map skiplistNode.obj
        · rw [if_pos e] at hs
          cases hs
        · rw [if_neg e] at hs
          exact Finmap.mem_iff.mpr ⟨s, hs⟩
      have hb' := Rank_bounds hz m hin
      by_contra hgt
      have := hgone m hb'.1 (by omega)
      exact (Finmap.lookup_eq_none.mp this) hm
    · intro h1
      have := (hkept m h1).2.2
      by_contra hm
      have := (Rank_eq_zero_iff hz' m).mpr hm
      omega

theorem C22_revlimit_keeps_highest_witness :
    Reachable scenarioD ∧ scenarioD.Count < 9223372036854775808 ∧ (0 : Int) ≤ 4 ∧
      4 < scenarioD.Count ∧
      ((scenarioD.RevLimit 4).1 = scenarioD.Count - 4 ∧
        (scenarioD.RevLimit 4).2.Count = 4 ∧
        (∀ m, scenarioD.Count - 4 < scenarioD.Rank m →
          (scenarioD.RevLimit 4).2.Score m = scenarioD.Score m ∧
            ((scenarioD.RevLimit 4).2.Score m).2 = true ∧
            (scenarioD.RevLimit 4).2.Rank m = scenarioD.Rank m - (scenarioD.Count - 4)) ∧
        (∀ m, 1 ≤ scenarioD.Rank m → scenarioD.Rank m ≤ scenarioD.Count - 4 →
          (scenarioD.RevLimit 4).2.Score m = (0, false) ∧
            (scenarioD.RevLimit 4).2.Rank m = 0) ∧
        (∀ m, m ∈ (scenarioD.RevLimit 4).2.tbl ↔ scenarioD.Count - 4 < scenarioD.Rank m)) :=
  ⟨reachable_scenarioD, by decide, by decide, by decide,
    C22_revlimit_keeps_highest scenarioD reachable_scenarioD (by decide) 4 (by decide)
      (by decide)⟩

/-- C23: trim no-op: in every state, for `Count() ≤ count`, `Limit(count)` and
`RevLimit(count)` both return 0 and leave the state (index and table, hence members,
scores, ranks and `Count()`) unchanged. -/
theorem C23_trim_no_op (z : ZSet) (count : Int) (h : z.Count ≤ count) :
    z.Limit count = (0, z) ∧ z.RevLimit count = (0, z) ∧
      (z.Limit count).2.Count = z.Count ∧ (z.RevLimit count).2.Count = z.Count ∧
      (∀ m, (z.Limit count).2.Score m = z.Score m ∧ (z.Limit count).2.Rank m = z.Rank m ∧
        (z.RevLimit count).2.Score m = z.Score m ∧ (z.RevLimit count).2.Rank m = z.Rank m) := by
  rw [Limit_no_op z count h, RevLimit_no_op z count h]
  exact ⟨rfl, rfl, rfl, rfl, fun _ => ⟨rfl, rfl, rfl, rfl⟩⟩

theorem C23_trim_no_op_witness :
    scenarioD.Count ≤ 5 ∧
      (scenarioD.Limit 5 = (0, scenarioD) ∧ scenarioD.RevLimit 5 = (0, scenarioD) ∧
        (scenarioD.Limit 5).2.Count = scenarioD.Count ∧
        (scenarioD.RevLimit 5).2.Count = scenarioD.Count ∧
        (∀ m, (scenarioD.Limit 5).2.Score m = scenarioD.Score m ∧
          (scenarioD.Limit 5).2.Rank m = scenarioD.Rank m ∧
          (scenarioD.RevLimit 5).2.Score m = scenarioD.Score m ∧
          (scenarioD.RevLimit 5).2.Rank m = scenarioD.Rank m)) :=
  ⟨by decide, C23_trim_no_op scenarioD 5 (by decide)⟩

/-- C24: what `Limit` does for a negative count: on the five members of scenario D, `Limit(-1)`
returns 0 and leaves all five members, whereas `RevLimit(-1)` removes all five and returns
5. -/
theorem C24_limit_negative_removes_nothing :
    scenarioD.Count = 5 ∧ (scenarioD.Limit (-1)).1 = 0 ∧
      (scenarioD.Limit (-1)).2 = scenarioD ∧ (scenarioD.Limit (-1)).2.Count = 5 ∧
      (scenarioD.RevLimit (-1)).1 = 5 ∧ (scenarioD.RevLimit (-1)).2.Count = 0 := by
  decide

/-! ## Allocation and guard -/

/-- C25: what `Range` does for a window far longer than the set: whatever the allocation limit of the runtime (below
`2^64`), `Range(1, 2^62)` on the three members of `TestRange` panics in
`make([]string, 0, rangelen)`, before any member is listed; the walk itself would list the
three members. -/
theorem C25_range_allocation_panics (maxAlloc : Int)
    (h : maxAlloc < 18446744073709551616) :
    ZSet.RangeAlloc maxAlloc scenarioC 1 4611686018427387904 = none ∧
      scenarioC.Range 1 4611686018427387904 = ["1", "5", "9"] := by
  constructor
  · unfold ZSet.RangeAlloc
    rw [if_neg (by decide)]
    simp only [if_pos (show (1 : Int) ≤ 4611686018427387904 by decide)]
    have hp : makeslicePanics maxAlloc (4611686018427387904 - 1 + 1) = true := by
      unfold makeslicePanics stringSize
      rw [decide_eq_true_eq]
      right
      omega
    rw [if_pos hp]
  · have hz := Inv_of_Reachable reachable_scenarioC
    rw [Range_ascending_eq scenarioC 1 4611686018427387904 (by decide) (by decide)]
    have h1 : ((1 : Int) - 1).toNat = 0 := by decide
    rw [h1, List.drop_zero, List.take_of_length_le]
    · decide
    · have : scenarioC.sl.nodes.length = 3 := by decide
      rw [this]
      omega

theorem C25_range_allocation_panics_witness :
    (281474976710656 : Int) < 18446744073709551616 ∧
      (ZSet.RangeAlloc 281474976710656 scenarioC 1 4611686018427387904 = none ∧
        scenarioC.Range 1 4611686018427387904 = ["1", "5", "9"]) :=
  ⟨by decide, C25_range_allocation_panics 281474976710656 (by decide)⟩

/-- C26: where the guard is held: `Count` reads the index without holding the guard;
`Limit(1)` on the five members of scenario D is not one exclusive section (it is an unguarded
`Count`, a shared section for `Range` and one exclusive section for each `Rem`), and
`RevRange` and `RevRank` read `Count` outside of their shared section; `Add`, `Rem`, `Score`,
`Range`, `RangeByScore` and `Rank` do keep the discipline there. -/
theorem C26_count_reads_unguarded :
    guardedFrom 0 scenarioD.CountEvents = false ∧
      oneExclusiveSection (scenarioD.LimitEvents 1) = false ∧
      guardedFrom 0 (scenarioD.LimitEvents 1) = false ∧
      oneExclusiveSection (scenarioD.RevLimitEvents 4) = false ∧
      guardedFrom 0 (scenarioD.RevRangeEvents 1 2) = false ∧
      guardedFrom 0 (scenarioD.RevRankEvents "5") = false ∧
      oneExclusiveSection (scenarioD.AddEvents 6 "6") = true ∧
      oneExclusiveSection (scenarioD.RemEvents "5") = true ∧
      guardedFrom 0 (scenarioD.ScoreEvents "5") = true ∧
      guardedFrom 0 (scenarioD.RangeEvents 1 5) = true ∧
      guardedFrom 0 (scenarioD.RangeByScoreEvents 1 5) = true ∧
      guardedFrom 0 (scenarioD.RankEvents "5") = true := by
  decide

/-! ## `Rank` against `Range` -/

theorem reachable_scenarioE : Reachable scenarioE :=
  Reachable.add _ _ _ (Reachable.add _ _ _ (Reachable.rem _ _ (Reachable.add _ _ _
    (Reachable.add _ _ _ (Reachable.add _ _ _ Reachable.new)))))

theorem Range_single (z : ZSet) (r : Int) (h1 : 1 ≤ r) (n : skiplistNode)
    (hn : z.sl.nodes[(r - 1).toNat]? = some n) : z.Range r r = [n.obj] := by
  rw [Range_ascending_eq z r r h1 (le_refl r)]
  have h : (r - r + 1).toNat = 1 := by omega
  rw [h]
  have hlt : (r - 1).toNat < z.sl.nodes.length := by
    by_contra hge
    rw [List.getElem?_eq_none (by omega)] at hn
    cases hn
  rw [List.drop_eq_getElem_cons hlt, List.take_succ_cons, List.take_zero]
  rw [List.getElem?_eq_getElem hlt] at hn
  cases hn
  rfl

/-- C35: `Rank` and `Range` agree after any interleaving of inserts and deletes: in every
state reachable from `New()` by `Add`, `Rem`, `Limit` and `RevLimit`, for every `r` with
`1 ≤ r ≤ Count()` the list `Range(r, r)` is a single member `m` with `Rank(m) = r`, and for
every present member `m`, `Range(Rank(m), Rank(m)) = [m]`. -/
theorem C35_rank_range_agree (z : ZSet) (h : Reachable z) :
    (∀ r : Int, 1 ≤ r → r ≤ z.Count → ∃ m, z.Range r r = [m] ∧ z.Rank m = r) ∧
      (∀ m, m ∈ z.tbl → z.Range (z.Rank m) (z.Rank m) = [m]) := by
  have hz := Inv_of_Reachable h
  have hlen := Count_eq_length hz
  constructor
  · intro r h1 hr
    have hlt : (r - 1).toNat < z.sl.nodes.length := by omega
    have hn : z.sl.nodes[(r - 1).toNat]? = some z.sl.nodes[(r - 1).toNat] :=
      List.getElem?_eq_getElem hlt
    refine ⟨_, Range_single z r h1 _ hn, ?_⟩
    rw [Rank_of_getElem? hz _ _ hn]
    omega
  · intro m hm
    have hb := Rank_bounds hz m hm
    obtain ⟨n, hn, rfl⟩ := Rank_pos_index hz m hb.1
    exact Range_single z _ hb.1 n hn

theorem C35_rank_range_agree_witness :
    Reachable scenarioE ∧
      (∀ r : Int, 1 ≤ r → r ≤ scenarioE.Count →
        ∃ m, scenarioE.Range r r = [m] ∧ scenarioE.Rank m = r) ∧
      (∀ m, m ∈ scenarioE.tbl → scenarioE.Range (scenarioE.Rank m) (scenarioE.Rank m) = [m]) :=
  ⟨reachable_scenarioE, C35_rank_range_agree scenarioE reachable_scenarioE⟩

/-! ## What a trim returns -/

theorem Range_nodup_subset {z : ZSet} (hz : Inv z) (a b : Int) :
    (z.Range a b).Nodup ∧ ∀ m ∈ z.Range a b, m ∈ z.sl.nodes.map skiplistNode.obj := by
  have hnd := members_nodup hz
  by_cases hlow : a < 1 ∨ b < 1
  · rw [Range_below_one z a b hlow]
    exact ⟨List.nodup_nil, fun m hm => absurd hm (List.not_mem_nil m)⟩
  · have ha : 1 ≤ a := by omega
    have hb : 1 ≤ b := by omega
    by_cases hab : a ≤ b
    · rw [Range_ascending_eq z a b ha hab]
      have hsub : (((z.sl.nodes.drop (a - 1).toNat).take (b - a + 1).toNat).map
          skiplistNode.obj).Sublist (z.sl.nodes.map skiplistNode.obj) :=
        ((List.take_sublist _ _).trans (List.drop_sublist _ _)).map _
      exact ⟨hnd.sublist hsub, fun m hm => hsub.subset hm⟩
    · rw [Range_descending_eq z a b hb (by omega)]
      split
      · have hsub : (((z.sl.nodes.take a.toNat).reverse).take (a - b + 1).toNat).Sublist
            (z.sl.nodes.take a.toNat).reverse := List.take_sublist _ _
        have hnd' : ((z.sl.nodes.take a.toNat).reverse.map skiplistNode.obj).Nodup := by
          rw [List.map_reverse, List.nodup_reverse]
          exact hnd.sublist ((List.take_sublist _ _).map _)
        refine ⟨hnd'.sublist (hsub.map _), fun m hm => ?_⟩
        obtain ⟨n, hn, rfl⟩ := List.mem_map.mp hm
        have h1 := hsub.subset hn
        rw [List.mem_reverse] at h1
        exact List.mem_map_of_mem _ ((List.take_sublist _ _).subset h1)
      · exact ⟨List.nodup_nil, fun m hm => absurd hm (List.not_mem_nil m)⟩

theorem length_filter_not_mem (l : List skiplistNode) (ms : List String)
    (hl : (l.map skiplistNode.obj).Nodup) (hms : ms.Nodup)
    (hsub : ∀ m ∈ ms, m ∈ l.map skiplistNode.obj) :
    (l.filter (fun n => decide (n.obj ∉ ms))).length + ms.length = l.length := by
  have hperm : ((l.filter (fun n => decide (n.obj ∈ ms))).map skiplistNode.obj).Perm ms := by
    apply (List.perm_ext_iff_of_nodup _ hms).mpr
    · intro m
      rw [List.mem_map]
      constructor
      · rintro ⟨n, hn, rfl⟩
        have := (List.mem_filter.mp hn).2
        simpa using this
      · intro hm
        obtain ⟨n, hn, rfl⟩ := List.mem_map.mp (hsub m hm)
        exact ⟨n, List.mem_filter.mpr ⟨hn, by simpa using hm⟩, rfl⟩
    · exact hl.sublist ((List.filter_sublist _).map _)
  have hlen := hperm.length_eq
  rw [List.length_map] at hlen
  have hsplit := List.length_eq_countP_add_countP (fun n => decide (n.obj ∈ ms)) l
  rw [List.countP_eq_length_filter, List.countP_eq_length_filter, hlen] at hsplit
  have hfilt : l.filter (fun n => decide (n.obj ∉ ms)) =
      l.filter (fun n => decide ¬(decide (n.obj ∈ ms) = true)) := by
    apply List.filter_congr
    intro n _
    simp
  rw [hfilt]
  omega

theorem deleteByRank_spec {z : ZSet} (hz : Inv z) (a b : Int) :
    (z.deleteByRank a b).1 = z.Count - (z.deleteByRank a b).2.Count ∧
      ∀ m, m ∈ (z.deleteByRank a b).2.tbl →
        m ∈ z.tbl ∧ (z.deleteByRank a b).2.Score m = z.Score m := by
  unfold ZSet.deleteByRank
  simp only
  generalize (if a > b then b else a) = lo
  generalize (if a > b then a else b) = hi
  obtain ⟨hz', hnodes, hlook⟩ := foldl_Rem_spec (z.Range lo hi) hz
  obtain ⟨hnd, hsub⟩ := Range_nodup_subset hz lo hi
  constructor
  · rw [Count_eq_length hz', Count_eq_length hz, hnodes]
    have := length_filter_not_mem z.sl.nodes (z.Range lo hi) (members_nodup hz) hnd hsub
    omega
  · intro m hm
    obtain ⟨s, hs⟩ := Finmap.mem_iff.mp hm
    have hs' := hs
    rw [hlook] at hs'
    by_cases e : m ∈ z.Range lo hi
    · rw [if_pos e] at hs'
      cases hs'
    · rw [if_neg e] at hs'
      refine ⟨Finmap.mem_iff.mpr ⟨s, hs'⟩, ?_⟩
      rw [(Score_eq_iff _ m s).mpr hs, (Score_eq_iff z m s).mpr hs']

/-! ## Rank windows and the allocation of the result -/

theorem RangeAlloc_of_guard (maxAlloc : Int) (z : ZSet) (r1 r2 : Int) (h : r1 < 1 ∨ r2 < 1) :
    z.RangeAlloc maxAlloc r1 r2 = some (z.Range r1 r2) := by
  unfold ZSet.RangeAlloc
  rw [if_pos h, Range_below_one z r1 r2 h]

theorem RangeAlloc_of_fits (maxAlloc : Int) (z : ZSet) (r1 r2 : Int)
    (hfit : (if r1 ≤ r2 then r2 - r1 + 1 else r1 - r2 + 1) * stringSize ≤ maxAlloc) :
    z.RangeAlloc maxAlloc r1 r2 = some (z.Range r1 r2) := by
  by_cases hg : r1 < 1 ∨ r2 < 1
  · exact RangeAlloc_of_guard maxAlloc z r1 r2 hg
  · unfold ZSet.RangeAlloc
    rw [if_neg hg]
    simp only
    have hp : makeslicePanics maxAlloc (if r1 ≤ r2 then r2 - r1 + 1 else r1 - r2 + 1) =
        false := by
      unfold makeslicePanics
      rw [decide_eq_false_iff_not]
      rintro (hneg | hbig)
      · split at hneg <;> omega
      · omega
    rw [hp]
    rfl

theorem RangeAlloc_of_exceeds (maxAlloc : Int) (z : ZSet) (r1 r2 : Int) (h1 : 1 ≤ r1)
    (h2 : 1 ≤ r2)
    (hbig : maxAlloc < (if r1 ≤ r2 then r2 - r1 + 1 else r1 - r2 + 1) * stringSize) :
    z.RangeAlloc maxAlloc r1 r2 = none := by
  unfold ZSet.RangeAlloc
  rw [if_neg (by omega)]
  simp only
  have hp : makeslicePanics maxAlloc (if r1 ≤ r2 then r2 - r1 + 1 else r1 - r2 + 1) = true := by
    unfold makeslicePanics
    rw [decide_eq_true_eq]
    exact Or.inr hbig
  rw [hp]
  rfl

theorem RangeAlloc_eq_some (maxAlloc : Int) (z : ZSet) (r1 r2 : Int) (l : List String)
    (h : z.RangeAlloc maxAlloc r1 r2 = some l) : l = z.Range r1 r2 := by
  unfold ZSet.RangeAlloc at h
  split at h
  · rename_i hg
    rw [Range_below_one z r1 r2 hg]
    cases h
    rfl
  · simp only at h
    cases hp : makeslicePanics maxAlloc (if r1 ≤ r2 then r2 - r1 + 1 else r1 - r2 + 1) with
    | true =>
      rw [hp] at h
      cases h
    | false =>
      rw [hp] at h
      cases h
      rfl

/-- C13: ascending rank window: in a reachable state, for `1 ≤ r1 ≤ r2` and an allocation
limit `maxAlloc`: when the `r2 - r1 + 1` strings of the window fit the limit, `Range(r1, r2)`
returns the walk of the window, whose entry at position `i` (from 0) is the member of rank
`r1 + i`, whose members are those of rank `r1` to `r2`, of length `min(r2, Count()) - r1 + 1`
when `r1 ≤ Count()` and empty when `r1 > Count()`, the part of the full listing from position
`r1` on; when they do not fit, `Range(r1, r2)` panics in `make`, however few members the
window holds. -/
theorem C13_range_ascending_allocated (maxAlloc : Int) (z : ZSet) (h : Reachable z)
    (r1 r2 : Int) (h1 : 1 ≤ r1) (h12 : r1 ≤ r2) :
    ((r2 - r1 + 1) * stringSize ≤ maxAlloc →
      z.RangeAlloc maxAlloc r1 r2 = some (z.Range r1 r2) ∧
      (∀ (i : Nat) (m : String), (z.Range r1 r2)[i]? = some m → z.Rank m = r1 + i) ∧
      (∀ m, m ∈ z.Range r1 r2 ↔ r1 ≤ z.Rank m ∧ z.Rank m ≤ r2) ∧
      (r1 ≤ z.Count → ((z.Range r1 r2).length : Int) = min r2 z.Count - r1 + 1) ∧
      (z.Count < r1 → z.Range r1 r2 = []) ∧
      z.Range r1 r2 =
        ((z.Range 1 z.Count).drop (r1 - 1).toNat).take (r2 - r1 + 1).toNat) ∧
    (maxAlloc < (r2 - r1 + 1) * stringSize → z.RangeAlloc maxAlloc r1 r2 = none) := by
  have hz := Inv_of_Reachable h
  have hlen := Count_eq_length hz
  constructor
  · intro hfit
    refine ⟨RangeAlloc_of_fits maxAlloc z r1 r2 (by rw [if_pos h12]; exact hfit), ?_,
      mem_Range_ascending hz r1 r2 h1 h12, ?_, ?_, ?_⟩
    · intro i m hi
      exact (Range_ascending_rank hz r1 r2 h1 h12 i m hi).1
    · intro hc
      rw [hlen] at hc ⊢
      exact Range_ascending_length z r1 r2 h1 h12 hc
    · intro hc
      rw [hlen] at hc
      exact Range_start_past_end z r1 r2 (by omega) hc
    · rw [Range_all hz, Range_ascending_eq z r1 r2 h1 h12, List.map_take, List.map_drop]
  · intro hbig
    exact RangeAlloc_of_exceeds maxAlloc z r1 r2 h1 (by omega) (by rw [if_pos h12]; exact hbig)

theorem C13_range_ascending_allocated_witness :
    Reachable scenarioC ∧ (1 : Int) ≤ 2 ∧ (2 : Int) ≤ 6 ∧
      ((6 : Int) - 2 + 1) * stringSize ≤ 281474976710656 ∧ 2 ≤ scenarioC.Count ∧
      (ZSet.RangeAlloc 281474976710656 scenarioC 2 6 = some (scenarioC.Range 2 6) ∧
        (∀ (i : Nat) (m : String), (scenarioC.Range 2 6)[i]? = some m →
          scenarioC.Rank m = 2 + i) ∧
        (∀ m, m ∈ scenarioC.Range 2 6 ↔ 2 ≤ scenarioC.Rank m ∧ scenarioC.Rank m ≤ 6) ∧
        ((scenarioC.Range 2 6).length : Int) = min 6 scenarioC.Count - 2 + 1) ∧
      ((1 : Int) ≤ 1 ∧ (1 : Int) ≤ 4611686018427387904 ∧
        (281474976710656 : Int) < ((4611686018427387904 : Int) - 1 + 1) * stringSize ∧
        ZSet.RangeAlloc 281474976710656 scenarioC 1 4611686018427387904 = none) :=
  ⟨reachable_scenarioC, by decide, by decide, by decide, by decide,
    ⟨((C13_range_ascending_allocated 281474976710656 scenarioC reachable_scenarioC 2 6
        (by decide) (by decide)).1 (by decide)).1,
      ((C13_range_ascending_allocated 281474976710656 scenarioC reachable_scenarioC 2 6
        (by decide) (by decide)).1 (by decide)).2.1,
      ((C13_range_ascending_allocated 281474976710656 scenarioC reachable_scenarioC 2 6
        (by decide) (by decide)).1 (by decide)).2.2.1,
      ((C13_range_ascending_allocated 281474976710656 scenarioC reachable_scenarioC 2 6
        (by decide) (by decide)).1 (by decide)).2.2.2.1 (by decide)⟩,
    by decide, by decide, by decide,
    (C13_range_ascending_allocated 281474976710656 scenarioC reachable_scenarioC 1
      4611686018427387904 (by decide) (by decide)).2 (by decide)⟩

/-- C16, as the claim states it, fails: in the state of `TestRange` (three members) the
window `Range(6, 2)`, which the runtime can allocate, is empty, although the member `"9"`
has rank 3, which lies in the window `[2, 6]` and in `[1, Count()]`. -/
theorem C16_descending_window_unclamped :
    ZSet.RangeAlloc 281474976710656 scenarioC 6 2 = some [] ∧ scenarioC.Rank "9" = 3 ∧
      scenarioC.Count = 3 ∧
      ¬ (∀ m, m ∈ scenarioC.Range 6 2 ↔
        (min (6 : Int) 2 ≤ scenarioC.Rank m ∧ scenarioC.Rank m ≤ max (6 : Int) 2 ∧
          1 ≤ scenarioC.Rank m ∧ scenarioC.Rank m ≤ scenarioC.Count)) := by
  refine ⟨by decide, by decide, by decide, ?_⟩
  intro hall
  have hmem : "9" ∈ scenarioC.Range 6 2 := (hall "9").mpr (by decide)
  have hnil : scenarioC.Range 6 2 = [] := by decide
  rw [hnil] at hmem
  cases hmem

/-- C16, amended: in a reachable state, for `r1, r2 ≥ 1` and a window whose length
`|r1 - r2| + 1` in strings fits the allocation limit, `Range(r1, r2)` returns the walk of
the window: when `r1 ≤ r2` it lists, in ascending order, exactly the members whose rank lies
in `[r1, r2]` (a window that runs past the last member yields its in-bounds part); when
`r1 > r2` and `r1 ≤ Count()` it lists, in descending order, exactly the members whose rank
lies in `[r2, r1]`; when `r1 > r2` and `r1 > Count()` it is empty. -/
theorem C16_range_clamping_allocated (maxAlloc : Int) (z : ZSet) (h : Reachable z)
    (r1 r2 : Int) (h1 : 1 ≤ r1) (h2 : 1 ≤ r2)
    (hfit : (if r1 ≤ r2 then r2 - r1 + 1 else r1 - r2 + 1) * stringSize ≤ maxAlloc) :
    z.RangeAlloc maxAlloc r1 r2 = some (z.Range r1 r2) ∧
      (r1 ≤ r2 →
        (∀ m, m ∈ z.Range r1 r2 ↔ r1 ≤ z.Rank m ∧ z.Rank m ≤ r2) ∧
        (∀ (i : Nat) (m : String), (z.Range r1 r2)[i]? = some m → z.Rank m = r1 + i)) ∧
      (r2 < r1 → r1 ≤ z.Count →
        (∀ m, m ∈ z.Range r1 r2 ↔ r2 ≤ z.Rank m ∧ z.Rank m ≤ r1) ∧
        (∀ (i : Nat) (m : String), (z.Range r1 r2)[i]? = some m → z.Rank m = r1 - i)) ∧
      (r2 < r1 → z.Count < r1 → z.Range r1 r2 = []) := by
  have hz := Inv_of_Reachable h
  have hlen := Count_eq_length hz
  refine ⟨RangeAlloc_of_fits maxAlloc z r1 r2 hfit, ?_, ?_, ?_⟩
  · intro h12
    exact ⟨mem_Range_ascending hz r1 r2 h1 h12,
      fun i m hi => (Range_ascending_rank hz r1 r2 h1 h12 i m hi).1⟩
  · intro h21 hc
    rw [hlen] at hc
    exact ⟨mem_Range_descending hz r1 r2 h2 h21 hc,
      fun i m hi => (Range_descending_rank hz r1 r2 h2 h21 hc i m hi).1⟩
  · intro _ hc
    rw [hlen] at hc
    exact Range_start_past_end z r1 r2 h2 hc

theorem C16_range_clamping_allocated_witness :
    Reachable scenarioC ∧
      (ZSet.RangeAlloc 281474976710656 scenarioC 2 6 = some (scenarioC.Range 2 6) ∧
        (∀ m, m ∈ scenarioC.Range 2 6 ↔ 2 ≤ scenarioC.Rank m ∧ scenarioC.Rank m ≤ 6) ∧
        (∀ (i : Nat) (m : String), (scenarioC.Range 2 6)[i]? = some m →
          scenarioC.Rank m = 2 + i)) ∧
      (ZSet.RangeAlloc 281474976710656 scenarioC 3 1 = some (scenarioC.Range 3 1) ∧
        (∀ m, m ∈ scenarioC.Range 3 1 ↔ 1 ≤ scenarioC.Rank m ∧ scenarioC.Rank m ≤ 3) ∧
        (∀ (i : Nat) (m : String), (scenarioC.Range 3 1)[i]? = some m →
          scenarioC.Rank m = 3 - i)) ∧
      (ZSet.RangeAlloc 281474976710656 scenarioC 6 2 = some (scenarioC.Range 6 2) ∧
        scenarioC.Range 6 2 = []) :=
  ⟨reachable_scenarioC,
    ⟨(C16_range_clamping_allocated 281474976710656 scenarioC reachable_scenarioC 2 6
        (by decide) (by decide) (by decide)).1,
      (C16_range_clamping_allocated 281474976710656 scenarioC reachable_scenarioC 2 6
        (by decide) (by decide) (by decide)).2.1 (by decide)⟩,
    ⟨(C16_range_clamping_allocated 281474976710656 scenarioC reachable_scenarioC 3 1
        (by decide) (by decide) (by decide)).1,
      (C16_range_clamping_allocated 281474976710656 scenarioC reachable_scenarioC 3 1
        (by decide) (by decide) (by decide)).2.2.1 (by decide) (by decide)⟩,
    ⟨(C16_range_clamping_allocated 281474976710656 scenarioC reachable_scenarioC 6 2
        (by decide) (by decide) (by decide)).1,
      (C16_range_clamping_allocated 281474976710656 scenarioC reachable_scenarioC 6 2
        (by decide) (by decide) (by decide)).2.2.2 (by decide) (by decide)⟩⟩

/-- C17: start rank past the end: in a reachable state, for `r1 > Count()` and `r2 ≥ 1`:
when the `|r1 - r2| + 1` strings of the window fit the allocation limit, `Range(r1, r2)` is
empty, whatever the direction of the window; when they do not fit, `Range(r1, r2)` panics in
`make`, although no member is in the window. -/
theorem C17_range_start_past_end_allocated (maxAlloc : Int) (z : ZSet) (h : Reachable z)
    (r1 r2 : Int) (hc : z.Count < r1) (h2 : 1 ≤ r2) :
    ((if r1 ≤ r2 then r2 - r1 + 1 else r1 - r2 + 1) * stringSize ≤ maxAlloc →
      z.RangeAlloc maxAlloc r1 r2 = some []) ∧
    (maxAlloc < (if r1 ≤ r2 then r2 - r1 + 1 else r1 - r2 + 1) * stringSize →
      z.RangeAlloc maxAlloc r1 r2 = none) := by
  have hz := Inv_of_Reachable h
  have hcount : 0 ≤ z.Count := by
    rw [Count_eq_length hz]
    omega
  constructor
  · intro hfit
    rw [RangeAlloc_of_fits maxAlloc z r1 r2 hfit]
    rw [Count_eq_length hz] at hc
    rw [Range_start_past_end z r1 r2 h2 hc]
  · intro hbig
    exact RangeAlloc_of_exceeds maxAlloc z r1 r2 (by omega) h2 hbig

theorem C17_range_start_past_end_allocated_witness :
    Reachable scenarioC ∧
      (scenarioC.Count < 6 ∧ (1 : Int) ≤ 2 ∧
        ZSet.RangeAlloc 281474976710656 scenarioC 6 2 = some []) ∧
      (scenarioC.Count < 4611686018427387904 ∧ (1 : Int) ≤ 1 ∧
        ZSet.RangeAlloc 281474976710656 scenarioC 4611686018427387904 1 = none) :=
  ⟨reachable_scenarioC,
    ⟨by decide, by decide,
      (C17_range_start_past_end_allocated 281474976710656 scenarioC reachable_scenarioC 6 2
        (by decide) (by decide)).1 (by decide)⟩,
    ⟨by decide, by decide,
      (C17_range_start_past_end_allocated 281474976710656 scenarioC reachable_scenarioC
        4611686018427387904 1 (by decide) (by decide)).2 (by decide)⟩⟩

theorem reverseRank_cases (z : ZSet) (r : Int) (h0 : 0 ≤ z.Count)
    (hc : z.Count < 9223372036854775808) (hr : -9223372036854775808 ≤ r)
    (hr' : r < 9223372036854775808) :
    z.reverseRank r = z.Count - r + 1 ∨
      (z.reverseRank r = z.Count - r + 1 - 18446744073709551616 ∧
        9223372036854775808 ≤ z.Count - r + 1) := by
  unfold ZSet.reverseRank wrapInt
  omega

theorem Count_nonneg {z : ZSet} (hz : Inv z) : 0 ≤ z.Count := by
  rw [Count_eq_length hz]
  omega

theorem deleteByRankAlloc_eq_some (maxAlloc : Int) (z : ZSet) (a b : Int) (r : Int × ZSet)
    (h : z.deleteByRankAlloc maxAlloc a b = some r) : r = z.deleteByRank a b := by
  unfold ZSet.deleteByRankAlloc at h
  simp only at h
  cases hr : z.RangeAlloc maxAlloc (if a > b then b else a) (if a > b then a else b) with
  | none =>
    rw [hr] at h
    cases h
  | some members =>
    rw [hr] at h
    simp only [Option.some.injEq] at h
    rw [← h, RangeAlloc_eq_some maxAlloc z _ _ members hr]
    rfl

theorem deleteByRankAlloc_of_range (maxAlloc : Int) (z : ZSet) (a b : Int)
    (h : z.RangeAlloc maxAlloc (if a > b then b else a) (if a > b then a else b) =
      some (z.Range (if a > b then b else a) (if a > b then a else b))) :
    z.deleteByRankAlloc maxAlloc a b = some (z.deleteByRank a b) := by
  unfold ZSet.deleteByRankAlloc
  simp only
  rw [h]
  rfl

theorem LimitAlloc_eq_some (maxAlloc : Int) (z : ZSet) (count : Int) (r : Int × ZSet)
    (h : z.LimitAlloc maxAlloc count = some r) : r = z.Limit count := by
  unfold ZSet.LimitAlloc at h
  unfold ZSet.Limit
  simp only at h ⊢
  by_cases hno : z.Count ≤ count
  · rw [if_pos hno] at h ⊢
    cases h
    rfl
  · rw [if_neg hno] at h ⊢
    exact deleteByRankAlloc_eq_some maxAlloc z _ _ r h

theorem RevLimitAlloc_eq_some (maxAlloc : Int) (z : ZSet) (count : Int) (r : Int × ZSet)
    (h : z.RevLimitAlloc maxAlloc count = some r) : r = z.RevLimit count := by
  unfold ZSet.RevLimitAlloc at h
  unfold ZSet.RevLimit
  simp only at h ⊢
  by_cases hno : z.Count ≤ count
  · rw [if_pos hno] at h ⊢
    cases h
    rfl
  · rw [if_neg hno] at h ⊢
    exact deleteByRankAlloc_eq_some maxAlloc z _ _ r h

theorem LimitAlloc_of_fits (maxAlloc : Int) (z : ZSet) (count : Int)
    (hfit : count < 0 ∨ z.Count ≤ count ∨ (z.Count - count) * stringSize ≤ maxAlloc) :
    z.LimitAlloc maxAlloc count = some (z.Limit count) := by
  unfold ZSet.LimitAlloc ZSet.Limit
  simp only
  by_cases hno : z.Count ≤ count
  · rw [if_pos hno, if_pos hno]
  · rw [if_neg hno, if_neg hno]
    apply deleteByRankAlloc_of_range
    have hgt : ¬ count + 1 > z.Count := by omega
    simp only [if_neg hgt]
    by_cases hneg : count < 0
    · exact RangeAlloc_of_guard maxAlloc z _ _ (Or.inl (by omega))
    · apply RangeAlloc_of_fits
      rw [if_pos (by omega)]
      have : (z.Count - count) * stringSize ≤ maxAlloc := by
        rcases hfit with h | h | h
        · exact absurd h hneg
        · exact absurd h hno
        · exact h
      have e : z.Count - (count + 1) + 1 = z.Count - count := by omega
      rw [e]
      exact this

theorem RevLimit_window (z : ZSet) (count : Int) (h0 : 0 ≤ z.Count)
    (hc : z.Count < 9223372036854775808) (hlow : -9223372036854775808 ≤ count)
    (hno : ¬ z.Count ≤ count) :
    z.reverseRank z.Count = 1 ∧
      (z.reverseRank (count + 1) = z.Count - count ∨ z.reverseRank (count + 1) < 1) := by
  constructor
  · unfold ZSet.reverseRank wrapInt
    omega
  · rcases reverseRank_cases z (count + 1) h0 hc (by omega) (by omega) with h | ⟨h, _⟩
    · left
      rw [h]
      omega
    · right
      rw [h]
      omega

theorem RevLimitAlloc_of_fits (maxAlloc : Int) (z : ZSet) (count : Int) (h0 : 0 ≤ z.Count)
    (hc : z.Count < 9223372036854775808) (hlow : -9223372036854775808 ≤ count)
    (hfit : z.Count ≤ count ∨ (z.Count - count) * stringSize ≤ maxAlloc) :
    z.RevLimitAlloc maxAlloc count = some (z.RevLimit count) := by
  unfold ZSet.RevLimitAlloc ZSet.RevLimit
  simp only
  by_cases hno : z.Count ≤ count
  · rw [if_pos hno, if_pos hno]
  · rw [if_neg hno, if_neg hno]
    apply deleteByRankAlloc_of_range
    obtain ⟨hto, hfrom⟩ := RevLimit_window z count h0 hc hlow hno
    rw [hto]
    rcases hfrom with hf | hf
    · rw [hf]
      by_cases hgt : z.Count - count > 1
      · simp only [if_pos hgt]
        apply RangeAlloc_of_fits
        rw [if_pos (by omega)]
        have e : z.Count - count - 1 + 1 = z.Count - count := by omega
        rw [e]
        rcases hfit with h | h
        · exact absurd h hno
        · exact h
      · simp only [if_neg hgt]
        have e : z.Count - count = 1 := by omega
        rw [e]
        apply RangeAlloc_of_fits
        rw [if_pos (le_refl 1)]
        have : (1 : Int) - 1 + 1 = z.Count - count := by omega
        rw [this]
        rcases hfit with h | h
        · exact absurd h hno
        · exact h
    · have hgt : ¬ z.reverseRank (count + 1) > 1 := by omega
      simp only [if_neg hgt]
      exact RangeAlloc_of_guard maxAlloc z _ _ (Or.inl hf)

theorem RevLimitAlloc_of_exceeds (maxAlloc : Int) (z : ZSet) (count : Int) (h0 : 0 ≤ z.Count)
    (hc : z.Count < 4611686018427387904) (hneg : count < 0)
    (hlow : -4611686018427387904 ≤ count)
    (hbig : maxAlloc < (z.Count - count) * stringSize) :
    z.RevLimitAlloc maxAlloc count = none := by
  have hno : ¬ z.Count ≤ count := by omega
  obtain ⟨hto, hfrom⟩ := RevLimit_window z count h0 (by omega) (by omega) hno
  have hf : z.reverseRank (count + 1) = z.Count - count := by
    rcases reverseRank_cases z (count + 1) h0 (by omega) (by omega) (by omega) with h | ⟨_, h⟩
    · rw [h]
      omega
    · omega
  unfold ZSet.RevLimitAlloc ZSet.deleteByRankAlloc
  simp only
  rw [if_neg hno, hto, hf]
  by_cases hgt : z.Count - count > 1
  · simp only [if_pos hgt]
    rw [RangeAlloc_of_exceeds maxAlloc z 1 (z.Count - count) (le_refl 1) (by omega) (by
      rw [if_pos (by omega)]
      have e : z.Count - count - 1 + 1 = z.Count - count := by omega
      rw [e]
      exact hbig)]
  · simp only [if_neg hgt]
    have e : z.Count - count = 1 := by omega
    rw [e] at hbig ⊢
    rw [RangeAlloc_of_exceeds maxAlloc z 1 1 (le_refl 1) (le_refl 1) (by
      rw [if_pos (le_refl 1)]
      have : (1 : Int) - 1 + 1 = 1 := by omega
      rw [this]
      exact hbig)]

theorem Limit_count_difference {z : ZSet} (hz : Inv z) (count : Int) :
    (z.Limit count).1 = z.Count - (z.Limit count).2.Count ∧
      ∀ m, m ∈ (z.Limit count).2.tbl →
        m ∈ z.tbl ∧ (z.Limit count).2.Score m = z.Score m := by
  unfold ZSet.Limit
  simp only
  split
  · exact ⟨by simp, fun m hm => ⟨hm, rfl⟩⟩
  · exact deleteByRank_spec hz _ _

theorem RevLimit_count_difference {z : ZSet} (hz : Inv z) (count : Int) :
    (z.RevLimit count).1 = z.Count - (z.RevLimit count).2.Count ∧
      ∀ m, m ∈ (z.RevLimit count).2.tbl →
        m ∈ z.tbl ∧ (z.RevLimit count).2.Score m = z.Score m := by
  unfold ZSet.RevLimit
  simp only
  split
  · exact ⟨by simp, fun m hm => ⟨hm, rfl⟩⟩
  · exact deleteByRank_spec hz _ _

/-- C36: in every reachable state, for every integer `count` (zero and negative included)
and every allocation limit: whenever `Limit(count)` or `RevLimit(count)` returns, the value
returned is `Count()` before the call minus `Count()` after it, and every member left was a
member before and has the score it had; `Limit(count)` returns when `count < 0`, when
`Count() ≤ count`, or when `Count() - count` strings fit the limit, and `RevLimit(count)`
returns when `Count() ≤ count` or when `Count() - count` strings fit the limit; but when
`count` is negative and `Count() - count` strings do not fit, `RevLimit(count)` panics in
the `make` of `Range` and removes nothing. -/
theorem C36_trim_count_difference (maxAlloc : Int) (z : ZSet) (h : Reachable z)
    (count : Int) :
    (∀ r, z.LimitAlloc maxAlloc count = some r →
      r.1 = z.Count - r.2.Count ∧
        ∀ m, m ∈ r.2.tbl → m ∈ z.tbl ∧ r.2.Score m = z.Score m) ∧
    (∀ r, z.RevLimitAlloc maxAlloc count = some r →
      r.1 = z.Count - r.2.Count ∧
        ∀ m, m ∈ r.2.tbl → m ∈ z.tbl ∧ r.2.Score m = z.Score m) ∧
    (count < 0 ∨ z.Count ≤ count ∨ (z.Count - count) * stringSize ≤ maxAlloc →
      ∃ r, z.LimitAlloc maxAlloc count = some r) ∧
    (z.Count < 9223372036854775808 → -9223372036854775808 ≤ count →
      z.Count ≤ count ∨ (z.Count - count) * stringSize ≤ maxAlloc →
      ∃ r, z.RevLimitAlloc maxAlloc count = some r) ∧
    (z.Count < 4611686018427387904 → count < 0 → -4611686018427387904 ≤ count →
      maxAlloc < (z.Count - count) * stringSize →
      z.RevLimitAlloc maxAlloc count = none) := by
  have hz := Inv_of_Reachable h
  have h0 := Count_nonneg hz
  refine ⟨?_, ?_, ?_, ?_, ?_⟩
  · intro r hr
    rw [LimitAlloc_eq_some maxAlloc z count r hr]
    exact Limit_count_difference hz count
  · intro r hr
    rw [RevLimitAlloc_eq_some maxAlloc z count r hr]
    exact RevLimit_count_difference hz count
  · intro hfit
    exact ⟨_, LimitAlloc_of_fits maxAlloc z count hfit⟩
  · intro hc hlow hfit
    exact ⟨_, RevLimitAlloc_of_fits maxAlloc z count h0 hc hlow hfit⟩
  · intro hc hneg hlow hbig
    exact RevLimitAlloc_of_exceeds maxAlloc z count h0 hc hneg hlow hbig

theorem C36_trim_count_difference_witness :
    Reachable scenarioD ∧
      (((-1 : Int) < 0 ∨ scenarioD.Count ≤ -1 ∨
          (scenarioD.Count - (-1)) * stringSize ≤ 281474976710656) ∧
        ∃ r, ZSet.LimitAlloc 281474976710656 scenarioD (-1) = some r) ∧
      (scenarioD.Count < 9223372036854775808 ∧ (-9223372036854775808 : Int) ≤ -1 ∧
        (scenarioD.Count ≤ -1 ∨ (scenarioD.Count - (-1)) * stringSize ≤ 281474976710656) ∧
        ∃ r, ZSet.RevLimitAlloc 281474976710656 scenarioD (-1) = some r) ∧
      (scenarioD.Count < 4611686018427387904 ∧ (-4611686018427387904 : Int) < 0 ∧
        (-4611686018427387904 : Int) ≤ -4611686018427387904 ∧
        (281474976710656 : Int) < (scenarioD.Count - (-4611686018427387904)) * stringSize ∧
        ZSet.RevLimitAlloc 281474976710656 scenarioD (-4611686018427387904) = none) :=
  ⟨reachable_scenarioD,
    ⟨by decide,
      (C36_trim_count_difference 281474976710656 scenarioD reachable_scenarioD (-1)).2.2.1
        (by decide)⟩,
    ⟨by decide, by decide, by decide,
      (C36_trim_count_difference 281474976710656 scenarioD reachable_scenarioD (-1)).2.2.2.1
        (by decide) (by decide) (by decide)⟩,
    ⟨by decide, by decide, by decide, by decide,
      (C36_trim_count_difference 281474976710656 scenarioD reachable_scenarioD
        (-4611686018427387904)).2.2.2.2 (by decide) (by decide) (by decide) (by decide)⟩⟩

/-! ## `RevRange` for ranks below 1 -/

/-- C37, as the claim states it, fails: in the state of `TestRange` (members `"1"`, `"5"`,
`"9"` in ascending order) `Range(1, 0)` and `Range(0, 1)` are empty, and so is
`RevRange(0, 1)`, but `RevRange(1, 0)` is `Range(3, 4)`, the top member `"9"`, and
`RevRange(2, 0)` is the two top members in ascending order. -/
theorem C37_revrange_one_zero_not_empty :
    scenarioC.Range 1 0 = [] ∧ scenarioC.Range 0 1 = [] ∧ scenarioC.RevRange 0 1 = [] ∧
      scenarioC.RevRange 1 0 = ["9"] ∧ scenarioC.RevRange 2 0 = ["5", "9"] ∧
      scenarioC.RevRange 1 (-3) = ["9"] ∧
      ZSet.RevRangeAlloc 281474976710656 scenarioC 1 0 = some ["9"] ∧
      scenarioC.RevRange 1 0 = scenarioC.Range 3 4 ∧
      scenarioC.RevRange 1 0 ≠ [] := by
  decide

theorem RevRangeAlloc_eq (maxAlloc : Int) (z : ZSet) (r1 r2 : Int) :
    z.RevRangeAlloc maxAlloc r1 r2 =
      z.RangeAlloc maxAlloc (z.reverseRank r1)
        (z.reverseRank (if r2 > z.Count then z.Count else r2)) := rfl

/-- C37, amended: in a reachable state (with `Count()` below `2^62`), for integers `r1`, `r2`
of the range of `int` and a mirrored window whose `|r1 - min(r2, Count())| + 1` strings fit
the allocation limit (itself below `2^64`): `RevRange(r1, r2)` is empty when `r1 < 1`; it is
empty when `r1 > Count()`, whatever the limit; and when `1 ≤ r1 ≤ Count()` and `r2 < 1` it
is `Range(Count()-r1+1, Count()-r2+1)`, the `r1` members of the ranks `Count()-r1+1` to
`Count()` in ascending order. -/
theorem C37_revrange_below_one (maxAlloc : Int) (z : ZSet) (h : Reachable z) (r1 r2 : Int)
    (hc : z.Count < 4611686018427387904)
    (hr1 : -9223372036854775808 ≤ r1 ∧ r1 < 9223372036854775808)
    (hr2 : -9223372036854775808 ≤ r2 ∧ r2 < 9223372036854775808)
    (hmax : maxAlloc < 18446744073709551616) :
    (r1 < 1 →
      (if r1 ≤ (if r2 > z.Count then z.Count else r2)
        then (if r2 > z.Count then z.Count else r2) - r1 + 1
        else r1 - (if r2 > z.Count then z.Count else r2) + 1) * stringSize ≤ maxAlloc →
      z.RevRangeAlloc maxAlloc r1 r2 = some []) ∧
    (z.Count < r1 → z.RevRangeAlloc maxAlloc r1 r2 = some []) ∧
    (1 ≤ r1 → r1 ≤ z.Count → r2 < 1 → (r1 - r2 + 1) * stringSize ≤ maxAlloc →
      z.RevRangeAlloc maxAlloc r1 r2 =
          some (z.Range (z.Count - r1 + 1) (z.Count - r2 + 1)) ∧
        ((z.Range (z.Count - r1 + 1) (z.Count - r2 + 1)).length : Int) = r1 ∧
        (∀ (i : Nat) (m : String),
          (z.Range (z.Count - r1 + 1) (z.Count - r2 + 1))[i]? = some m →
            z.Rank m = z.Count - r1 + 1 + i)) := by
  have hz := Inv_of_Reachable h
  have h0 := Count_nonneg hz
  have hlen := Count_eq_length hz
  have hc63 : z.Count < 9223372036854775808 := by omega
  have hr2' : -9223372036854775808 ≤ (if r2 > z.Count then z.Count else r2) ∧
      (if r2 > z.Count then z.Count else r2) < 9223372036854775808 := by
    split <;> omega
  have hle : (if r2 > z.Count then z.Count else r2) ≤ z.Count := by
    split <;> omega
  refine ⟨?_, ?_, ?_⟩
  · intro hlow hfit
    rw [RevRangeAlloc_eq]
    generalize (if r2 > z.Count then z.Count else r2) = r2' at hfit hr2' hle ⊢
    rcases reverseRank_cases z r1 h0 hc63 hr1.1 hr1.2 with e1 | ⟨e1, _⟩
    · rcases reverseRank_cases z r2' h0 hc63 hr2'.1 hr2'.2 with e2 | ⟨e2, _⟩
      · rw [e1, e2]
        have hfits : z.RangeAlloc maxAlloc (z.Count - r1 + 1) (z.Count - r2' + 1) =
            some (z.Range (z.Count - r1 + 1) (z.Count - r2' + 1)) := by
          apply RangeAlloc_of_fits
          unfold stringSize at hfit ⊢
          split <;> split at hfit <;> omega
        rw [hfits, Range_start_past_end z _ _ (by omega) (by rw [← hlen]; omega)]
      · rw [e2, RangeAlloc_of_guard maxAlloc z _ _ (Or.inr (by omega)),
          Range_below_one z _ _ (Or.inr (by omega))]
    · rw [e1, RangeAlloc_of_guard maxAlloc z _ _ (Or.inl (by omega)),
        Range_below_one z _ _ (Or.inl (by omega))]
  · intro hgt
    rw [RevRangeAlloc_eq]
    have hm : z.reverseRank r1 < 1 := by
      rcases reverseRank_cases z r1 h0 hc63 hr1.1 hr1.2 with e1 | ⟨e1, _⟩
      · rw [e1]
        omega
      · rw [e1]
        omega
    rw [RangeAlloc_of_guard maxAlloc z _ _ (Or.inl hm),
      Range_below_one z _ _ (Or.inl hm)]
  · intro h1 hle1 hlow2 hfit
    rw [RevRangeAlloc_eq, if_neg (by omega)]
    have e1 : z.reverseRank r1 = z.Count - r1 + 1 := by
      rcases reverseRank_cases z r1 h0 hc63 hr1.1 hr1.2 with e | ⟨_, e⟩
      · exact e
      · omega
    have e2 : z.reverseRank r2 = z.Count - r2 + 1 := by
      rcases reverseRank_cases z r2 h0 hc63 hr2.1 hr2.2 with e | ⟨_, e⟩
      · exact e
      · unfold stringSize at hfit
        omega
    rw [e1, e2]
    refine ⟨?_, ?_, ?_⟩
    · apply RangeAlloc_of_fits
      rw [if_pos (by omega)]
      have e : z.Count - r2 + 1 - (z.Count - r1 + 1) + 1 = r1 - r2 + 1 := by omega
      rw [e]
      exact hfit
    · rw [Range_ascending_length z _ _ (by omega) (by omega) (by rw [← hlen]; omega),
        ← hlen]
      omega
    · intro i m hi
      exact (Range_ascending_rank hz _ _ (by omega) (by omega) i m hi).1

theorem C37_revrange_below_one_witness :
    Reachable scenarioC ∧ scenarioC.Count < 4611686018427387904 ∧
      (281474976710656 : Int) < 18446744073709551616 ∧
      ZSet.RevRangeAlloc 281474976710656 scenarioC 0 1 = some [] ∧
      ZSet.RevRangeAlloc 281474976710656 scenarioC 5 0 = some [] ∧
      (ZSet.RevRangeAlloc 281474976710656 scenarioC 2 0 =
          some (scenarioC.Range (scenarioC.Count - 2 + 1) (scenarioC.Count - 0 + 1)) ∧
        ((scenarioC.Range (scenarioC.Count - 2 + 1) (scenarioC.Count - 0 + 1)).length : Int) =
          2 ∧
        (∀ (i : Nat) (m : String),
          (scenarioC.Range (scenarioC.Count - 2 + 1) (scenarioC.Count - 0 + 1))[i]? = some m →
            scenarioC.Rank m = scenarioC.Count - 2 + 1 + i)) :=
  ⟨reachable_scenarioC, by decide, by decide,
    (C37_revrange_below_one 281474976710656 scenarioC reachable_scenarioC 0 1 (by decide)
      (by decide) (by decide) (by decide)).1 (by decide) (by decide),
    (C37_revrange_below_one 281474976710656 scenarioC reachable_scenarioC 5 0 (by decide)
      (by decide) (by decide) (by decide)).2.1 (by decide),
    (C37_revrange_below_one 281474976710656 scenarioC reachable_scenarioC 2 0 (by decide)
      (by decide) (by decide) (by decide)).2.2 (by decide) (by decide) (by decide)
      (by decide)⟩

end zset

/-! ## `DeduplicateAddInt32` -/

namespace utils

/-- C27: an extra element that occurs twice: `DeduplicateAddInt32([1], 2, 2)` is `[1, 2, 2]`: the
extra element 2, which occurs twice in `elements`, is added twice, so the result holds a
value more than once. -/
theorem C27_extra_element_added_twice :
    DeduplicateAddInt32 [(1 : Int)] [2, 2] = [1, 2, 2] ∧
      ¬ (DeduplicateAddInt32 [(1 : Int)] [2, 2]).Nodup := by
  decide

end utils

namespace bitmap

/-! ## Bits of a byte -/

theorem and7_lt (n : Nat) : n &&& 7 < 8 :=
  Nat.lt_of_le_of_lt Nat.and_le_right (by decide)

theorem and7_eq_mod (n : Nat) : n &&& 7 = n % 8 :=
  Nat.and_pow_two_sub_one_eq_mod n 3

theorem shr3_eq_div (n : Nat) : n >>> 3 = n / 8 :=
  Nat.shiftRight_eq_div_pow n 3

theorem mask_eq (p : Nat) (hp : p < 8) : (1 <<< p) % 256 = 2 ^ p := by
  rw [Nat.one_shiftLeft]
  apply Nat.mod_eq_of_lt
  calc 2 ^ p < 2 ^ 8 := Nat.pow_lt_pow_right (by decide) hp
    _ = 256 := by decide

theorem and_two_pow_ne_zero (b p : Nat) : b &&& 2 ^ p ≠ 0 ↔ b.testBit p = true := by
  rw [Nat.and_two_pow]
  cases h : b.testBit p with
  | false => simp
  | true =>
    simp only [Bool.toNat_true, one_mul, ne_eq, iff_true]
    exact Nat.pos_iff_ne_zero.mp (Nat.two_pow_pos p)

theorem and_mask_eq_zero (b p : Nat) (hp : p < 8) :
    b &&& (1 <<< p) % 256 = 0 ↔ b.testBit p = false := by
  rw [mask_eq p hp]
  have := and_two_pow_ne_zero b p
  constructor
  · intro h
    cases hb : b.testBit p with
    | false => rfl
    | true => exact absurd h (this.mpr hb)
  · intro h
    by_contra hne
    rw [this.mp hne] at h
    cases h

theorem testBit_set (b p q : Nat) (hp : p < 8) (hq : q < 8) :
    ((b ||| (1 <<< p) % 256) % 256).testBit q = (b.testBit q || decide (p = q)) := by
  rw [mask_eq p hp]
  have h256 : (256 : Nat) = 2 ^ 8 := by decide
  rw [h256, Nat.testBit_mod_two_pow, Nat.testBit_lor, Nat.testBit_two_pow]
  simp [hq]

theorem testBit_clear (b p q : Nat) (hp : p < 8) (hq : q < 8) :
    (b &&& (255 ^^^ (1 <<< p) % 256)).testBit q = (b.testBit q && !decide (p = q)) := by
  rw [mask_eq p hp, Nat.testBit_land, Nat.testBit_xor, Nat.testBit_two_pow]
  have h255 : (255 : Nat) = 2 ^ 8 - 1 := by decide
  rw [h255, Nat.testBit_two_pow_sub_one]
  simp [hq]

theorem set_lt_256 (b p : Nat) : (b ||| (1 <<< p) % 256) % 256 < 256 :=
  Nat.mod_lt _ (by decide)

theorem clear_lt_256 (b p : Nat) (hb : b < 256) : b &&& (255 ^^^ (1 <<< p) % 256) < 256 :=
  Nat.lt_of_le_of_lt Nat.and_le_left hb

theorem eq_of_byte_bit (n k : Nat) (h1 : n >>> 3 = k >>> 3) (h2 : n &&& 7 = k &&& 7) :
    n = k := by
  rw [shr3_eq_div, shr3_eq_div] at h1
  rw [and7_eq_mod, and7_eq_mod] at h2
  omega

/-! ## Bits of the slice -/

theorem bitAt_set (bits : List Nat) (idx b' n : Nat) (hidx : idx < bits.length) :
    bitAt (bits.set idx b') n =
      if n >>> 3 = idx then b'.testBit (n &&& 7) else bitAt bits n := by
  unfold bitAt
  by_cases h : n >>> 3 = idx
  · rw [if_pos h, h, List.getElem?_set_self hidx]
  · rw [if_neg h, List.getElem?_set_ne (Ne.symm h)]

theorem IsExist_eq (bm : BitMap) (n : Nat) :
    bm.IsExist n =
      if n > bm.maxVal then some false
      else (bm.bits[n >>> 3]?).map (fun b => b.testBit (n &&& 7)) := by
  unfold BitMap.IsExist
  by_cases h : n > bm.maxVal
  · rw [if_pos h, if_pos h]
  · rw [if_neg h, if_neg h]
    simp only
    cases hb : bm.bits[n >>> 3]? with
    | none => rfl
    | some b =>
      simp only [Option.map_some']
      congr 1
      cases ht : b.testBit (n &&& 7) with
      | false =>
        have := (and_mask_eq_zero b (n &&& 7) (and7_lt n)).mpr ht
        simp [this]
      | true =>
        have : ¬ (b &&& (1 <<< (n &&& 7)) % 256 = 0) := by
          intro h0
          rw [(and_mask_eq_zero b (n &&& 7) (and7_lt n)).mp h0] at ht
          cases ht
        simp [this]

theorem IsExist_eq_true_iff (bm : BitMap) (n : Nat) :
    bm.IsExist n = some true ↔ n ≤ bm.maxVal ∧ bitAt bm.bits n = true := by
  rw [IsExist_eq]
  unfold bitAt
  by_cases h : n > bm.maxVal
  · rw [if_pos h]
    constructor
    · intro h'
      cases h'
    · intro h'
      omega
  · rw [if_neg h]
    cases hb : bm.bits[n >>> 3]? with
    | none => simp
    | some b =>
      simp only [Option.map_some', Option.some.injEq]
      constructor
      · intro h'
        exact ⟨by omega, h'⟩
      · intro h'
        exact h'.2

theorem IsExist_congr (bm bm' : BitMap) (n : Nat) (hmax : bm'.maxVal = bm.maxVal)
    (hbyte : bm'.bits[n >>> 3]?.map (fun b => b.testBit (n &&& 7)) =
      bm.bits[n >>> 3]?.map (fun b => b.testBit (n &&& 7))) :
    bm'.IsExist n = bm.IsExist n := by
  rw [IsExist_eq, IsExist_eq, hmax, hbyte]

/-! ## The effect of `Add` and `Remove` -/

theorem mem_set_lt (bits : List Nat) (idx b' : Nat) (hb' : b' < 256)
    (h : ∀ x ∈ bits, x < 256) : ∀ x ∈ bits.set idx b', x < 256 := by
  intro x hx
  rcases List.mem_or_eq_of_mem_set hx with h1 | h1
  · exact h x h1
  · rw [h1]
    exact hb'

theorem Add_error (bm : BitMap) (num : Nat) (h : bm.maxVal < num) :
    bm.Add num = some (true, bm) := by
  unfold BitMap.Add
  rw [if_pos h]

theorem Remove_error (bm : BitMap) (num : Nat) (h : bm.maxVal < num) :
    bm.Remove num = some (true, bm) := by
  unfold BitMap.Remove
  rw [if_pos h]

theorem Add_effect (bm : BitMap) (num b : Nat) (hle : num ≤ bm.maxVal)
    (hb : bm.bits[num >>> 3]? = some b) :
    ∃ bm', bm.Add num = some (false, bm') ∧ bm'.maxVal = bm.maxVal ∧
      bm'.bits.length = bm.bits.length ∧
      (∀ n, bitAt bm'.bits n = (bitAt bm.bits n || decide (n = num))) ∧
      bm'.count = (if bitAt bm.bits num = true then bm.count else wrapInt32 (bm.count + 1)) ∧
      ((∀ x ∈ bm.bits, x < 256) → ∀ x ∈ bm'.bits, x < 256) := by
  have hidx : num >>> 3 < bm.bits.length := by
    by_contra hc
    rw [List.getElem?_eq_none (Nat.le_of_not_lt hc)] at hb
    cases hb
  have hbit : bitAt bm.bits num = b.testBit (num &&& 7) := by
    unfold bitAt
    rw [hb]
  unfold BitMap.Add
  rw [if_neg (by omega)]
  simp only [hb]
  cases ht : b.testBit (num &&& 7) with
  | true =>
    have hne : ¬ (b &&& (1 <<< (num &&& 7)) % 256 = 0) := by
      intro h0
      rw [(and_mask_eq_zero b _ (and7_lt num)).mp h0] at ht
      cases ht
    rw [if_neg hne]
    refine ⟨bm, rfl, rfl, rfl, ?_, ?_, fun h => h⟩
    · intro n
      by_cases e : n = num
      · subst e
        rw [hbit, ht]
        rfl
      · simp [e]
    · rw [hbit, ht, if_pos rfl]
  | false =>
    rw [if_pos ((and_mask_eq_zero b _ (and7_lt num)).mpr ht)]
    refine ⟨_, rfl, rfl, ?_, ?_, ?_, ?_⟩
    · simp only [List.length_set]
    · intro n
      simp only
      rw [bitAt_set _ _ _ _ hidx]
      by_cases e1 : n >>> 3 = num >>> 3
      · rw [if_pos e1, testBit_set _ _ _ (and7_lt num) (and7_lt n)]
        have hbn : bitAt bm.bits n = b.testBit (n &&& 7) := by
          unfold bitAt
          rw [e1, hb]
        rw [hbn]
        congr 1
        by_cases e2 : num &&& 7 = n &&& 7
        · have : n = num := eq_of_byte_bit n num e1 e2.symm
          simp [e2, this]
        · have : n ≠ num := fun e => e2 (by rw [e])
          simp [e2, this]
      · rw [if_neg e1]
        have : n ≠ num := fun e => e1 (by rw [e])
        simp [this]
    · simp only
      rw [hbit, ht]
      simp
    · intro h
      exact mem_set_lt _ _ _ (set_lt_256 _ _) h

theorem Remove_effect (bm : BitMap) (num b : Nat) (hle : num ≤ bm.maxVal)
    (hb : bm.bits[num >>> 3]? = some b) :
    ∃ bm', bm.Remove num = some (false, bm') ∧ bm'.maxVal = bm.maxVal ∧
      bm'.bits.length = bm.bits.length ∧
      (∀ n, bitAt bm'.bits n = (bitAt bm.bits n && !decide (n = num))) ∧
      bm'.count = (if bitAt bm.bits num = true then wrapInt32 (bm.count - 1) else bm.count) ∧
      ((∀ x ∈ bm.bits, x < 256) → ∀ x ∈ bm'.bits, x < 256) := by
  have hidx : num >>> 3 < bm.bits.length := by
    by_contra hc
    rw [List.getElem?_eq_none (Nat.le_of_not_lt hc)] at hb
    cases hb
  have hbit : bitAt bm.bits num = b.testBit (num &&& 7) := by
    unfold bitAt
    rw [hb]
  unfold BitMap.Remove
  rw [if_neg (by omega)]
  simp only [hb]
  cases ht : b.testBit (num &&& 7) with
  | false =>
    have h0 := (and_mask_eq_zero b _ (and7_lt num)).mpr ht
    rw [if_neg (by simpa using h0)]
    refine ⟨bm, rfl, rfl, rfl, ?_, ?_, fun h => h⟩
    · intro n
      by_cases e : n = num
      · subst e
        rw [hbit, ht]
        rfl
      · simp [e]
    · rw [hbit, ht]
      simp
  | true =>
    have hne : b &&& (1 <<< (num &&& 7)) % 256 ≠ 0 := by
      intro h0
      rw [(and_mask_eq_zero b _ (and7_lt num)).mp h0] at ht
      cases ht
    rw [if_pos hne]
    refine ⟨_, rfl, rfl, ?_, ?_, ?_, ?_⟩
    · simp only [List.length_set]
    · intro n
      simp only
      rw [bitAt_set _ _ _ _ hidx]
      by_cases e1 : n >>> 3 = num >>> 3
      · rw [if_pos e1, testBit_clear _ _ _ (and7_lt num) (and7_lt n)]
        have hbn : bitAt bm.bits n = b.testBit (n &&& 7) := by
          unfold bitAt
          rw [e1, hb]
        rw [hbn]
        congr 1
        by_cases e2 : num &&& 7 = n &&& 7
        · have : n = num := eq_of_byte_bit n num e1 e2.symm
          simp [e2, this]
        · have : n ≠ num := fun e => e2 (by rw [e])
          simp [e2, this]
      · rw [if_neg e1]
        have : n ≠ num := fun e => e1 (by rw [e])
        simp [this]
    · simp only
      rw [hbit, ht]
      simp
    · intro h
      intro x hx
      rcases List.mem_or_eq_of_mem_set hx with h1 | h1
      · exact h x h1
      · rw [h1]
        exact clear_lt_256 _ _ (h b (List.getElem?_mem hb))

theorem Add_cases (bm : BitMap) (num : Nat) (err : Bool) (bm' : BitMap)
    (h : bm.Add num = some (err, bm')) :
    (bm.maxVal < num ∧ err = true ∧ bm' = bm) ∨
      (num ≤ bm.maxVal ∧ err = false ∧ ∃ b, bm.bits[num >>> 3]? = some b) := by
  by_cases hgt : bm.maxVal < num
  · rw [Add_error bm num hgt] at h
    cases h
    exact Or.inl ⟨hgt, rfl, rfl⟩
  · right
    cases hb : bm.bits[num >>> 3]? with
    | none =>
      unfold BitMap.Add at h
      rw [if_neg hgt] at h
      simp only [hb] at h
      cases h
    | some b =>
      obtain ⟨bm₂, h2, _⟩ := Add_effect bm num b (by omega) hb
      rw [h2] at h
      cases h
      exact ⟨by omega, rfl, b, rfl⟩

theorem Remove_cases (bm : BitMap) (num : Nat) (err : Bool) (bm' : BitMap)
    (h : bm.Remove num = some (err, bm')) :
    (bm.maxVal < num ∧ err = true ∧ bm' = bm) ∨
      (num ≤ bm.maxVal ∧ err = false ∧ ∃ b, bm.bits[num >>> 3]? = some b) := by
  by_cases hgt : bm.maxVal < num
  · rw [Remove_error bm num hgt] at h
    cases h
    exact Or.inl ⟨hgt, rfl, rfl⟩
  · right
    cases hb : bm.bits[num >>> 3]? with
    | none =>
      unfold BitMap.Remove at h
      rw [if_neg hgt] at h
      simp only [hb] at h
      cases h
    | some b =>
      obtain ⟨bm₂, h2, _⟩ := Remove_effect bm num b (by omega) hb
      rw [h2] at h
      cases h
      exact ⟨by omega, rfl, b, rfl⟩

/-! ## Bitmaps changed by `Add` and `Remove` only -/

theorem length_of_ReachableAddRemove {bm : BitMap} (h : ReachableAddRemove bm) :
    bm.bits.length = (bm.maxVal >>> 3) + 1 := by
  induction h with
  | new max => simp [NewBitMap]
  | add bm num err bm' _ hadd ih =>
    rcases Add_cases bm num err bm' hadd with ⟨_, _, e⟩ | ⟨hle, _, b, hb⟩
    · rw [e]
      exact ih
    · obtain ⟨bm₂, h2, hmax, hlen, _⟩ := Add_effect bm num b hle hb
      rw [h2] at hadd
      cases hadd
      rw [hlen, hmax]
      exact ih
  | remove bm num err bm' _ hrem ih =>
    rcases Remove_cases bm num err bm' hrem with ⟨_, _, e⟩ | ⟨hle, _, b, hb⟩
    · rw [e]
      exact ih
    · obtain ⟨bm₂, h2, hmax, hlen, _⟩ := Remove_effect bm num b hle hb
      rw [h2] at hrem
      cases hrem
      rw [hlen, hmax]
      exact ih

theorem byte_in_range (bm : BitMap) (hlen : bm.bits.length = (bm.maxVal >>> 3) + 1)
    (k : Nat) (hk : k ≤ bm.maxVal) : ∃ b, bm.bits[k >>> 3]? = some b := by
  have h1 : k >>> 3 < bm.bits.length := by
    rw [hlen, shr3_eq_div, shr3_eq_div]
    omega
  exact ⟨bm.bits[k >>> 3], List.getElem?_eq_getElem h1⟩

theorem IsExist_of_byte (bm : BitMap) (k b : Nat) (hk : k ≤ bm.maxVal)
    (hb : bm.bits[k >>> 3]? = some b) : bm.IsExist k = some (bitAt bm.bits k) := by
  rw [IsExist_eq, if_neg (by omega)]
  unfold bitAt
  rw [hb]
  rfl

theorem IsExist_of_gt (bm : BitMap) (k : Nat) (hk : bm.maxVal < k) :
    bm.IsExist k = some false := by
  rw [IsExist_eq, if_pos hk]

/-- C28: for a bitmap made by `NewBitMap(max)` and changed only by `Add` and `Remove`, and
every `num`: when `num > max`, `Add(num)` and `Remove(num)` return an error and leave the
bitmap unchanged; when `num ≤ max` they return no error and do not index outside the byte
slice, after `Add(num)` `IsExist(num)` is true, after `Remove(num)` it is false, and
`IsExist(k)` is unchanged for every `k ≠ num`; `IsExist` never indexes outside the slice. -/
theorem C28_add_remove_effect (bm : BitMap) (h : ReachableAddRemove bm) (num : Nat) :
    (bm.maxVal < num → bm.Add num = some (true, bm) ∧ bm.Remove num = some (true, bm)) ∧
      (num ≤ bm.maxVal →
        (∃ bm', bm.Add num = some (false, bm') ∧ bm'.IsExist num = some true ∧
          ∀ k, k ≠ num → bm'.IsExist k = bm.IsExist k) ∧
        (∃ bm', bm.Remove num = some (false, bm') ∧ bm'.IsExist num = some false ∧
          ∀ k, k ≠ num → bm'.IsExist k = bm.IsExist k)) ∧
      (∀ k, ∃ r, bm.IsExist k = some r) := by
  have hlen := length_of_ReachableAddRemove h
  have hex : ∀ (bm₁ : BitMap), bm₁.bits.length = (bm₁.maxVal >>> 3) + 1 →
      ∀ k, bm₁.IsExist k = some (decide (k ≤ bm₁.maxVal) && bitAt bm₁.bits k) := by
    intro bm₁ hl k
    by_cases hk : k ≤ bm₁.maxVal
    · obtain ⟨b, hb⟩ := byte_in_range bm₁ hl k hk
      rw [IsExist_of_byte bm₁ k b hk hb]
      simp [hk]
    · rw [IsExist_of_gt bm₁ k (by omega)]
      simp [hk]
  refine ⟨fun hgt => ⟨Add_error bm num hgt, Remove_error bm num hgt⟩, ?_,
    fun k => ⟨_, hex bm hlen k⟩⟩
  intro hle
  obtain ⟨b, hb⟩ := byte_in_range bm hlen num hle
  constructor
  · obtain ⟨bm', hadd, hmax, hl', hbits, _⟩ := Add_effect bm num b hle hb
    have hlen' : bm'.bits.length = (bm'.maxVal >>> 3) + 1 := by rw [hl', hmax, hlen]
    refine ⟨bm', hadd, ?_, ?_⟩
    · rw [hex bm' hlen' num, hbits num, hmax]
      simp [hle]
    · intro k hk
      rw [hex bm' hlen' k, hex bm hlen k, hbits k, hmax]
      simp [hk]
  · obtain ⟨bm', hrem, hmax, hl', hbits, _⟩ := Remove_effect bm num b hle hb
    have hlen' : bm'.bits.length = (bm'.maxVal >>> 3) + 1 := by rw [hl', hmax, hlen]
    refine ⟨bm', hrem, ?_, ?_⟩
    · rw [hex bm' hlen' num, hbits num, hmax]
      simp
    · intro k hk
      rw [hex bm' hlen' k, hex bm hlen k, hbits k, hmax]
      simp [hk]

theorem reachable_sample : ReachableAddRemove sample := by
  unfold sample
  exact ReachableAddRemove.add (NewBitMap 20) 9 false _ (ReachableAddRemove.new 20) (by decide)

theorem C28_add_remove_effect_witness :
    ReachableAddRemove sample ∧
      (sample.Add 21 = some (true, sample) ∧ sample.Remove 21 = some (true, sample)) ∧
      ((∃ bm', sample.Add 5 = some (false, bm') ∧ bm'.IsExist 5 = some true ∧
          ∀ k, k ≠ 5 → bm'.IsExist k = sample.IsExist k) ∧
        (∃ bm', sample.Remove 9 = some (false, bm') ∧ bm'.IsExist 9 = some false ∧
          ∀ k, k ≠ 9 → bm'.IsExist k = sample.IsExist k)) ∧
      (∀ k, ∃ r, sample.IsExist k = some r) :=
  ⟨reachable_sample,
    (C28_add_remove_effect sample reachable_sample 21).1 (by decide),
    ⟨((C28_add_remove_effect sample reachable_sample 5).2.1 (by decide)).1,
      ((C28_add_remove_effect sample reachable_sample 9).2.1 (by decide)).2⟩,
    (C28_add_remove_effect sample reachable_sample 5).2.2⟩

/-! ## Counting -/

theorem wrapInt32_add_one (a : Int) : wrapInt32 (wrapInt32 a + 1) = wrapInt32 (a + 1) := by
  unfold wrapInt32
  omega

theorem wrapInt32_sub_one (a : Int) : wrapInt32 (wrapInt32 a - 1) = wrapInt32 (a - 1) := by
  unfold wrapInt32
  omega

theorem wrapInt32_idem (a : Int) : wrapInt32 (wrapInt32 a) = wrapInt32 a := by
  unfold wrapInt32
  omega

theorem wrapInt32_of_lt (a : Nat) (h : a < 2147483648) : wrapInt32 (a : Int) = a := by
  unfold wrapInt32
  omega

theorem countP_range_update (p q : Nat → Bool) (k N : Nat) (hk : k < N)
    (hsame : ∀ n, n ≠ k → q n = p n) (hp : p k = false) (hq : q k = true) :
    (List.range N).countP q = (List.range N).countP p + 1 := by
  induction N with
  | zero => omega
  | succ N ih =>
    rw [List.range_succ, List.countP_append, List.countP_append]
    by_cases e : k = N
    · subst e
      have hcongr : (List.range k).countP q = (List.range k).countP p := by
        apply List.countP_congr
        intro n hn
        have : n ≠ k := by
          have := List.mem_range.mp hn
          omega
        rw [hsame n this]
      rw [hcongr]
      simp [hp, hq]
    · have hlt : k < N := by omega
      rw [ih hlt]
      have : q N = p N := hsame N (Ne.symm e)
      rw [List.countP_singleton, List.countP_singleton, this]
      omega

theorem countP_range_of_false (p : Nat → Bool) (M k : Nat)
    (h : ∀ n, M ≤ n → p n = false) :
    (List.range (M + k)).countP p = (List.range M).countP p := by
  induction k with
  | zero => rfl
  | succ k ih =>
    rw [← Nat.add_assoc, List.range_succ, List.countP_append, ih]
    simp [h (M + k) (by omega)]

theorem countP_range_eq (p : Nat → Bool) (A B : Nat)
    (h : ∀ n, (A ≤ n ∨ B ≤ n) → p n = false) :
    (List.range A).countP p = (List.range B).countP p := by
  have h1 : ∀ n, min A B ≤ n → p n = false := by
    intro n hn
    apply h
    omega
  have hA := countP_range_of_false p (min A B) (A - min A B) h1
  have hB := countP_range_of_false p (min A B) (B - min A B) h1
  have eA : min A B + (A - min A B) = A := by omega
  have eB : min A B + (B - min A B) = B := by omega
  rw [eA] at hA
  rw [eB] at hB
  rw [hA, hB]

theorem bitAt_cons_lt (b : Nat) (bs : List Nat) (i : Nat) (hi : i < 8) :
    bitAt (b :: bs) i = b.testBit i := by
  unfold bitAt
  have h1 : i >>> 3 = 0 := by
    rw [shr3_eq_div]
    omega
  have h2 : i &&& 7 = i := by
    rw [and7_eq_mod]
    omega
  rw [h1, h2, List.getElem?_cons_zero]

theorem bitAt_cons_add (b : Nat) (bs : List Nat) (m : Nat) :
    bitAt (b :: bs) (8 + m) = bitAt bs m := by
  unfold bitAt
  have h1 : (8 + m) >>> 3 = (m >>> 3) + 1 := by
    rw [shr3_eq_div, shr3_eq_div]
    omega
  have h2 : (8 + m) &&& 7 = m &&& 7 := by
    rw [and7_eq_mod, and7_eq_mod]
    omega
  rw [h1, h2, List.getElem?_cons_succ]

theorem bitAt_of_length_le (bits : List Nat) (n : Nat) (h : 8 * bits.length ≤ n) :
    bitAt bits n = false := by
  unfold bitAt
  have : bits.length ≤ n >>> 3 := by
    rw [shr3_eq_div]
    omega
  rw [List.getElem?_eq_none this]

theorem sum_ones_eq (bits : List Nat) :
    (bits.map ones).sum = (List.range (8 * bits.length)).countP (bitAt bits) := by
  induction bits with
  | nil => rfl
  | cons b bs ih =>
    have hlen : 8 * (b :: bs).length = 8 + 8 * bs.length := by
      simp only [List.length_cons]
      omega
    rw [hlen, List.range_add, List.countP_append, List.countP_map, List.map_cons,
      List.sum_cons, ih]
    congr 1
    · unfold ones
      apply List.countP_congr
      intro i hi
      rw [bitAt_cons_lt b bs i (List.mem_range.mp hi)]
    · apply List.countP_congr
      intro m _
      simp only [Function.comp, bitAt_cons_add]

theorem clearLoop_eq (fuel b : Nat) (c : Int) (hc : wrapInt32 c = c) :
    BitMap.clearLoop fuel b c = wrapInt32 (c + clearIters fuel b) := by
  induction fuel generalizing b c with
  | zero =>
    simp only [BitMap.clearLoop, clearIters]
    rw [Nat.cast_zero, add_zero, hc]
  | succ fuel ih =>
    unfold BitMap.clearLoop clearIters
    by_cases hb : b > 0
    · rw [if_pos hb, if_pos hb, ih _ _ (wrapInt32_idem _)]
      unfold wrapInt32
      push_cast
      omega
    · rw [if_neg hb, if_neg hb, Nat.cast_zero, add_zero, hc]

set_option maxRecDepth 1000000 in
theorem clearIters_byte : ∀ b < 256, clearIters b b = ones b := by
  decide

theorem recount_fold (bits : List Nat) (hb : ∀ x ∈ bits, x < 256) (c : Int)
    (hc : wrapInt32 c = c) :
    bits.foldl (fun count b => BitMap.clearLoop b b count) c =
      wrapInt32 (c + ((bits.map ones).sum : Nat)) := by
  induction bits generalizing c with
  | nil =>
    simp only [List.foldl_nil, List.map_nil, List.sum_nil]
    rw [Nat.cast_zero, add_zero, hc]
  | cons b bs ih =>
    rw [List.foldl_cons, ih (fun x hx => hb x (List.mem_cons_of_mem _ hx)) _
      (by rw [clearLoop_eq b b c hc]; exact wrapInt32_idem _),
      clearLoop_eq b b c hc, clearIters_byte b (hb b (List.mem_cons_self _ _)),
      List.map_cons, List.sum_cons]
    unfold wrapInt32
    push_cast
    omega

theorem elements_eq (bm : BitMap) :
    bm.elements = (List.range (bm.maxVal + 1)).countP (bitAt bm.bits) := by
  unfold BitMap.elements
  apply List.countP_congr
  intro n hn
  have hle : n ≤ bm.maxVal := by
    have := List.mem_range.mp hn
    omega
  have := IsExist_eq_true_iff bm n
  cases hb : bitAt bm.bits n with
  | false =>
    simp only [decide_eq_true_eq]
    constructor
    · intro h'
      rw [hb] at this
      exact absurd (this.mp h').2 (by simp)
    · intro h'
      cases h'
  | true =>
    simp only [decide_eq_true_eq, iff_true]
    exact this.mpr ⟨hle, hb⟩

/-! ## The count of a bitmap -/

theorem Clean_New (max : Nat) : Clean (NewBitMap max) := by
  have hbit : ∀ n, bitAt (NewBitMap max).bits n = false := by
    intro n
    unfold bitAt NewBitMap
    simp only [List.getElem?_replicate]
    split
    · rename_i b hb
      split at hb
      · cases hb
        exact Nat.zero_testBit _
      · cases hb
    · rfl
  refine ⟨?_, fun n _ => hbit n, ?_⟩
  · intro x hx
    have := List.eq_of_mem_replicate hx
    omega
  · rw [elements_eq]
    have : (List.range ((NewBitMap max).maxVal + 1)).countP (bitAt (NewBitMap max).bits) = 0 := by
      rw [List.countP_eq_zero]
      intro n _
      rw [hbit n]
      simp
    rw [this]
    rfl

theorem elements_Add (bm bm' : BitMap) (num : Nat) (hle : num ≤ bm.maxVal)
    (hmax : bm'.maxVal = bm.maxVal)
    (hbits : ∀ n, bitAt bm'.bits n = (bitAt bm.bits n || decide (n = num))) :
    bm'.elements = if bitAt bm.bits num = true then bm.elements else bm.elements + 1 := by
  rw [elements_eq, elements_eq, hmax]
  by_cases hb : bitAt bm.bits num = true
  · rw [if_pos hb]
    apply List.countP_congr
    intro n _
    rw [hbits n]
    by_cases e : n = num
    · subst e
      simp [hb]
    · simp [e]
  · rw [if_neg hb]
    apply countP_range_update _ _ num _ (by omega)
    · intro n hn
      rw [hbits n]
      simp [hn]
    · simpa using hb
    · rw [hbits num]
      simp

theorem elements_Remove (bm bm' : BitMap) (num : Nat) (hle : num ≤ bm.maxVal)
    (hmax : bm'.maxVal = bm.maxVal)
    (hbits : ∀ n, bitAt bm'.bits n = (bitAt bm.bits n && !decide (n = num))) :
    bm.elements = if bitAt bm.bits num = true then bm'.elements + 1 else bm'.elements := by
  rw [elements_eq, elements_eq, hmax]
  by_cases hb : bitAt bm.bits num = true
  · rw [if_pos hb]
    apply countP_range_update _ _ num _ (by omega)
    · intro n hn
      rw [hbits n]
      simp [hn]
    · rw [hbits num]
      simp
    · exact hb
  · rw [if_neg hb]
    apply List.countP_congr
    intro n _
    rw [hbits n]
    by_cases e : n = num
    · subst e
      simp at hb
      simp [hb]
    · simp [e]

theorem Clean_Add (bm : BitMap) (num : Nat) (err : Bool) (bm' : BitMap) (hc : Clean bm)
    (hadd : bm.Add num = some (err, bm')) : Clean bm' := by
  rcases Add_cases bm num err bm' hadd with ⟨_, _, e⟩ | ⟨hle, _, b, hb⟩
  · rw [e]
    exact hc
  · obtain ⟨bm₂, h2, hmax, _, hbits, hcount, hbytes⟩ := Add_effect bm num b hle hb
    rw [h2] at hadd
    cases hadd
    refine ⟨hbytes hc.bytes, ?_, ?_⟩
    · intro n hn
      rw [hbits n, hc.above n (by omega)]
      have : n ≠ num := by omega
      simp [this]
    · rw [hcount, elements_Add bm bm' num hle hmax hbits, hc.count_eq]
      by_cases hbit : bitAt bm.bits num = true
      · rw [if_pos hbit, if_pos hbit]
      · rw [if_neg hbit, if_neg hbit, wrapInt32_add_one]
        push_cast
        rfl

theorem Clean_Remove (bm : BitMap) (num : Nat) (err : Bool) (bm' : BitMap) (hc : Clean bm)
    (hrem : bm.Remove num = some (err, bm')) : Clean bm' := by
  rcases Remove_cases bm num err bm' hrem with ⟨_, _, e⟩ | ⟨hle, _, b, hb⟩
  · rw [e]
    exact hc
  · obtain ⟨bm₂, h2, hmax, _, hbits, hcount, hbytes⟩ := Remove_effect bm num b hle hb
    rw [h2] at hrem
    cases hrem
    refine ⟨hbytes hc.bytes, ?_, ?_⟩
    · intro n hn
      rw [hbits n, hc.above n (by omega)]
      rfl
    · have hel := elements_Remove bm bm' num hle hmax hbits
      rw [hcount, hc.count_eq]
      by_cases hbit : bitAt bm.bits num = true
      · rw [if_pos hbit] at hel ⊢
        rw [wrapInt32_sub_one, hel]
        push_cast
        congr 1
        omega
      · rw [if_neg hbit] at hel ⊢
        rw [hel]

/-! ## Bitmaps and slices in one memory -/

theorem recount_count (bm : BitMap) (hb : ∀ x ∈ bm.bits, x < 256) :
    (BitMap.recount bm).count =
      wrapInt32 (((List.range (8 * bm.bits.length)).countP (bitAt bm.bits) : Nat)) := by
  unfold BitMap.recount
  simp only
  rw [recount_fold bm.bits hb 0 (by decide), sum_ones_eq, zero_add]

theorem Clean_recount (bm : BitMap) (hb : ∀ x ∈ bm.bits, x < 256)
    (habove : ∀ n, n < 8 * bm.bits.length → bm.maxVal < n → bitAt bm.bits n = false) :
    Clean (BitMap.recount bm) := by
  have hbits : (BitMap.recount bm).bits = bm.bits := rfl
  have hmax : (BitMap.recount bm).maxVal = bm.maxVal := rfl
  have habove' : ∀ n, bm.maxVal < n → bitAt bm.bits n = false := by
    intro n hn
    by_cases hlt : n < 8 * bm.bits.length
    · exact habove n hlt hn
    · exact bitAt_of_length_le bm.bits n (by omega)
  refine ⟨by rw [hbits]; exact hb, by rw [hbits, hmax]; exact habove', ?_⟩
  rw [recount_count bm hb, elements_eq, hbits, hmax]
  congr 2
  apply countP_range_eq
  intro n hn
  rcases hn with h1 | h1
  · exact bitAt_of_length_le bm.bits n h1
  · exact habove' n (by omega)

theorem Add_keeps (bm : BitMap) (num : Nat) (err : Bool) (bm' : BitMap)
    (h : bm.Add num = some (err, bm')) :
    bm'.maxVal = bm.maxVal ∧ bm'.bits.length = bm.bits.length := by
  rcases Add_cases bm num err bm' h with ⟨_, _, e⟩ | ⟨hle, _, b, hb⟩
  · rw [e]
    exact ⟨rfl, rfl⟩
  · obtain ⟨bm₂, h2, hmax, hlen, _⟩ := Add_effect bm num b hle hb
    rw [h2] at h
    cases h
    exact ⟨hmax, hlen⟩

theorem Remove_keeps (bm : BitMap) (num : Nat) (err : Bool) (bm' : BitMap)
    (h : bm.Remove num = some (err, bm')) :
    bm'.maxVal = bm.maxVal ∧ bm'.bits.length = bm.bits.length := by
  rcases Remove_cases bm num err bm' h with ⟨_, _, e⟩ | ⟨hle, _, b, hb⟩
  · rw [e]
    exact ⟨rfl, rfl⟩
  · obtain ⟨bm₂, h2, hmax, hlen, _⟩ := Remove_effect bm num b hle hb
    rw [h2] at h
    cases h
    exact ⟨hmax, hlen⟩

theorem getD_append_of_lt (arrays : List (List Nat)) (x : List Nat) (a : Nat)
    (h : a < arrays.length) : (arrays ++ [x]).getD a [] = arrays.getD a [] := by
  rw [List.getD_eq_getElem?_getD, List.getD_eq_getElem?_getD, List.getElem?_append_left h]

theorem getD_append_length (arrays : List (List Nat)) (x : List Nat) :
    (arrays ++ [x]).getD arrays.length [] = x := by
  rw [List.getD_eq_getElem?_getD, List.getElem?_append_right (le_refl _)]
  simp

theorem getD_set_self (arrays : List (List Nat)) (x : List Nat) (a : Nat)
    (h : a < arrays.length) : (arrays.set a x).getD a [] = x := by
  rw [List.getD_eq_getElem?_getD, List.getElem?_set_self h]
  rfl

theorem getD_set_of_ne (arrays : List (List Nat)) (x : List Nat) (a b : Nat) (h : a ≠ b) :
    (arrays.set a x).getD b [] = arrays.getD b [] := by
  rw [List.getD_eq_getElem?_getD, List.getD_eq_getElem?_getD, List.getElem?_set_ne h]

theorem getElem?_append_one {α : Type} (l : List α) (x r : α) (i : Nat)
    (h : (l ++ [x])[i]? = some r) : l[i]? = some r ∨ (i = l.length ∧ r = x) := by
  by_cases hlt : i < l.length
  · rw [List.getElem?_append_left hlt] at h
    exact Or.inl h
  · rw [List.getElem?_append_right (by omega)] at h
    by_cases he : i = l.length
    · subst he
      simp at h
      exact Or.inr ⟨rfl, h.symm⟩
    · have : i - l.length ≠ 0 := by omega
      obtain ⟨k, hk⟩ := Nat.exists_eq_succ_of_ne_zero this
      rw [hk] at h
      simp at h

theorem getElem?_set_cases {α : Type} (l : List α) (x r : α) (i j : Nat)
    (h : (l.set i x)[j]? = some r) :
    (j = i ∧ r = x ∧ i < l.length) ∨ (j ≠ i ∧ l[j]? = some r) := by
  by_cases he : i = j
  · subst he
    by_cases hlt : i < l.length
    · rw [List.getElem?_set_self hlt] at h
      injection h with h
      exact Or.inl ⟨rfl, h.symm, hlt⟩
    · rw [List.getElem?_eq_none (by rw [List.length_set]; omega)] at h
      cases h
  · rw [List.getElem?_set_ne he] at h
    exact Or.inr ⟨fun e => he e.symm, h⟩

theorem mem_arrays_bytes (m : Heap) (hb : ∀ arr ∈ m.arrays, ∀ x ∈ arr, x < 256) (a : Nat) :
    ∀ x ∈ m.bytes a, x < 256 := by
  intro x hx
  unfold Heap.bytes at hx
  rw [List.getD_eq_getElem?_getD] at hx
  cases hget : m.arrays[a]? with
  | none =>
    rw [hget] at hx
    simp at hx
  | some arr =>
    rw [hget] at hx
    exact hb arr (List.getElem?_mem hget) x hx

theorem HeapInv_empty : HeapInv Heap.empty := by
  refine ⟨?_, ?_, ?_, ?_⟩
  · intro arr harr
    cases harr
  · intro i r h
    simp [Heap.empty] at h
  · intro i r h
    simp [Heap.empty] at h
  · intro i r h
    simp [Heap.empty] at h

theorem HeapInv_NewBitMap (m : Heap) (max : Nat) (h : HeapInv m) :
    HeapInv (m.NewBitMap max).2 := by
  have hnew := Clean_New max
  have hold : ∀ r : BitMapRef, r.addr < m.arrays.length →
      (m.NewBitMap max).2.bytes r.addr = m.bytes r.addr := by
    intro r hr
    exact getD_append_of_lt _ _ _ hr
  have hfresh : (m.NewBitMap max).2.bytes m.arrays.length = (NewBitMap max).bits :=
    getD_append_length _ _
  refine ⟨?_, ?_, ?_, ?_⟩
  · intro arr harr
    rcases List.mem_append.mp harr with h1 | h1
    · exact h.bytes arr h1
    · rw [List.mem_singleton.mp h1]
      exact hnew.bytes
  · intro i r hr
    have hlen : (m.NewBitMap max).2.arrays.length = m.arrays.length + 1 := by
      simp [Heap.NewBitMap]
    rw [hlen]
    rcases getElem?_append_one _ _ _ _ hr with h1 | ⟨_, h1⟩
    · have := h.addr i r h1
      omega
    · rw [h1]
      exact Nat.lt_succ_self _
  · intro i r hr
    rcases getElem?_append_one _ _ _ _ hr with h1 | ⟨_, h1⟩
    · have e : (m.NewBitMap max).2.load r = m.load r := by
        unfold Heap.load
        rw [hold r (h.addr i r h1)]
      rw [e]
      exact h.clean i r h1
    · have e : (m.NewBitMap max).2.load r = NewBitMap max := by
        unfold Heap.load
        rw [h1]
        simp only
        rw [hfresh]
      rw [e]
      exact hnew
  · intro i r hr
    rcases getElem?_append_one _ _ _ _ hr with h1 | ⟨_, h1⟩
    · rw [hold r (h.addr i r h1)]
      exact h.sized i r h1
    · rw [h1]
      simp only
      rw [hfresh]
      simp [NewBitMap]

theorem HeapInv_alloc (m : Heap) (b : List Nat) (h : HeapInv m) : HeapInv (m.alloc b).2 := by
  have hold : ∀ r : BitMapRef, r.addr < m.arrays.length →
      (m.alloc b).2.bytes r.addr = m.bytes r.addr := by
    intro r hr
    exact getD_append_of_lt _ _ _ hr
  refine ⟨?_, ?_, ?_, ?_⟩
  · intro arr harr
    rcases List.mem_append.mp harr with h1 | h1
    · exact h.bytes arr h1
    · rw [List.mem_singleton.mp h1]
      intro x hx
      obtain ⟨y, _, hy⟩ := List.mem_map.mp hx
      rw [← hy]
      exact Nat.mod_lt _ (by decide)
  · intro i r hr
    have hlen : (m.alloc b).2.arrays.length = m.arrays.length + 1 := by
      simp [Heap.alloc]
    rw [hlen]
    have := h.addr i r hr
    omega
  · intro i r hr
    have e : (m.alloc b).2.load r = m.load r := by
      unfold Heap.load
      rw [hold r (h.addr i r hr)]
    rw [e]
    exact h.clean i r hr
  · intro i r hr
    rw [hold r (h.addr i r hr)]
    exact h.sized i r hr

theorem HeapInv_store (m : Heap) (a k v : Nat) (m' : Heap) (h : HeapInv m)
    (hfree : m.Free a) (hs : m.store a k v = some m') : HeapInv m' := by
  unfold Heap.store at hs
  split at hs
  · injection hs with hs
    subst hs
    have hold : ∀ (i : Nat) (r : BitMapRef), m.maps[i]? = some r →
        Heap.bytes { m with arrays := m.arrays.set a ((m.bytes a).set k (v % 256)) } r.addr =
          m.bytes r.addr := by
      intro i r hr
      exact getD_set_of_ne _ _ _ _ (fun e => hfree r (List.getElem?_mem hr) e.symm)
    refine ⟨?_, ?_, ?_, ?_⟩
    · intro arr harr
      rcases List.mem_or_eq_of_mem_set harr with h1 | h1
      · exact h.bytes arr h1
      · rw [h1]
        exact mem_set_lt _ _ _ (Nat.mod_lt _ (by decide)) (mem_arrays_bytes m h.bytes a)
    · intro i r hr
      simp only [List.length_set]
      exact h.addr i r hr
    · intro i r hr
      have e : Heap.load { m with arrays := m.arrays.set a ((m.bytes a).set k (v % 256)) } r =
          m.load r := by
        unfold Heap.load
        rw [hold i r hr]
      rw [e]
      exact h.clean i r hr
    · intro i r hr
      rw [hold i r hr]
      exact h.sized i r hr
  · cases hs

/-- The memory after a method of the bitmap `i` that left the struct `bm`, when no other
bitmap holds its slice. -/
theorem HeapInv_save (m : Heap) (i : Nat) (r : BitMapRef) (bm : BitMap) (h : HeapInv m)
    (hsole : m.Sole i) (hi : m.maps[i]? = some r) (hc : Clean bm)
    (hmax : bm.maxVal = r.maxVal) (hlen : bm.bits.length = (m.bytes r.addr).length) :
    HeapInv (m.save i r bm) := by
  have haddr := h.addr i r hi
  have hself : (m.save i r bm).bytes r.addr = bm.bits := getD_set_self _ _ _ haddr
  have hother : ∀ j rj, j ≠ i → m.maps[j]? = some rj →
      (m.save i r bm).bytes rj.addr = m.bytes rj.addr := by
    intro j rj hne hj
    apply getD_set_of_ne
    intro e
    have hj' : j < m.maps.length := by
      by_contra hc
      rw [List.getElem?_eq_none (by omega)] at hj
      cases hj
    have := hsole j hj' hne
    rw [hj, hi] at this
    exact this (by rw [Option.map_some', Option.map_some', e])
  refine ⟨?_, ?_, ?_, ?_⟩
  · intro arr harr
    rcases List.mem_or_eq_of_mem_set harr with h1 | h1
    · exact h.bytes arr h1
    · rw [h1]
      exact hc.bytes
  · intro j rj hj
    have hl : (m.save i r bm).arrays.length = m.arrays.length := by
      simp [Heap.save]
    rw [hl]
    rcases getElem?_set_cases _ _ _ _ _ hj with ⟨_, e, _⟩ | ⟨_, hold⟩
    · rw [e]
      exact haddr
    · exact h.addr j rj hold
  · intro j rj hj
    rcases getElem?_set_cases _ _ _ _ _ hj with ⟨_, e, _⟩ | ⟨hne, hold⟩
    · have e2 : (m.save i r bm).load rj = bm := by
        unfold Heap.load
        rw [e]
        simp only
        rw [hself, ← hmax]
      rw [e2]
      exact hc
    · have e2 : (m.save i r bm).load rj = m.load rj := by
        unfold Heap.load
        rw [hother j rj hne hold]
      rw [e2]
      exact h.clean j rj hold
  · intro j rj hj
    rcases getElem?_set_cases _ _ _ _ _ hj with ⟨_, e, _⟩ | ⟨hne, hold⟩
    · rw [e]
      simp only
      rw [hself, hlen]
      exact h.sized i r hi
    · rw [hother j rj hne hold]
      exact h.sized j rj hold

theorem HeapInv_Add (m : Heap) (i num : Nat) (err : Bool) (m' : Heap) (h : HeapInv m)
    (hsole : m.Sole i) (hadd : m.Add i num = some (err, m')) : HeapInv m' := by
  unfold Heap.Add at hadd
  cases hi : m.maps[i]? with
  | none =>
    rw [hi] at hadd
    cases hadd
  | some r =>
    rw [hi] at hadd
    simp only at hadd
    cases hbm : (m.load r).Add num with
    | none =>
      rw [hbm] at hadd
      cases hadd
    | some p =>
      obtain ⟨e, bm⟩ := p
      rw [hbm] at hadd
      simp only at hadd
      injection hadd with hadd
      injection hadd with _ hadd
      subst hadd
      obtain ⟨hmax, hlen⟩ := Add_keeps _ _ _ _ hbm
      exact HeapInv_save m i r bm h hsole hi (Clean_Add _ _ _ _ (h.clean i r hi) hbm) hmax hlen

theorem HeapInv_Remove (m : Heap) (i num : Nat) (err : Bool) (m' : Heap) (h : HeapInv m)
    (hsole : m.Sole i) (hrem : m.Remove i num = some (err, m')) : HeapInv m' := by
  unfold Heap.Remove at hrem
  cases hi : m.maps[i]? with
  | none =>
    rw [hi] at hrem
    cases hrem
  | some r =>
    rw [hi] at hrem
    simp only at hrem
    cases hbm : (m.load r).Remove num with
    | none =>
      rw [hbm] at hrem
      cases hrem
    | some p =>
      obtain ⟨e, bm⟩ := p
      rw [hbm] at hrem
      simp only at hrem
      injection hrem with hrem
      injection hrem with _ hrem
      subst hrem
      obtain ⟨hmax, hlen⟩ := Remove_keeps _ _ _ _ hbm
      exact HeapInv_save m i r bm h hsole hi (Clean_Remove _ _ _ _ (h.clean i r hi) hbm) hmax
        hlen

theorem SetBits_eq (m : Heap) (i a : Nat) (r : BitMapRef) (m' : Heap)
    (hi : m.maps[i]? = some r) (hs : m.SetBits i a = some m') :
    a < m.arrays.length ∧
      m' = { m with
        maps := m.maps.set i
          { addr := a, maxVal := r.maxVal
            count := (BitMap.recount (m.load { r with addr := a })).count } } := by
  unfold Heap.SetBits at hs
  rw [hi] at hs
  simp only at hs
  split at hs
  · rename_i hlt
    injection hs with hs
    exact ⟨hlt, hs.symm⟩
  · cases hs

theorem HeapInv_SetBits (m : Heap) (i a : Nat) (r : BitMapRef) (m' : Heap) (h : HeapInv m)
    (hi : m.maps[i]? = some r) (hfits : m.Fits a r.maxVal)
    (hs : m.SetBits i a = some m') : HeapInv m' := by
  obtain ⟨hlt, e⟩ := SetBits_eq m i a r m' hi hs
  subst e
  have hclean : Clean (BitMap.recount (m.load { r with addr := a })) :=
    Clean_recount _ (mem_arrays_bytes m h.bytes a) hfits.2
  refine ⟨h.bytes, ?_, ?_, ?_⟩
  · intro j rj hj
    rcases getElem?_set_cases _ _ _ _ _ hj with ⟨_, e, _⟩ | ⟨_, hold⟩
    · rw [e]
      exact hlt
    · exact h.addr j rj hold
  · intro j rj hj
    rcases getElem?_set_cases _ _ _ _ _ hj with ⟨_, e, _⟩ | ⟨_, hold⟩
    · rw [e]
      exact hclean
    · exact h.clean j rj hold
  · intro j rj hj
    rcases getElem?_set_cases _ _ _ _ _ hj with ⟨_, e, _⟩ | ⟨_, hold⟩
    · rw [e]
      exact hfits.1
    · exact h.sized j rj hold

theorem HeapInv_of_ReachableOwned {m : Heap} (h : ReachableOwned m) : HeapInv m := by
  induction h with
  | empty => exact HeapInv_empty
  | newBitMap m max _ ih => exact HeapInv_NewBitMap m max ih
  | alloc m b _ ih => exact HeapInv_alloc m b ih
  | store m a k v m' _ hfree hs ih => exact HeapInv_store m a k v m' ih hfree hs
  | add m i num err m' _ hsole hadd ih => exact HeapInv_Add m i num err m' ih hsole hadd
  | remove m i num err m' _ hsole hrem ih => exact HeapInv_Remove m i num err m' ih hsole hrem
  | setBits m i a r m' _ hi hfits hs ih => exact HeapInv_SetBits m i a r m' ih hi hfits hs

theorem bitmap_eq_some (m : Heap) (i : Nat) (bm : BitMap) (h : m.bitmap i = some bm) :
    ∃ r, m.maps[i]? = some r ∧ bm = m.load r := by
  unfold Heap.bitmap at h
  cases hi : m.maps[i]? with
  | none =>
    rw [hi] at h
    cases h
  | some r =>
    rw [hi] at h
    injection h with h
    exact ⟨r, rfl, h.symm⟩

theorem bitmap_save_count (m : Heap) (i : Nat) (r : BitMapRef) (bm bm' : BitMap)
    (h : (m.save i r bm).bitmap i = some bm') : bm'.Count = bm.count := by
  obtain ⟨r', hr', e⟩ := bitmap_eq_some _ _ _ h
  rcases getElem?_set_cases _ _ _ _ _ hr' with ⟨_, e2, _⟩ | ⟨hne, _⟩
  · rw [e, e2]
    rfl
  · exact absurd rfl hne

theorem IsExist_ne_none (bm : BitMap) (hlen : (bm.maxVal >>> 3) + 1 ≤ bm.bits.length)
    (n : Nat) : bm.IsExist n ≠ none := by
  by_cases hn : n ≤ bm.maxVal
  · have h1 : n >>> 3 < bm.bits.length := by
      rw [shr3_eq_div] at hlen ⊢
      omega
    rw [IsExist_of_byte bm n _ hn (List.getElem?_eq_getElem h1)]
    exact Option.some_ne_none _
  · rw [IsExist_of_gt bm n (by omega)]
    exact Option.some_ne_none _

/-- C29, as the claim states it, fails. `SetBits` takes any slice and `recount` counts every
bit of it: after `bm := NewBitMap(3); bm.SetBits([]byte{0x1f})`, `Count()` is 5, but only
the 4 values 0 to 3 are at most `Max()` and in the bitmap. `SetBits` also keeps the slice
itself: after `a := NewBitMap(20); a.Add(9); b := NewBitMap(20); b.SetBits(a.Bits());
a.Add(3)`, the bitmap `b` holds 3 and 9 and `b.Count()` is 1. And after
`bm := NewBitMap(20); bm.SetBits([]byte{1})`, `IsExist(9)` indexes outside the slice. -/
theorem C29_setbits_count_not_elements :
    (∃ bm, restoredAboveMax.bind (fun m => m.bitmap 0) = some bm ∧
      bm.Count = 5 ∧ bm.elements = 4 ∧ bm.Max = 3 ∧ bm.Count ≠ (bm.elements : Int)) ∧
    (∃ bm, restoredShared.bind (fun m => m.bitmap 1) = some bm ∧
      bm.Count = 1 ∧ bm.elements = 2 ∧ bm.IsExist 3 = some true ∧
      bm.IsExist 9 = some true ∧ bm.Count ≠ (bm.elements : Int)) ∧
    (∃ bm, restoredShort.bind (fun m => m.bitmap 0) = some bm ∧
      bm.Max = 20 ∧ bm.IsExist 9 = none) :=
  ⟨⟨_, rfl, by decide, by decide, by decide, by decide⟩,
    ⟨_, rfl, by decide, by decide, by decide, by decide, by decide⟩,
    ⟨_, rfl, by decide, by decide⟩⟩

/-- C29, amended: in every memory reached by `NewBitMap`, `Add`, `Remove` and `SetBits` on
its bitmaps and by the caller making slices and storing bytes, in which every slice handed
to `SetBits` has a byte for every number up to `Max()` and no bit set for a number above
it, `Add` and `Remove` are called on a bitmap that shares its slice with no other bitmap,
and the caller stores only through slices that no bitmap holds: for every bitmap, `Count()`
is the number of values `n` with `0 ≤ n ≤ Max()` for which `IsExist(n)` is true, as an
`int32` (so exactly that number while it is below `2^31`); `IsExist` never indexes outside
the slice; adding a present number or removing an absent one does not change `Count()`;
and after `SetBits(b)` with any slice `b` of the memory, `Count()` is the number of bits
set in `b`, as an `int32`. -/
theorem C29_count_is_elements_owned (m : Heap) (h : ReachableOwned m) (i : Nat)
    (bm : BitMap) (hi : m.bitmap i = some bm) :
    bm.Count = wrapInt32 (bm.elements : Int) ∧
      (bm.elements < 2147483648 → bm.Count = (bm.elements : Int)) ∧
      (∀ n, bm.IsExist n ≠ none) ∧
      (∀ num err m' bm', m.Add i num = some (err, m') → bm.IsExist num = some true →
        m'.bitmap i = some bm' → bm'.Count = bm.Count) ∧
      (∀ num err m' bm', m.Remove i num = some (err, m') → bm.IsExist num = some false →
        m'.bitmap i = some bm' → bm'.Count = bm.Count) ∧
      (∀ a m' bm', m.SetBits i a = some m' → m'.bitmap i = some bm' →
        bm'.Count =
          wrapInt32 (((List.range (8 * (m.bytes a).length)).countP (bitAt (m.bytes a)) :
            Nat))) := by
  have hinv := HeapInv_of_ReachableOwned h
  obtain ⟨r, hr, e⟩ := bitmap_eq_some m i bm hi
  subst e
  have hc := hinv.clean i r hr
  refine ⟨hc.count_eq, ?_, IsExist_ne_none _ (hinv.sized i r hr), ?_, ?_, ?_⟩
  · intro hlt
    unfold BitMap.Count
    rw [hc.count_eq, wrapInt32_of_lt _ hlt]
  · intro num err m' bm' hadd hex hbm'
    unfold Heap.Add at hadd
    rw [hr] at hadd
    simp only at hadd
    cases hbm : (m.load r).Add num with
    | none =>
      rw [hbm] at hadd
      cases hadd
    | some p =>
      obtain ⟨e, bm₁⟩ := p
      rw [hbm] at hadd
      simp only at hadd
      injection hadd with hadd
      injection hadd with _ hadd
      subst hadd
      rw [bitmap_save_count m i r bm₁ bm' hbm']
      have hset := (IsExist_eq_true_iff (m.load r) num).mp hex
      rcases Add_cases _ num e bm₁ hbm with ⟨_, _, e1⟩ | ⟨hle, _, b, hb⟩
      · rw [e1]
        rfl
      · obtain ⟨bm₂, h2, _, _, _, hcount, _⟩ := Add_effect _ num b hle hb
        rw [h2] at hbm
        cases hbm
        rw [hcount, if_pos hset.2]
        rfl
  · intro num err m' bm' hrem hex hbm'
    unfold Heap.Remove at hrem
    rw [hr] at hrem
    simp only at hrem
    cases hbm : (m.load r).Remove num with
    | none =>
      rw [hbm] at hrem
      cases hrem
    | some p =>
      obtain ⟨e, bm₁⟩ := p
      rw [hbm] at hrem
      simp only at hrem
      injection hrem with hrem
      injection hrem with _ hrem
      subst hrem
      rw [bitmap_save_count m i r bm₁ bm' hbm']
      rcases Remove_cases _ num e bm₁ hbm with ⟨_, _, e1⟩ | ⟨hle, _, b, hb⟩
      · rw [e1]
        rfl
      · obtain ⟨bm₂, h2, _, _, _, hcount, _⟩ := Remove_effect _ num b hle hb
        rw [h2] at hbm
        cases hbm
        have hbit : bitAt (m.load r).bits num = false := by
          rw [IsExist_of_byte _ num b hle hb] at hex
          injection hex
        rw [hcount, hbit]
        rfl
  · intro a m' bm' hs hbm'
    obtain ⟨_, e⟩ := SetBits_eq m i a r m' hr hs
    subst e
    obtain ⟨r', hr', e'⟩ := bitmap_eq_some _ _ _ hbm'
    rcases getElem?_set_cases _ _ _ _ _ hr' with ⟨_, e2, _⟩ | ⟨hne, _⟩
    · rw [e', e2]
      exact recount_count (m.load { r with addr := a }) (mem_arrays_bytes m hinv.bytes a)
    · exact absurd rfl hne

theorem reachableOwned_ownedHeap : ReachableOwned ownedHeap :=
  ReachableOwned.setBits _ 0 2 { addr := 0, maxVal := 20, count := 1 } ownedHeap
    (ReachableOwned.alloc _ [0, 0, 0]
      (ReachableOwned.setBits _ 1 0 { addr := 1, maxVal := 20, count := 0 }
        { arrays := [[0, 2, 0], [0, 0, 0]]
          maps := [{ addr := 0, maxVal := 20, count := 1 },
            { addr := 0, maxVal := 20, count := 1 }] }
        (ReachableOwned.newBitMap _ 20
          (ReachableOwned.add _ 0 9 false
            { arrays := [[0, 2, 0]], maps := [{ addr := 0, maxVal := 20, count := 1 }] }
            (ReachableOwned.newBitMap _ 20 ReachableOwned.empty)
            (by unfold Heap.Sole; decide) (by decide)))
        (by decide) (by unfold Heap.Fits; decide) (by decide)))
    (by decide) (by unfold Heap.Fits; decide) (by decide)

theorem C29_count_is_elements_owned_witness :
    ReachableOwned ownedHeap ∧ restoredOwned = some ownedHeap ∧
      ownedHeap.bitmap 1 = some { bits := [0, 2, 0], maxVal := 20, count := 1 } ∧
      (BitMap.mk [0, 2, 0] 20 1).Count = wrapInt32 ((BitMap.mk [0, 2, 0] 20 1).elements : Int) ∧
      (BitMap.mk [0, 2, 0] 20 1).Count = ((BitMap.mk [0, 2, 0] 20 1).elements : Int) ∧
      (BitMap.mk [0, 2, 0] 20 1).elements = 1 ∧
      (∀ n, (BitMap.mk [0, 2, 0] 20 1).IsExist n ≠ none) :=
  ⟨reachableOwned_ownedHeap, by decide, by decide,
    (C29_count_is_elements_owned ownedHeap reachableOwned_ownedHeap 1
      { bits := [0, 2, 0], maxVal := 20, count := 1 } (by decide)).1,
    (C29_count_is_elements_owned ownedHeap reachableOwned_ownedHeap 1
      { bits := [0, 2, 0], maxVal := 20, count := 1 } (by decide)).2.1 (by decide),
    by decide,
    (C29_count_is_elements_owned ownedHeap reachableOwned_ownedHeap 1
      { bits := [0, 2, 0], maxVal := 20, count := 1 } (by decide)).2.2.1⟩

end bitmap

namespace dag

/-! ## The cycle search -/

theorem card_sdiff_mono (keys v v' : Finset String) (h : v ⊆ v') :
    (keys \ v').card ≤ (keys \ v).card :=
  Finset.card_le_card (Finset.sdiff_subset_sdiff (Finset.Subset.refl keys) h)

theorem card_sdiff_insert_lt (keys v : Finset String) (x : String) (hx : x ∈ keys)
    (hv : x ∉ v) : (keys \ insert x v).card < (keys \ v).card := by
  apply Finset.card_lt_card
  rw [Finset.ssubset_iff_of_subset
    (Finset.sdiff_subset_sdiff (Finset.Subset.refl keys) (Finset.subset_insert x v))]
  refine ⟨x, Finset.mem_sdiff.mpr ⟨hx, hv⟩, ?_⟩
  intro hmem
  exact (Finset.mem_sdiff.mp hmem).2 (Finset.mem_insert_self x v)

theorem dfsLoop_total (keys : Finset String) (n : Nat)
    (search : String → Finset String → Outcome (Bool × Finset String))
    (hs : ∀ c v, (keys \ v).card < n →
      search c v ≠ Outcome.outOfFuel ∧ ∀ b v', search c v = Outcome.done (b, v') → v ⊆ v') :
    ∀ cs v, (keys \ v).card < n →
      DAG.dfsLoop search cs v ≠ Outcome.outOfFuel ∧
        ∀ b v', DAG.dfsLoop search cs v = Outcome.done (b, v') → v ⊆ v' := by
  intro cs
  induction cs with
  | nil =>
    intro v _
    refine ⟨by simp [DAG.dfsLoop], ?_⟩
    intro b v' h
    simp only [DAG.dfsLoop, Outcome.done.injEq, Prod.mk.injEq] at h
    rw [h.2]
  | cons c cs ih =>
    intro v hv
    obtain ⟨h1, h2⟩ := hs c v hv
    unfold DAG.dfsLoop
    cases hsr : search c v with
    | outOfFuel => exact absurd hsr h1
    | panic =>
      refine ⟨by simp, ?_⟩
      intro b v' h
      simp at h
    | done r =>
      obtain ⟨b1, v1⟩ := r
      have hsub := h2 b1 v1 hsr
      cases b1 with
      | true =>
        refine ⟨by simp, ?_⟩
        intro b v' h
        simp only [Outcome.done.injEq, Prod.mk.injEq] at h
        rw [← h.2]
        exact hsub
      | false =>
        have hv1 : (keys \ v1).card < n :=
          Nat.lt_of_le_of_lt (card_sdiff_mono keys v v1 hsub) hv
        obtain ⟨h3, h4⟩ := ih v1 hv1
        refine ⟨h3, ?_⟩
        intro b v' h
        exact Finset.Subset.trans hsub (h4 b v' h)

theorem dfs_total (dag : DAG) (target : String) :
    ∀ fuel cur v, (dag.Nodes.keys \ v).card < fuel →
      DAG.dfs dag target fuel cur v ≠ Outcome.outOfFuel ∧
        ∀ b v', DAG.dfs dag target fuel cur v = Outcome.done (b, v') → v ⊆ v' := by
  intro fuel
  induction fuel with
  | zero =>
    intro cur v h
    omega
  | succ fuel ih =>
    intro cur v hv
    unfold DAG.dfs
    by_cases h1 : cur = target
    · rw [if_pos h1]
      refine ⟨by simp, ?_⟩
      intro b v' h
      simp only [Outcome.done.injEq, Prod.mk.injEq] at h
      rw [h.2]
    · rw [if_neg h1]
      by_cases h2 : cur ∈ v
      · rw [if_pos h2]
        refine ⟨by simp, ?_⟩
        intro b v' h
        simp only [Outcome.done.injEq, Prod.mk.injEq] at h
        rw [h.2]
      · rw [if_neg h2]
        cases hl : dag.Nodes.lookup cur with
        | none =>
          refine ⟨by simp, ?_⟩
          intro b v' h
          simp at h
        | some node =>
          simp only
          have hkey : cur ∈ dag.Nodes.keys :=
            Finmap.mem_keys.mpr (Finmap.mem_iff.mpr ⟨node, hl⟩)
          have hlt : (dag.Nodes.keys \ insert cur v).card < fuel := by
            have := card_sdiff_insert_lt dag.Nodes.keys v cur hkey h2
            omega
          obtain ⟨h3, h4⟩ := dfsLoop_total dag.Nodes.keys fuel (DAG.dfs dag target fuel) ih
            node.Children (insert cur v) hlt
          refine ⟨h3, ?_⟩
          intro b v' h
          exact Finset.Subset.trans (Finset.subset_insert cur v) (h4 b v' h)

theorem createsCycle_ne_outOfFuel (dag : DAG) (from' to' : String) :
    dag.createsCycle from' to' ≠ Outcome.outOfFuel := by
  unfold DAG.createsCycle
  have h := (dfs_total dag from' (dag.Nodes.keys.card + 1) to' ∅ (by
    rw [Finset.sdiff_empty]
    omega)).1
  cases hr : DAG.dfs dag from' (dag.Nodes.keys.card + 1) to' ∅ with
  | outOfFuel => exact absurd hr h
  | panic => simp
  | done r =>
    obtain ⟨b, v⟩ := r
    simp

theorem dfsLoop_false (dag : DAG) (target : String)
    (search : String → Finset String → Outcome (Bool × Finset String))
    (hs : ∀ c v v', search c v = Outcome.done (false, v') →
      v ⊆ v' ∧ c ∈ v' ∧ (target ∈ v' → target ∈ v) ∧
        ∀ x ∈ v', x ∉ v → ∀ y, childRel dag x y → y ∈ v') :
    ∀ cs v v', DAG.dfsLoop search cs v = Outcome.done (false, v') →
      v ⊆ v' ∧ (∀ c ∈ cs, c ∈ v') ∧ (target ∈ v' → target ∈ v) ∧
        ∀ x ∈ v', x ∉ v → ∀ y, childRel dag x y → y ∈ v' := by
  intro cs
  induction cs with
  | nil =>
    intro v v' h
    simp only [DAG.dfsLoop, Outcome.done.injEq, Prod.mk.injEq, true_and] at h
    subst h
    exact ⟨Finset.Subset.refl v, by simp, fun h => h, fun x hx hnx => absurd hx hnx⟩
  | cons c cs ih =>
    intro v v' h
    unfold DAG.dfsLoop at h
    cases hsr : search c v with
    | outOfFuel =>
      rw [hsr] at h
      simp at h
    | panic =>
      rw [hsr] at h
      simp at h
    | done r =>
      obtain ⟨b1, v1⟩ := r
      rw [hsr] at h
      cases b1 with
      | true => simp at h
      | false =>
        simp only at h
        obtain ⟨a1, a2, a3, a4⟩ := hs c v v1 hsr
        obtain ⟨b1, b2, b3, b4⟩ := ih v1 v' h
        refine ⟨Finset.Subset.trans a1 b1, ?_, fun ht => a3 (b3 ht), ?_⟩
        · intro c' hc'
          rcases List.mem_cons.mp hc' with e | e
          · rw [e]
            exact b1 a2
          · exact b2 c' e
        · intro x hx hnx y hxy
          by_cases hx1 : x ∈ v1
          · exact b1 (a4 x hx1 hnx y hxy)
          · exact b4 x hx hx1 y hxy

theorem dfs_false (dag : DAG) (target : String) :
    ∀ fuel cur v v', DAG.dfs dag target fuel cur v = Outcome.done (false, v') →
      v ⊆ v' ∧ cur ∈ v' ∧ (target ∈ v' → target ∈ v) ∧
        ∀ x ∈ v', x ∉ v → ∀ y, childRel dag x y → y ∈ v' := by
  intro fuel
  induction fuel with
  | zero =>
    intro cur v v' h
    simp [DAG.dfs] at h
  | succ fuel ih =>
    intro cur v v' h
    unfold DAG.dfs at h
    by_cases h1 : cur = target
    · rw [if_pos h1] at h
      simp at h
    · rw [if_neg h1] at h
      by_cases h2 : cur ∈ v
      · rw [if_pos h2] at h
        simp only [Outcome.done.injEq, Prod.mk.injEq, true_and] at h
        subst h
        exact ⟨Finset.Subset.refl v, h2, fun h => h, fun x hx hnx => absurd hx hnx⟩
      · rw [if_neg h2] at h
        cases hl : dag.Nodes.lookup cur with
        | none =>
          rw [hl] at h
          simp at h
        | some node =>
          rw [hl] at h
          simp only at h
          obtain ⟨a1, a2, a3, a4⟩ :=
            dfsLoop_false dag target (DAG.dfs dag target fuel) ih node.Children
              (insert cur v) v' h
          have hcur : cur ∈ v' := a1 (Finset.mem_insert_self cur v)
          refine ⟨Finset.Subset.trans (Finset.subset_insert cur v) a1, hcur, ?_, ?_⟩
          · intro ht
            rcases Finset.mem_insert.mp (a3 ht) with e | e
            · exact absurd e.symm h1
            · exact e
          · intro x hx hnx y hxy
            by_cases hxc : x = cur
            · subst hxc
              obtain ⟨node', hl', hy⟩ := hxy
              rw [hl] at hl'
              cases hl'
              exact a2 y hy
            · apply a4 x hx _ y hxy
              intro hmem
              rcases Finset.mem_insert.mp hmem with e | e
              · exact hxc e
              · exact hnx e

theorem closed_of_reflTransGen (dag : DAG) (v : Finset String)
    (hclosed : ∀ x ∈ v, ∀ y, childRel dag x y → y ∈ v) (a b : String) (ha : a ∈ v)
    (hab : Relation.ReflTransGen (childRel dag) a b) : b ∈ v := by
  induction hab with
  | refl => exact ha
  | tail _ hstep ih => exact hclosed _ ih _ hstep

theorem createsCycle_false (dag : DAG) (from' to' : String)
    (h : dag.createsCycle from' to' = Outcome.done false) :
    ¬ Relation.ReflTransGen (childRel dag) to' from' := by
  unfold DAG.createsCycle at h
  cases hr : DAG.dfs dag from' (dag.Nodes.keys.card + 1) to' ∅ with
  | outOfFuel =>
    rw [hr] at h
    simp at h
  | panic =>
    rw [hr] at h
    simp at h
  | done r =>
    obtain ⟨b, v⟩ := r
    rw [hr] at h
    simp only [Outcome.done.injEq] at h
    subst h
    obtain ⟨_, a2, a3, a4⟩ := dfs_false dag from' _ to' ∅ v hr
    intro hreach
    have hclosed : ∀ x ∈ v, ∀ y, childRel dag x y → y ∈ v :=
      fun x hx y hxy => a4 x hx (Finset.not_mem_empty x) y hxy
    have := closed_of_reflTransGen dag v hclosed to' from' a2 hreach
    exact Finset.not_mem_empty _ (a3 this)

theorem dfsLoop_ne_panic (search : String → Finset String → Outcome (Bool × Finset String))
    (P : String → Prop) (hs : ∀ c v, P c → search c v ≠ Outcome.panic) :
    ∀ cs v, (∀ c ∈ cs, P c) → DAG.dfsLoop search cs v ≠ Outcome.panic := by
  intro cs
  induction cs with
  | nil =>
    intro v _
    simp [DAG.dfsLoop]
  | cons c cs ih =>
    intro v hcs
    unfold DAG.dfsLoop
    have h1 := hs c v (hcs c (List.mem_cons_self _ _))
    cases hsr : search c v with
    | outOfFuel => simp
    | panic => exact absurd hsr h1
    | done r =>
      obtain ⟨b1, v1⟩ := r
      cases b1 with
      | true => simp
      | false => exact ih v1 (fun c' hc' => hcs c' (List.mem_cons_of_mem _ hc'))

theorem dfs_ne_panic (dag : DAG) (target : String)
    (hclosed : ∀ a b, childRel dag a b → b ∈ dag.Nodes) :
    ∀ fuel cur v, cur ∈ dag.Nodes → DAG.dfs dag target fuel cur v ≠ Outcome.panic := by
  intro fuel
  induction fuel with
  | zero =>
    intro cur v _
    simp [DAG.dfs]
  | succ fuel ih =>
    intro cur v hcur
    unfold DAG.dfs
    by_cases h1 : cur = target
    · rw [if_pos h1]
      simp
    · rw [if_neg h1]
      by_cases h2 : cur ∈ v
      · rw [if_pos h2]
        simp
      · rw [if_neg h2]
        cases hl : dag.Nodes.lookup cur with
        | none =>
          exact absurd hl (by
            obtain ⟨n, hn⟩ := Finmap.mem_iff.mp hcur
            rw [hn]
            simp)
        | some node =>
          simp only
          apply dfsLoop_ne_panic (DAG.dfs dag target fuel) (fun c => c ∈ dag.Nodes)
            (fun c v hc => ih c v hc)
          intro c hc
          exact hclosed cur c ⟨node, hl, hc⟩

theorem createsCycle_done (dag : DAG) (from' to' : String)
    (hclosed : ∀ a b, childRel dag a b → b ∈ dag.Nodes) (hto : to' ∈ dag.Nodes) :
    ∃ b, dag.createsCycle from' to' = Outcome.done b := by
  have h1 := createsCycle_ne_outOfFuel dag from' to'
  have h2 : dag.createsCycle from' to' ≠ Outcome.panic := by
    unfold DAG.createsCycle
    have := dfs_ne_panic dag from' hclosed (dag.Nodes.keys.card + 1) to' ∅ hto
    cases hr : DAG.dfs dag from' (dag.Nodes.keys.card + 1) to' ∅ with
    | outOfFuel => simp
    | panic => exact absurd hr this
    | done r =>
      obtain ⟨b, v⟩ := r
      simp
  cases hr : dag.createsCycle from' to' with
  | outOfFuel => exact absurd hr h1
  | panic => exact absurd hr h2
  | done b => exact ⟨b, rfl⟩

theorem transGen_added_edge {α : Type} (R R' : α → α → Prop) (f t : α)
    (hR' : ∀ a b, R' a b → R a b ∨ (a = f ∧ b = t))
    (hno : ¬ Relation.ReflTransGen R t f) (x y : α) (h : Relation.TransGen R' x y) :
    Relation.TransGen R x y ∨
      (Relation.ReflTransGen R x f ∧ Relation.ReflTransGen R t y) := by
  induction h with
  | single h1 =>
    rcases hR' _ _ h1 with h2 | ⟨rfl, rfl⟩
    · exact Or.inl (Relation.TransGen.single h2)
    · exact Or.inr ⟨Relation.ReflTransGen.refl, Relation.ReflTransGen.refl⟩
  | tail _ h1 ih =>
    rcases hR' _ _ h1 with h2 | ⟨e1, e2⟩
    · rcases ih with h3 | ⟨h3, h4⟩
      · exact Or.inl (Relation.TransGen.tail h3 h2)
      · exact Or.inr ⟨h3, Relation.ReflTransGen.tail h4 h2⟩
    · subst e1
      subst e2
      rcases ih with h3 | ⟨_, h4⟩
      · exact Or.inr ⟨h3.to_reflTransGen, Relation.ReflTransGen.refl⟩
      · exact absurd h4 hno

theorem acyclic_added_edge {α : Type} (R R' : α → α → Prop) (f t : α)
    (hR' : ∀ a b, R' a b → R a b ∨ (a = f ∧ b = t))
    (hno : ¬ Relation.ReflTransGen R t f) (hac : ∀ a, ¬ Relation.TransGen R a a) (a : α) :
    ¬ Relation.TransGen R' a a := by
  intro h
  rcases transGen_added_edge R R' f t hR' hno a a h with h1 | ⟨h1, h2⟩
  · exact hac a h1
  · exact hno (h2.trans h1)

theorem WellFormed_New : WellFormed NewDAG := by
  have hnone : ∀ a b, ¬ childRel NewDAG a b := by
    intro a b h
    obtain ⟨node, hl, _⟩ := h
    simp [NewDAG] at hl
  constructor
  · intro a b h
    exact absurd h (hnone a b)
  · intro a h
    rcases Relation.TransGen.head'_iff.mp h with ⟨c, h1, _⟩
    exact hnone a c h1

theorem childRel_AddNode (dag : DAG) (id a b : String) :
    childRel (dag.AddNode id) a b ↔ childRel dag a b := by
  unfold DAG.AddNode
  by_cases h : id ∈ dag.Nodes
  · rw [if_pos h]
  · rw [if_neg h]
    unfold childRel
    by_cases ha : a = id
    · subst ha
      have hl : dag.Nodes.lookup a = none := Finmap.lookup_eq_none.mpr h
      simp [hl]
    · simp [Finmap.lookup_insert_of_ne _ ha]

theorem mem_AddNode (dag : DAG) (id x : String) :
    x ∈ (dag.AddNode id).Nodes ↔ x = id ∨ x ∈ dag.Nodes := by
  unfold DAG.AddNode
  by_cases h : id ∈ dag.Nodes
  · rw [if_pos h]
    constructor
    · exact Or.inr
    · rintro (e | e)
      · rw [e]
        exact h
      · exact e
  · rw [if_neg h]
    simp [Finmap.mem_insert]

theorem WellFormed_AddNode (dag : DAG) (id : String) (h : WellFormed dag) :
    WellFormed (dag.AddNode id) := by
  have hrel : childRel (dag.AddNode id) = childRel dag := by
    funext a b
    exact propext (childRel_AddNode dag id a b)
  constructor
  · intro a b hab
    rw [hrel] at hab
    exact (mem_AddNode dag id b).mpr (Or.inr (h.closed a b hab))
  · intro a
    rw [hrel]
    exact h.acyclic a

theorem addChild_spec (dag : DAG) (from' to' : String) (hf : from' ∈ dag.Nodes) :
    ∃ dag2, dag.addChild from' to' = Outcome.done dag2 ∧ dag2.Edges = dag.Edges ∧
      (∀ x, x ∈ dag2.Nodes ↔ x ∈ dag.Nodes) ∧
      (∀ a b, childRel dag2 a b ↔ childRel dag a b ∨ (a = from' ∧ b = to')) := by
  obtain ⟨node, hn⟩ := Finmap.mem_iff.mp hf
  unfold DAG.addChild
  rw [hn]
  refine ⟨_, rfl, rfl, ?_, ?_⟩
  · intro x
    simp only [Finmap.mem_insert]
    constructor
    · rintro (e | e)
      · rw [e]
        exact hf
      · exact e
    · exact Or.inr
  · intro a b
    unfold childRel
    by_cases ha : a = from'
    · subst ha
      simp only [Finmap.lookup_insert, Option.some.injEq, exists_eq_left', hn, true_and]
      by_cases hb : to' ∈ node.Children
      · rw [if_pos hb]
        constructor
        · exact Or.inl
        · rintro (e | e)
          · exact e
          · rw [e]
            exact hb
      · rw [if_neg hb]
        simp
    · simp [Finmap.lookup_insert_of_ne _ ha, ha]

theorem AddConditionalEdge_cases (dag : DAG) (from' to' : String) (conditions : List String)
    (h : WellFormed dag) :
    dag.AddConditionalEdge from' to' conditions = Outcome.done (true, dag) ∨
    (from' ∈ dag.Nodes ∧ to' ∈ dag.Nodes ∧
      ¬ Relation.ReflTransGen (childRel dag) to' from' ∧
      ∃ dag', dag.AddConditionalEdge from' to' conditions = Outcome.done (false, dag') ∧
        (∀ x, x ∈ dag'.Nodes ↔ x ∈ dag.Nodes) ∧
        (∀ a b, childRel dag' a b → childRel dag a b ∨ (a = from' ∧ b = to'))) := by
  unfold DAG.AddConditionalEdge
  by_cases hf : from' ∈ dag.Nodes
  · by_cases ht : to' ∈ dag.Nodes
    · rw [if_neg (not_not.mpr hf), if_neg (not_not.mpr ht)]
      obtain ⟨b, hb⟩ := createsCycle_done dag from' to' h.closed ht
      rw [hb]
      cases b with
      | true => exact Or.inl rfl
      | false =>
        right
        refine ⟨hf, ht, createsCycle_false dag from' to' hb, ?_⟩
        simp only
        split
        · obtain ⟨dag2, h1, _, h3, h4⟩ :=
            addChild_spec { dag with Edges := dag.Edges.insert (from' ++ "->" ++ to') conditions }
              from' to' hf
          rw [h1]
          exact ⟨dag2, rfl, h3, fun a b hab => (h4 a b).mp hab⟩
        · exact ⟨_, rfl, fun x => Iff.rfl, fun a b hab => Or.inl hab⟩
    · rw [if_neg (not_not.mpr hf), if_pos ht]
      exact Or.inl rfl
  · rw [if_pos hf]
    exact Or.inl rfl

theorem WellFormed_AddConditionalEdge (dag : DAG) (from' to' : String)
    (conditions : List String) (err : Bool) (dag' : DAG) (h : WellFormed dag)
    (he : dag.AddConditionalEdge from' to' conditions = Outcome.done (err, dag')) :
    WellFormed dag' := by
  rcases AddConditionalEdge_cases dag from' to' conditions h with h1 | ⟨_, ht, hno, d, h1, h2, h3⟩
  · rw [h1] at he
    simp only [Outcome.done.injEq, Prod.mk.injEq] at he
    rw [← he.2]
    exact h
  · rw [h1] at he
    simp only [Outcome.done.injEq, Prod.mk.injEq] at he
    rw [← he.2]
    constructor
    · intro a b hab
      rcases h3 a b hab with h4 | ⟨_, e⟩
      · exact (h2 b).mpr (h.closed a b h4)
      · rw [e]
        exact (h2 to').mpr ht
    · exact acyclic_added_edge (childRel dag) (childRel d) from' to' h3 hno h.acyclic

theorem WellFormed_of_ReachableDAG (dag : DAG) (h : ReachableDAG dag) : WellFormed dag := by
  induction h with
  | new => exact WellFormed_New
  | addNode dag id _ ih => exact WellFormed_AddNode dag id ih
  | addEdge dag from' to' conditions err dag' _ he ih =>
    exact WellFormed_AddConditionalEdge dag from' to' conditions err dag' ih he

theorem AddConditionalEdge_error (dag : DAG) (from' to' : String) (conditions : List String)
    (h : WellFormed dag)
    (hbad : from' ∉ dag.Nodes ∨ to' ∉ dag.Nodes ∨
      Relation.ReflTransGen (childRel dag) to' from') :
    dag.AddConditionalEdge from' to' conditions = Outcome.done (true, dag) := by
  rcases AddConditionalEdge_cases dag from' to' conditions h with h1 | ⟨hf, ht, hno, _⟩
  · exact h1
  · rcases hbad with h2 | h2 | h2
    · exact absurd hf h2
    · exact absurd ht h2
    · exact absurd h2 hno

theorem ReachableDAG_afterEdge (dag : DAG) (from' to' : String) (conditions : List String)
    (h : ReachableDAG dag) : ReachableDAG (dag.afterEdge from' to' conditions) := by
  unfold DAG.afterEdge
  cases hr : dag.AddConditionalEdge from' to' conditions with
  | outOfFuel => exact h
  | panic => exact h
  | done r =>
    obtain ⟨err, dag'⟩ := r
    exact ReachableDAG.addEdge dag from' to' conditions err dag' h hr

theorem reachable_testDAG : ReachableDAG testDAG := by
  unfold testDAG
  repeat apply ReachableDAG_afterEdge
  repeat apply ReachableDAG.addNode
  exact ReachableDAG.new

/-- C30: in every DAG reachable from `NewDAG()` by `AddNode` and `AddConditionalEdge` calls no
node reaches itself through one or more `Children` steps (a self-loop is one step), and
`AddConditionalEdge(from, to, conds)` returns an error and the same DAG when `from` or `to`
is not a node or when `to` reaches `from` in zero or more steps; on every graph the cycle
search ends, with a result or a panic, within the fuel `createsCycle` gives it. -/
theorem C30_reachable_dag_acyclic (dag : DAG) (h : ReachableDAG dag) :
    (∀ a, ¬ Relation.TransGen (childRel dag) a a) ∧
    (∀ from' to' conditions,
      (from' ∉ dag.Nodes ∨ to' ∉ dag.Nodes ∨
        Relation.ReflTransGen (childRel dag) to' from') →
      dag.AddConditionalEdge from' to' conditions = Outcome.done (true, dag)) ∧
    (∀ from' to', to' ∈ dag.Nodes → ∃ found, dag.createsCycle from' to' = Outcome.done found) ∧
    (∀ (g : DAG) from' to', g.createsCycle from' to' ≠ Outcome.outOfFuel) := by
  have hinv := WellFormed_of_ReachableDAG dag h
  exact ⟨hinv.acyclic,
    fun from' to' conditions hbad => AddConditionalEdge_error dag from' to' conditions hinv hbad,
    fun from' to' hto => createsCycle_done dag from' to' hinv.closed hto,
    fun g from' to' => createsCycle_ne_outOfFuel g from' to'⟩

theorem C30_reachable_dag_acyclic_witness :
    ReachableDAG testDAG ∧
    (∀ a, ¬ Relation.TransGen (childRel testDAG) a a) ∧
    (∀ from' to' conditions,
      (from' ∉ testDAG.Nodes ∨ to' ∉ testDAG.Nodes ∨
        Relation.ReflTransGen (childRel testDAG) to' from') →
      testDAG.AddConditionalEdge from' to' conditions = Outcome.done (true, testDAG)) ∧
    (∀ from' to', to' ∈ testDAG.Nodes →
      ∃ found, testDAG.createsCycle from' to' = Outcome.done found) ∧
    (∀ (g : DAG) from' to', g.createsCycle from' to' ≠ Outcome.outOfFuel) :=
  ⟨reachable_testDAG, C30_reachable_dag_acyclic testDAG reachable_testDAG⟩

/-! ## Directly reachable nodes -/

theorem contains_iff (slice : List String) (item : String) :
    contains slice item = true ↔ item ∈ slice := by
  induction slice with
  | nil => simp [contains]
  | cons s slice ih =>
    unfold contains
    by_cases h : s = item
    · simp [h]
    · rw [if_neg h, ih]
      simp [Ne.symm h]

theorem allConditionsMet_iff (startNodes conditions : List String) :
    allConditionsMet startNodes conditions = true ↔ ∀ c ∈ conditions, c ∈ startNodes := by
  induction conditions with
  | nil => simp [allConditionsMet]
  | cons c conditions ih =>
    unfold allConditionsMet
    by_cases h : contains startNodes c = true
    · have hc := (contains_iff startNodes c).mp h
      simp [h, ih, hc]
    · have hc : c ∉ startNodes := fun hc => h ((contains_iff startNodes c).mpr hc)
      simp [h, hc]

theorem mem_mapKeys (keys : Finset String) (x : String) : x ∈ mapKeys keys ↔ x ∈ keys := by
  unfold mapKeys
  exact Finset.mem_sort _

theorem nodup_mapKeys (keys : Finset String) : (mapKeys keys).Nodup := by
  unfold mapKeys
  exact Finset.sort_nodup _ _

/-- The condition under which the child `c` of the start node `s` is listed. -/
theorem mem_childrenLoop (dag : DAG) (startNodes : List String) (id : String) :
    ∀ (children : List String) (reachable : Finset String) (c : String),
      c ∈ dag.childrenLoop startNodes id children reachable ↔
        c ∈ reachable ∨ (c ∈ children ∧ c ∉ startNodes ∧
          ∀ conditions, dag.Edges.lookup (id ++ "->" ++ c) = some conditions →
            ∀ x ∈ conditions, x ∈ startNodes) := by
  intro children
  induction children with
  | nil =>
    intro reachable c
    simp [DAG.childrenLoop]
  | cons childID children ih =>
    intro reachable c
    unfold DAG.childrenLoop
    by_cases hcont : contains startNodes childID = true
    · have hin := (contains_iff startNodes childID).mp hcont
      simp only [hcont, Bool.not_true, Bool.false_eq_true, if_false]
      rw [ih]
      constructor
      · rintro (h | ⟨h1, h2, h3⟩)
        · exact Or.inl h
        · exact Or.inr ⟨List.mem_cons_of_mem _ h1, h2, h3⟩
      · rintro (h | ⟨h1, h2, h3⟩)
        · exact Or.inl h
        · rcases List.mem_cons.mp h1 with e | e
          · rw [e] at h2
            exact absurd hin h2
          · exact Or.inr ⟨e, h2, h3⟩
    · have hnin : childID ∉ startNodes := fun h => hcont ((contains_iff startNodes childID).mpr h)
      have hcf : contains startNodes childID = false := by
        cases hb : contains startNodes childID with
        | true => exact absurd hb hcont
        | false => rfl
      simp only [hcf, Bool.not_false, if_true]
      cases hl : dag.Edges.lookup (id ++ "->" ++ childID) with
      | none =>
        simp only
        rw [ih, Finset.mem_insert]
        constructor
        · rintro ((e | h) | ⟨h1, h2, h3⟩)
          · subst e
            refine Or.inr ⟨List.mem_cons_self _ _, hnin, ?_⟩
            intro conditions hc
            rw [hl] at hc
            cases hc
          · exact Or.inl h
          · exact Or.inr ⟨List.mem_cons_of_mem _ h1, h2, h3⟩
        · rintro (h | ⟨h1, h2, h3⟩)
          · exact Or.inl (Or.inr h)
          · rcases List.mem_cons.mp h1 with e | e
            · exact Or.inl (Or.inl e)
            · exact Or.inr ⟨e, h2, h3⟩
      | some conditions =>
        simp only
        by_cases hall : allConditionsMet startNodes conditions = true
        · rw [if_pos hall, ih, Finset.mem_insert]
          constructor
          · rintro ((e | h) | ⟨h1, h2, h3⟩)
            · subst e
              refine Or.inr ⟨List.mem_cons_self _ _, hnin, ?_⟩
              intro conditions' hc
              rw [hl] at hc
              cases hc
              exact (allConditionsMet_iff startNodes conditions).mp hall
            · exact Or.inl h
            · exact Or.inr ⟨List.mem_cons_of_mem _ h1, h2, h3⟩
          · rintro (h | ⟨h1, h2, h3⟩)
            · exact Or.inl (Or.inr h)
            · rcases List.mem_cons.mp h1 with e | e
              · exact Or.inl (Or.inl e)
              · exact Or.inr ⟨e, h2, h3⟩
        · rw [if_neg hall, ih]
          constructor
          · rintro (h | ⟨h1, h2, h3⟩)
            · exact Or.inl h
            · exact Or.inr ⟨List.mem_cons_of_mem _ h1, h2, h3⟩
          · rintro (h | ⟨h1, h2, h3⟩)
            · exact Or.inl h
            · rcases List.mem_cons.mp h1 with e | e
              · subst e
                exact absurd ((allConditionsMet_iff startNodes conditions).mpr (h3 conditions hl))
                  hall
              · exact Or.inr ⟨e, h2, h3⟩

theorem startLoop_eq_none (dag : DAG) (startNodes : List String) :
    ∀ (ids : List String) (reachable : Finset String),
      dag.startLoop startNodes ids reachable = none ↔ ∃ id ∈ ids, id ∉ dag.Nodes := by
  intro ids
  induction ids with
  | nil =>
    intro reachable
    simp [DAG.startLoop]
  | cons id ids ih =>
    intro reachable
    unfold DAG.startLoop
    cases hl : dag.Nodes.lookup id with
    | none =>
      have hid : id ∉ dag.Nodes := Finmap.lookup_eq_none.mp hl
      simp only [true_iff]
      exact ⟨id, List.mem_cons_self _ _, hid⟩
    | some node =>
      have hid : id ∈ dag.Nodes := Finmap.mem_iff.mpr ⟨node, hl⟩
      simp only
      rw [ih]
      constructor
      · rintro ⟨x, hx, hx'⟩
        exact ⟨x, List.mem_cons_of_mem _ hx, hx'⟩
      · rintro ⟨x, hx, hx'⟩
        rcases List.mem_cons.mp hx with e | e
        · rw [e] at hx'
          exact absurd hid hx'
        · exact ⟨x, e, hx'⟩

theorem mem_startLoop (dag : DAG) (startNodes : List String) :
    ∀ (ids : List String) (reachable result : Finset String),
      dag.startLoop startNodes ids reachable = some result →
      ∀ c, c ∈ result ↔
        c ∈ reachable ∨ (c ∉ startNodes ∧ ∃ s ∈ ids, childRel dag s c ∧
          ∀ conditions, dag.Edges.lookup (s ++ "->" ++ c) = some conditions →
            ∀ x ∈ conditions, x ∈ startNodes) := by
  intro ids
  induction ids with
  | nil =>
    intro reachable result h c
    simp only [DAG.startLoop, Option.some.injEq] at h
    subst h
    simp
  | cons id ids ih =>
    intro reachable result h c
    unfold DAG.startLoop at h
    cases hl : dag.Nodes.lookup id with
    | none =>
      rw [hl] at h
      cases h
    | some node =>
      rw [hl] at h
      simp only at h
      rw [ih _ _ h c, mem_childrenLoop]
      constructor
      · rintro ((h1 | ⟨h1, h2, h3⟩) | ⟨h1, s, hs, h2, h3⟩)
        · exact Or.inl h1
        · exact Or.inr ⟨h2, id, List.mem_cons_self _ _, ⟨node, hl, h1⟩, h3⟩
        · exact Or.inr ⟨h1, s, List.mem_cons_of_mem _ hs, h2, h3⟩
      · rintro (h1 | ⟨h1, s, hs, h2, h3⟩)
        · exact Or.inl (Or.inl h1)
        · rcases List.mem_cons.mp hs with e | e
          · subst e
            obtain ⟨node', hl', hc⟩ := h2
            rw [hl] at hl'
            cases hl'
            exact Or.inl (Or.inr ⟨hc, h1, h3⟩)
          · exact Or.inr ⟨h1, s, e, h2, h3⟩

theorem lookup_foldl_insert_zero (ids : List String) :
    ∀ (m : Finmap (fun _ : String => Nat)) (c : String),
      (ids.foldl (fun inDegree id => inDegree.insert id 0) m).lookup c = some 0 ↔
        c ∈ ids ∨ m.lookup c = some 0 := by
  induction ids with
  | nil =>
    intro m c
    simp
  | cons id ids ih =>
    intro m c
    rw [List.foldl_cons, ih]
    by_cases h : c = id
    · subst h
      simp
    · rw [Finmap.lookup_insert_of_ne _ h]
      simp [h]

theorem lookup_increment (m : Finmap (fun _ : String => Nat)) (x c : String) :
    (increment m x).lookup c = some 0 ↔ c ≠ x ∧ m.lookup c = some 0 := by
  unfold increment
  by_cases h : c = x
  · subst h
    simp
  · rw [Finmap.lookup_insert_of_ne _ h]
    simp [h]

theorem lookup_foldl_increment (children : List String) :
    ∀ (m : Finmap (fun _ : String => Nat)) (c : String),
      (children.foldl increment m).lookup c = some 0 ↔
        c ∉ children ∧ m.lookup c = some 0 := by
  induction children with
  | nil =>
    intro m c
    simp
  | cons x children ih =>
    intro m c
    rw [List.foldl_cons, ih, lookup_increment, List.mem_cons]
    constructor
    · rintro ⟨h1, h2, h3⟩
      exact ⟨fun h => h.elim h2 h1, h3⟩
    · rintro ⟨h1, h2⟩
      exact ⟨fun h => h1 (Or.inr h), fun h => h1 (Or.inl h), h2⟩

theorem lookup_foldl_nodes (dag : DAG) (ids : List String) :
    ∀ (m : Finmap (fun _ : String => Nat)) (c : String),
      (ids.foldl
        (fun inDegree id =>
          match dag.Nodes.lookup id with
          | some node => node.Children.foldl increment inDegree
          | none => inDegree) m).lookup c = some 0 ↔
        (∀ id ∈ ids, ¬ childRel dag id c) ∧ m.lookup c = some 0 := by
  induction ids with
  | nil =>
    intro m c
    simp
  | cons id ids ih =>
    intro m c
    rw [List.foldl_cons, ih]
    cases hl : dag.Nodes.lookup id with
    | none =>
      simp only
      have hno : ¬ childRel dag id c := by
        rintro ⟨node, hn, _⟩
        rw [hl] at hn
        cases hn
      constructor
      · rintro ⟨h1, h2⟩
        refine ⟨fun x hx => ?_, h2⟩
        rcases List.mem_cons.mp hx with e | e
        · rw [e]
          exact hno
        · exact h1 x e
      · rintro ⟨h1, h2⟩
        exact ⟨fun x hx => h1 x (List.mem_cons_of_mem _ hx), h2⟩
    | some node =>
      simp only
      rw [lookup_foldl_increment]
      constructor
      · rintro ⟨h1, h2, h3⟩
        refine ⟨fun x hx => ?_, h3⟩
        rcases List.mem_cons.mp hx with e | e
        · rw [e]
          rintro ⟨node', hn, hc⟩
          rw [hl] at hn
          cases hn
          exact h2 hc
        · exact h1 x e
      · rintro ⟨h1, h2⟩
        refine ⟨fun x hx => h1 x (List.mem_cons_of_mem _ hx), ?_, h2⟩
        intro hc
        exact h1 id (List.mem_cons_self _ _) ⟨node, hl, hc⟩

theorem mem_getNodesWithoutPredecessors (dag : DAG) (c : String) :
    c ∈ dag.getNodesWithoutPredecessors ↔ c ∈ dag.Nodes ∧ ∀ a, ¬ childRel dag a c := by
  unfold DAG.getNodesWithoutPredecessors
  simp only [List.mem_filter, decide_eq_true_eq, mem_mapKeys]
  rw [lookup_foldl_nodes, lookup_foldl_insert_zero]
  constructor
  · rintro ⟨_, h1, h2⟩
    have hc : c ∈ dag.Nodes := by
      rcases h2 with h2 | h2
      · exact Finmap.mem_keys.mp ((mem_mapKeys _ c).mp h2)
      · simp at h2
    refine ⟨hc, fun a ha => ?_⟩
    obtain ⟨node, hn, _⟩ := ha
    exact h1 a ((mem_mapKeys _ a).mpr (Finmap.mem_keys.mpr (Finmap.mem_iff.mpr ⟨node, hn⟩)))
      ⟨node, hn, by assumption⟩
  · rintro ⟨h1, h2⟩
    have hk : c ∈ mapKeys dag.Nodes.keys := (mem_mapKeys _ c).mpr (Finmap.mem_keys.mpr h1)
    have hlook := (lookup_foldl_nodes dag (mapKeys dag.Nodes.keys)
      ((mapKeys dag.Nodes.keys).foldl (fun inDegree id => inDegree.insert id 0) ∅) c).mpr
      ⟨fun id _ => h2 id, (lookup_foldl_insert_zero _ _ c).mpr (Or.inl hk)⟩
    refine ⟨?_, fun id _ => h2 id, Or.inl hk⟩
    exact Finmap.mem_keys.mpr (Finmap.mem_iff.mpr ⟨0, hlook⟩)

theorem nodup_getNodesWithoutPredecessors (dag : DAG) :
    dag.getNodesWithoutPredecessors.Nodup := by
  unfold DAG.getNodesWithoutPredecessors
  exact (nodup_mapKeys _).filter _

/-- What `GetDirectlyReachableNodes` returns, in terms of the keys of `Edges`: for every DAG
and every non-empty list `S` of node ids, a duplicate-free list whose elements are exactly
the nodes `c` not in `S` for which some `s` in `S` has the child `c` and every condition
stored under the key `s + "->" + c` of `Edges` is in `S`; for a non-empty `S` an error
exactly when some id of `S` is not a node; for the empty `S`, without error and without
duplicate, exactly the nodes with no incoming child edge. -/
theorem GetDirectlyReachableNodes_by_key (dag : DAG) (S : List String) :
    (S ≠ [] → (∀ s ∈ S, s ∈ dag.Nodes) →
      ∃ result, dag.GetDirectlyReachableNodes S = some result ∧ result.Nodup ∧
        ∀ c, c ∈ result ↔
          c ∉ S ∧ ∃ s ∈ S, childRel dag s c ∧
            ∀ conditions, dag.Edges.lookup (s ++ "->" ++ c) = some conditions →
              ∀ x ∈ conditions, x ∈ S) ∧
      (S ≠ [] → (dag.GetDirectlyReachableNodes S = none ↔ ∃ s ∈ S, s ∉ dag.Nodes)) ∧
      (∃ result, dag.GetDirectlyReachableNodes [] = some result ∧ result.Nodup ∧
        ∀ c, c ∈ result ↔ c ∈ dag.Nodes ∧ ∀ a, ¬ childRel dag a c) := by
  refine ⟨?_, ?_, ?_⟩
  · intro hne hall
    have hlen : ¬ S.length = 0 := fun h => hne (List.length_eq_zero.mp h)
    unfold DAG.GetDirectlyReachableNodes
    rw [if_neg hlen]
    cases hr : dag.startLoop S S ∅ with
    | none =>
      obtain ⟨s, hs, hs'⟩ := (startLoop_eq_none dag S S ∅).mp hr
      exact absurd (hall s hs) hs'
    | some reachable =>
      refine ⟨_, rfl, nodup_mapKeys _, fun c => ?_⟩
      rw [mem_mapKeys, mem_startLoop dag S S ∅ reachable hr c]
      simp
  · intro hne
    have hlen : ¬ S.length = 0 := fun h => hne (List.length_eq_zero.mp h)
    unfold DAG.GetDirectlyReachableNodes
    rw [if_neg hlen, ← startLoop_eq_none dag S S ∅]
    cases dag.startLoop S S ∅ with
    | none => simp
    | some reachable => simp
  · refine ⟨_, ?_, nodup_getNodesWithoutPredecessors dag,
      mem_getNodesWithoutPredecessors dag⟩
    unfold DAG.GetDirectlyReachableNodes
    simp

/-! ## Node ids that contain the separator of the edge keys -/

theorem reachable_sharedKeyDAG : ReachableDAG sharedKeyDAG := by
  unfold sharedKeyDAG sharedKeyBefore
  repeat apply ReachableDAG_afterEdge
  repeat apply ReachableDAG.addNode
  exact ReachableDAG.new

theorem mapKeys_empty : mapKeys ∅ = [] := by
  unfold mapKeys
  exact Finset.sort_empty _

theorem mapKeys_singleton (x : String) : mapKeys {x} = [x] := by
  unfold mapKeys
  exact Finset.sort_singleton _ x

/-- C31 fails for the code: in the DAG made by `AddNode` of `A`, `B->C`, `A->B`, `C` and
`X` and `AddConditionalEdge("A", "B->C", ["X"])`, the node `A` has the child `B->C`, the
condition recorded for that edge is `X`, and `GetDirectlyReachableNodes(["A"])` returns the
empty list; after `AddConditionalEdge("A->B", "C", nil)`, which records no condition for
another edge under the same key `A->B->C`, `GetDirectlyReachableNodes(["A"])` returns
`["B->C"]` although `X` is not among the start nodes. -/
theorem C31_shared_edge_key :
    ReachableDAG sharedKeyDAG ∧
      sharedKeyBefore.AddConditionalEdge "A->B" "C" [] = Outcome.done (false, sharedKeyDAG) ∧
      (∀ s ∈ ["A"], s ∈ sharedKeyDAG.Nodes) ∧ "X" ∈ sharedKeyDAG.Nodes ∧
      childRel sharedKeyBefore "A" "B->C" ∧ childRel sharedKeyDAG "A" "B->C" ∧
      sharedKeyBefore.Edges.lookup ("A" ++ "->" ++ "B->C") = some ["X"] ∧
      sharedKeyBefore.GetDirectlyReachableNodes ["A"] = some [] ∧
      "A" ++ "->" ++ "B->C" = "A->B" ++ "->" ++ "C" ∧
      sharedKeyDAG.Edges.lookup ("A" ++ "->" ++ "B->C") = some [] ∧
      sharedKeyDAG.GetDirectlyReachableNodes ["A"] = some ["B->C"] ∧
      contains ["A"] "X" = false := by
  have h1 : sharedKeyBefore.startLoop ["A"] ["A"] ∅ = some ∅ := by decide
  have h2 : sharedKeyDAG.startLoop ["A"] ["A"] ∅ = some {"B->C"} := by decide
  refine ⟨reachable_sharedKeyDAG, by decide, by decide, by decide, ?_, ?_, by decide, ?_,
    by decide, by decide, ?_, by decide⟩
  · exact ⟨{ ID := "A", Children := ["B->C"] }, by decide, by decide⟩
  · exact ⟨{ ID := "A", Children := ["B->C"] }, by decide, by decide⟩
  · unfold DAG.GetDirectlyReachableNodes
    rw [if_neg (by decide), h1]
    simp only
    rw [mapKeys_empty]
  · unfold DAG.GetDirectlyReachableNodes
    rw [if_neg (by decide), h2]
    simp only
    rw [mapKeys_singleton]

end dag

namespace weight

/-! ## The binary search and the cumulative weights -/

theorem wrapGoInt_of_range (x : Int) (h1 : -9223372036854775808 ≤ x)
    (h2 : x < 9223372036854775808) : wrapGoInt x = x := by
  unfold wrapGoInt
  omega

theorem wrapGoInt_add (a b : Int) : wrapGoInt (wrapGoInt a + b) = wrapGoInt (a + b) := by
  unfold wrapGoInt
  omega

theorem searchLoop_bounds (f : Int → Bool) :
    ∀ (fuel : Nat) (i j : Int), i ≤ j →
      i ≤ searchLoop f fuel i j ∧ searchLoop f fuel i j ≤ j := by
  intro fuel
  induction fuel with
  | zero =>
    intro i j hij
    exact ⟨le_refl i, hij⟩
  | succ fuel ih =>
    intro i j hij
    unfold searchLoop
    by_cases hlt : i < j
    · rw [if_pos hlt]
      simp only
      by_cases hf : f ((i + j) / 2) = true
      · simp only [hf, Bool.not_true, Bool.false_eq_true, if_false]
        have := ih i ((i + j) / 2) (by omega)
        omega
      · simp only [hf, Bool.not_false, if_true]
        have := ih ((i + j) / 2 + 1) j (by omega)
        omega
    · rw [if_neg hlt]
      exact ⟨le_refl i, hij⟩

theorem searchLoop_true (f : Int → Bool) :
    ∀ (fuel : Nat) (i j : Int), i ≤ j → (j - i).toNat ≤ fuel →
      searchLoop f fuel i j < j → f (searchLoop f fuel i j) = true := by
  intro fuel
  induction fuel with
  | zero =>
    intro i j hij hfuel hres
    simp only [searchLoop] at hres
    omega
  | succ fuel ih =>
    intro i j hij hfuel
    unfold searchLoop
    by_cases hlt : i < j
    · rw [if_pos hlt]
      simp only
      by_cases hf : f ((i + j) / 2) = true
      · simp only [hf, Bool.not_true, Bool.false_eq_true, if_false]
        intro _
        have hb := searchLoop_bounds f fuel i ((i + j) / 2) (by omega)
        by_cases hres : searchLoop f fuel i ((i + j) / 2) < (i + j) / 2
        · exact ih i ((i + j) / 2) (by omega) (by omega) hres
        · have : searchLoop f fuel i ((i + j) / 2) = (i + j) / 2 := by omega
          rw [this]
          exact hf
      · simp only [hf, Bool.not_false, if_true]
        intro hres
        exact ih ((i + j) / 2 + 1) j (by omega) (by omega) hres
    · rw [if_neg hlt]
      intro h
      omega

theorem searchLoop_false (f : Int → Bool) :
    ∀ (fuel : Nat) (i j : Int), i ≤ j → (j - i).toNat ≤ fuel →
      i < searchLoop f fuel i j → f (searchLoop f fuel i j - 1) = false := by
  intro fuel
  induction fuel with
  | zero =>
    intro i j hij hfuel hres
    simp only [searchLoop] at hres
    omega
  | succ fuel ih =>
    intro i j hij hfuel
    unfold searchLoop
    by_cases hlt : i < j
    · rw [if_pos hlt]
      simp only
      by_cases hf : f ((i + j) / 2) = true
      · simp only [hf, Bool.not_true, Bool.false_eq_true, if_false]
        intro hres
        exact ih i ((i + j) / 2) (by omega) (by omega) hres
      · simp only [hf, Bool.not_false, if_true]
        intro _
        have hb := searchLoop_bounds f fuel ((i + j) / 2 + 1) j (by omega)
        by_cases hres : (i + j) / 2 + 1 < searchLoop f fuel ((i + j) / 2 + 1) j
        · exact ih ((i + j) / 2 + 1) j (by omega) (by omega) hres
        · have : searchLoop f fuel ((i + j) / 2 + 1) j = (i + j) / 2 + 1 := by omega
          rw [this]
          have : (i + j) / 2 + 1 - 1 = (i + j) / 2 := by omega
          rw [this]
          cases hb' : f ((i + j) / 2) with
          | true => exact absurd hb' hf
          | false => rfl
    · rw [if_neg hlt]
      intro h
      omega

/-- What `sort.Search` returns for any predicate: an index of `[0, n]`, at which the
predicate holds when it is below `n`, and before which it fails. -/
theorem Search_spec (n : Int) (f : Int → Bool) (hn : 0 ≤ n) :
    0 ≤ Search n f ∧ Search n f ≤ n ∧ (Search n f < n → f (Search n f) = true) ∧
      (0 < Search n f → f (Search n f - 1) = false) := by
  unfold Search
  have hb := searchLoop_bounds f n.toNat 0 n hn
  exact ⟨hb.1, hb.2, searchLoop_true f n.toNat 0 n hn (by omega),
    searchLoop_false f n.toNat 0 n hn (by omega)⟩

/-- For a monotone predicate `sort.Search` returns the least index at which it holds. -/
theorem Search_least (n : Int) (f : Int → Bool) (hn : 0 ≤ n)
    (hmono : ∀ a b : Int, 0 ≤ a → a ≤ b → b < n → f a = true → f b = true) (k : Int)
    (hk0 : 0 ≤ k) (hk : k < Search n f) : f k = false := by
  obtain ⟨_, h2, _, h4⟩ := Search_spec n f hn
  have hlast := h4 (by omega)
  cases hfk : f k with
  | false => rfl
  | true =>
    have := hmono k (Search n f - 1) hk0 (by omega) (by omega) hfk
    rw [hlast] at this
    cases this

theorem cumLoop_length (items : List Item) :
    ∀ sum, (cumLoop items sum).1.length = items.length := by
  induction items with
  | nil =>
    intro sum
    rfl
  | cons it items ih =>
    intro sum
    simp only [cumLoop, List.length_cons, ih]

theorem cumLoop_sum (items : List Item) :
    ∀ a : Int, (cumLoop items (wrapGoInt a)).2 = wrapGoInt (a + (items.map Item.Weight).sum) := by
  induction items with
  | nil =>
    intro a
    simp [cumLoop]
  | cons it items ih =>
    intro a
    simp only [cumLoop, List.map_cons, List.sum_cons]
    rw [ih, add_assoc, wrapGoInt_add]

theorem cumLoop_sum_zero (items : List Item) :
    (cumLoop items 0).2 = wrapGoInt ((items.map Item.Weight).sum) := by
  have h := cumLoop_sum items 0
  rw [wrapGoInt_of_range 0 (by decide) (by decide), zero_add] at h
  exact h

theorem cumLoop_last (items : List Item) :
    ∀ sum, items ≠ [] →
      (cumLoop items sum).1.getD (items.length - 1) 0 = (cumLoop items sum).2 := by
  induction items with
  | nil =>
    intro sum h
    exact absurd rfl h
  | cons it items ih =>
    intro sum _
    cases items with
    | nil => simp [cumLoop]
    | cons it' items' =>
      have := ih (wrapGoInt (sum + it.Weight)) (List.cons_ne_nil _ _)
      simp only [List.length_cons, Nat.add_sub_cancel] at this ⊢
      rw [cumLoop]
      simp only [List.getD_cons_succ]
      exact this

/-! ## Sampling with replacement -/

theorem Intn_some (rand : Rand) (n : Int) (hn : 0 < n) :
    ∃ d, Intn rand n = some (d, fun i => rand (i + 1)) ∧ 0 ≤ d ∧ d < n ∧
      d = ((rand 0 % n.toNat : Nat) : Int) := by
  refine ⟨((rand 0 % n.toNat : Nat) : Int), ?_, ?_, ?_, rfl⟩
  · unfold Intn
    rw [if_neg (by omega)]
  · omega
  · have hpos : 0 < n.toNat := by omega
    have := Nat.mod_lt (rand 0) hpos
    omega

theorem Intn_none (rand : Rand) (n : Int) (hn : n ≤ 0) : Intn rand n = none := by
  unfold Intn
  rw [if_pos hn]

theorem Intn_bounds (rand rand' : Rand) (n d : Int) (h : Intn rand n = some (d, rand')) :
    0 < n ∧ 0 ≤ d ∧ d < n := by
  by_cases hn : 0 < n
  · obtain ⟨d', h1, h2, h3, _⟩ := Intn_some rand n hn
    rw [h1] at h
    cases h
    exact ⟨hn, h2, h3⟩
  · rw [Intn_none rand n (by omega)] at h
    cases h

theorem PickRandomAndPutBack_state (p : Pool) :
    p.PickRandomAndPutBack.state.Items = p.Items ∧
      p.PickRandomAndPutBack.state.totalWeight = p.totalWeight := by
  unfold Pool.PickRandomAndPutBack
  simp only
  split
  · exact ⟨rfl, rfl⟩
  · split
    · exact ⟨rfl, rfl⟩
    · split
      · exact ⟨rfl, rfl⟩
      · split
        · split
          · exact ⟨rfl, rfl⟩
          · exact ⟨rfl, rfl⟩
        · exact ⟨rfl, rfl⟩

theorem manyLoop_state (p : Pool) (cum : List Int) (sum n : Int) :
    ∀ (remaining : Nat) (rand : Rand) (res : List Item),
      (Pool.manyLoop p cum sum n remaining rand res).state.Items = p.Items ∧
        (Pool.manyLoop p cum sum n remaining rand res).state.totalWeight = p.totalWeight := by
  intro remaining
  induction remaining with
  | zero =>
    intro rand res
    exact ⟨rfl, rfl⟩
  | succ remaining ih =>
    intro rand res
    unfold Pool.manyLoop
    split
    · exact ⟨rfl, rfl⟩
    · simp only
      split
      · exact ih _ _
      · split
        · split
          · exact ⟨rfl, rfl⟩
          · exact ih _ _
        · exact ih _ _

theorem PickRandomManyAndPutBack_state (maxAlloc : Int) (p : Pool) (pickCount : Int) :
    (p.PickRandomManyAndPutBack maxAlloc pickCount).state.Items = p.Items ∧
      (p.PickRandomManyAndPutBack maxAlloc pickCount).state.totalWeight = p.totalWeight := by
  unfold Pool.PickRandomManyAndPutBack
  simp only
  split
  · exact ⟨rfl, rfl⟩
  · split
    · exact ⟨rfl, rfl⟩
    · exact manyLoop_state p _ _ _ _ _ _

/-- A draw that is at most the sum finds a slot: the index that `sort.Search` returns is
below `n` and is an index of `Items`. -/
theorem Search_slot_lt (items : List Item) (r : Int) (hne : items ≠ [])
    (hr : r ≤ (cumLoop items 0).2) :
    0 ≤ Search items.length (slot (cumLoop items 0).1 r) ∧
      Search items.length (slot (cumLoop items 0).1 r) < items.length := by
  have hlen : 0 < items.length := List.length_pos.mpr hne
  obtain ⟨h1, h2, _, h4⟩ :=
    Search_spec items.length (slot (cumLoop items 0).1 r) (by omega)
  refine ⟨h1, ?_⟩
  by_contra hge
  have heq : Search (items.length : Int) (slot (cumLoop items 0).1 r) = items.length := by omega
  have hlast := h4 (by omega)
  rw [heq] at hlast
  unfold slot at hlast
  have hidx : ((items.length : Int) - 1).toNat = items.length - 1 := by omega
  rw [hidx, cumLoop_last items 0 hne] at hlast
  simp only [ge_iff_le, decide_eq_false_iff_not, not_le] at hlast
  omega

theorem PickRandomAndPutBack_hit (p : Pool) (hne : p.Items ≠ []) (hpos : 0 < p.totalWeight)
    (hle : p.totalWeight ≤ (cumLoop p.Items 0).2) :
    ∃ item, item ∈ p.Items ∧
      p.PickRandomAndPutBack =
        PickOutcome.ret (some item, true) { p with rand := fun i => p.rand (i + 1) } := by
  have hlen : 0 < p.Items.length := List.length_pos.mpr hne
  obtain ⟨d, hd, hd0, hdn, _⟩ := Intn_some p.rand p.totalWeight hpos
  have hr : d + 1 ≤ (cumLoop p.Items 0).2 := by omega
  obtain ⟨hs0, hsn⟩ := Search_slot_lt p.Items (d + 1) hne hr
  have hidx : (Search (p.Items.length : Int) (slot (cumLoop p.Items 0).1 (d + 1))).toNat <
      p.Items.length := by omega
  refine ⟨p.Items[(Search (p.Items.length : Int) (slot (cumLoop p.Items 0).1 (d + 1))).toNat],
    List.getElem_mem _, ?_⟩
  unfold Pool.PickRandomAndPutBack
  simp only
  rw [if_neg (by omega), hd]
  simp only
  rw [if_neg (by omega), if_pos hsn, List.getElem?_eq_getElem hidx]

/-- C32: sampling with replacement leaves the pool alone: for every pool, every allocation
limit of the runtime and however the call ends, `PickRandomAndPutBack` and
`PickRandomManyAndPutBack` leave `Items` and `totalWeight` as they were; when the pool is
non-empty and `totalWeight` (a Go `int`) is the positive sum of the item weights,
`PickRandomAndPutBack` returns `ok = true` with an item of the pool, whatever the generator
draws; on an empty pool it returns `ok = false` and `PickRandomManyAndPutBack` returns no
item, for every `pickCount` and every allocation limit. -/
theorem C32_put_back_leaves_pool (p : Pool) :
    (p.PickRandomAndPutBack.state.Items = p.Items ∧
      p.PickRandomAndPutBack.state.totalWeight = p.totalWeight) ∧
    (∀ maxAlloc pickCount,
      (p.PickRandomManyAndPutBack maxAlloc pickCount).state.Items = p.Items ∧
        (p.PickRandomManyAndPutBack maxAlloc pickCount).state.totalWeight =
          p.totalWeight) ∧
    (p.Items ≠ [] → 0 < p.totalWeight → p.totalWeight < 9223372036854775808 →
      p.totalWeight = (p.Items.map Item.Weight).sum →
      ∃ item, item ∈ p.Items ∧ p.PickRandomAndPutBack.result = some (some item, true)) ∧
    (p.Items = [] →
      p.PickRandomAndPutBack.result = some (none, false) ∧
        ∀ maxAlloc pickCount,
          (p.PickRandomManyAndPutBack maxAlloc pickCount).result = some []) := by
  refine ⟨PickRandomAndPutBack_state p,
    fun maxAlloc pickCount => PickRandomManyAndPutBack_state maxAlloc p pickCount, ?_, ?_⟩
  · intro hne hpos hlt hsum
    have hcode : (cumLoop p.Items 0).2 = p.totalWeight := by
      rw [cumLoop_sum_zero, ← hsum, wrapGoInt_of_range _ (by omega) hlt]
    obtain ⟨item, hmem, hpick⟩ := PickRandomAndPutBack_hit p hne hpos (by omega)
    exact ⟨item, hmem, by rw [hpick]; rfl⟩
  · intro hnil
    constructor
    · unfold Pool.PickRandomAndPutBack
      simp [hnil, PickOutcome.result]
    · intro maxAlloc pickCount
      unfold Pool.PickRandomManyAndPutBack
      simp [hnil, PickOutcome.result]

theorem C32_put_back_leaves_pool_witness :
    ((distributionPool (fun i => 7 * i + 3)).Items ≠ [] ∧
      0 < (distributionPool (fun i => 7 * i + 3)).totalWeight ∧
      (distributionPool (fun i => 7 * i + 3)).totalWeight < 9223372036854775808 ∧
      (distributionPool (fun i => 7 * i + 3)).totalWeight =
        ((distributionPool (fun i => 7 * i + 3)).Items.map Item.Weight).sum) ∧
    (∃ item, item ∈ (distributionPool (fun i => 7 * i + 3)).Items ∧
      (distributionPool (fun i => 7 * i + 3)).PickRandomAndPutBack.result =
        some (some item, true)) ∧
    ((Pool.mk 0 (fun _ => 0) [] 0).Items = [] ∧
      (Pool.mk 0 (fun _ => 0) [] 0).PickRandomAndPutBack.result = some (none, false) ∧
      ∀ maxAlloc pickCount,
        ((Pool.mk 0 (fun _ => 0) [] 0).PickRandomManyAndPutBack maxAlloc pickCount).result =
          some []) :=
  ⟨⟨by decide, by decide, by decide, by decide⟩,
    (C32_put_back_leaves_pool (distributionPool (fun i => 7 * i + 3))).2.2.1 (by decide)
      (by decide) (by decide) (by decide),
    rfl, (C32_put_back_leaves_pool (Pool.mk 0 (fun _ => 0) [] 0)).2.2.2 rfl⟩

/-! ## The guaranteed pick -/

theorem mem_guaranteedIndicesFrom (states : List guaranteedItemState) :
    ∀ (i k : Nat), k ∈ guaranteedIndicesFrom i states →
      i ≤ k ∧ ∃ s, states[k - i]? = some s ∧ s.guaranteed = true := by
  induction states with
  | nil =>
    intro i k hk
    simp [guaranteedIndicesFrom] at hk
  | cons state states ih =>
    intro i k hk
    unfold guaranteedIndicesFrom at hk
    have hrest : k ∈ guaranteedIndicesFrom (i + 1) states →
        i ≤ k ∧ ∃ s, (state :: states)[k - i]? = some s ∧ s.guaranteed = true := by
      intro h
      obtain ⟨h1, s, h2, h3⟩ := ih (i + 1) k h
      refine ⟨by omega, s, ?_, h3⟩
      have : k - i = (k - (i + 1)) + 1 := by omega
      rw [this, List.getElem?_cons_succ]
      exact h2
    by_cases hg : state.guaranteed = true
    · rw [if_pos hg] at hk
      rcases List.mem_cons.mp hk with e | e
      · subst e
        exact ⟨le_refl _, state, by simp, hg⟩
      · exact hrest e
    · rw [if_neg hg] at hk
      exact hrest hk

theorem guaranteedIndicesFrom_ne_nil (states : List guaranteedItemState) :
    ∀ (i : Nat), (∃ s ∈ states, s.guaranteed = true) → guaranteedIndicesFrom i states ≠ [] := by
  induction states with
  | nil =>
    intro i h
    obtain ⟨s, hs, _⟩ := h
    simp at hs
  | cons state states ih =>
    intro i h
    unfold guaranteedIndicesFrom
    by_cases hg : state.guaranteed = true
    · rw [if_pos hg]
      exact List.cons_ne_nil _ _
    · rw [if_neg hg]
      apply ih
      obtain ⟨s, hs, hs'⟩ := h
      rcases List.mem_cons.mp hs with e | e
      · rw [e] at hs'
        exact absurd hs' hg
      · exact ⟨s, e, hs'⟩

theorem guaranteedIndicesFrom_eq_nil (states : List guaranteedItemState) :
    ∀ (i : Nat), (∀ s ∈ states, s.guaranteed = false) → guaranteedIndicesFrom i states = [] := by
  induction states with
  | nil =>
    intro i _
    rfl
  | cons state states ih =>
    intro i h
    unfold guaranteedIndicesFrom
    rw [if_neg (by simp [h state (List.mem_cons_self _ _)])]
    exact ih _ (fun s hs => h s (List.mem_cons_of_mem _ hs))

theorem missOthersFrom_take_drop (states : List guaranteedItemState) :
    ∀ (i k : Nat), k < states.length →
      (missOthersFrom ((i + k : Nat) : Int) i states).take k ++
          (missOthersFrom ((i + k : Nat) : Int) i states).drop (k + 1) =
        (states.take k ++ states.drop (k + 1)).map guaranteedItemState.miss := by
  induction states with
  | nil =>
    intro i k hk
    simp at hk
  | cons state states ih =>
    intro i k hk
    cases k with
    | zero =>
      unfold missOthersFrom
      simp only [Nat.add_zero, ne_eq, not_true_eq_false, if_false, List.take_zero, List.nil_append,
        Nat.zero_add, List.drop_succ_cons, List.drop_zero]
      clear ih hk
      generalize hi : i + 1 = j
      have hlt : i < j := by omega
      clear hi
      induction states generalizing j with
      | nil => rfl
      | cons s states ih2 =>
        unfold missOthersFrom
        rw [if_pos (by omega), List.map_cons, ih2 (j + 1) (by omega)]
    | succ k =>
      unfold missOthersFrom
      rw [if_pos (by omega)]
      have h := ih (i + 1) k (by simpa using hk)
      have e : ((i + 1 + k : Nat) : Int) = ((i + (k + 1) : Nat) : Int) := by
        congr 1
        omega
      rw [e] at h
      simp only [List.take_succ_cons, List.drop_succ_cons, List.cons_append, List.map_cons]
      rw [h]

theorem finish_picked (p : GuaranteedPool) (k : Nat) (picked : guaranteedItemState)
    (hk : p.items[k]? = some picked) :
    p.finish (k : Int) =
      PickOutcome.ret (some picked.item, true)
        { p with
          totalWeight := wrapGoInt (p.totalWeight - picked.item.Weight)
          items := (p.items.take k ++ p.items.drop (k + 1)).map guaranteedItemState.miss } := by
  have hlt : k < p.items.length := by
    by_contra hge
    rw [List.getElem?_eq_none (by omega)] at hk
    cases hk
  unfold GuaranteedPool.finish
  rw [if_neg (by omega), if_neg (by omega)]
  simp only [Int.toNat_ofNat, hk]
  have h := missOthersFrom_take_drop p.items 0 k hlt
  simp only [Nat.zero_add] at h
  rw [h]

theorem miss_exact (s : guaranteedItemState) :
    s.miss.item = s.item ∧ s.miss.missTimes = wrapGoInt (s.missTimes + 1) ∧
      (-9223372036854775808 ≤ s.missTimes → s.missTimes < 9223372036854775807 →
        s.miss.missTimes = s.missTimes + 1) := by
  refine ⟨rfl, rfl, fun h1 h2 => ?_⟩
  unfold guaranteedItemState.miss
  exact wrapGoInt_of_range _ (by omega) (by omega)

theorem PickRandom_guaranteed (p : GuaranteedPool)
    (hg : ∃ s ∈ p.items, s.guaranteed = true) :
    ∃ (k : Nat) (picked : guaranteedItemState),
      p.items[k]? = some picked ∧ picked.guaranteed = true ∧
      p.PickRandom =
        PickOutcome.ret (some picked.item, true)
          { rand := fun i => p.rand (i + 1)
            randSeed := p.randSeed
            totalWeight := wrapGoInt (p.totalWeight - picked.item.Weight)
            items := (p.items.take k ++ p.items.drop (k + 1)).map guaranteedItemState.miss } := by
  have hne : guaranteedIndicesFrom 0 p.items ≠ [] := guaranteedIndicesFrom_ne_nil p.items 0 hg
  have hlen : 0 < (guaranteedIndicesFrom 0 p.items).length := List.length_pos.mpr hne
  have hitems : p.items.length ≠ 0 := by
    obtain ⟨s, hs, _⟩ := hg
    exact Nat.ne_of_gt (List.length_pos_of_mem hs)
  obtain ⟨d, hd, hd0, hdn, _⟩ :=
    Intn_some p.rand ((guaranteedIndicesFrom 0 p.items).length : Int) (by omega)
  have hidx : d.toNat < (guaranteedIndicesFrom 0 p.items).length := by omega
  obtain ⟨_, picked, hpicked, hguar⟩ := mem_guaranteedIndicesFrom p.items 0
    ((guaranteedIndicesFrom 0 p.items)[d.toNat]) (List.getElem_mem _)
  rw [Nat.sub_zero] at hpicked
  refine ⟨(guaranteedIndicesFrom 0 p.items)[d.toNat], picked, hpicked, hguar, ?_⟩
  unfold GuaranteedPool.PickRandom
  rw [if_neg hitems]
  simp only
  rw [if_pos (by omega), hd]
  simp only
  rw [List.getElem?_eq_getElem hidx]
  simp only
  exact finish_picked { p with rand := fun i => p.rand (i + 1) } _ picked hpicked

theorem cumLoopG_eq (states : List guaranteedItemState) :
    ∀ sum, cumLoopG states sum =
      cumLoop (states.map (fun s => (⟨s.item.value, s.item.weightVal⟩ : Item))) sum := by
  induction states with
  | nil =>
    intro sum
    rfl
  | cons s states ih =>
    intro sum
    simp only [cumLoopG, List.map_cons, cumLoop, ih]
    rfl

theorem Search_slot_lt_G (states : List guaranteedItemState) (r : Int) (hne : states ≠ [])
    (hr : r ≤ (cumLoopG states 0).2) :
    0 ≤ Search (cumLoopG states 0).1.length (slot (cumLoopG states 0).1 r) ∧
      Search (cumLoopG states 0).1.length (slot (cumLoopG states 0).1 r) < states.length := by
  rw [cumLoopG_eq] at hr ⊢
  have hne' : states.map (fun s => (⟨s.item.value, s.item.weightVal⟩ : Item)) ≠ [] := by
    simpa using hne
  have h := Search_slot_lt _ r hne' hr
  rw [cumLoop_length]
  simpa using h

/-- A call of `PickRandom` on a non-empty guaranteed pool that returns `ok = false` is a miss:
every item has been missed once more, and nothing else of the pool has changed but the
generator. -/
theorem PickRandom_miss (q q' : GuaranteedPool) (hne : q.items ≠ [])
    (h : q.PickRandom = PickOutcome.ret (none, false) q') :
    q'.items = q.items.map guaranteedItemState.miss ∧ q'.totalWeight = q.totalWeight := by
  by_cases hg : ∃ s ∈ q.items, s.guaranteed = true
  · obtain ⟨k, picked, _, _, hp⟩ := PickRandom_guaranteed q hg
    rw [hp] at h
    cases h
  · have hnil : guaranteedIndicesFrom 0 q.items = [] := by
      apply guaranteedIndicesFrom_eq_nil
      intro s hs
      cases hb : s.guaranteed with
      | false => rfl
      | true => exact absurd ⟨s, hs, hb⟩ hg
    have hlen : q.items.length ≠ 0 := fun e => hne (List.length_eq_zero.mp e)
    unfold GuaranteedPool.PickRandom at h
    rw [if_neg hlen] at h
    simp only [hnil, List.length_nil, gt_iff_lt, lt_self_iff_false, if_false] at h
    split at h
    · cases h
    · rename_i d rand hd
      split at h
      · cases h
        exact ⟨rfl, rfl⟩
      · rename_i hr
        obtain ⟨h0, hlt⟩ := Search_slot_lt_G q.items (d + 1) hne (by omega)
        rw [if_pos hlt] at h
        have hidx : (Search ((cumLoopG q.items 0).1.length : Int)
            (slot (cumLoopG q.items 0).1 (d + 1))).toNat < q.items.length := by omega
        have hfin := finish_picked
          { q with rand := rand }
          (Search ((cumLoopG q.items 0).1.length : Int)
            (slot (cumLoopG q.items 0).1 (d + 1))).toNat
          (q.items[(Search ((cumLoopG q.items 0).1.length : Int)
            (slot (cumLoopG q.items 0).1 (d + 1))).toNat])
          (List.getElem?_eq_getElem hidx)
        rw [Int.toNat_of_nonneg h0] at hfin
        rw [hfin] at h
        cases h

/-- C33: guaranteed pick: in a guaranteed pool in which at least one item has
`GuaranteedTimes() > 0` and a miss count of at least `GuaranteedTimes()`, `PickRandom` returns
`ok = true` and one of those guaranteed items, whatever the generator draws and whatever the
weights (such a pool is not empty); the picked item is removed (`Length()` decreases by 1, `totalWeight` by its weight,
in Go `int` arithmetic) and the miss count of every remaining item is increased by `++`, by
exactly 1 below the largest `int`; on a miss (`ok = false` on a non-empty pool) the miss
count of every item is increased in the same way and `totalWeight` stays. -/
theorem C33_guaranteed_pick (p : GuaranteedPool)
    (hg : ∃ s ∈ p.items, s.item.GuaranteedTimes > 0 ∧ s.missTimes ≥ s.item.GuaranteedTimes) :
    (∃ (k : Nat) (picked : guaranteedItemState) (p' : GuaranteedPool),
      p.items[k]? = some picked ∧
      (picked.item.GuaranteedTimes > 0 ∧ picked.missTimes ≥ picked.item.GuaranteedTimes) ∧
      p.PickRandom = PickOutcome.ret (some picked.item, true) p' ∧
      p'.items = (p.items.take k ++ p.items.drop (k + 1)).map guaranteedItemState.miss ∧
      p'.Length = p.Length - 1 ∧
      p'.totalWeight = wrapGoInt (p.totalWeight - picked.item.Weight)) ∧
    (∀ s : guaranteedItemState, s.miss.item = s.item ∧
      s.miss.missTimes = wrapGoInt (s.missTimes + 1) ∧
      (-9223372036854775808 ≤ s.missTimes → s.missTimes < 9223372036854775807 →
        s.miss.missTimes = s.missTimes + 1)) ∧
    (∀ q q' : GuaranteedPool, q.items ≠ [] → q.PickRandom = PickOutcome.ret (none, false) q' →
      q'.items = q.items.map guaranteedItemState.miss ∧ q'.totalWeight = q.totalWeight) := by
  have hg' : ∃ s ∈ p.items, s.guaranteed = true := by
    obtain ⟨s, hs, h1, h2⟩ := hg
    exact ⟨s, hs, by simp [guaranteedItemState.guaranteed, h1, h2]⟩
  obtain ⟨k, picked, hk, hguar, hp⟩ := PickRandom_guaranteed p hg'
  have hlt : k < p.items.length := by
    by_contra hge
    rw [List.getElem?_eq_none (by omega)] at hk
    cases hk
  refine ⟨⟨k, picked, _, hk, ?_, hp, rfl, ?_, rfl⟩, miss_exact, PickRandom_miss⟩
  · simpa [guaranteedItemState.guaranteed] using hguar
  · unfold GuaranteedPool.Length
    simp only [List.length_map, List.length_append, List.length_take, List.length_drop]
    omega

theorem C33_guaranteed_pick_witness :
    (∃ s ∈ (guaranteedSample (fun i => i)).items,
      s.item.GuaranteedTimes > 0 ∧ s.missTimes ≥ s.item.GuaranteedTimes) ∧
    (∃ (k : Nat) (picked : guaranteedItemState) (p' : GuaranteedPool),
      (guaranteedSample (fun i => i)).items[k]? = some picked ∧
      (picked.item.GuaranteedTimes > 0 ∧ picked.missTimes ≥ picked.item.GuaranteedTimes) ∧
      (guaranteedSample (fun i => i)).PickRandom = PickOutcome.ret (some picked.item, true) p' ∧
      p'.items = ((guaranteedSample (fun i => i)).items.take k ++
        (guaranteedSample (fun i => i)).items.drop (k + 1)).map guaranteedItemState.miss ∧
      p'.Length = (guaranteedSample (fun i => i)).Length - 1 ∧
      p'.totalWeight =
        wrapGoInt ((guaranteedSample (fun i => i)).totalWeight - picked.item.Weight)) :=
  ⟨by decide, (C33_guaranteed_pick (guaranteedSample (fun i => i)) (by decide)).1⟩

/-! ## The weighted selection rule -/

theorem cumLoop_eq_cumulative (items : List Item) :
    ∀ (s : Int), 0 ≤ s → (∀ it ∈ items, 0 ≤ it.Weight) →
      s + (items.map Item.Weight).sum < 9223372036854775808 →
      cumLoop items s = (cumulative s items, s + (items.map Item.Weight).sum) := by
  induction items with
  | nil =>
    intro s _ _ _
    simp [cumLoop, cumulative]
  | cons it items ih =>
    intro s hs hw hsum
    simp only [List.map_cons, List.sum_cons] at hsum
    have hw0 : 0 ≤ it.Weight := hw it (List.mem_cons_self _ _)
    have hrest : ∀ it' ∈ items, 0 ≤ it'.Weight := fun x hx => hw x (List.mem_cons_of_mem _ hx)
    have hnn : 0 ≤ (items.map Item.Weight).sum :=
      List.sum_nonneg (fun x hx => by
        obtain ⟨y, hy, rfl⟩ := List.mem_map.mp hx
        exact hrest y hy)
    have hwrap : wrapGoInt (s + it.Weight) = s + it.Weight :=
      wrapGoInt_of_range _ (by omega) (by omega)
    have h := ih (s + it.Weight) (by omega) hrest (by omega)
    simp only [cumLoop, cumulative, hwrap, h, List.map_cons, List.sum_cons]
    rw [add_assoc]

theorem cumulative_length (items : List Item) :
    ∀ s, (cumulative s items).length = items.length := by
  induction items with
  | nil =>
    intro s
    rfl
  | cons it items ih =>
    intro s
    simp only [cumulative, List.length_cons, ih]

theorem cumulative_getD (items : List Item) :
    ∀ (s : Int) (k : Nat), k < items.length →
      (cumulative s items).getD k 0 = s + ((items.take (k + 1)).map Item.Weight).sum := by
  induction items with
  | nil =>
    intro s k hk
    simp at hk
  | cons it items ih =>
    intro s k hk
    cases k with
    | zero => simp [cumulative]
    | succ k =>
      simp only [cumulative, List.getD_cons_succ, List.take_succ_cons, List.map_cons,
        List.sum_cons]
      rw [ih (s + it.Weight) k (by simpa using hk), add_assoc]

theorem sum_take_le (items : List Item) (hw : ∀ it ∈ items, 0 ≤ it.Weight) :
    ∀ (a b : Nat), a ≤ b →
      ((items.take a).map Item.Weight).sum ≤ ((items.take b).map Item.Weight).sum := by
  induction items with
  | nil =>
    intro a b _
    simp
  | cons it items ih =>
    intro a b hab
    have hrest : ∀ it' ∈ items, 0 ≤ it'.Weight := fun x hx => hw x (List.mem_cons_of_mem _ hx)
    cases a with
    | zero =>
      simp only [List.take_zero, List.map_nil, List.sum_nil]
      exact List.sum_nonneg (fun x hx => by
        obtain ⟨y, hy, rfl⟩ := List.mem_map.mp hx
        exact hw y ((List.take_sublist _ _).subset hy))
    | succ a =>
      cases b with
      | zero => omega
      | succ b =>
        simp only [List.take_succ_cons, List.map_cons, List.sum_cons]
        have := ih hrest a b (by omega)
        omega

theorem leastIndex_eq_some (r : Int) (cum : List Int) :
    ∀ (i : Nat), i < cum.length → r ≤ cum.getD i 0 → (∀ j, j < i → cum.getD j 0 < r) →
      leastIndex r cum = some i := by
  induction cum with
  | nil =>
    intro i hi _ _
    simp at hi
  | cons c cum ih =>
    intro i hi hr hbefore
    unfold leastIndex
    cases i with
    | zero =>
      simp only [List.getD_cons_zero] at hr
      rw [if_pos hr]
    | succ i =>
      have h0 := hbefore 0 (by omega)
      simp only [List.getD_cons_zero] at h0
      rw [if_neg (by omega)]
      rw [ih i (by simpa using hi) (by simpa using hr) (fun j hj => by
        have := hbefore (j + 1) (by omega)
        simpa using this)]
      rfl

theorem leastIndex_some (r : Int) (cum : List Int) :
    ∀ (i : Nat), leastIndex r cum = some i →
      i < cum.length ∧ r ≤ cum.getD i 0 ∧ ∀ j, j < i → cum.getD j 0 < r := by
  induction cum with
  | nil =>
    intro i h
    simp [leastIndex] at h
  | cons c cum ih =>
    intro i h
    unfold leastIndex at h
    by_cases hc : c ≥ r
    · rw [if_pos hc] at h
      cases h
      exact ⟨by simp, by simpa using hc, fun j hj => absurd hj (Nat.not_lt_zero j)⟩
    · rw [if_neg hc] at h
      cases hl : leastIndex r cum with
      | none =>
        rw [hl] at h
        cases h
      | some i' =>
        rw [hl] at h
        simp only [Option.map_some', Option.some.injEq] at h
        subst h
        obtain ⟨h1, h2, h3⟩ := ih i' hl
        refine ⟨by simpa using h1, by simpa using h2, fun j hj => ?_⟩
        cases j with
        | zero =>
          simp only [List.getD_cons_zero]
          omega
        | succ j =>
          simp only [List.getD_cons_succ]
          exact h3 j (by omega)

/-- On cumulative weights that do not decrease, `sort.Search` finds what the selection rule
says. -/
theorem Search_eq_leastIndex (cum : List Int) (r : Int) (hne : cum ≠ [])
    (hmono : ∀ a b : Nat, a ≤ b → b < cum.length → cum.getD a 0 ≤ cum.getD b 0)
    (hr : r ≤ cum.getD (cum.length - 1) 0) :
    0 ≤ Search cum.length (slot cum r) ∧ Search cum.length (slot cum r) < cum.length ∧
      leastIndex r cum = some (Search cum.length (slot cum r)).toNat := by
  have hlen : 0 < cum.length := List.length_pos.mpr hne
  obtain ⟨h1, h2, h3, h4⟩ := Search_spec cum.length (slot cum r) (by omega)
  have hlt : Search (cum.length : Int) (slot cum r) < cum.length := by
    by_contra hge
    have heq : Search (cum.length : Int) (slot cum r) = cum.length := by omega
    have hlast := h4 (by omega)
    rw [heq] at hlast
    unfold slot at hlast
    have hidx : ((cum.length : Int) - 1).toNat = cum.length - 1 := by omega
    rw [hidx] at hlast
    simp only [ge_iff_le, decide_eq_false_iff_not, not_le] at hlast
    omega
  refine ⟨h1, hlt, ?_⟩
  apply leastIndex_eq_some r cum _ (by omega)
  · have hs : slot cum r (Search (cum.length : Int) (slot cum r)) = true := h3 hlt
    exact of_decide_eq_true hs
  · intro j hj
    have hmono' : ∀ a b : Int, 0 ≤ a → a ≤ b → b < cum.length →
        slot cum r a = true → slot cum r b = true := by
      intro a b ha hab hb hsa
      unfold slot at hsa ⊢
      simp only [ge_iff_le, decide_eq_true_eq] at hsa ⊢
      have := hmono a.toNat b.toNat (by omega) (by omega)
      omega
    have hs : slot cum r (j : Int) = false :=
      Search_least cum.length (slot cum r) (by omega) hmono' (j : Int) (by omega) (by omega)
    have hs' : ¬ cum.getD ((j : Int).toNat) 0 ≥ r := of_decide_eq_false hs
    rw [Int.toNat_ofNat] at hs'
    omega

theorem sum_weights_nonneg (items : List Item) (hw : ∀ it ∈ items, 0 ≤ it.Weight) :
    0 ≤ (items.map Item.Weight).sum :=
  List.sum_nonneg (fun x hx => by
    obtain ⟨y, hy, rfl⟩ := List.mem_map.mp hx
    exact hw y hy)

theorem cumulative_mono (items : List Item) (hw : ∀ it ∈ items, 0 ≤ it.Weight) (a b : Nat)
    (hab : a ≤ b) (hb : b < items.length) :
    (cumulative 0 items).getD a 0 ≤ (cumulative 0 items).getD b 0 := by
  rw [cumulative_getD items 0 a (by omega), cumulative_getD items 0 b hb]
  have := sum_take_le items hw (a + 1) (b + 1) (by omega)
  omega

theorem cumulative_last (items : List Item) (hne : items ≠ []) :
    (cumulative 0 items).getD (items.length - 1) 0 = (items.map Item.Weight).sum := by
  have hlen : 0 < items.length := List.length_pos.mpr hne
  rw [cumulative_getD items 0 (items.length - 1) (by omega)]
  have : items.length - 1 + 1 = items.length := by omega
  rw [this, List.take_length, zero_add]

/-- With weights that are not negative and a sum that fits an `int`, the slot that the code
finds for a draw `r` at most the sum is the one of the selection rule. -/
theorem code_select (items : List Item) (hne : items ≠ [])
    (hw : ∀ it ∈ items, 0 ≤ it.Weight)
    (hsum : (items.map Item.Weight).sum < 9223372036854775808) :
    (cumLoop items 0).2 = (items.map Item.Weight).sum ∧
      ∀ r, r ≤ (items.map Item.Weight).sum →
        0 ≤ Search items.length (slot (cumLoop items 0).1 r) ∧
        Search items.length (slot (cumLoop items 0).1 r) < items.length ∧
        selectRule items r = some (Search items.length (slot (cumLoop items 0).1 r)).toNat := by
  have hcum := cumLoop_eq_cumulative items 0 (le_refl 0) hw (by omega)
  rw [zero_add] at hcum
  rw [hcum]
  refine ⟨rfl, fun r hr => ?_⟩
  simp only
  have hlen := cumulative_length items 0
  have hne' : cumulative 0 items ≠ [] := by
    intro e
    rw [e] at hlen
    exact hne (List.length_eq_zero.mp hlen.symm)
  have h := Search_eq_leastIndex (cumulative 0 items) r hne'
    (fun a b hab hb => cumulative_mono items hw a b hab (by omega))
    (by rw [hlen, cumulative_last items hne]; exact hr)
  rw [hlen] at h
  refine ⟨h.1, h.2.1, ?_⟩
  unfold selectRule
  rw [if_pos hr]
  exact h.2.2

theorem ruleResult_of_gt (items : List Item) (r : Int)
    (hr : (items.map Item.Weight).sum < r) : ruleResult items r = (none, false) := by
  unfold ruleResult selectRule
  rw [if_neg (by omega)]

theorem ruleResult_of_select (items : List Item) (r : Int) (i : Nat)
    (h : selectRule items r = some i) : ruleResult items r = (items[i]?, true) := by
  unfold ruleResult
  rw [h]

theorem drawAt_bounds (p : Pool) (ht : 1 ≤ p.totalWeight) (k : Nat) :
    1 ≤ drawAt p k ∧ drawAt p k ≤ p.totalWeight := by
  unfold drawAt
  have hpos : 0 < p.totalWeight.toNat := by omega
  have := Nat.mod_lt (p.rand k) hpos
  omega

theorem PickRandomAndPutBack_rule (p : Pool) (hne : p.Items ≠ [])
    (hw : ∀ it ∈ p.Items, 0 ≤ it.Weight)
    (hsum : (p.Items.map Item.Weight).sum < 9223372036854775808) (ht : 1 ≤ p.totalWeight) :
    p.PickRandomAndPutBack.result = some (ruleResult p.Items (drawAt p 0)) := by
  have hlen : 0 < p.Items.length := List.length_pos.mpr hne
  obtain ⟨hs, hsel⟩ := code_select p.Items hne hw hsum
  obtain ⟨d, hd, _, _, hdr⟩ := Intn_some p.rand p.totalWeight (by omega)
  have hdraw : d + 1 = drawAt p 0 := by
    unfold drawAt
    rw [hdr]
  unfold Pool.PickRandomAndPutBack
  simp only
  rw [if_neg (by omega), hd]
  simp only
  rw [hdraw, hs]
  by_cases hr : drawAt p 0 > (p.Items.map Item.Weight).sum
  · rw [if_pos hr, ruleResult_of_gt _ _ hr]
    rfl
  · rw [if_neg hr]
    obtain ⟨h0, hlt, hrule⟩ := hsel (drawAt p 0) (by omega)
    rw [if_pos hlt, ruleResult_of_select _ _ _ hrule]
    have hidx : (Search (p.Items.length : Int)
        (slot (cumLoop p.Items 0).1 (drawAt p 0))).toNat < p.Items.length := by omega
    rw [List.getElem?_eq_getElem hidx]
    rfl

theorem PickRandom_rule (p : Pool) (hne : p.Items ≠ [])
    (hw : ∀ it ∈ p.Items, 0 ≤ it.Weight)
    (hsum : (p.Items.map Item.Weight).sum < 9223372036854775808) (ht : 1 ≤ p.totalWeight) :
    p.PickRandom.result = some (ruleResult p.Items (drawAt p 0)) := by
  have hlen : 0 < p.Items.length := List.length_pos.mpr hne
  obtain ⟨hs, hsel⟩ := code_select p.Items hne hw hsum
  obtain ⟨d, hd, _, _, hdr⟩ := Intn_some p.rand p.totalWeight (by omega)
  have hdraw : d + 1 = drawAt p 0 := by
    unfold drawAt
    rw [hdr]
  have hb := drawAt_bounds p ht 0
  unfold Pool.PickRandom
  simp only
  cases hitems : p.Items with
  | nil => exact absurd hitems hne
  | cons item0 rest =>
    simp only
    by_cases hshort : ((item0 :: rest).length : Int) = 1 ∧ item0.Weight ≥ p.totalWeight
    · rw [if_pos hshort]
      have hrest : rest = [] := by
        have := hshort.1
        simp only [List.length_cons, Nat.cast_add, Nat.cast_one] at this
        exact List.length_eq_zero.mp (by omega)
      subst hrest
      have hrule : ruleResult [item0] (drawAt p 0) = (some item0, true) := by
        unfold ruleResult selectRule
        simp only [List.map_cons, List.map_nil, List.sum_cons, List.sum_nil, add_zero]
        rw [if_pos (by omega)]
        simp only [cumulative, leastIndex, zero_add]
        rw [if_pos (by omega)]
        rfl
      rw [hrule]
      rfl
    · rw [if_neg hshort]
      rw [hitems] at hs hsel hlen
      rw [hd]
      simp only
      rw [hdraw, hs]
      by_cases hr : drawAt p 0 > ((item0 :: rest).map Item.Weight).sum
      · rw [if_pos hr, ruleResult_of_gt _ _ hr]
        rfl
      · rw [if_neg hr]
        obtain ⟨h0, hlt, hrule⟩ := hsel (drawAt p 0) (by omega)
        rw [if_neg (by omega), ruleResult_of_select _ _ _ hrule]
        have hidx : (Search ((item0 :: rest).length : Int)
            (slot (cumLoop (item0 :: rest) 0).1 (drawAt p 0))).toNat <
              (item0 :: rest).length := by omega
        rw [List.getElem?_eq_getElem hidx]
        rfl

theorem manyLoop_rule (p : Pool) (hne : p.Items ≠ [])
    (hw : ∀ it ∈ p.Items, 0 ≤ it.Weight)
    (hsum : (p.Items.map Item.Weight).sum < 9223372036854775808) (ht : 1 ≤ p.totalWeight) :
    ∀ (remaining : Nat) (rand : Rand) (res : List Item),
      (Pool.manyLoop p (cumLoop p.Items 0).1 (cumLoop p.Items 0).2 p.Items.length remaining
          rand res).result =
        some (res ++ (List.range remaining).filterMap (fun k =>
          (ruleResult p.Items (((rand k % p.totalWeight.toNat : Nat) : Int) + 1)).1)) := by
  have hlen : 0 < p.Items.length := List.length_pos.mpr hne
  obtain ⟨hs, hsel⟩ := code_select p.Items hne hw hsum
  rw [hs]
  intro remaining
  induction remaining with
  | zero =>
    intro rand res
    simp [Pool.manyLoop, PickOutcome.result]
  | succ remaining ih =>
    intro rand res
    obtain ⟨d, hd, _, _, hdr⟩ := Intn_some rand p.totalWeight (by omega)
    unfold Pool.manyLoop
    rw [hd]
    simp only
    rw [List.range_succ_eq_map, List.filterMap_cons, List.filterMap_map, hdr]
    by_cases hr : ((rand 0 % p.totalWeight.toNat : Nat) : Int) + 1 >
        (p.Items.map Item.Weight).sum
    · rw [if_pos hr, ruleResult_of_gt _ _ hr, ih]
      rfl
    · rw [if_neg hr]
      obtain ⟨h0, hlt, hrule⟩ := hsel (((rand 0 % p.totalWeight.toNat : Nat) : Int) + 1)
        (by omega)
      rw [if_pos hlt, ruleResult_of_select _ _ _ hrule]
      have hidx : (Search (p.Items.length : Int) (slot (cumLoop p.Items 0).1
          (((rand 0 % p.totalWeight.toNat : Nat) : Int) + 1))).toNat < p.Items.length := by
        omega
      rw [List.getElem?_eq_getElem hidx]
      simp only
      rw [ih, List.append_assoc]
      rfl

theorem makeItemsPanics_of_fits (maxAlloc cap : Int) (h0 : 0 ≤ cap)
    (hfit : cap * itemSize ≤ maxAlloc) : makeItemsPanics maxAlloc cap = false := by
  unfold makeItemsPanics
  exact decide_eq_false (by omega)

theorem makeItemsPanics_of_exceeds (maxAlloc cap : Int)
    (hbig : maxAlloc < cap * itemSize) : makeItemsPanics maxAlloc cap = true := by
  unfold makeItemsPanics
  exact decide_eq_true (Or.inr hbig)

theorem PickRandomManyAndPutBack_rule (p : Pool) (hne : p.Items ≠ [])
    (hw : ∀ it ∈ p.Items, 0 ≤ it.Weight)
    (hsum : (p.Items.map Item.Weight).sum < 9223372036854775808) (ht : 1 ≤ p.totalWeight)
    (maxAlloc pickCount : Int) (hfit : pickCount * itemSize ≤ maxAlloc) :
    (p.PickRandomManyAndPutBack maxAlloc pickCount).result =
      some ((List.range pickCount.toNat).filterMap (fun k =>
        (ruleResult p.Items (drawAt p k)).1)) := by
  have hlen : 0 < p.Items.length := List.length_pos.mpr hne
  unfold Pool.PickRandomManyAndPutBack
  simp only
  by_cases hc : pickCount ≤ 0
  · rw [if_pos (Or.inr hc)]
    have : pickCount.toNat = 0 := by omega
    rw [this]
    rfl
  · rw [if_neg (by omega), makeItemsPanics_of_fits maxAlloc pickCount (by omega) hfit]
    simp only [Bool.false_eq_true, if_false]
    rw [manyLoop_rule p hne hw hsum ht]
    rfl

theorem PickRandomManyAndPutBack_panics (p : Pool) (hne : p.Items ≠ [])
    (maxAlloc pickCount : Int) (h0 : 0 ≤ maxAlloc)
    (hbig : maxAlloc < pickCount * itemSize) :
    p.PickRandomManyAndPutBack maxAlloc pickCount = PickOutcome.panic p := by
  have hlen : 0 < p.Items.length := List.length_pos.mpr hne
  have hpos : 0 < pickCount := by
    unfold itemSize at hbig
    omega
  unfold Pool.PickRandomManyAndPutBack
  simp only
  rw [if_neg (by omega), makeItemsPanics_of_exceeds maxAlloc pickCount hbig]
  rfl

/-- The draws for which the selection rule selects the index `i`: those above the sum of
the weights before `i` and at most that sum plus the weight at `i`. -/
theorem selectRule_eq_some_iff (items : List Item) (hw : ∀ it ∈ items, 0 ≤ it.Weight)
    (r : Int) (hr : 1 ≤ r) (i : Nat) :
    selectRule items r = some i ↔
      i < items.length ∧ ((items.take i).map Item.Weight).sum < r ∧
        r ≤ ((items.take (i + 1)).map Item.Weight).sum := by
  have hlen := cumulative_length items 0
  constructor
  · intro h
    unfold selectRule at h
    split at h
    · obtain ⟨h1, h2, h3⟩ := leastIndex_some r _ i h
      rw [hlen] at h1
      rw [cumulative_getD items 0 i h1, zero_add] at h2
      refine ⟨h1, ?_, h2⟩
      cases i with
      | zero =>
        simp only [List.take_zero, List.map_nil, List.sum_nil]
        omega
      | succ i =>
        have := h3 i (by omega)
        rw [cumulative_getD items 0 i (by omega), zero_add] at this
        exact this
    · cases h
  · rintro ⟨h1, h2, h3⟩
    have hne : items ≠ [] := by
      intro e
      rw [e] at h1
      simp at h1
    have htot : r ≤ (items.map Item.Weight).sum := by
      have := sum_take_le items hw (i + 1) items.length (by omega)
      rw [List.take_length] at this
      omega
    unfold selectRule
    rw [if_pos htot]
    apply leastIndex_eq_some r _ i (by omega)
    · rw [cumulative_getD items 0 i h1, zero_add]
      exact h3
    · intro j hj
      rw [cumulative_getD items 0 j (by omega), zero_add]
      have := sum_take_le items hw (j + 1) i (by omega)
      omega

theorem sum_take_succ (items : List Item) :
    ∀ (i : Nat) (it : Item), items[i]? = some it →
      ((items.take (i + 1)).map Item.Weight).sum =
        ((items.take i).map Item.Weight).sum + it.Weight := by
  induction items with
  | nil =>
    intro i it h
    simp at h
  | cons x items ih =>
    intro i it h
    cases i with
    | zero =>
      simp only [List.getElem?_cons_zero, Option.some.injEq] at h
      subst h
      simp
    | succ i =>
      simp only [List.getElem?_cons_succ] at h
      simp only [List.take_succ_cons, List.map_cons, List.sum_cons]
      rw [ih i it h, add_assoc]

/-- Among the draws `1, ..., sum` exactly `Weight(i)` select the index `i`. -/
theorem card_select (items : List Item) (hw : ∀ it ∈ items, 0 ≤ it.Weight) (i : Nat)
    (it : Item) (h : items[i]? = some it) :
    (((Finset.Icc 1 ((items.map Item.Weight).sum)).filter
      (fun r => selectRule items r = some i)).card : Int) = it.Weight := by
  have hlt : i < items.length := by
    by_contra hge
    rw [List.getElem?_eq_none (by omega)] at h
    cases h
  have hmem : it ∈ items := List.getElem?_mem h
  have hsucc := sum_take_succ items i it h
  have hpre : 0 ≤ ((items.take i).map Item.Weight).sum :=
    sum_weights_nonneg _ (fun x hx => hw x ((List.take_sublist _ _).subset hx))
  have htot : ((items.take (i + 1)).map Item.Weight).sum ≤ (items.map Item.Weight).sum := by
    have := sum_take_le items hw (i + 1) items.length (by omega)
    rw [List.take_length] at this
    exact this
  have heq : (Finset.Icc 1 ((items.map Item.Weight).sum)).filter
      (fun r => selectRule items r = some i) =
      Finset.Ioc (((items.take i).map Item.Weight).sum)
        (((items.take i).map Item.Weight).sum + it.Weight) := by
    ext r
    simp only [Finset.mem_filter, Finset.mem_Icc, Finset.mem_Ioc]
    constructor
    · rintro ⟨⟨h1, _⟩, h3⟩
      have := (selectRule_eq_some_iff items hw r h1 i).mp h3
      omega
    · rintro ⟨h1, h2⟩
      have hr : 1 ≤ r := by omega
      exact ⟨⟨hr, by omega⟩, (selectRule_eq_some_iff items hw r hr i).mpr ⟨hlt, h1, by omega⟩⟩
  rw [heq, Int.card_Ioc]
  have := hw it hmem
  omega

/-- C38, as the claim states it, fails: in the pool with the weights 5, -3 and 4 (cumulative
weights 5, 2 and 6, `totalWeight` 6) and for the draw `r = 4`, the least index `i` with
`cum[i] ≥ r` is 0, but the binary search of `PickRandom`, of `PickRandomAndPutBack` and of
`PickRandomManyAndPutBack` ends at index 2 and the third item is returned. -/
theorem C38_negative_weight_not_least :
    (cumLoop (negativePool (fun _ => 3)).Items 0).1 = [5, 2, 6] ∧
      (negativePool (fun _ => 3)).totalWeight = 6 ∧
      drawAt (negativePool (fun _ => 3)) 0 = 4 ∧
      selectRule (negativePool (fun _ => 3)).Items 4 = some 0 ∧
      ruleResult (negativePool (fun _ => 3)).Items 4 = (some ⟨1, 5⟩, true) ∧
      (negativePool (fun _ => 3)).PickRandom.result = some (some ⟨3, 4⟩, true) ∧
      (negativePool (fun _ => 3)).PickRandomAndPutBack.result = some (some ⟨3, 4⟩, true) ∧
      ((negativePool (fun _ => 3)).PickRandomManyAndPutBack 281474976710656 1).result =
        some [⟨3, 4⟩] ∧
      (negativePool (fun _ => 3)).PickRandomAndPutBack.result ≠
        some (ruleResult (negativePool (fun _ => 3)).Items
          (drawAt (negativePool (fun _ => 3)) 0)) := by
  decide

/-- C38, amended: for every non-empty pool whose item weights are not negative and whose
sum of weights fits an `int`, with `totalWeight ≥ 1` so that a draw `r` with
`1 ≤ r ≤ totalWeight` exists: `PickRandom`, `PickRandomAndPutBack` and, when the
`pickCount` items of its result fit the allocation limit of the runtime, each draw of
`PickRandomManyAndPutBack` select the item at the least index `i` with `cum[i] ≥ r` when `r`
is at most the sum of the weights and report a miss when `r` exceeds the sum; the index `i`
is selected by the draws above the sum of the weights before `i` and at most that sum plus
`Weight(i)`, so by exactly `Weight(i)` of the draws `1, ..., sum`, and an item of weight 0
is never selected. -/
theorem C38_selection_rule_allocated (p : Pool) (hne : p.Items ≠ [])
    (hw : ∀ it ∈ p.Items, 0 ≤ it.Weight)
    (hsum : (p.Items.map Item.Weight).sum < 9223372036854775808) (ht : 1 ≤ p.totalWeight) :
    (∀ k, 1 ≤ drawAt p k ∧ drawAt p k ≤ p.totalWeight) ∧
    p.PickRandom.result = some (ruleResult p.Items (drawAt p 0)) ∧
    p.PickRandomAndPutBack.result = some (ruleResult p.Items (drawAt p 0)) ∧
    (∀ maxAlloc pickCount, pickCount * itemSize ≤ maxAlloc →
      (p.PickRandomManyAndPutBack maxAlloc pickCount).result =
        some ((List.range pickCount.toNat).filterMap (fun k =>
          (ruleResult p.Items (drawAt p k)).1))) ∧
    (∀ (r : Int) (i : Nat), 1 ≤ r →
      (selectRule p.Items r = some i ↔
        i < p.Items.length ∧ ((p.Items.take i).map Item.Weight).sum < r ∧
          r ≤ ((p.Items.take (i + 1)).map Item.Weight).sum)) ∧
    (∀ (i : Nat) (it : Item), p.Items[i]? = some it →
      (((Finset.Icc 1 ((p.Items.map Item.Weight).sum)).filter
        (fun r => selectRule p.Items r = some i)).card : Int) = it.Weight) ∧
    (∀ (r : Int) (i : Nat) (it : Item), 1 ≤ r → selectRule p.Items r = some i →
      p.Items[i]? = some it → it.Weight ≠ 0) := by
  refine ⟨drawAt_bounds p ht, PickRandom_rule p hne hw hsum ht,
    PickRandomAndPutBack_rule p hne hw hsum ht,
    fun maxAlloc pickCount hfit =>
      PickRandomManyAndPutBack_rule p hne hw hsum ht maxAlloc pickCount hfit,
    fun r i hr => selectRule_eq_some_iff p.Items hw r hr i,
    fun i it h => card_select p.Items hw i it h, ?_⟩
  intro r i it hr hsel hit
  obtain ⟨_, h2, h3⟩ := (selectRule_eq_some_iff p.Items hw r hr i).mp hsel
  rw [sum_take_succ p.Items i it hit] at h3
  omega

theorem C38_selection_rule_allocated_witness :
    ((distributionPool (fun i => 37 * i + 9)).Items ≠ [] ∧
      (∀ it ∈ (distributionPool (fun i => 37 * i + 9)).Items, 0 ≤ it.Weight) ∧
      ((distributionPool (fun i => 37 * i + 9)).Items.map Item.Weight).sum <
        9223372036854775808 ∧
      1 ≤ (distributionPool (fun i => 37 * i + 9)).totalWeight) ∧
    ((distributionPool (fun i => 37 * i + 9)).PickRandom.result =
        some (ruleResult (distributionPool (fun i => 37 * i + 9)).Items
          (drawAt (distributionPool (fun i => 37 * i + 9)) 0)) ∧
      (distributionPool (fun i => 37 * i + 9)).PickRandomAndPutBack.result =
        some (ruleResult (distributionPool (fun i => 37 * i + 9)).Items
          (drawAt (distributionPool (fun i => 37 * i + 9)) 0)) ∧
      ((3 : Int) * itemSize ≤ 281474976710656 ∧
        ((distributionPool (fun i => 37 * i + 9)).PickRandomManyAndPutBack 281474976710656
            3).result =
          some ((List.range (3 : Int).toNat).filterMap (fun k =>
            (ruleResult (distributionPool (fun i => 37 * i + 9)).Items
              (drawAt (distributionPool (fun i => 37 * i + 9)) k)).1))) ∧
      (((Finset.Icc 1 (((distributionPool (fun i => 37 * i + 9)).Items.map Item.Weight).sum)).filter
        (fun r => selectRule (distributionPool (fun i => 37 * i + 9)).Items r = some 2)).card :
          Int) = (⟨3, 70⟩ : Item).Weight) :=
  ⟨⟨by decide, by decide, by decide, by decide⟩,
    (C38_selection_rule_allocated (distributionPool (fun i => 37 * i + 9)) (by decide)
      (by decide) (by decide) (by decide)).2.1,
    (C38_selection_rule_allocated (distributionPool (fun i => 37 * i + 9)) (by decide)
      (by decide) (by decide) (by decide)).2.2.1,
    ⟨by decide,
      (C38_selection_rule_allocated (distributionPool (fun i => 37 * i + 9)) (by decide)
        (by decide) (by decide) (by decide)).2.2.2.1 281474976710656 3 (by decide)⟩,
    (C38_selection_rule_allocated (distributionPool (fun i => 37 * i + 9)) (by decide)
      (by decide) (by decide) (by decide)).2.2.2.2.2.1 2 ⟨3, 70⟩ (by decide)⟩

end weight

namespace lock

/-! ## Reader-writer exclusion of the token lock -/

theorem wrapToken_of_range (x : Int) (h1 : -9223372036854775808 ≤ x)
    (h2 : x < 9223372036854775808) : wrapToken x = x := by
  unfold wrapToken
  omega

theorem Exclusive_refresh (l : rwLocker) (now : Int) (h : Exclusive l) :
    Exclusive (l.refresh now) := by
  unfold rwLocker.refresh
  split
  · intro _
    rfl
  · intro hw
    show l.readTokens.filter _ = []
    rw [h hw]
    rfl

theorem Exclusive_lock (l : rwLocker) (now now' hold : Int) (h : Exclusive l) :
    Exclusive (l.lock now now' hold).2 := by
  have h1 := Exclusive_refresh l now h
  unfold rwLocker.lock
  simp only
  split
  · exact h1
  · rename_i hfree
    intro _
    show (l.refresh now).readTokens = []
    apply List.length_eq_zero.mp
    have : ¬ (l.refresh now).readTokens.length > 0 := fun hc => hfree (Or.inr hc)
    omega

theorem Exclusive_rLock (l : rwLocker) (now now' hold : Int) (h : Exclusive l) :
    Exclusive (l.rLock now now' hold).2 := by
  have h1 := Exclusive_refresh l now h
  unfold rwLocker.rLock
  simp only
  split
  · exact h1
  · rename_i hfree
    intro hw
    exact absurd (Or.inl hw) hfree

theorem Exclusive_Unlock (l : rwLocker) (token : Token) (h : Exclusive l) :
    Exclusive (l.Unlock token).2 := by
  unfold rwLocker.Unlock
  split
  · exact h
  · intro hw
    cases hw

theorem Exclusive_RUnlock (l : rwLocker) (token : Token) (now : Int) (h : Exclusive l) :
    Exclusive (l.RUnlock token now).2 := by
  unfold rwLocker.RUnlock
  intro hw
  show mapDelete l.readTokens token = []
  rw [h hw]
  rfl

theorem Exclusive_step (l : rwLocker) (c : Call) (h : Exclusive l) :
    Exclusive (step l c).2 := by
  cases c with
  | lock now now' hold => exact Exclusive_lock l now now' hold h
  | rLock now now' hold => exact Exclusive_rLock l now now' hold h
  | intend => exact h
  | unintend => exact h
  | unlock token => exact Exclusive_Unlock l token h
  | rUnlock token now => exact Exclusive_RUnlock l token now h

theorem Exclusive_run (calls : List Call) :
    ∀ l, Exclusive l → Exclusive (run l calls).2 := by
  induction calls with
  | nil =>
    intro l h
    exact h
  | cons c calls ih =>
    intro l h
    exact ih _ (Exclusive_step l c h)

theorem mem_of_mapLookup (m : List (Token × Int)) (tk : Token) (expireAt : Int)
    (h : mapLookup m tk = some expireAt) : (tk, expireAt) ∈ m := by
  unfold mapLookup at h
  cases hf : m.find? (fun e => decide (e.1 = tk)) with
  | none =>
    rw [hf] at h
    cases h
  | some e =>
    rw [hf] at h
    simp only [Option.map_some', Option.some.injEq] at h
    have hmem := List.mem_of_find?_eq_some hf
    have hp := List.find?_some hf
    simp only [decide_eq_true_eq] at hp
    obtain ⟨a, b⟩ := e
    simp only at h hp
    subst h
    subst hp
    exact hmem

theorem Acquired_iff (l : rwLocker) (tk : Token) (now : Int) :
    l.Acquired tk now = true ↔ writeHeld l tk now ∨ readHeld l tk now := by
  unfold rwLocker.Acquired writeHeld readHeld
  cases hl : mapLookup l.readTokens tk with
  | none => simp [and_assoc]
  | some e => simp [and_assoc]

theorem not_both_held (l : rwLocker) (h : Exclusive l) (now : Int) (tkw tkr : Token) :
    ¬ (writeHeld l tkw now ∧ readHeld l tkr now) := by
  rintro ⟨⟨hw, _, _⟩, e, he, _⟩
  rw [h hw] at he
  cases he

theorem lock_refused (l : rwLocker) (h : Exclusive l) (now now' hold : Int)
    (hr : ∃ tk, readHeld l tk now) : (l.lock now now' hold).1 = 0 := by
  obtain ⟨tk, e, he, hlt⟩ := hr
  have hmem := mem_of_mapLookup _ _ _ he
  have hw : l.write ≠ 1 := by
    intro hw
    rw [h hw] at hmem
    cases hmem
  have hkeep : (tk, e) ∈ (l.refresh now).readTokens := by
    unfold rwLocker.refresh
    rw [if_neg (fun hc => hw hc.1)]
    exact List.mem_filter.mpr ⟨hmem, by simp; omega⟩
  unfold rwLocker.lock
  simp only
  rw [if_pos (Or.inr (List.length_pos_of_mem hkeep))]

theorem rLock_refused (l : rwLocker) (now now' hold : Int) (tk : Token)
    (hw : writeHeld l tk now) : (l.rLock now now' hold).1 = 0 := by
  obtain ⟨h1, _, h3⟩ := hw
  have hkeep : (l.refresh now).write = 1 := by
    unfold rwLocker.refresh
    rw [if_neg (fun hc => by omega)]
    exact h1
  unfold rwLocker.rLock
  simp only
  rw [if_pos (Or.inl hkeep)]

theorem token_refresh (l : rwLocker) (now : Int) : (l.refresh now).token = l.token := by
  unfold rwLocker.refresh
  split <;> rfl

theorem lock_token (l : rwLocker) (now now' hold : Int) (h0 : (0 : Int) ≤ l.token)
    (h1 : l.token + 1 < 9223372036854775808) :
    ((l.lock now now' hold).1 = 0 ∧ (l.lock now now' hold).2.token = l.token) ∨
      ((l.lock now now' hold).1 = l.token + 1 ∧
        (l.lock now now' hold).2.token = l.token + 1) := by
  have hwrap : wrapToken ((l.refresh now).token + 1) = l.token + 1 := by
    rw [token_refresh]
    exact wrapToken_of_range _ (by omega) h1
  unfold rwLocker.lock
  simp only
  split
  · exact Or.inl ⟨rfl, token_refresh l now⟩
  · exact Or.inr ⟨hwrap, hwrap⟩

theorem rLock_token (l : rwLocker) (now now' hold : Int) (h0 : (0 : Int) ≤ l.token)
    (h1 : l.token + 1 < 9223372036854775808) :
    ((l.rLock now now' hold).1 = 0 ∧ (l.rLock now now' hold).2.token = l.token) ∨
      ((l.rLock now now' hold).1 = l.token + 1 ∧
        (l.rLock now now' hold).2.token = l.token + 1) := by
  have hwrap : wrapToken ((l.refresh now).token + 1) = l.token + 1 := by
    rw [token_refresh]
    exact wrapToken_of_range _ (by omega) h1
  unfold rwLocker.rLock
  simp only
  split
  · exact Or.inl ⟨rfl, token_refresh l now⟩
  · exact Or.inr ⟨hwrap, hwrap⟩

theorem step_token (l : rwLocker) (c : Call) (h0 : (0 : Int) ≤ l.token)
    (h1 : l.token + 1 < 9223372036854775808) :
    ((step l c).1 = none ∧ (step l c).2.token = l.token) ∨
      ((step l c).1 = some (l.token + 1) ∧ (step l c).2.token = l.token + 1) := by
  cases c with
  | lock now now' hold =>
    simp only [step]
    rcases lock_token l now now' hold h0 h1 with ⟨a, b⟩ | ⟨a, b⟩
    · exact Or.inl ⟨by rw [if_pos a], b⟩
    · have hne : ¬ (l.lock now now' hold).1 = 0 := by
        intro h
        rw [a] at h
        have h' : l.token + 1 = (0 : Int) := h
        omega
      exact Or.inr ⟨by rw [if_neg hne, a], b⟩
  | rLock now now' hold =>
    simp only [step]
    rcases rLock_token l now now' hold h0 h1 with ⟨a, b⟩ | ⟨a, b⟩
    · exact Or.inl ⟨by rw [if_pos a], b⟩
    · have hne : ¬ (l.rLock now now' hold).1 = 0 := by
        intro h
        rw [a] at h
        have h' : l.token + 1 = (0 : Int) := h
        omega
      exact Or.inr ⟨by rw [if_neg hne, a], b⟩
  | intend => exact Or.inl ⟨rfl, rfl⟩
  | unintend => exact Or.inl ⟨rfl, rfl⟩
  | unlock token =>
    left
    refine ⟨rfl, ?_⟩
    simp only [step, rwLocker.Unlock]
    split <;> rfl
  | rUnlock token now => exact Or.inl ⟨rfl, rfl⟩

theorem run_tokens (calls : List Call) :
    ∀ (l : rwLocker), (0 : Int) ≤ l.token →
      l.token + (calls.length : Int) < 9223372036854775808 →
      (run l calls).1 =
          (List.range (run l calls).1.length).map (fun (i : Nat) => l.token + 1 + (i : Int)) ∧
        (run l calls).2.token = l.token + ((run l calls).1.length : Int) ∧
        (run l calls).1.length ≤ calls.length := by
  induction calls with
  | nil =>
    intro l _ _
    simp [run]
  | cons c calls ih =>
    intro l h0 h1
    simp only [List.length_cons, Nat.cast_add, Nat.cast_one] at h1
    rcases step_token l c h0 (by omega) with ⟨hs, ht⟩ | ⟨hs, ht⟩
    · obtain ⟨a1, a2, a3⟩ := ih (step l c).2 (by omega) (by omega)
      simp only [run, hs]
      rw [ht] at a1 a2
      exact ⟨a1, a2, by simp only [List.length_cons]; omega⟩
    · obtain ⟨a1, a2, a3⟩ := ih (step l c).2 (by omega) (by omega)
      simp only [run, hs]
      rw [ht] at a1 a2
      refine ⟨?_, ?_, by simp only [List.length_cons]; omega⟩
      · rw [List.length_cons, List.range_succ_eq_map, List.map_cons, List.map_map]
        simp only [Nat.cast_zero, add_zero, List.cons.injEq, true_and]
        rw [a1]
        simp only [List.length_map, List.length_range]
        apply List.map_congr_left
        intro i _
        simp only [Function.comp, Nat.succ_eq_add_one, Nat.cast_add, Nat.cast_one]
        omega
      · rw [a2, List.length_cons]
        push_cast
        omega

theorem Exclusive_New : Exclusive NewRWLocker := fun _ => rfl

/-- C34: reader-writer exclusion of the token lock, time being an explicit input: in every
state of an `rwLocker` reached from `NewRWLocker()` by attempts of `lock` and `rLock` (of
which `Lock` and `RLock` consist), `Unlock` and `RUnlock`, no instant has both an unexpired
write token and an unexpired read token, the two being the two cases of `Acquired`; an
attempt to take the write lock is refused (token 0) while an unexpired read token exists, an
attempt to take a read lock is refused while an unexpired write lock is held, and the tokens
issued are 1, 2, 3, ... in the order of the successful attempts (for fewer than `2^63 - 1`
steps, so that the counter stays an `int`). -/
theorem C34_reader_writer_exclusion (calls : List Call) :
    (∀ (now : Int) (tkw tkr : Token),
      ¬ (writeHeld (run NewRWLocker calls).2 tkw now ∧
        readHeld (run NewRWLocker calls).2 tkr now)) ∧
    (∀ (tk : Token) (now : Int),
      (run NewRWLocker calls).2.Acquired tk now = true ↔
        writeHeld (run NewRWLocker calls).2 tk now ∨
          readHeld (run NewRWLocker calls).2 tk now) ∧
    (∀ (now now' hold : Int), (∃ tk, readHeld (run NewRWLocker calls).2 tk now) →
      ((run NewRWLocker calls).2.lock now now' hold).1 = 0) ∧
    (∀ (now now' hold : Int) (tk : Token), writeHeld (run NewRWLocker calls).2 tk now →
      ((run NewRWLocker calls).2.rLock now now' hold).1 = 0) ∧
    ((calls.length : Int) < 9223372036854775807 →
      (run NewRWLocker calls).1 =
          (List.range (run NewRWLocker calls).1.length).map (fun (i : Nat) => (i : Int) + 1) ∧
        (run NewRWLocker calls).2.token = ((run NewRWLocker calls).1.length : Int)) := by
  have hex := Exclusive_run calls NewRWLocker Exclusive_New
  refine ⟨not_both_held _ hex, Acquired_iff _,
    fun now now' hold hr => lock_refused _ hex now now' hold hr,
    fun now now' hold tk hw => rLock_refused _ now now' hold tk hw, ?_⟩
  intro hlen
  have h0 : (0 : Int) ≤ NewRWLocker.token := le_refl 0
  have h1 : NewRWLocker.token + (calls.length : Int) < 9223372036854775808 := by
    have : NewRWLocker.token = 0 := rfl
    omega
  obtain ⟨a1, a2, _⟩ := run_tokens calls NewRWLocker h0 h1
  have ht : NewRWLocker.token = 0 := rfl
  rw [ht] at a1 a2
  constructor
  · conv_lhs => rw [a1]
    apply List.map_congr_left
    intro i _
    omega
  · rw [a2]
    omega

theorem C34_reader_writer_exclusion_witness :
    ((∃ tk, readHeld (run NewRWLocker [Call.rLock 0 0 10]).2 tk 5) ∧
      ((run NewRWLocker [Call.rLock 0 0 10]).2.lock 5 5 10).1 = 0) ∧
    (writeHeld (run NewRWLocker [Call.lock 0 0 10]).2 1 5 ∧
      ((run NewRWLocker [Call.lock 0 0 10]).2.rLock 5 5 10).1 = 0) ∧
    ((readThenWrite.length : Int) < 9223372036854775807 ∧
      (run NewRWLocker readThenWrite).1 =
          (List.range (run NewRWLocker readThenWrite).1.length).map
            (fun (i : Nat) => (i : Int) + 1) ∧
        (run NewRWLocker readThenWrite).2.token =
          ((run NewRWLocker readThenWrite).1.length : Int)) :=
  ⟨⟨⟨1, 10, by decide, by decide⟩,
      (C34_reader_writer_exclusion [Call.rLock 0 0 10]).2.2.1 5 5 10
        ⟨1, 10, by decide, by decide⟩⟩,
    ⟨⟨by decide, by decide, by decide⟩,
      (C34_reader_writer_exclusion [Call.lock 0 0 10]).2.2.2.1 5 5 10 1
        ⟨by decide, by decide, by decide⟩⟩,
    ⟨by decide, (C34_reader_writer_exclusion readThenWrite).2.2.2.2 (by decide)⟩⟩

end lock
